import Mathlib

/-!
Arithmetic coding: a shallow embedding of `ac_codec.cpp`.

The C++ classes `StaticDataModel`, `AdaptiveDataModel` and `ArithmeticCodec`
are embedded as structures with explicit state passing.

* `unsigned` values are natural numbers reduced modulo `2^32` (`u32`).
* Arrays (`distribution`, `symbolCount`, `decoderTable`) are lists; a read at
  an index that was never written is the fault `outOfBounds`.
* `AC_Error` (which prints and calls `exit(1)`) is the fault `acError`.
* Loops are structurally recursive on a fuel argument; running out of fuel is
  the fault `diverges`.
* The code buffer is a list of bytes and `acPointer` an index into it.
* A file or input buffer is a list of bytes; a shift of an `unsigned` by 32
  bits or more is the fault `shiftTooLarge`.
-/

namespace AC

/-- Ways in which a call can fail to return normally. -/
inductive Fault where
  | acError (msg : String)
  | outOfBounds
  | divByZero
  | shiftTooLarge
  | diverges
  deriving DecidableEq

instance instDecidableEqExcept {ε α : Type} [DecidableEq ε] [DecidableEq α] :
    DecidableEq (Except ε α)
  | .ok a, .ok b =>
    if h : a = b then isTrue (by rw [h]) else isFalse (fun h2 => by cases h2; exact h rfl)
  | .error a, .error b =>
    if h : a = b then isTrue (by rw [h]) else isFalse (fun h2 => by cases h2; exact h rfl)
  | .ok _, .error _ => isFalse (fun h => by cases h)
  | .error _, .ok _ => isFalse (fun h => by cases h)

/-- Threshold for renormalization. -/
def AC__MinLength : Nat := 0x01000000

/-- Maximum arithmetic coding interval length. -/
def AC__MaxLength : Nat := 0xFFFFFFFF

/-- Length of bits discarded before mult. -/
def DM__LengthShift : Nat := 15

/-- For adaptive models. -/
def DM__MaxCount : Nat := 1 <<< DM__LengthShift

/-- Reduction of a natural number to the range of `unsigned`. -/
def u32 (n : Nat) : Nat := n % 2 ^ 32

/-- Subtraction of `unsigned` values, wrapping modulo `2^32`. -/
def sub32 (a b : Nat) : Nat := (a % 2 ^ 32 + 2 ^ 32 - b % 2 ^ 32) % 2 ^ 32

/-- Array read; an index outside the written part of the array is a fault. -/
def rd (a : List Nat) (i : Nat) : Except Fault Nat :=
  match a[i]? with
  | some v => .ok v
  | none => .error .outOfBounds

/-- The function `AC_Error`: print the message and exit. -/
def AC_Error {α : Type} (msg : String) : Except Fault α := .error (.acError msg)

/-- Static model for general data. -/
structure StaticDataModel where
  distribution : List Nat
  decoderTable : Option (List Nat)
  dataSymbols : Nat
  lastSymbol : Nat
  tableSize : Nat
  tableShift : Nat
  deriving DecidableEq

/-- Adaptive model for binary data. -/
structure AdaptiveDataModel where
  distribution : List Nat
  symbolCount : List Nat
  decoderTable : Option (List Nat)
  totalCount : Nat
  updateCycle : Nat
  symbolsUntilUpdate : Nat
  dataSymbols : Nat
  lastSymbol : Nat
  tableSize : Nat
  tableShift : Nat
  deriving DecidableEq

/-- Class with both the arithmetic encoder and decoder. `codeBuffer` is the
memory of the compressed data buffer, `acPointer` the index the C pointer
`acPointer` has relative to `codeBuffer`. Mode: 0 = undefined, 1 = encoder,
2 = decoder. -/
structure ArithmeticCodec where
  codeBuffer : List Nat
  acPointer : Nat
  base : Nat
  value : Nat
  length : Nat
  bufferSize : Nat
  mode : Nat
  deriving DecidableEq

/-- The statement `*p = b` on the code buffer. The buffer is taken large
enough: a store at the end of the list extends it. -/
def storeByte (buf : List Nat) (p b : Nat) : List Nat :=
  buf.take p ++ b :: buf.drop (p + 1)

/-- The loop of `propagateCarry`: the first argument is `p + 1` for the pointer
`p` of the source, which starts at `acPointer - 1` and walks backwards. A
pointer before the start of the buffer is out of bounds. -/
def propagateCarryLoop : Nat → List Nat → Except Fault (List Nat)
  | 0, _ => .error .outOfBounds
  | p + 1, buf =>
    match buf[p]? with
    | none => .error .outOfBounds
    | some b =>
      if b % 256 = 0xFF then propagateCarryLoop p (buf.set p 0)
      else .ok (buf.set p ((b + 1) % 256))

/-- Carry propagation on compressed data buffer. -/
def propagateCarry (c : ArithmeticCodec) : Except Fault ArithmeticCodec :=
  match propagateCarryLoop c.acPointer c.codeBuffer with
  | .ok buf => .ok { c with codeBuffer := buf }
  | .error e => .error e

/-- The do-while loop of `renormEncryptionInterval`: output and discard the top
byte, multiply the length by 256. -/
def renormEncLoop : Nat → ArithmeticCodec → Except Fault ArithmeticCodec
  | 0, _ => .error .diverges
  | fuel + 1, c =>
    let c1 : ArithmeticCodec :=
      { c with
        codeBuffer := storeByte c.codeBuffer c.acPointer ((c.base >>> 24) % 256)
        acPointer := c.acPointer + 1
        base := u32 (c.base <<< 8)
        length := u32 (c.length <<< 8) }
    if c1.length < AC__MinLength then renormEncLoop fuel c1 else .ok c1

/-- Renormalization of the encoder. A 32-bit length that is not `0` reaches
`AC__MinLength` or becomes `0` within four shifts by 8 bits, so four rounds of
fuel decide whether the loop ends. -/
def renormEncryptionInterval (c : ArithmeticCodec) : Except Fault ArithmeticCodec :=
  renormEncLoop 4 c

/-- The do-while loop of `renormDecryptionInterval`: read the next byte into
the least-significant byte of `value`, multiply the length by 256. -/
def renormDecLoop : Nat → ArithmeticCodec → Except Fault ArithmeticCodec
  | 0, _ => .error .diverges
  | fuel + 1, c =>
    let c1 : ArithmeticCodec :=
      { c with
        acPointer := c.acPointer + 1
        value := u32 (c.value <<< 8) ||| (c.codeBuffer.getD (c.acPointer + 1) 0 % 256)
        length := u32 (c.length <<< 8) }
    if c1.length < AC__MinLength then renormDecLoop fuel c1 else .ok c1

/-- Renormalization of the decoder. -/
def renormDecryptionInterval (c : ArithmeticCodec) : Except Fault ArithmeticCodec :=
  renormDecLoop 4 c

/-- The body shared by `encode(unsigned, StaticDataModel &)` and the first part
of `encode(unsigned, AdaptiveDataModel &)` (the two are the same text in the
source): compute products, update the interval, propagate the carry,
renormalize. -/
def encodeInterval (distribution : List Nat) (lastSymbol data : Nat)
    (c : ArithmeticCodec) : Except Fault ArithmeticCodec := do
  let initialBase := c.base
  let d ← rd distribution data
  let c1 : ArithmeticCodec ←
    if data = lastSymbol then
      let x := u32 (d * (c.length >>> DM__LengthShift))
      pure { c with base := u32 (c.base + x), length := sub32 c.length x }
    else do
      let len := c.length >>> DM__LengthShift
      let x := u32 (d * len)
      let d1 ← rd distribution (data + 1)
      pure { c with base := u32 (c.base + x), length := sub32 (u32 (d1 * len)) x }
  let c2 ← if initialBase > c1.base then propagateCarry c1 else pure c1
  if c2.length < AC__MinLength then renormEncryptionInterval c2 else pure c2

/-- The while loop of the table look-up decoder: finish with bisection search.
Every round with `n > s + 1` and `s < n` shrinks `n - s`. -/
def tableSearchLoop (distribution : List Nat) (dv : Nat) :
    Nat → Nat → Nat → Except Fault Nat
  | 0, s, n => if n > u32 (s + 1) then .error .diverges else .ok s
  | fuel + 1, s, n =>
    if n > u32 (s + 1) then do
      let m := u32 (s + n) >>> 1
      let dm ← rd distribution m
      if dm > dv then tableSearchLoop distribution dv fuel s m
      else tableSearchLoop distribution dv fuel m n
    else .ok s

/-- The do-while loop of the decoder without table: decode via bisection
search. The result is `(s, x, y)`. -/
def bisectLoop (distribution : List Nat) (length value : Nat) :
    Nat → Nat → Nat → Nat → Nat → Nat → Except Fault (Nat × Nat × Nat)
  | 0, _, _, _, _, _ => .error .diverges
  | fuel + 1, m, s, n, x, y => do
    let z := u32 (length * (← rd distribution m))
    let s1 := if z > value then s else m
    let n1 := if z > value then m else n
    let x1 := if z > value then x else z
    let y1 := if z > value then z else y
    let m1 := u32 (s1 + n1) >>> 1
    if m1 ≠ s1 then bisectLoop distribution length value fuel m1 s1 n1 x1 y1
    else .ok (s1, x1, y1)

/-- The symbol search of `decode`, with `y = length` saved at entry and
`length >>= DM__LengthShift`: table look-up followed by bisection when the
model has a decoder table, bisection with multiplications only otherwise. The
result is `(s, x, y)`. -/
def decodeSearch (distribution : List Nat) (decoderTable : Option (List Nat))
    (dataSymbols lastSymbol tableShift : Nat) (c : ArithmeticCodec) :
    Except Fault (Nat × Nat × Nat) :=
  let y0 := c.length
  let len := c.length >>> DM__LengthShift
  match decoderTable with
  | some table => do
    if len = 0 then throw Fault.divByZero
    let dv := c.value / len
    let t := dv >>> tableShift
    let s0 ← rd table t
    let n0 := u32 ((← rd table (t + 1)) + 1)
    let s ← tableSearchLoop distribution dv n0 s0 n0
    let x := u32 ((← rd distribution s) * len)
    if s ≠ lastSymbol then
      let y := u32 ((← rd distribution (s + 1)) * len)
      pure (s, x, y)
    else pure (s, x, y0)
  | none =>
    bisectLoop distribution len c.value dataSymbols (dataSymbols >>> 1) 0 dataSymbols 0 y0

/-- The body shared by `decode(StaticDataModel &)` and the first part of
`decode(AdaptiveDataModel &)` (the same text in the source): find the symbol,
update the interval, renormalize. -/
def decodeInterval (distribution : List Nat) (decoderTable : Option (List Nat))
    (dataSymbols lastSymbol tableShift : Nat) (c : ArithmeticCodec) :
    Except Fault (Nat × ArithmeticCodec) := do
  let sxy ← decodeSearch distribution decoderTable dataSymbols lastSymbol tableShift c
  let c1 : ArithmeticCodec :=
    { c with value := sub32 c.value sxy.2.1, length := sub32 sxy.2.2 sxy.2.1 }
  let c2 ← if c1.length < AC__MinLength then renormDecryptionInterval c1 else pure c1
  pure (sxy.1, c2)

/-- The loop `while (dataSymbols > (1U << (tableBits + 2))) ++tableBits` that
defines the size of the table for fast decoding. The callers have checked
`dataSymbols <= 1 << 11`, so the loop ends within the fuel given. -/
def tableBitsLoop (dataSymbols : Nat) : Nat → Nat → Nat
  | 0, tableBits => tableBits
  | fuel + 1, tableBits =>
    if dataSymbols > u32 (1 <<< (tableBits + 2)) then tableBitsLoop dataSymbols fuel (tableBits + 1)
    else tableBits

/-- The part of the loop over `k` that fills the decoder table: for every
entry `distribution[k]`, `w = distribution[k] >> tableShift` and
`while (s < w) decoderTable[++s] = k - 1`. The list `table` holds the entries
`0 .. s` of the table; the inner loop writes the `w - s` entries after them. -/
def buildTableLoop (tableShift : Nat) : List Nat → Nat → Nat → List Nat → List Nat × Nat
  | [], _, s, table => (table, s)
  | d :: ds, k, s, table =>
    let w := d >>> tableShift
    buildTableLoop tableShift ds (k + 1) (max s w)
      (table ++ List.replicate (w - s) (sub32 k 1))

/-- The end of the table construction: `decoderTable[0] = 0` and
`while (s <= tableSize) decoderTable[++s] = dataSymbols - 1`. -/
def finishTable (dataSymbols tableSize : Nat) (ts : List Nat × Nat) : List Nat :=
  ts.1.set 0 0 ++ List.replicate (tableSize + 1 - ts.2) (sub32 dataSymbols 1)

/-- The decoder table computed from a cumulative distribution: entry `0` is
written last, so the construction starts from a table whose entry `0` is not
yet defined (here `0`). -/
def buildTable (distribution : List Nat) (dataSymbols tableSize tableShift : Nat) : List Nat :=
  finishTable dataSymbols tableSize (buildTableLoop tableShift distribution 0 0 [0])

namespace StaticDataModel

/-- The constructor `StaticDataModel()`. -/
def new : StaticDataModel :=
  { distribution := [], decoderTable := none, dataSymbols := 0, lastSymbol := 0,
    tableSize := 0, tableShift := 0 }

/-- The method `setDistribution`. Floating point is outside the embedding: the
caller passes what the double arithmetic of the source yields, namely
`cum k`, the value `unsigned(sum * (1 << DM__LengthShift))` stored in
`distribution[k]`, and `valid`, whether every probability and their sum pass
the range checks. -/
def setDistribution (model : StaticDataModel) (numberOfSymbols : Nat) (cum : Nat → Nat)
    (valid : Bool) : Except Fault StaticDataModel :=
  if numberOfSymbols < 2 ∨ numberOfSymbols > 1 <<< 11 then
    AC_Error ("invalid number of data symbols")
  else
    let m1 : StaticDataModel :=
      if model.dataSymbols ≠ numberOfSymbols then
        if numberOfSymbols > 16 then
          { model with
            dataSymbols := numberOfSymbols
            lastSymbol := numberOfSymbols - 1
            tableSize := (1 <<< tableBitsLoop numberOfSymbols 32 3) + 4
            tableShift := DM__LengthShift - tableBitsLoop numberOfSymbols 32 3
            decoderTable := some [] }
        else
          { model with
            dataSymbols := numberOfSymbols
            lastSymbol := numberOfSymbols - 1
            tableSize := 0
            tableShift := 0
            decoderTable := none }
      else model
    if valid = false then AC_Error ("invalid symbol probability")
    else
      let distribution := (List.range m1.dataSymbols).map (fun k => u32 (cum k))
      if m1.tableSize = 0 then .ok { m1 with distribution := distribution }
      else
        .ok { m1 with
          distribution := distribution
          decoderTable :=
            some (buildTable distribution m1.dataSymbols m1.tableSize m1.tableShift) }

end StaticDataModel

/-- The loop of `update` that computes the cumulative distribution:
`distribution[k] = (scale * sum) >> (31 - DM__LengthShift); sum += symbolCount[k]`. -/
def cumulative (scale : Nat) : List Nat → Nat → List Nat
  | [], _ => []
  | c :: cs, sum =>
    (u32 (scale * sum) >>> (31 - DM__LengthShift)) :: cumulative scale cs (u32 (sum + c))

namespace AdaptiveDataModel

/-- The constructor `AdaptiveDataModel()`. -/
def new : AdaptiveDataModel :=
  { distribution := [], symbolCount := [], decoderTable := none, totalCount := 0,
    updateCycle := 0, symbolsUntilUpdate := 0, dataSymbols := 0, lastSymbol := 0,
    tableSize := 0, tableShift := 0 }

/-- The method `update(bool from_encoder)`. The arrays `symbolCount` and
`distribution` have `dataSymbols` entries. -/
def update (from_encoder : Bool) (m : AdaptiveDataModel) : Except Fault AdaptiveDataModel :=
  let total0 := u32 (m.totalCount + m.updateCycle)
  let halved := m.symbolCount.map (fun c => u32 (c + 1) >>> 1)
  let symbolCount := if total0 > DM__MaxCount then halved else m.symbolCount
  let totalCount := if total0 > DM__MaxCount then u32 halved.sum else total0
  if totalCount = 0 then .error Fault.divByZero
  else
    let scale := 0x80000000 / totalCount
    let distribution := cumulative scale symbolCount 0
    let decoderTable :=
      if from_encoder = true ∨ m.tableSize = 0 then m.decoderTable
      else some (buildTable distribution m.dataSymbols m.tableSize m.tableShift)
    let cycle := u32 (5 * m.updateCycle) >>> 2
    let max_cycle := u32 ((m.dataSymbols + 6) <<< 3)
    let updateCycle := if cycle > max_cycle then max_cycle else cycle
    .ok { m with
      symbolCount := symbolCount
      totalCount := totalCount
      distribution := distribution
      decoderTable := decoderTable
      updateCycle := updateCycle
      symbolsUntilUpdate := updateCycle }

/-- The method `reset`: restore probability estimates to uniform distribution. -/
def reset (m : AdaptiveDataModel) : Except Fault AdaptiveDataModel :=
  if m.dataSymbols = 0 then .ok m
  else
    match update false
        { m with
          totalCount := 0
          updateCycle := m.dataSymbols
          symbolCount := List.replicate m.dataSymbols 1 } with
    | .error e => .error e
    | .ok m2 =>
      .ok { m2 with
        symbolsUntilUpdate := (m2.dataSymbols + 6) >>> 1
        updateCycle := (m2.dataSymbols + 6) >>> 1 }

/-- The method `setAlphabet`. -/
def setAlphabet (model : AdaptiveDataModel) (numberOfSymbols : Nat) :
    Except Fault AdaptiveDataModel :=
  if numberOfSymbols < 2 ∨ numberOfSymbols > 1 <<< 11 then
    AC_Error ("invalid number of data symbols")
  else
    reset
      (if model.dataSymbols ≠ numberOfSymbols then
        if numberOfSymbols > 16 then
          { model with
            dataSymbols := numberOfSymbols
            lastSymbol := numberOfSymbols - 1
            tableSize := (1 <<< tableBitsLoop numberOfSymbols 32 3) + 4
            tableShift := DM__LengthShift - tableBitsLoop numberOfSymbols 32 3
            decoderTable := some [] }
        else
          { model with
            dataSymbols := numberOfSymbols
            lastSymbol := numberOfSymbols - 1
            tableSize := 0
            tableShift := 0
            decoderTable := none }
      else model)

/-- The two statements that end both `encode` and `decode` for an adaptive
model: `++model.symbolCount[s]` and
`if (--model.symbolsUntilUpdate == 0) model.update(from_encoder)`. -/
def count (s : Nat) (from_encoder : Bool) (m : AdaptiveDataModel) :
    Except Fault AdaptiveDataModel :=
  match rd m.symbolCount s with
  | .error e => .error e
  | .ok n =>
    if sub32 m.symbolsUntilUpdate 1 = 0 then
      update from_encoder
        { m with
          symbolCount := m.symbolCount.set s (u32 (n + 1))
          symbolsUntilUpdate := sub32 m.symbolsUntilUpdate 1 }
    else
      .ok { m with
        symbolCount := m.symbolCount.set s (u32 (n + 1))
        symbolsUntilUpdate := sub32 m.symbolsUntilUpdate 1 }

end AdaptiveDataModel

namespace ArithmeticCodec

/-- The method `encode(unsigned data, StaticDataModel & model)`. -/
def encode (data : Nat) (model : StaticDataModel) (c : ArithmeticCodec) :
    Except Fault ArithmeticCodec :=
  encodeInterval model.distribution model.lastSymbol data c

/-- The method `decode(StaticDataModel & model)`. -/
def decode (model : StaticDataModel) (c : ArithmeticCodec) :
    Except Fault (Nat × ArithmeticCodec) :=
  decodeInterval model.distribution model.decoderTable model.dataSymbols model.lastSymbol
    model.tableShift c

/-- The method `encode(unsigned data, AdaptiveDataModel & model)`. -/
def encodeAdaptive (data : Nat) (model : AdaptiveDataModel) (c : ArithmeticCodec) :
    Except Fault (ArithmeticCodec × AdaptiveDataModel) := do
  let c1 ← encodeInterval model.distribution model.lastSymbol data c
  let m1 ← model.count data true
  pure (c1, m1)

/-- The method `decode(AdaptiveDataModel & model)`. -/
def decodeAdaptive (model : AdaptiveDataModel) (c : ArithmeticCodec) :
    Except Fault (Nat × ArithmeticCodec × AdaptiveDataModel) := do
  let sc ← decodeInterval model.distribution model.decoderTable model.dataSymbols
    model.lastSymbol model.tableShift c
  let m1 ← model.count sc.1 false
  pure (sc.1, sc.2, m1)

/-- The method `startEncoder`. -/
def startEncoder (c : ArithmeticCodec) : Except Fault ArithmeticCodec :=
  if c.mode ≠ 0 then AC_Error ("cannot start encoder")
  else if c.bufferSize = 0 then AC_Error ("no code buffer set")
  else .ok { c with mode := 1, base := 0, length := AC__MaxLength, acPointer := 0 }

/-- The method `startDecoder`. -/
def startDecoder (c : ArithmeticCodec) : Except Fault ArithmeticCodec :=
  if c.mode ≠ 0 then AC_Error ("cannot start decoder")
  else if c.bufferSize = 0 then AC_Error ("no code buffer set")
  else .ok { c with
    mode := 2
    length := AC__MaxLength
    acPointer := 3
    value := ((c.codeBuffer.getD 0 0 % 256) <<< 24) ||| ((c.codeBuffer.getD 1 0 % 256) <<< 16)
      ||| ((c.codeBuffer.getD 2 0 % 256) <<< 8) ||| (c.codeBuffer.getD 3 0 % 256) }

/-- The method `stopEncoder`: returns the number of bytes used. -/
def stopEncoder (c : ArithmeticCodec) : Except Fault (Nat × ArithmeticCodec) := do
  if c.mode ≠ 1 then AC_Error ("invalid to stop encoder")
  let c0 : ArithmeticCodec := { c with mode := 0 }
  let initialBase := c0.base
  let c1 : ArithmeticCodec :=
    if c0.length > 2 * AC__MinLength then
      { c0 with base := u32 (c0.base + AC__MinLength), length := AC__MinLength >>> 1 }
    else
      { c0 with base := u32 (c0.base + (AC__MinLength >>> 1)), length := AC__MinLength >>> 9 }
  let c2 ← if initialBase > c1.base then propagateCarry c1 else pure c1
  let c3 ← renormEncryptionInterval c2
  let codeBytes := u32 c3.acPointer
  if codeBytes > c3.bufferSize then AC_Error ("code buffer overflow")
  pure (codeBytes, c3)

/-- The method `stopDecoder`. -/
def stopDecoder (c : ArithmeticCodec) : Except Fault ArithmeticCodec :=
  if c.mode ≠ 2 then AC_Error ("invalid to stop decoder")
  else .ok { c with mode := 0 }

end ArithmeticCodec

/-! ## Definitions used in the statements and proofs -/

/-- The byte stored at index `i` of a buffer. -/
def byteAt (buf : List Nat) (i : Nat) : Nat := buf.getD i 0 % 256

/-- The big-endian value of the first `n` bytes of a buffer. -/
def streamVal (buf : List Nat) : Nat → Nat
  | 0 => 0
  | n + 1 => streamVal buf n * 256 + byteAt buf n

/-- The lower end of the coding interval as an exact number: the bytes written
so far followed by the four bytes of `base`. -/
def low (c : ArithmeticCodec) : Nat := streamVal c.codeBuffer c.acPointer * 2 ^ 32 + c.base

/-- One round of the loop of `renormEncryptionInterval`. -/
def encShift (c : ArithmeticCodec) : ArithmeticCodec :=
  { c with
    codeBuffer := storeByte c.codeBuffer c.acPointer ((c.base >>> 24) % 256)
    acPointer := c.acPointer + 1
    base := u32 (c.base <<< 8)
    length := u32 (c.length <<< 8) }

/-- One round of the loop of `renormDecryptionInterval`. -/
def decShift (c : ArithmeticCodec) : ArithmeticCodec :=
  { c with
    acPointer := c.acPointer + 1
    value := u32 (c.value <<< 8) ||| (c.codeBuffer.getD (c.acPointer + 1) 0 % 256)
    length := u32 (c.length <<< 8) }

/-- The encoder state is well formed: the cursor is inside the buffer, `base`
and `length` are 32-bit values and the interval does not reach past the number
range of the bytes written. -/
def EncPre (c : ArithmeticCodec) : Prop :=
  c.acPointer ≤ c.codeBuffer.length ∧ c.base < 2 ^ 32 ∧ c.length < 2 ^ 32 ∧
    low c + c.length ≤ 256 ^ c.acPointer * 2 ^ 32

/-- The result of `renormEncryptionInterval` for a length of at least `2^8`. -/
def encRenorm (c : ArithmeticCodec) : ArithmeticCodec :=
  if c.length < 2 ^ 16 then encShift (encShift c) else encShift c

/-- The result of `renormDecryptionInterval` for a length of at least `2^8`. -/
def decRenorm (c : ArithmeticCodec) : ArithmeticCodec :=
  if c.length < 2 ^ 16 then decShift (decShift c) else decShift c

/-- The model invariant of a cumulative distribution table over `N` symbols:
`distribution[0] = 0`, strictly increasing, `distribution[N-1] < 2^15`. -/
def validDistribution (dist : List Nat) (N : Nat) : Prop :=
  dist.length = N ∧ 2 ≤ N ∧ N ≤ 2048 ∧ dist.getD 0 0 = 0 ∧ dist.Pairwise (· < ·) ∧
    dist.getD (N - 1) 0 < 2 ^ 15

instance (dist : List Nat) (N : Nat) : Decidable (validDistribution dist N) := by
  unfold validDistribution; infer_instance

/-- Lower end of the part of the interval that belongs to symbol `s`. -/
def symLow (dist : List Nat) (length s : Nat) : Nat :=
  dist.getD s 0 * (length >>> DM__LengthShift)

/-- Upper end of the part of the interval that belongs to symbol `s`. -/
def symHigh (dist : List Nat) (N length s : Nat) : Nat :=
  if s = N - 1 then length else dist.getD (s + 1) 0 * (length >>> DM__LengthShift)

/-- The number read from the first `acPointer + 4` bytes of `S` lies in the
interval of the encoder state `c`. -/
def Inside (c : ArithmeticCodec) (S : List Nat) : Prop :=
  low c ≤ streamVal S (c.acPointer + 4) ∧ streamVal S (c.acPointer + 4) < low c + c.length

/-- The decoder state `d` corresponds to the encoder state `c`: same length,
the decoder has read four bytes more than the encoder has written, and `value`
is the distance of the number read from the lower end of the interval. -/
def Sim (c d : ArithmeticCodec) : Prop :=
  d.length = c.length ∧ d.acPointer = c.acPointer + 3 ∧
    d.value + low c = streamVal d.codeBuffer (c.acPointer + 4)

/-- Symbol `s` is the one whose part of the interval holds `v`: with
`q = length >> 15`, `distribution[s] * q <= v`, and `v < distribution[s+1] * q`
unless `s` is the last symbol. -/
def IsTarget (dist : List Nat) (N q v s : Nat) : Prop :=
  s < N ∧ dist.getD s 0 * q ≤ v ∧ (s + 1 < N → v < dist.getD (s + 1) 0 * q)

/-- What the decoder needs of the entry `e` at index `j` of the table: every
`x` whose slot is at least `j` is at least `distribution[e]`, and every `x`
whose slot is below `j` is below `distribution[e + 1]`. -/
def TableEntryOK (dist : List Nat) (N shift j e : Nat) : Prop :=
  e < N ∧ (∀ x, j ≤ x >>> shift → dist.getD e 0 ≤ x) ∧
    (e + 1 < N → ∀ x, x >>> shift < j → x < dist.getD (e + 1) 0)

/-- The table has `size + 2` entries and every one of them is right. -/
def TableOK (dist : List Nat) (N shift size : Nat) (table : List Nat) : Prop :=
  table.length = size + 2 ∧ ∀ j, j < table.length → TableEntryOK dist N shift j (table.getD j 0)

/-- The property of an entry written by the loop over `k`. -/
def EntryMid (dist : List Nat) (N shift j e : Nat) : Prop :=
  e + 1 < N ∧ dist.getD e 0 >>> shift < j ∧ j ≤ dist.getD (e + 1) 0 >>> shift

/-- The decoder table of a model fits its distribution: there is none, or it
is a right table of `2^tableBits + 6` entries with
`tableShift = 15 - tableBits`. -/
def DecTable (dist : List Nat) (N : Nat) (decoderTable : Option (List Nat))
    (tableShift : Nat) : Prop :=
  match decoderTable with
  | none => True
  | some table => ∃ tb, tb ≤ 9 ∧ tableShift = 15 - tb ∧ TableOK dist N tableShift (2 ^ tb + 4) table

/-- The offset `stopEncoder` adds to `base`. -/
def stopOffset (c : ArithmeticCodec) : Nat :=
  if c.length > 2 * AC__MinLength then AC__MinLength else AC__MinLength >>> 1

/-- The number of bytes `stopEncoder` writes. -/
def stopBytes (c : ArithmeticCodec) : Nat :=
  if c.length > 2 * AC__MinLength then 1 else 2

namespace ArithmeticCodec

/-- The method `encode` called on each symbol of a list in order, with a
static model. -/
def encodeAll (model : StaticDataModel) : List Nat → ArithmeticCodec → Except Fault ArithmeticCodec
  | [], c => .ok c
  | s :: ss, c => do
    let c1 ← encode s model c
    encodeAll model ss c1

/-- The method `decode` called `n` times with a static model; the result is
the list of the symbols returned and the final state. -/
def decodeAll (model : StaticDataModel) : Nat → ArithmeticCodec →
    Except Fault (List Nat × ArithmeticCodec)
  | 0, c => .ok ([], c)
  | n + 1, c => do
    let r ← decode model c
    let rs ← decodeAll model n r.2
    pure (r.1 :: rs.1, rs.2)

/-- A whole encoder session with a static model: `startEncoder`, `encode` on
each symbol, `stopEncoder`. -/
def encodeSequence (model : StaticDataModel) (syms : List Nat) (c : ArithmeticCodec) :
    Except Fault (Nat × ArithmeticCodec) := do
  let c1 ← startEncoder c
  let c2 ← encodeAll model syms c1
  stopEncoder c2

/-- A decoder session with a static model: `startDecoder`, then `decode`
called `n` times. -/
def decodeSequence (model : StaticDataModel) (n : Nat) (c : ArithmeticCodec) :
    Except Fault (List Nat × ArithmeticCodec) := do
  let d ← startDecoder c
  decodeAll model n d

end ArithmeticCodec

/-- A coder that is idle and bound to a buffer of 64 bytes. -/
def idleCoder : ArithmeticCodec :=
  { codeBuffer := [], acPointer := 0, base := 0, value := 0, length := 0, bufferSize := 64,
    mode := 0 }

/-- The static model over three symbols with probabilities 0.5, 0.3, 0.2: the
cumulative table is `[0, 16384, 26214]`. -/
def threeSymbolModel : StaticDataModel :=
  { distribution := [0, 16384, 26214], decoderTable := none, dataSymbols := 3, lastSymbol := 2,
    tableSize := 0, tableShift := 0 }

/-- The table fields of an adaptive model as `setAlphabet` sets them: no
table for at most 16 symbols, a table of `2^tableBits + 4` slots otherwise. -/
def TableShape (N : Nat) (m : AdaptiveDataModel) : Prop :=
  (N ≤ 16 ∧ m.tableSize = 0 ∧ m.decoderTable = none) ∨
    (16 < N ∧ ∃ tb, tb ≤ 9 ∧ m.tableSize = 2 ^ tb + 4 ∧ m.tableShift = 15 - tb ∧
      m.decoderTable.isSome = true)

/-- The invariant of an adaptive model over `N` symbols. -/
structure AdaptInv (N : Nat) (m : AdaptiveDataModel) : Prop where
  N_ge : 2 ≤ N
  N_le : N ≤ 2048
  dataSymbols_eq : m.dataSymbols = N
  lastSymbol_eq : m.lastSymbol = N - 1
  count_length : m.symbolCount.length = N
  count_pos : ∀ c ∈ m.symbolCount, 1 ≤ c
  count_sum : m.symbolCount.sum = m.totalCount + (m.updateCycle - m.symbolsUntilUpdate)
  until_pos : 1 ≤ m.symbolsUntilUpdate
  until_le : m.symbolsUntilUpdate ≤ m.updateCycle
  cycle_le : m.updateCycle ≤ (N + 6) * 8
  total_ge : N ≤ m.totalCount
  total_le : m.totalCount ≤ 2 ^ 15
  dist_valid : validDistribution m.distribution N
  shape : TableShape N m

/-- The decoder table of the model belongs to its current distribution. -/
def DecSync (N : Nat) (m : AdaptiveDataModel) : Prop :=
  DecTable m.distribution N m.decoderTable m.tableShift

namespace ArithmeticCodec

/-- The method `encode` called on each symbol of a list in order, with an
adaptive model that every call updates. -/
def encodeAdaptiveAll : List Nat → AdaptiveDataModel → ArithmeticCodec →
    Except Fault (ArithmeticCodec × AdaptiveDataModel)
  | [], m, c => .ok (c, m)
  | s :: ss, m, c => do
    let r ← encodeAdaptive s m c
    encodeAdaptiveAll ss r.2 r.1

/-- The method `decode` called `n` times with an adaptive model that every
call updates; the result is the list of the symbols returned, the final coder
and the final model. -/
def decodeAdaptiveAll : Nat → AdaptiveDataModel → ArithmeticCodec →
    Except Fault (List Nat × ArithmeticCodec × AdaptiveDataModel)
  | 0, m, c => .ok ([], c, m)
  | n + 1, m, c => do
    let r ← decodeAdaptive m c
    let rs ← decodeAdaptiveAll n r.2.2 r.2.1
    pure (r.1 :: rs.1, rs.2)

/-- A whole encoder session with an adaptive model: `startEncoder`, `encode`
on each symbol, `stopEncoder`. The result is the number of code bytes, the
coder and the model. -/
def encodeAdaptiveSequence (m : AdaptiveDataModel) (syms : List Nat) (c : ArithmeticCodec) :
    Except Fault (Nat × ArithmeticCodec × AdaptiveDataModel) := do
  let c1 ← startEncoder c
  let r ← encodeAdaptiveAll syms m c1
  let kc ← stopEncoder r.1
  pure (kc.1, kc.2, r.2)

/-- A decoder session with an adaptive model: `startDecoder`, then `decode`
called `n` times. -/
def decodeAdaptiveSequence (m : AdaptiveDataModel) (n : Nat) (c : ArithmeticCodec) :
    Except Fault (List Nat × ArithmeticCodec × AdaptiveDataModel) := do
  let d ← startDecoder c
  decodeAdaptiveAll n m d

end ArithmeticCodec

/-- The state that encoder and decoder keep in lockstep: two adaptive models
have equal distribution, symbolCount, totalCount, updateCycle and
symbolsUntilUpdate. -/
def SameState (a b : AdaptiveDataModel) : Prop :=
  a.distribution = b.distribution ∧ a.symbolCount = b.symbolCount ∧
    a.totalCount = b.totalCount ∧ a.updateCycle = b.updateCycle ∧
    a.symbolsUntilUpdate = b.symbolsUntilUpdate

/-- The static model over 256 symbols with the uniform distribution:
`distribution[k] = 128 * k`. -/
def uniformByteModel : Except Fault StaticDataModel :=
  StaticDataModel.new.setDistribution 256 (fun k => 128 * k) true

/-- An encoder state with no byte written and `base = 0xFFFFFFFF`. -/
def fullBaseCoder : ArithmeticCodec :=
  { codeBuffer := [], acPointer := 0, base := 0xFFFFFFFF, value := 0, length := 0xFFFFFFFF,
    bufferSize := 64, mode := 1 }

/-- A coder in the state `startEncoder` leaves. -/
def startedCoder : ArithmeticCodec :=
  { codeBuffer := [], acPointer := 0, base := 0, value := 0, length := 0xFFFFFFFF,
    bufferSize := 64, mode := 1 }

/-- The states of an adaptive model that are reachable from `setAlphabet(N)`
on a new model by `reset`, `encode` and `decode` calls; the coder state of
every call is arbitrary, the symbols encoded are below `N`. -/
inductive Reachable (N : Nat) : AdaptiveDataModel → Prop
  | setAlphabet {m : AdaptiveDataModel} :
      AdaptiveDataModel.new.setAlphabet N = .ok m → Reachable N m
  | reset {m m' : AdaptiveDataModel} :
      Reachable N m → m.reset = .ok m' → Reachable N m'
  | encode {m m' : AdaptiveDataModel} {s : Nat} {c c' : ArithmeticCodec} :
      Reachable N m → s < N → ArithmeticCodec.encodeAdaptive s m c = .ok (c', m') → Reachable N m'
  | decode {m m' : AdaptiveDataModel} {s : Nat} {c c' : ArithmeticCodec} :
      Reachable N m → ArithmeticCodec.decodeAdaptive m c = .ok (s, c', m') → Reachable N m'

/-- The adaptive model over three symbols as `setAlphabet(3)` leaves it. -/
def threeAdaptiveModel : AdaptiveDataModel :=
  { distribution := [0, 10922, 21845], symbolCount := [1, 1, 1], decoderTable := none,
    totalCount := 3, updateCycle := 4, symbolsUntilUpdate := 4, dataSymbols := 3,
    lastSymbol := 2, tableSize := 0, tableShift := 0 }

namespace AdaptiveDataModel

/-- The test `--model.symbolsUntilUpdate == 0` that `encode` and `decode`
evaluate after a symbol is coded: whether this symbol makes `update` run. -/
def updateDue (m : AdaptiveDataModel) : Bool :=
  decide (sub32 m.symbolsUntilUpdate 1 = 0)

/-- The count statements of `encode` (or `decode`) run for each symbol of a
list in order; the result records for every symbol whether `update` ran. -/
def countTrace (from_encoder : Bool) : List Nat → AdaptiveDataModel →
    Except Fault (List Bool × AdaptiveDataModel)
  | [], m => .ok ([], m)
  | s :: ss, m =>
    match count s from_encoder m with
    | .error e => .error e
    | .ok m1 =>
      match countTrace from_encoder ss m1 with
      | .error e => .error e
      | .ok r => .ok (updateDue m :: r.1, r.2)

end AdaptiveDataModel

/-- The adaptive model over two symbols as `setAlphabet(2)` leaves it. -/
def twoAdaptiveModel : AdaptiveDataModel :=
  { distribution := [0, 16384], symbolCount := [1, 1], decoderTable := none,
    totalCount := 2, updateCycle := 4, symbolsUntilUpdate := 4, dataSymbols := 2,
    lastSymbol := 1, tableSize := 0, tableShift := 0 }

/-- The model `twoAdaptiveModel` after symbol 0 was encoded once. -/
def onceCodedModel : AdaptiveDataModel :=
  { twoAdaptiveModel with symbolCount := [2, 1], symbolsUntilUpdate := 3 }

namespace AdaptiveDataModel

/-- The count statements of `encode` (or `decode`) run for each symbol of a
list in order. -/
def countAll (from_encoder : Bool) : List Nat → AdaptiveDataModel →
    Except Fault AdaptiveDataModel
  | [], m => .ok m
  | s :: ss, m =>
    match count s from_encoder m with
    | .error e => .error e
    | .ok m1 => countAll from_encoder ss m1

/-- The model after `n` occurrences of symbol `s` were counted without an
update: `symbolCount[s]` is `n` larger and `symbolsUntilUpdate` is `n`
smaller. -/
def bump (s n : Nat) (m : AdaptiveDataModel) : AdaptiveDataModel :=
  { m with
    symbolCount := m.symbolCount.set s (m.symbolCount.getD s 0 + n)
    symbolsUntilUpdate := m.symbolsUntilUpdate - n }

/-- The effect of counting `n` occurrences of symbol `s`, computed one update
cycle at a time: a whole cycle is `update` on the model with all the
occurrences of the cycle counted. -/
def countBlocks (s : Nat) (from_encoder : Bool) : Nat → Nat → AdaptiveDataModel →
    Except Fault AdaptiveDataModel
  | 0, _, m => .ok m
  | fuel + 1, n, m =>
    if n = 0 then .ok m
    else if n < m.symbolsUntilUpdate then .ok (bump s n m)
    else
      match update from_encoder (bump s m.symbolsUntilUpdate m) with
      | .error e => .error e
      | .ok m1 => countBlocks s from_encoder fuel (n - m.symbolsUntilUpdate) m1

end AdaptiveDataModel

/-- The result `x` is a value that satisfies the test `p`. -/
def holds {α : Type} (x : Except Fault α) (p : α → Bool) : Bool :=
  match x with
  | .ok a => p a
  | .error _ => false

/-- An idle coder bound to a buffer of 16 bytes, the smallest size `setBuffer`
accepts. -/
def smallCoder : ArithmeticCodec :=
  { idleCoder with bufferSize := 16 }

/-- An encoder state with one byte written, `base = 0xFFFFFFFF` and
`length = AC__MinLength`. -/
def carryCoder : ArithmeticCodec :=
  { codeBuffer := [18], acPointer := 1, base := 0xFFFFFFFF, value := 0, length := 0x01000000,
    bufferSize := 16, mode := 1 }

namespace ArithmeticCodec

/-- The do-while loop of `readFromInputBuffer` that reads the variable-length
header from `buffer` at `offset`; the result is `codeBytes` and the offset
after the header. A shift of an `unsigned` by 32 bits or more is
undefined. -/
def bufferHeaderLoop : Nat → List Nat → Nat → Nat → Nat → Except Fault (Nat × Nat)
  | 0, _, _, _, _ => .error .diverges
  | fuel + 1, buffer, offset, shift, codeBytes =>
    match buffer[offset]? with
    | none => .error .outOfBounds
    | some fileByte =>
      if shift ≥ 32 then .error .shiftTooLarge
      else if fileByte &&& 0x80 ≠ 0 then
        bufferHeaderLoop fuel buffer (offset + 1) (shift + 7)
          (codeBytes ||| u32 ((fileByte &&& 0x7F) <<< shift))
      else .ok (codeBytes ||| u32 ((fileByte &&& 0x7F) <<< shift), offset + 1)

/-- The method `readFromInputBuffer`. `capacity` is the size of the array
that `codeBuffer` points to: `bufferSize + 16` for an array that `setBuffer`
allocated. The result is the offset returned and the coder. -/
def readFromInputBuffer (buffer : List Nat) (offset capacity : Nat) (c : ArithmeticCodec) :
    Except Fault (Nat × ArithmeticCodec) :=
  match bufferHeaderLoop 6 buffer offset 0 0 with
  | .error e => .error e
  | .ok (codeBytes, offset1) =>
    if buffer.length < offset1 + codeBytes ∨ capacity < codeBytes then .error .outOfBounds
    else
      match startDecoder
          { c with
            codeBuffer := (buffer.drop offset1).take codeBytes ++ c.codeBuffer.drop codeBytes } with
      | .error e => .error e
      | .ok d => .ok (u32 (offset1 + codeBytes), d)

/-- The do-while loop of `readFromFile` that reads the variable-length header
with `getc`; the file is the list of the bytes not yet read. The result is
`codeBytes` and the rest of the file. -/
def fileHeaderLoop : Nat → List Nat → Nat → Nat → Except Fault (Nat × List Nat)
  | 0, _, _, _ => .error .diverges
  | _ + 1, [], _, _ => AC_Error ("cannot read code from file")
  | fuel + 1, fileByte :: rest, shift, codeBytes =>
    if shift ≥ 32 then .error .shiftTooLarge
    else if fileByte &&& 0x80 ≠ 0 then
      fileHeaderLoop fuel rest (shift + 7) (codeBytes ||| u32 ((fileByte &&& 0x7F) <<< shift))
    else .ok (codeBytes ||| u32 ((fileByte &&& 0x7F) <<< shift), rest)

/-- The method `readFromFile`; the result is the coder and the rest of the
file. -/
def readFromFile (encodedFile : List Nat) (c : ArithmeticCodec) :
    Except Fault (ArithmeticCodec × List Nat) :=
  match fileHeaderLoop 6 encodedFile 0 0 with
  | .error e => .error e
  | .ok (codeBytes, rest) =>
    if codeBytes > c.bufferSize then AC_Error ("code buffer overflow")
    else if rest.length < codeBytes then AC_Error ("cannot read code from file")
    else
      match startDecoder
          { c with codeBuffer := rest.take codeBytes ++ c.codeBuffer.drop codeBytes } with
      | .error e => .error e
      | .ok d => .ok (d, rest.drop codeBytes)

end ArithmeticCodec

/-- A block whose header declares 17 code bytes, followed by 17 bytes. -/
def oversizedBlock : List Nat := 17 :: List.replicate 17 7

/-- An encoder state with the bytes `0x12 0x34 0xFF 0xFF` emitted. -/
def carryRunCoder : ArithmeticCodec :=
  { codeBuffer := [0x12, 0x34, 0xFF, 0xFF, 0x77], acPointer := 4, base := 0, value := 0,
    length := 0x01000000, bufferSize := 16, mode := 1 }

/-- The value of `totalCount` that `update` divides by: `totalCount +
updateCycle`, or the sum of the halved counts when that exceeds
`DM__MaxCount`. -/
def updatedTotal (m : AdaptiveDataModel) : Nat :=
  if u32 (m.totalCount + m.updateCycle) > DM__MaxCount then
    u32 (m.symbolCount.map (fun c => u32 (c + 1) >>> 1)).sum
  else u32 (m.totalCount + m.updateCycle)

namespace ArithmeticCodec

/-- The constructor `ArithmeticCodec()`. -/
def new : ArithmeticCodec :=
  { codeBuffer := [], acPointer := 0, base := 0, value := 0, length := 0, bufferSize := 0,
    mode := 0 }

/-- The method `setBuffer`. A user buffer is the list of the bytes it holds;
the array that `new unsigned char[bufferSize+16]` returns holds no byte
yet. -/
def setBuffer (maxEncodedBytes : Nat) (userBuffer : Option (List Nat)) (c : ArithmeticCodec) :
    Except Fault ArithmeticCodec :=
  if maxEncodedBytes < 16 ∨ maxEncodedBytes > 0x1000000 then
    AC_Error ("invalid codec buffer size")
  else if c.mode ≠ 0 then AC_Error ("cannot set buffer while encoding or decoding")
  else
    match userBuffer with
    | some buffer => .ok { c with bufferSize := maxEncodedBytes, codeBuffer := buffer }
    | none =>
      if maxEncodedBytes ≤ c.bufferSize then .ok c
      else .ok { c with bufferSize := maxEncodedBytes, codeBuffer := [] }

/-- The constructor `ArithmeticCodec(maxEncodedBytes, userBuffer)`. -/
def newWith (maxEncodedBytes : Nat) (userBuffer : Option (List Nat)) :
    Except Fault ArithmeticCodec :=
  setBuffer maxEncodedBytes userBuffer new

/-- The do-while loop of `writeToOutputBuffer` that writes the
variable-length header with the number of code bytes into `buffer` from
`offset` on; the result is the buffer and `headerBytes`. -/
def bufferHeaderWriteLoop : Nat → List Nat → Nat → Nat → Nat → Except Fault (List Nat × Nat)
  | 0, _, _, _, _ => .error .diverges
  | fuel + 1, buffer, offset, headerBytes, nb =>
    if buffer.length ≤ offset + headerBytes then .error .outOfBounds
    else if nb >>> 7 > 0 then
      bufferHeaderWriteLoop fuel (buffer.set (offset + headerBytes) ((nb &&& 0x7F) ||| 0x80))
        offset (headerBytes + 1) (nb >>> 7)
    else .ok (buffer.set (offset + headerBytes) (nb &&& 0x7F), headerBytes + 1)

/-- The method `writeToOutputBuffer`; the result is the offset returned, the
output buffer and the coder. -/
def writeToOutputBuffer (buffer : List Nat) (offset : Nat) (c : ArithmeticCodec) :
    Except Fault (Nat × List Nat × ArithmeticCodec) :=
  match stopEncoder c with
  | .error e => .error e
  | .ok (codeBytes, c3) =>
    match bufferHeaderWriteLoop 6 buffer offset 0 codeBytes with
    | .error e => .error e
    | .ok (buffer1, headerBytes) =>
      if c3.codeBuffer.length < codeBytes ∨ buffer1.length < offset + headerBytes + codeBytes then
        .error .outOfBounds
      else
        .ok (u32 (offset + codeBytes + headerBytes),
          buffer1.take (offset + headerBytes) ++ c3.codeBuffer.take codeBytes ++
            buffer1.drop (offset + headerBytes + codeBytes), c3)

/-- The do-while loop of `writeToFile` that writes the variable-length header
with `putc`; the file is the list of the bytes written so far. -/
def fileHeaderWriteLoop : Nat → List Nat → Nat → Nat → Except Fault (List Nat × Nat)
  | 0, _, _, _ => .error .diverges
  | fuel + 1, encodedFile, headerBytes, nb =>
    if nb >>> 7 > 0 then
      fileHeaderWriteLoop fuel (encodedFile ++ [(nb &&& 0x7F) ||| 0x80]) (headerBytes + 1)
        (nb >>> 7)
    else .ok (encodedFile ++ [nb &&& 0x7F], headerBytes + 1)

/-- The method `writeToFile`; the result is the number of bytes used, the file
and the coder. Writing to the file does not fail. -/
def writeToFile (encodedFile : List Nat) (c : ArithmeticCodec) :
    Except Fault (Nat × List Nat × ArithmeticCodec) :=
  match stopEncoder c with
  | .error e => .error e
  | .ok (codeBytes, c3) =>
    match fileHeaderWriteLoop 6 encodedFile 0 codeBytes with
    | .error e => .error e
    | .ok (file1, headerBytes) =>
      if c3.codeBuffer.length < codeBytes then .error .outOfBounds
      else .ok (u32 (codeBytes + headerBytes), file1 ++ c3.codeBuffer.take codeBytes, c3)

end ArithmeticCodec

/-- A call of a public method of `ArithmeticCodec`, with its arguments. -/
inductive Call where
  | setBuffer (maxEncodedBytes : Nat) (userBuffer : Option (List Nat))
  | startEncoder
  | startDecoder
  | readFromFile (encodedFile : List Nat)
  | readFromInputBuffer (buffer : List Nat) (offset capacity : Nat)
  | stopEncoder
  | writeToFile (encodedFile : List Nat)
  | writeToOutputBuffer (buffer : List Nat) (offset : Nat)
  | stopDecoder
  | encode (data : Nat) (model : StaticDataModel)
  | encodeAdaptive (data : Nat) (model : AdaptiveDataModel)
  | decode (model : StaticDataModel)
  | decodeAdaptive (model : AdaptiveDataModel)

/-- The coder after a call. -/
def Call.run : Call → ArithmeticCodec → Except Fault ArithmeticCodec
  | .setBuffer n b, c => ArithmeticCodec.setBuffer n b c
  | .startEncoder, c => ArithmeticCodec.startEncoder c
  | .startDecoder, c => ArithmeticCodec.startDecoder c
  | .readFromFile f, c => (ArithmeticCodec.readFromFile f c).map (fun r => r.1)
  | .readFromInputBuffer b o k, c =>
    (ArithmeticCodec.readFromInputBuffer b o k c).map (fun r => r.2)
  | .stopEncoder, c => (ArithmeticCodec.stopEncoder c).map (fun r => r.2)
  | .writeToFile f, c => (ArithmeticCodec.writeToFile f c).map (fun r => r.2.2)
  | .writeToOutputBuffer b o, c =>
    (ArithmeticCodec.writeToOutputBuffer b o c).map (fun r => r.2.2)
  | .stopDecoder, c => ArithmeticCodec.stopDecoder c
  | .encode s m, c => ArithmeticCodec.encode s m c
  | .encodeAdaptive s m, c => (ArithmeticCodec.encodeAdaptive s m c).map (fun r => r.1)
  | .decode m, c => (ArithmeticCodec.decode m c).map (fun r => r.2)
  | .decodeAdaptive m, c => (ArithmeticCodec.decodeAdaptive m c).map (fun r => r.2.1)

/-- The coder after a sequence of calls none of which fails. -/
def runCalls : List Call → ArithmeticCodec → Except Fault ArithmeticCodec
  | [], c => .ok c
  | k :: ks, c =>
    match k.run c with
    | .error e => .error e
    | .ok c1 => runCalls ks c1

/-- The calls that stop the encoder or the decoder. -/
def Call.isStop : Call → Bool
  | .stopEncoder => true
  | .writeToFile _ => true
  | .writeToOutputBuffer _ _ => true
  | .stopDecoder => true
  | _ => false

/-- The static model over 20 symbols with `distribution[k] = 1600 * k`. -/
def twentySymbolModel : Except Fault StaticDataModel :=
  StaticDataModel.new.setDistribution 20 (fun k => 1600 * k) true

/-- A decoder state with `length = 0x01000000` and `value = 0x00FFFFFF`. -/
def topValueCoder : ArithmeticCodec :=
  { codeBuffer := [], acPointer := 3, base := 0, value := 0x00FFFFFF, length := 0x01000000,
    bufferSize := 16, mode := 2 }

/-- The base-128 little-endian encoding of `n` in at most `k` bytes: the low 7
bits first, the bit `0x80` set on every byte that another byte follows. -/
def varint : Nat → Nat → List Nat
  | 0, _ => []
  | k + 1, n => if n / 128 = 0 then [n % 128] else (n % 128 + 128) :: varint k (n / 128)

namespace AdaptiveDataModel

/-- Whether coding a symbol with this model runs `update` and `update` takes
the branch that halves the counts: the tests `--symbolsUntilUpdate == 0` and
`(totalCount += updateCycle) > DM__MaxCount` of the source. -/
def halvingDue (m : AdaptiveDataModel) : Bool :=
  updateDue m && decide (u32 (m.totalCount + m.updateCycle) > DM__MaxCount)

end AdaptiveDataModel

/-! ## The file compressor of `main.cpp`

A file is the list of its bytes. Opening files, the overwrite prompt and the
message that reports the compression ratio are outside the embedding; writing
to a file does not fail. -/

namespace Main

/-- The constant `numModels`. -/
def numModels : Nat := 16

/-- The constant `bufferSize`. -/
def bufferSize : Nat := 65536

/-- The constant `FILE_ID`. -/
def FILE_ID : Nat := 0xA8BC3B39

/-- The function `printError`: print the message and exit. -/
def printError {α : Type} (s : String) : Except Fault α := .error (.acError s)

/-- Data needed for generating the CRC table. -/
def CRC_Generation_Data : List Nat :=
  [0xEC1A5A3E, 0x5975F5D7, 0xB2EBEBAE, 0xE49696F7, 0x486C6C45, 0x90D8D88A, 0xA0F0F0BF,
    0xC0A0A0D5]

/-- The table `CRC_Table` of `bufferCRC`: starting from `CRC_Table[0] = 0`,
round `k` sets `CRC_Table[n + s] = CRC_Table[n] ^ g` for `n < s = 1 << k`. -/
def CRC_Table : List Nat :=
  CRC_Generation_Data.foldl (fun table g => table ++ table.map (fun x => x ^^^ g)) [0]

/-- The function `bufferCRC`: the cyclic redundancy check of the first `bytes`
bytes of `buffer`. -/
def bufferCRC (bytes : Nat) (buffer : List Nat) : Nat :=
  (buffer.take bytes).foldl
    (fun crc b => (crc >>> 8) ^^^ CRC_Table.getD ((crc &&& 0xFF) ^^^ (b % 256)) 0) 0

/-- The function `saveNumber`: the four bytes of a number, low byte first. -/
def saveNumber (number : Nat) : List Nat :=
  [number &&& 0xFF, (number >>> 8) &&& 0xFF, (number >>> 16) &&& 0xFF, (number >>> 24) % 256]

/-- The function `recoverSavedNumber`. -/
def recoverSavedNumber (buff : List Nat) : Nat :=
  u32 (buff.getD 0 0 % 256 + u32 ((buff.getD 1 0 % 256) <<< 8) +
    u32 ((buff.getD 2 0 % 256) <<< 16) + u32 ((buff.getD 3 0 % 256) <<< 24))

/-- The first loop of `encodeFile`: read the file in chunks of `bufferSize`
bytes, count the bytes and combine the checks of the chunks. The result is
`(bytes, crc)`. -/
def crcLoop : Nat → List Nat → Nat → Nat → Except Fault (Nat × Nat)
  | 0, _, _, _ => .error .diverges
  | fuel + 1, dataFile, bytes, crc =>
    let nb := (dataFile.take bufferSize).length
    let bytes1 := u32 (bytes + nb)
    let crc1 := crc ^^^ bufferCRC nb (dataFile.take bufferSize)
    if nb = bufferSize then crcLoop fuel (dataFile.drop bufferSize) bytes1 crc1
    else .ok (bytes1, crc1)

/-- The array `dataModel` after `dataModel[m].setAlphabet(256)` for every
`m < numModels`. -/
def setModels : Nat → Except Fault (List AdaptiveDataModel)
  | 0 => .ok []
  | n + 1 =>
    match AdaptiveDataModel.new.setAlphabet 256 with
    | .error e => .error e
    | .ok m =>
      match setModels n with
      | .error e => .error e
      | .ok ms => .ok (m :: ms)

/-- The loop `for (p = 0; p < nb; p++)` of `encodeFile` over the bytes of a
block: `encoder.encode(data[p], dataModel[context])` and
`context = data[p] & (numModels - 1)`. The last component of the result
records, for every byte, the index of the model used and whether the call made
`update` halve the counts. -/
def encodeSymbols : List Nat → List AdaptiveDataModel → Nat → ArithmeticCodec →
    List (Nat × Bool) →
    Except Fault (ArithmeticCodec × List AdaptiveDataModel × Nat × List (Nat × Bool))
  | [], models, context, encoder, trace => .ok (encoder, models, context, trace)
  | b :: data, models, context, encoder, trace =>
    match models[context]? with
    | none => .error .outOfBounds
    | some model =>
      match encoder.encodeAdaptive b model with
      | .error e => .error e
      | .ok (encoder1, model1) =>
        encodeSymbols data (models.set context model1) (b &&& (numModels - 1)) encoder1
          (trace ++ [(context, model.halvingDue)])

/-- The loop of `encodeFile` over the blocks. The result is the encoded file
and the records of the blocks. -/
def encodeBlocks : Nat → List Nat → Nat → List AdaptiveDataModel → Nat → ArithmeticCodec →
    List Nat → List (List (Nat × Bool)) →
    Except Fault (List Nat × List (List (Nat × Bool)))
  | 0, _, _, _, _, _, _, _ => .error .diverges
  | fuel + 1, dataFile, bytes, models, context, encoder, encodedFile, traces =>
    let nb := if bytes < bufferSize then bytes else bufferSize
    if dataFile.length < nb then printError "cannot read from file"
    else
      match encoder.startEncoder with
      | .error e => .error e
      | .ok encoder1 =>
        match encodeSymbols (dataFile.take nb) models context encoder1 [] with
        | .error e => .error e
        | .ok (encoder2, models2, context2, trace) =>
          match encoder2.writeToFile encodedFile with
          | .error e => .error e
          | .ok (_, encodedFile2, encoder3) =>
            if sub32 bytes nb ≠ 0 then
              encodeBlocks fuel (dataFile.drop nb) (sub32 bytes nb) models2 context2 encoder3
                encodedFile2 (traces ++ [trace])
            else .ok (encodedFile2, traces ++ [trace])

/-- The function `encodeFile`: the encoded file for a data file, and the
records of the blocks. -/
def encodeFile (dataFile : List Nat) : Except Fault (List Nat × List (List (Nat × Bool))) :=
  match crcLoop (dataFile.length / bufferSize + 1) dataFile 0 0 with
  | .error e => .error e
  | .ok (bytes, crc) =>
    match setModels numModels with
    | .error e => .error e
    | .ok dataModel =>
      match ArithmeticCodec.newWith bufferSize none with
      | .error e => .error e
      | .ok encoder =>
        encodeBlocks (bytes / bufferSize + 1) dataFile bytes dataModel 0 encoder
          (saveNumber FILE_ID ++ saveNumber crc ++ saveNumber bytes) []

/-- The loop `for (p = 0; p < nb; p++)` of `decodeFile` over the bytes of a
block: `data[p] = decoder.decode(dataModel[context])` and
`context = data[p] & (numModels - 1)`. -/
def decodeSymbols : Nat → List AdaptiveDataModel → Nat → ArithmeticCodec → List Nat →
    List (Nat × Bool) →
    Except Fault (List Nat × ArithmeticCodec × List AdaptiveDataModel × Nat × List (Nat × Bool))
  | 0, models, context, decoder, data, trace => .ok (data, decoder, models, context, trace)
  | n + 1, models, context, decoder, data, trace =>
    match models[context]? with
    | none => .error .outOfBounds
    | some model =>
      match decoder.decodeAdaptive model with
      | .error e => .error e
      | .ok (s, decoder1, model1) =>
        decodeSymbols n (models.set context model1) ((s % 256) &&& (numModels - 1)) decoder1
          (data ++ [s % 256]) (trace ++ [(context, model.halvingDue)])

/-- The loop of `decodeFile` over the blocks. The result is the data file, the
check of the decoded bytes and the records of the blocks. -/
def decodeBlocks : Nat → List Nat → Nat → List AdaptiveDataModel → Nat → ArithmeticCodec →
    List Nat → Nat → List (List (Nat × Bool)) →
    Except Fault (List Nat × Nat × List (List (Nat × Bool)))
  | 0, _, _, _, _, _, _, _, _ => .error .diverges
  | fuel + 1, encodedFile, bytes, models, context, decoder, dataFile, newCRC, traces =>
    match decoder.readFromFile encodedFile with
    | .error e => .error e
    | .ok (decoder1, encodedFile1) =>
      let nb := if bytes < bufferSize then bytes else bufferSize
      match decodeSymbols nb models context decoder1 [] [] with
      | .error e => .error e
      | .ok (data, decoder2, models2, context2, trace) =>
        match decoder2.stopDecoder with
        | .error e => .error e
        | .ok decoder3 =>
          if sub32 bytes nb ≠ 0 then
            decodeBlocks fuel encodedFile1 (sub32 bytes nb) models2 context2 decoder3
              (dataFile ++ data) (newCRC ^^^ bufferCRC nb data) (traces ++ [trace])
          else .ok (dataFile ++ data, newCRC ^^^ bufferCRC nb data, traces ++ [trace])

/-- The function `decodeFile`: the data file for an encoded file, and the
records of the blocks. -/
def decodeFile (encodedFile : List Nat) : Except Fault (List Nat × List (List (Nat × Bool))) :=
  if encodedFile.length < 12 then printError "cannot read from file"
  else
    let fileID := recoverSavedNumber (encodedFile.take 4)
    let crc := recoverSavedNumber ((encodedFile.drop 4).take 4)
    let bytes := recoverSavedNumber ((encodedFile.drop 8).take 4)
    if fileID ≠ FILE_ID then printError "invalid compressed file"
    else
      match setModels numModels with
      | .error e => .error e
      | .ok dataModel =>
        match ArithmeticCodec.newWith bufferSize none with
        | .error e => .error e
        | .ok decoder =>
          match decodeBlocks (bytes / bufferSize + 1) (encodedFile.drop 12) bytes dataModel 0
              decoder [] 0 [] with
          | .error e => .error e
          | .ok (dataFile, newCRC, traces) =>
            if crc ≠ newCRC then printError "incorrect file CRC"
            else .ok (dataFile, traces)

end Main

/-- The input of 25600 bytes: the bytes 0, 1, ..., 255 in order, 100 times. -/
def rampInput : List Nat := (List.replicate 100 (List.range 256)).flatten

/-- The invariant of the array of models while a block is coded: 16 models
over 256 symbols, in each of which the counts sum to at most `256 + t`. -/
def ModelsInv (models : List AdaptiveDataModel) (t : Nat) : Prop :=
  models.length = 16 ∧ ∀ m ∈ models, AdaptInv 256 m ∧ m.symbolCount.sum ≤ 256 + t

/-- The interval part of `encode` run `n` times for the same symbol with a
distribution that does not change. -/
def encodeRepeat (dist : List Nat) (lastSymbol s : Nat) :
    Nat → ArithmeticCodec → Except Fault ArithmeticCodec
  | 0, c => .ok c
  | n + 1, c =>
    match encodeInterval dist lastSymbol s c with
    | .error e => .error e
    | .ok c1 => encodeRepeat dist lastSymbol s n c1

/-- The effect of encoding `n` occurrences of symbol `s` with an adaptive
model, computed one update cycle at a time: within a cycle the distribution
is fixed, and a whole cycle ends with `update` on the model with all the
occurrences of the cycle counted. -/
def encodeCycles (s : Nat) : Nat → Nat → AdaptiveDataModel → ArithmeticCodec →
    Except Fault (ArithmeticCodec × AdaptiveDataModel)
  | 0, _, m, c => .ok (c, m)
  | fuel + 1, n, m, c =>
    if n = 0 then .ok (c, m)
    else if n < m.symbolsUntilUpdate then
      match encodeRepeat m.distribution m.lastSymbol s n c with
      | .error e => .error e
      | .ok c1 => .ok (c1, AdaptiveDataModel.bump s n m)
    else
      match encodeRepeat m.distribution m.lastSymbol s m.symbolsUntilUpdate c with
      | .error e => .error e
      | .ok c1 =>
        match AdaptiveDataModel.update true
            (AdaptiveDataModel.bump s m.symbolsUntilUpdate m) with
        | .error e => .error e
        | .ok m1 => encodeCycles s fuel (n - m.symbolsUntilUpdate) m1 c1

/-- The model that `setAlphabet(256)` returns, or the new model if it
fails. -/
def byteModel : AdaptiveDataModel :=
  match AdaptiveDataModel.new.setAlphabet 256 with
  | .ok m => m
  | .error _ => AdaptiveDataModel.new

/-- The encoder has emitted at most `(e + 8) / 8` bytes: with `p` bytes
emitted, `256^p * 2^24 ≤ length * 2^e`. The number `e` bounds the bits that the
symbols coded so far cost. -/
def Pot (c : ArithmeticCodec) (e : Nat) : Prop :=
  256 ^ c.acPointer * 2 ^ 24 ≤ c.length * 2 ^ e

/-- The state of a model over 256 symbols that has coded symbol 0 only: all
other counts are 1, and after the first update `distribution[1]` is at least
257. -/
def ZeroRun (m : AdaptiveDataModel) : Prop :=
  AdaptInv 256 m ∧ m.symbolCount = m.symbolCount.getD 0 0 :: List.replicate 255 1 ∧
    128 ≤ m.distribution.getD 1 0 ∧
    (m.distribution.getD 1 0 < 257 →
      m.updateCycle = 131 ∧ m.symbolCount.getD 0 0 + m.symbolsUntilUpdate = 132) ∧
    (257 ≤ m.distribution.getD 1 0 → 4 ≤ m.symbolCount.getD 0 0)

/-- The bits by which the symbols coded before the first update exceed 7 bits a
symbol. -/
def zeroBudget (m : AdaptiveDataModel) : Nat :=
  if m.distribution.getD 1 0 < 257 then 2 * (m.symbolCount.getD 0 0 - 1) else 262

/-- A data file of two blocks: 65535 bytes `0x00`, then the bytes `0x01` and
`0x00`. The byte `0x01` is the last byte of the first block. -/
def twoBlockInput : List Nat := List.replicate 65535 0 ++ [1, 0]

/-- The body of `encode` with the products `distribution[data] * (length >> 15)`
and `distribution[data+1] * (length >> 15)` and the new length taken as exact
numbers instead of 32-bit results. -/
def encodeIntervalExact (distribution : List Nat) (lastSymbol data : Nat)
    (c : ArithmeticCodec) : Except Fault ArithmeticCodec := do
  let initialBase := c.base
  let d ← rd distribution data
  let c1 : ArithmeticCodec ←
    if data = lastSymbol then
      let x := d * (c.length >>> DM__LengthShift)
      pure { c with base := u32 (c.base + x), length := c.length - x }
    else do
      let len := c.length >>> DM__LengthShift
      let x := d * len
      let d1 ← rd distribution (data + 1)
      pure { c with base := u32 (c.base + x), length := d1 * len - x }
  let c2 ← if initialBase > c1.base then propagateCarry c1 else pure c1
  if c2.length < AC__MinLength then renormEncryptionInterval c2 else pure c2

/-- The loop `bisectLoop` of `decode` with the product
`length * distribution[m]` taken as an exact number. -/
def bisectLoopExact (distribution : List Nat) (length value : Nat) :
    Nat → Nat → Nat → Nat → Nat → Nat → Except Fault (Nat × Nat × Nat)
  | 0, _, _, _, _, _ => .error .diverges
  | fuel + 1, m, s, n, x, y => do
    let z := length * (← rd distribution m)
    let s1 := if z > value then s else m
    let n1 := if z > value then m else n
    let x1 := if z > value then x else z
    let y1 := if z > value then z else y
    let m1 := u32 (s1 + n1) >>> 1
    if m1 ≠ s1 then bisectLoopExact distribution length value fuel m1 s1 n1 x1 y1
    else .ok (s1, x1, y1)

/-- The symbol search of `decode` with the products `distribution[s] * length`
and `distribution[s+1] * length` taken as exact numbers. -/
def decodeSearchExact (distribution : List Nat) (decoderTable : Option (List Nat))
    (dataSymbols lastSymbol tableShift : Nat) (c : ArithmeticCodec) :
    Except Fault (Nat × Nat × Nat) :=
  let y0 := c.length
  let len := c.length >>> DM__LengthShift
  match decoderTable with
  | some table => do
    if len = 0 then throw Fault.divByZero
    let dv := c.value / len
    let t := dv >>> tableShift
    let s0 ← rd table t
    let n0 := u32 ((← rd table (t + 1)) + 1)
    let s ← tableSearchLoop distribution dv n0 s0 n0
    let x := (← rd distribution s) * len
    if s ≠ lastSymbol then
      let y := (← rd distribution (s + 1)) * len
      pure (s, x, y)
    else pure (s, x, y0)
  | none =>
    bisectLoopExact distribution len c.value dataSymbols (dataSymbols >>> 1) 0 dataSymbols 0 y0

/-- The states of a coder that are reachable from `startEncoder` by `encode`
calls with symbols below `N`: with static models whose distribution is valid,
and with adaptive models in a state reachable from `setAlphabet(N)`. -/
inductive EncoderReachable : ArithmeticCodec → Prop
  | start {c c' : ArithmeticCodec} : ArithmeticCodec.startEncoder c = .ok c' → EncoderReachable c'
  | encode {c c' : ArithmeticCodec} {model : StaticDataModel} {N s : Nat} :
      EncoderReachable c → validDistribution model.distribution N → model.lastSymbol = N - 1 →
      s < N → ArithmeticCodec.encode s model c = .ok c' → EncoderReachable c'
  | encodeAdaptive {c c' : ArithmeticCodec} {m m' : AdaptiveDataModel} {N s : Nat} :
      EncoderReachable c → Reachable N m → s < N →
      ArithmeticCodec.encodeAdaptive s m c = .ok (c', m') → EncoderReachable c'

end AC
namespace AC

open ArithmeticCodec

/-! ## Arithmetic of `unsigned` values -/

theorem u32_of_lt {n : Nat} (h : n < 2 ^ 32) : u32 n = n := Nat.mod_eq_of_lt h

theorem u32_lt (n : Nat) : u32 n < 2 ^ 32 := Nat.mod_lt _ (by norm_num)

theorem sub32_of_le {a b : Nat} (hb : b ≤ a) (ha : a < 2 ^ 32) : sub32 a b = a - b := by
  unfold sub32; omega

theorem sub32_lt (a b : Nat) : sub32 a b < 2 ^ 32 := Nat.mod_lt _ (by norm_num)

theorem rd_eq_ok {a : List Nat} {i : Nat} (h : i < a.length) : rd a i = .ok (a.getD i 0) := by
  unfold rd
  rw [List.getD_eq_getElem?_getD, List.getElem?_eq_getElem h]
  rfl

theorem rd_ok_lt {a : List Nat} {i v : Nat} (h : rd a i = .ok v) : i < a.length ∧ a.getD i 0 = v := by
  unfold rd at h
  by_cases hi : i < a.length
  · rw [List.getElem?_eq_getElem hi] at h
    simp only [Except.ok.injEq] at h
    refine ⟨hi, ?_⟩
    rw [List.getD_eq_getElem?_getD, List.getElem?_eq_getElem hi, ← h]
    rfl
  · rw [List.getElem?_eq_none (by omega)] at h
    cases h

theorem ok_bind {α β : Type} (a : α) (f : α → Except Fault β) :
    (Except.ok a >>= f) = f a := rfl

theorem error_bind {α β : Type} (e : Fault) (f : α → Except Fault β) :
    (Except.error e >>= f) = Except.error e := rfl

/-! ## The bytes of the code buffer as a number -/

theorem streamVal_succ (buf : List Nat) (n : Nat) :
    streamVal buf (n + 1) = streamVal buf n * 256 + byteAt buf n := rfl

theorem byteAt_lt (buf : List Nat) (i : Nat) : byteAt buf i < 256 :=
  Nat.mod_lt _ (by norm_num)

theorem streamVal_lt (buf : List Nat) (n : Nat) : streamVal buf n < 256 ^ n := by
  induction n with
  | zero => simp [streamVal]
  | succ n ih =>
    have hb := byteAt_lt buf n
    simp only [streamVal, pow_succ]
    omega

theorem streamVal_congr {buf buf' : List Nat} {n : Nat}
    (h : ∀ i, i < n → byteAt buf' i = byteAt buf i) : streamVal buf' n = streamVal buf n := by
  induction n with
  | zero => rfl
  | succ n ih =>
    simp only [streamVal]
    rw [ih (fun i hi => h i (by omega)), h n (by omega)]

theorem byteAt_storeByte_lt {buf : List Nat} {p b i : Nat} (hp : p ≤ buf.length) (hi : i < p) :
    byteAt (storeByte buf p b) i = byteAt buf i := by
  unfold byteAt storeByte
  rw [List.getD_eq_getElem?_getD, List.getD_eq_getElem?_getD]
  rw [List.getElem?_append_left (by simp; omega)]
  rw [List.getElem?_take_of_lt hi]

theorem byteAt_storeByte_self {buf : List Nat} {p b : Nat} (hp : p ≤ buf.length) :
    byteAt (storeByte buf p b) p = b % 256 := by
  unfold byteAt storeByte
  rw [List.getD_eq_getElem?_getD]
  rw [List.getElem?_append_right (by simp)]
  simp [Nat.min_eq_left hp]

theorem length_storeByte {buf : List Nat} {p b : Nat} (hp : p ≤ buf.length) :
    p + 1 ≤ (storeByte buf p b).length := by
  unfold storeByte
  simp
  omega

theorem byteAt_set {buf : List Nat} {p b i : Nat} (hp : p < buf.length) :
    byteAt (buf.set p b) i = if i = p then b % 256 else byteAt buf i := by
  unfold byteAt
  rw [List.getD_eq_getElem?_getD, List.getD_eq_getElem?_getD, List.getElem?_set]
  by_cases h : p = i
  · subst h
    simp [hp]
  · have h' : ¬ i = p := fun e => h e.symm
    simp [h, h']

/-! ## Carry propagation -/

theorem propagateCarryLoop_spec : ∀ (p : Nat) (buf : List Nat), p ≤ buf.length →
    streamVal buf p + 1 < 256 ^ p →
    ∃ buf', propagateCarryLoop p buf = .ok buf' ∧ buf'.length = buf.length ∧
      streamVal buf' p = streamVal buf p + 1 ∧ ∀ i, p ≤ i → byteAt buf' i = byteAt buf i := by
  intro p
  induction p with
  | zero =>
    intro buf _ h
    simp [streamVal] at h
  | succ p ih =>
    intro buf hp hv
    have hlt : p < buf.length := hp
    have hb : byteAt buf p = buf[p] % 256 := by
      unfold byteAt
      rw [List.getD_eq_getElem?_getD, List.getElem?_eq_getElem hlt]
      rfl
    simp only [streamVal, pow_succ] at hv
    unfold propagateCarryLoop
    rw [List.getElem?_eq_getElem hlt]
    simp only
    by_cases hff : buf[p] % 256 = 0xFF
    · rw [if_pos hff]
      have hsv : streamVal (buf.set p 0) p = streamVal buf p :=
        streamVal_congr (fun i hi => by rw [byteAt_set hlt, if_neg (by omega)])
      obtain ⟨buf', h1, h2, h3, h4⟩ := ih (buf.set p 0) (by simp; omega) (by rw [hsv]; omega)
      refine ⟨buf', h1, by simpa using h2, ?_, ?_⟩
      · simp only [streamVal]
        rw [h3, hsv, h4 p (le_refl _), byteAt_set hlt, if_pos rfl, hb]
        omega
      · intro i hi
        rw [h4 i (by omega), byteAt_set hlt, if_neg (by omega)]
    · rw [if_neg hff]
      refine ⟨_, rfl, by simp, ?_, ?_⟩
      · have hsv : streamVal (buf.set p ((buf[p] + 1) % 256)) p = streamVal buf p :=
          streamVal_congr (fun i hi => by rw [byteAt_set hlt, if_neg (by omega)])
        simp only [streamVal]
        rw [hsv, byteAt_set hlt, if_pos rfl, hb]
        have : buf[p] % 256 < 256 := Nat.mod_lt _ (by norm_num)
        omega
      · intro i hi
        rw [byteAt_set hlt, if_neg (by omega)]

/-! ## The encoder: exact interval and one round of renormalization -/

theorem renormEncLoop_succ (fuel : Nat) (c : ArithmeticCodec) :
    renormEncLoop (fuel + 1) c =
      if (encShift c).length < AC__MinLength then renormEncLoop fuel (encShift c)
      else .ok (encShift c) := rfl

theorem renormDecLoop_succ (fuel : Nat) (c : ArithmeticCodec) :
    renormDecLoop (fuel + 1) c =
      if (decShift c).length < AC__MinLength then renormDecLoop fuel (decShift c)
      else .ok (decShift c) := rfl

theorem encShift_length {c : ArithmeticCodec} (h : c.length < 2 ^ 24) :
    (encShift c).length = 256 * c.length := by
  simp only [encShift, u32, Nat.shiftLeft_eq]
  omega

theorem decShift_length {c : ArithmeticCodec} (h : c.length < 2 ^ 24) :
    (decShift c).length = 256 * c.length := by
  simp only [decShift, u32, Nat.shiftLeft_eq]
  omega

theorem low_encShift {c : ArithmeticCodec} (hp : c.acPointer ≤ c.codeBuffer.length)
    (hb : c.base < 2 ^ 32) : low (encShift c) = 256 * low c := by
  have h1 : streamVal (storeByte c.codeBuffer c.acPointer ((c.base >>> 24) % 256)) c.acPointer
      = streamVal c.codeBuffer c.acPointer :=
    streamVal_congr (fun i hi => byteAt_storeByte_lt hp hi)
  have h2 := byteAt_storeByte_self (b := (c.base >>> 24) % 256) hp
  simp only [low, encShift, streamVal]
  rw [h1, h2]
  simp only [u32, Nat.shiftLeft_eq, Nat.shiftRight_eq_div_pow]
  omega

theorem encPre_encShift {c : ArithmeticCodec} (h : EncPre c) (hl : c.length < 2 ^ 24) :
    EncPre (encShift c) := by
  obtain ⟨hp, hb, _, hi⟩ := h
  refine ⟨length_storeByte hp, u32_lt _, ?_, ?_⟩
  · rw [encShift_length hl]; omega
  · rw [low_encShift hp hb, encShift_length hl]
    show _ ≤ 256 ^ (c.acPointer + 1) * 2 ^ 32
    rw [pow_succ]
    omega

theorem renormEncryptionInterval_eq {c : ArithmeticCodec} (h1 : 2 ^ 8 ≤ c.length)
    (h2 : c.length < 2 ^ 24) : renormEncryptionInterval c = .ok (encRenorm c) := by
  have e1 := encShift_length h2
  unfold renormEncryptionInterval encRenorm
  rw [renormEncLoop_succ]
  by_cases h : c.length < 2 ^ 16
  · have e2 : (encShift (encShift c)).length = 256 * (encShift c).length :=
      encShift_length (by omega)
    rw [if_pos (by simp only [AC__MinLength]; omega), renormEncLoop_succ,
      if_neg (by simp only [AC__MinLength]; omega), if_pos h]
  · rw [if_neg (by simp only [AC__MinLength]; omega), if_neg h]

theorem renormDecryptionInterval_eq {c : ArithmeticCodec} (h1 : 2 ^ 8 ≤ c.length)
    (h2 : c.length < 2 ^ 24) : renormDecryptionInterval c = .ok (decRenorm c) := by
  have e1 := decShift_length h2
  unfold renormDecryptionInterval decRenorm
  rw [renormDecLoop_succ]
  by_cases h : c.length < 2 ^ 16
  · have e2 : (decShift (decShift c)).length = 256 * (decShift c).length :=
      decShift_length (by omega)
    rw [if_pos (by simp only [AC__MinLength]; omega), renormDecLoop_succ,
      if_neg (by simp only [AC__MinLength]; omega), if_pos h]
  · rw [if_neg (by simp only [AC__MinLength]; omega), if_neg h]

/-! ## Valid cumulative distributions and the interval of a symbol -/

theorem getD_eq_getElem {l : List Nat} {i : Nat} (h : i < l.length) : l.getD i 0 = l[i] := by
  rw [List.getD_eq_getElem?_getD, List.getElem?_eq_getElem h]; rfl

theorem validDistribution.lt {dist : List Nat} {N : Nat} (h : validDistribution dist N)
    {i j : Nat} (hij : i < j) (hj : j < N) : dist.getD i 0 < dist.getD j 0 := by
  obtain ⟨hlen, _, _, _, hp, _⟩ := h
  have hi' : i < dist.length := by omega
  have hj' : j < dist.length := by omega
  rw [getD_eq_getElem hi', getD_eq_getElem hj']
  have := List.pairwise_iff_getElem.mp hp i j hi' hj' hij
  exact this

theorem validDistribution.le {dist : List Nat} {N : Nat} (h : validDistribution dist N)
    {i j : Nat} (hij : i ≤ j) (hj : j < N) : dist.getD i 0 ≤ dist.getD j 0 := by
  rcases Nat.lt_or_eq_of_le hij with h1 | h1
  · exact Nat.le_of_lt (h.lt h1 hj)
  · rw [h1]

theorem validDistribution.bound {dist : List Nat} {N : Nat} (h : validDistribution dist N)
    {i : Nat} (hi : i < N) : dist.getD i 0 < 2 ^ 15 :=
  Nat.lt_of_le_of_lt (h.le (Nat.le_sub_one_of_lt hi) (by have := h.2.1; omega)) h.2.2.2.2.2

theorem sym_bounds {dist : List Nat} {N s length : Nat} (hv : validDistribution dist N)
    (hs : s < N) (h1 : 2 ^ 24 ≤ length) (h2 : length < 2 ^ 32) :
    symLow dist length s + 2 ^ 9 ≤ symHigh dist N length s ∧ symHigh dist N length s ≤ length := by
  have hd := hv.bound hs
  have hq : length >>> DM__LengthShift = length / 2 ^ 15 := by
    simp [DM__LengthShift, Nat.shiftRight_eq_div_pow]
  unfold symLow symHigh
  rw [hq]
  have hm : dist.getD s 0 * (length / 2 ^ 15) ≤ (2 ^ 15 - 1) * (length / 2 ^ 15) :=
    Nat.mul_le_mul_right _ (by omega)
  by_cases hlast : s = N - 1
  · rw [if_pos hlast]
    omega
  · rw [if_neg hlast]
    have hd1 := hv.bound (show s + 1 < N by omega)
    have hlt := hv.lt (Nat.lt_add_one s) (show s + 1 < N by omega)
    have hm1 : dist.getD (s + 1) 0 * (length / 2 ^ 15) ≤ (2 ^ 15 - 1) * (length / 2 ^ 15) :=
      Nat.mul_le_mul_right _ (by omega)
    have hm2 : (dist.getD s 0 + 1) * (length / 2 ^ 15) ≤ dist.getD (s + 1) 0 * (length / 2 ^ 15) :=
      Nat.mul_le_mul_right _ (by omega)
    rw [Nat.add_mul] at hm2
    omega

theorem symLow_lt {dist : List Nat} {N s length : Nat} (hv : validDistribution dist N)
    (hs : s < N) (h2 : length < 2 ^ 32) : symLow dist length s < 2 ^ 32 := by
  have hd := hv.bound hs
  have hq : length >>> DM__LengthShift = length / 2 ^ 15 := by
    simp [DM__LengthShift, Nat.shiftRight_eq_div_pow]
  unfold symLow
  rw [hq]
  have hm : dist.getD s 0 * (length / 2 ^ 15) ≤ (2 ^ 15 - 1) * (length / 2 ^ 15) :=
    Nat.mul_le_mul_right _ (by omega)
  omega

/-- The carry step of `encode` and `stopEncoder`: after `base += x` the bytes
written and the new base together are the old lower end plus `x`, provided a
carry finds a byte to land on. -/
theorem carry_core (c : ArithmeticCodec) (x len1 : Nat)
    (hp : c.acPointer ≤ c.codeBuffer.length) (hb : c.base < 2 ^ 32) (hx : x < 2 ^ 32)
    (hok : 2 ^ 32 ≤ c.base + x → streamVal c.codeBuffer c.acPointer + 1 < 256 ^ c.acPointer) :
    ∃ cm, cm.acPointer = c.acPointer ∧ cm.acPointer ≤ cm.codeBuffer.length ∧
      cm.base < 2 ^ 32 ∧ low cm = low c + x ∧ cm.length = len1 ∧
      cm.mode = c.mode ∧ cm.bufferSize = c.bufferSize ∧
      (c.base > u32 (c.base + x) →
        propagateCarry { c with base := u32 (c.base + x), length := len1 } = Except.ok cm) ∧
      (¬ c.base > u32 (c.base + x) →
        cm = { c with base := u32 (c.base + x), length := len1 }) := by
  by_cases hcarry : c.base > u32 (c.base + x)
  · have hwrap : 2 ^ 32 ≤ c.base + x := by
      unfold u32 at hcarry
      by_contra hcon
      rw [Nat.mod_eq_of_lt (by omega)] at hcarry
      omega
    obtain ⟨buf', h1, h2, h3, _⟩ :=
      propagateCarryLoop_spec c.acPointer c.codeBuffer hp (hok hwrap)
    refine ⟨{ c with base := u32 (c.base + x), length := len1, codeBuffer := buf' },
      rfl, ?_, u32_lt _, ?_, rfl, rfl, rfl, ?_, fun h => absurd hcarry h⟩
    · show c.acPointer ≤ buf'.length
      omega
    · show streamVal buf' c.acPointer * 2 ^ 32 + u32 (c.base + x) = _
      rw [h3]
      unfold low u32
      omega
    · intro _
      unfold propagateCarry
      simp only [h1]
  · have hnowrap : c.base + x < 2 ^ 32 := by
      unfold u32 at hcarry
      omega
    refine ⟨{ c with base := u32 (c.base + x), length := len1 },
      rfl, hp, u32_lt _, ?_, rfl, rfl, rfl, fun h => absurd h hcarry, fun _ => rfl⟩
    show streamVal c.codeBuffer c.acPointer * 2 ^ 32 + u32 (c.base + x) = _
    rw [u32_of_lt hnowrap]
    unfold low
    omega

/-- The carry step on a well-formed encoder state. -/
theorem carry_spec (c : ArithmeticCodec) (x len1 : Nat) (hc : EncPre c) (hx : x < 2 ^ 32)
    (hpos : 0 < len1) (hle : x + len1 ≤ c.length) :
    ∃ cm, EncPre cm ∧ cm.acPointer = c.acPointer ∧ low cm = low c + x ∧ cm.length = len1 ∧
      cm.mode = c.mode ∧ cm.bufferSize = c.bufferSize ∧
      (c.base > u32 (c.base + x) →
        propagateCarry { c with base := u32 (c.base + x), length := len1 } = Except.ok cm) ∧
      (¬ c.base > u32 (c.base + x) →
        cm = { c with base := u32 (c.base + x), length := len1 }) := by
  obtain ⟨hp, hb, hlen, hin⟩ := hc
  have hin' := hin
  unfold low at hin'
  obtain ⟨cm, h1, h2, h3, h4, h5, h6, h7, h8, h9⟩ := carry_core c x len1 hp hb hx (by omega)
  refine ⟨cm, ⟨h2, h3, by omega, ?_⟩, h1, h4, h5, h6, h7, h8, h9⟩
  rw [h4, h5, h1]
  omega

/-- The encoder state after the interval update and the carry, before
renormalization. -/
theorem encodeInterval_core {dist : List Nat} {N s : Nat} {c : ArithmeticCodec}
    (hv : validDistribution dist N) (hs : s < N) (hp : c.acPointer ≤ c.codeBuffer.length)
    (hb : c.base < 2 ^ 32) (hlen : c.length < 2 ^ 32) (hl : 2 ^ 24 ≤ c.length)
    (hok : 2 ^ 32 ≤ c.base + symLow dist c.length s →
      streamVal c.codeBuffer c.acPointer + 1 < 256 ^ c.acPointer) :
    ∃ cm, cm.acPointer = c.acPointer ∧ cm.acPointer ≤ cm.codeBuffer.length ∧
      cm.base < 2 ^ 32 ∧ low cm = low c + symLow dist c.length s ∧
      cm.length = symHigh dist N c.length s - symLow dist c.length s ∧
      cm.mode = c.mode ∧ cm.bufferSize = c.bufferSize ∧
      encodeInterval dist (N - 1) s c =
        .ok (if cm.length < AC__MinLength then encRenorm cm else cm) := by
  obtain ⟨hb1, hb2⟩ := sym_bounds hv hs hl hlen
  have hx := symLow_lt hv hs hlen
  obtain ⟨cm, h2, h2b, h2c, h3, h4, h5, h6, h7, h8⟩ := carry_core c (symLow dist c.length s)
    (symHigh dist N c.length s - symLow dist c.length s) hp hb hx hok
  refine ⟨cm, h2, h2b, h2c, h3, h4, h5, h6, ?_⟩
  have hren : (if cm.length < AC__MinLength then renormEncryptionInterval cm else pure cm) =
      Except.ok (if cm.length < AC__MinLength then encRenorm cm else cm) := by
    by_cases hm : cm.length < AC__MinLength
    · rw [if_pos hm, if_pos hm]
      exact renormEncryptionInterval_eq (by omega) hm
    · rw [if_neg hm, if_neg hm]; rfl
  have hxe : u32 (dist.getD s 0 * (c.length >>> DM__LengthShift)) = symLow dist c.length s :=
    u32_of_lt hx
  unfold encodeInterval
  rw [rd_eq_ok (by rw [hv.1]; exact hs)]
  by_cases hlast : s = N - 1
  · have hy : sub32 c.length (symLow dist c.length s) =
        symHigh dist N c.length s - symLow dist c.length s := by
      rw [sub32_of_le (by omega) hlen]
      unfold symHigh
      rw [if_pos hlast]
    simp only [ok_bind, pure_bind, if_pos hlast, hxe, hy]
    by_cases hcarry : c.base > u32 (c.base + symLow dist c.length s)
    · rw [if_pos hcarry, h7 hcarry, ok_bind]
      exact hren
    · rw [if_neg hcarry]
      have e := h8 hcarry
      subst e
      exact hren
  · have hs1 : s + 1 < N := by omega
    have hh : symHigh dist N c.length s = dist.getD (s + 1) 0 * (c.length >>> DM__LengthShift) := by
      unfold symHigh
      rw [if_neg hlast]
    have hy : sub32 (u32 (dist.getD (s + 1) 0 * (c.length >>> DM__LengthShift)))
        (symLow dist c.length s) = symHigh dist N c.length s - symLow dist c.length s := by
      rw [← hh, u32_of_lt (by omega), sub32_of_le (by omega) (by omega)]
    rw [rd_eq_ok (by rw [hv.1]; exact hs1)]
    simp only [ok_bind, pure_bind, if_neg hlast, hxe, hy]
    by_cases hcarry : c.base > u32 (c.base + symLow dist c.length s)
    · rw [if_pos hcarry, h7 hcarry, ok_bind]
      exact hren
    · rw [if_neg hcarry]
      have e := h8 hcarry
      subst e
      exact hren

/-- The encoder state after the interval update and the carry, before
renormalization, for a well-formed encoder state. -/
theorem encodeInterval_spec {dist : List Nat} {N s : Nat} {c : ArithmeticCodec}
    (hv : validDistribution dist N) (hs : s < N) (hc : EncPre c) (hl : 2 ^ 24 ≤ c.length) :
    ∃ cm, EncPre cm ∧ cm.acPointer = c.acPointer ∧
      low cm = low c + symLow dist c.length s ∧
      cm.length = symHigh dist N c.length s - symLow dist c.length s ∧
      cm.mode = c.mode ∧ cm.bufferSize = c.bufferSize ∧
      encodeInterval dist (N - 1) s c =
        .ok (if cm.length < AC__MinLength then encRenorm cm else cm) := by
  obtain ⟨hp, hb, hlen, hin⟩ := hc
  obtain ⟨hb1, hb2⟩ := sym_bounds hv hs hl hlen
  have hin' := hin
  unfold low at hin'
  obtain ⟨cm, h1, h2, h3, h4, h5, h6, h7, h8⟩ := encodeInterval_core hv hs hp hb hlen hl
    (by omega)
  refine ⟨cm, ⟨h2, h3, by omega, ?_⟩, h1, h4, h5, h6, h7, h8⟩
  rw [h4, h5, h1]
  omega

/-! ## The decoder follows the encoder -/

theorem shl_or_byte {v b : Nat} (hv : v < 2 ^ 24) (hb : b < 256) :
    u32 (v <<< 8) ||| b = v * 256 + b := by
  have h1 : u32 (v <<< 8) = 2 ^ 8 * v := by
    simp only [u32, Nat.shiftLeft_eq]
    omega
  rw [h1, ← Nat.mul_add_lt_is_or (by omega)]
  omega

theorem inside_of_encShift {c : ArithmeticCodec} {S : List Nat} (hc : EncPre c)
    (hl : c.length < 2 ^ 24) (h : Inside (encShift c) S) : Inside c S := by
  obtain ⟨hp, hb, _, _⟩ := hc
  unfold Inside at h ⊢
  rw [low_encShift hp hb, encShift_length hl] at h
  have e : (encShift c).acPointer + 4 = (c.acPointer + 4) + 1 := by
    show c.acPointer + 1 + 4 = _
    omega
  rw [e, streamVal_succ S (c.acPointer + 4)] at h
  have := byteAt_lt S (c.acPointer + 4)
  omega

theorem inside_of_encRenorm {c : ArithmeticCodec} {S : List Nat} (hc : EncPre c)
    (hl : c.length < 2 ^ 24) (h : Inside (encRenorm c) S) : Inside c S := by
  unfold encRenorm at h
  by_cases h16 : c.length < 2 ^ 16
  · rw [if_pos h16] at h
    have e1 := encShift_length hl
    exact inside_of_encShift hc hl
      (inside_of_encShift (encPre_encShift hc hl) (by omega) h)
  · rw [if_neg h16] at h
    exact inside_of_encShift hc hl h

theorem sim_shift {c d : ArithmeticCodec} (hs : Sim c d) (hc : EncPre c)
    (hl : c.length < 2 ^ 24) (hin : Inside c d.codeBuffer) :
    Sim (encShift c) (decShift d) ∧ (decShift d).codeBuffer = d.codeBuffer := by
  obtain ⟨hp, hb, _, _⟩ := hc
  obtain ⟨s1, s2, s3⟩ := hs
  obtain ⟨i1, i2⟩ := hin
  refine ⟨⟨?_, ?_, ?_⟩, rfl⟩
  · rw [decShift_length (by omega), encShift_length hl, s1]
  · show d.acPointer + 1 = c.acPointer + 1 + 3
    omega
  · rw [low_encShift hp hb]
    show (u32 (d.value <<< 8) ||| byteAt d.codeBuffer (d.acPointer + 1)) + _ =
      streamVal d.codeBuffer (c.acPointer + 1 + 4)
    rw [shl_or_byte (by omega) (byteAt_lt _ _), s2]
    have e : c.acPointer + 1 + 4 = (c.acPointer + 4) + 1 := by omega
    rw [e, streamVal_succ d.codeBuffer (c.acPointer + 4)]
    have e2 : c.acPointer + 3 + 1 = c.acPointer + 4 := by omega
    rw [e2]
    omega

theorem sim_renorm {c d : ArithmeticCodec} (hs : Sim c d) (hc : EncPre c)
    (hl : c.length < 2 ^ 24) (hin : Inside (encRenorm c) d.codeBuffer) :
    Sim (encRenorm c) (decRenorm d) ∧ (decRenorm d).codeBuffer = d.codeBuffer := by
  have hlen : d.length = c.length := hs.1
  unfold encRenorm decRenorm at *
  rw [hlen]
  by_cases h16 : c.length < 2 ^ 16
  · rw [if_pos h16] at hin ⊢
    rw [if_pos h16]
    have e1 := encShift_length hl
    have hc1 := encPre_encShift hc hl
    have hin1 := inside_of_encShift hc1 (by omega) hin
    have hin0 := inside_of_encShift hc hl hin1
    obtain ⟨a1, a2⟩ := sim_shift hs hc hl hin0
    obtain ⟨b1, b2⟩ := sim_shift a1 hc1 (by omega) (by rw [a2]; exact hin1)
    exact ⟨b1, by rw [b2, a2]⟩
  · rw [if_neg h16] at hin ⊢
    rw [if_neg h16]
    exact sim_shift hs hc hl (inside_of_encShift hc hl hin)

/-! ## The symbol search of the decoder -/

theorem IsTarget.gt_iff {dist : List Nat} {N q v s m : Nat} (hv : validDistribution dist N)
    (ht : IsTarget dist N q v s) (hm : m < N) : v < dist.getD m 0 * q ↔ s < m := by
  obtain ⟨_, h1, h2⟩ := ht
  constructor
  · intro h
    by_contra hcon
    have := Nat.mul_le_mul_right q (hv.le (Nat.le_of_not_lt hcon) (by omega))
    omega
  · intro h
    have := Nat.mul_le_mul_right q (hv.le (show s + 1 ≤ m by omega) hm)
    have := h2 (by omega)
    omega

theorem bisectLoop_spec {dist : List Nat} {N q v s : Nat} (y0 : Nat)
    (hv : validDistribution dist N)
    (hq : q < 2 ^ 17) (ht : IsTarget dist N q v s) :
    ∀ (fuel m s' n' x y : Nat), s' < m → m < n' → n' ≤ N → s' ≤ s → s < n' →
      n' - s' ≤ fuel + 1 → x = dist.getD s' 0 * q →
      y = (if n' = N then y0 else dist.getD n' 0 * q) →
      bisectLoop dist q v fuel m s' n' x y =
        .ok (s, dist.getD s 0 * q, if s + 1 = N then y0 else dist.getD (s + 1) 0 * q) := by
  intro fuel
  induction fuel with
  | zero => intro m s' n' x y h1 h2 _ _ _ h6; omega
  | succ fuel ih =>
    intro m s' n' x y h1 h2 h3 h4 h5 h6 hx hy
    have hmN : m < N := by omega
    have hdm := hv.bound hmN
    have hz : u32 (q * dist.getD m 0) = dist.getD m 0 * q := by
      have : dist.getD m 0 * q ≤ (2 ^ 15 - 1) * q := Nat.mul_le_mul_right _ (by omega)
      rw [Nat.mul_comm]
      exact u32_of_lt (by omega)
    unfold bisectLoop
    rw [rd_eq_ok (by rw [hv.1]; exact hmN)]
    simp only [ok_bind, hz, gt_iff_lt, ht.gt_iff hv hmN]
    have hN := hv.2.2.1
    by_cases hsm : s < m
    · simp only [if_pos hsm]
      have hu : u32 (s' + m) = s' + m := u32_of_lt (by omega)
      rw [hu]
      by_cases hne : (s' + m) >>> 1 ≠ s'
      · rw [if_pos hne]
        have hne' : (s' + m) / 2 ≠ s' := by simpa [Nat.shiftRight_eq_div_pow] using hne
        have e : (s' + m) >>> 1 = (s' + m) / 2 := by simp [Nat.shiftRight_eq_div_pow]
        rw [e]
        apply ih _ _ _ _ _ (by omega) (by omega) (by omega) h4 hsm (by omega) hx
        rw [if_neg (by omega)]
      · rw [if_neg hne]
        have hne' : (s' + m) / 2 = s' := by simpa [Nat.shiftRight_eq_div_pow] using hne
        have hs : s' = s := by omega
        subst hs
        have hm1 : m = s' + 1 := by omega
        subst hm1
        rw [hx, if_neg (by omega)]
    · simp only [if_neg hsm]
      have hu : u32 (m + n') = m + n' := u32_of_lt (by omega)
      rw [hu]
      by_cases hne : (m + n') >>> 1 ≠ m
      · rw [if_pos hne]
        have hne' : (m + n') / 2 ≠ m := by simpa [Nat.shiftRight_eq_div_pow] using hne
        have e : (m + n') >>> 1 = (m + n') / 2 := by simp [Nat.shiftRight_eq_div_pow]
        rw [e]
        exact ih _ _ _ _ _ (by omega) (by omega) h3 (by omega) h5 (by omega) rfl hy
      · rw [if_neg hne]
        have hne' : (m + n') / 2 = m := by simpa [Nat.shiftRight_eq_div_pow] using hne
        have hs : m = s := by omega
        subst hs
        have hn1 : n' = m + 1 := by omega
        subst hn1
        rw [hy]

theorem tableSearchLoop_spec {dist : List Nat} {N q v s : Nat} (hv : validDistribution dist N)
    (hq : 0 < q) (ht : IsTarget dist N q v s) :
    ∀ (fuel s' n' : Nat), s' ≤ s → s < n' → n' ≤ N → n' - s' ≤ fuel + 1 →
      tableSearchLoop dist (v / q) fuel s' n' = .ok s := by
  intro fuel
  have hN := hv.2.2.1
  induction fuel with
  | zero =>
    intro s' n' h1 h2 h3 h4
    unfold tableSearchLoop
    rw [u32_of_lt (by omega), if_neg (by omega)]
    have : s' = s := by omega
    rw [this]
  | succ fuel ih =>
    intro s' n' h1 h2 h3 h4
    unfold tableSearchLoop
    rw [u32_of_lt (by omega)]
    by_cases hgt : n' > s' + 1
    · rw [if_pos hgt, u32_of_lt (by omega)]
      have e : (s' + n') >>> 1 = (s' + n') / 2 := by simp [Nat.shiftRight_eq_div_pow]
      rw [e]
      have hmN : (s' + n') / 2 < N := by omega
      dsimp only
      rw [rd_eq_ok (by rw [hv.1]; exact hmN)]
      simp only [ok_bind, gt_iff_lt, Nat.div_lt_iff_lt_mul hq, ht.gt_iff hv hmN]
      by_cases hsm : s < (s' + n') / 2
      · rw [if_pos hsm]
        exact ih _ _ h1 hsm (by omega) (by omega)
      · rw [if_neg hsm]
        exact ih _ _ (by omega) h2 h3 (by omega)
    · rw [if_neg hgt]
      have : s' = s := by omega
      rw [this]

/-! ## The decoder table -/

theorem shr_mono {a b : Nat} (k : Nat) (h : a ≤ b) : a >>> k ≤ b >>> k := by
  rw [Nat.shiftRight_eq_div_pow, Nat.shiftRight_eq_div_pow]
  exact Nat.div_le_div_right h

theorem lt_of_shr_lt {a b k : Nat} (h : a >>> k < b >>> k) : a < b := by
  by_contra hcon
  have := shr_mono k (Nat.le_of_not_lt hcon)
  omega

theorem EntryMid.ok {dist : List Nat} {N shift j e : Nat} (h : EntryMid dist N shift j e) :
    TableEntryOK dist N shift j e := by
  obtain ⟨h1, h2, h3⟩ := h
  refine ⟨by omega, fun x hx => ?_, fun _ x hx => ?_⟩
  · exact Nat.le_of_lt (lt_of_shr_lt (Nat.lt_of_lt_of_le h2 hx))
  · exact lt_of_shr_lt (Nat.lt_of_lt_of_le hx h3)

theorem getD_append_left {l1 l2 : List Nat} {j : Nat} (h : j < l1.length) :
    (l1 ++ l2).getD j 0 = l1.getD j 0 := by
  rw [List.getD_eq_getElem?_getD, List.getD_eq_getElem?_getD, List.getElem?_append_left h]

theorem getD_append_replicate {l1 : List Nat} {j n v : Nat} (h1 : l1.length ≤ j)
    (h2 : j < l1.length + n) : (l1 ++ List.replicate n v).getD j 0 = v := by
  rw [List.getD_eq_getElem?_getD, List.getElem?_append_right h1,
    List.getElem?_replicate]
  rw [if_pos (by omega)]
  rfl

theorem buildTableLoop_spec {dist : List Nat} {N : Nat} (shift : Nat)
    (hv : validDistribution dist N) :
    ∀ (ds : List Nat) (k s : Nat) (table : List Nat), ds = dist.drop k → k ≤ N →
      table.length = s + 1 → (k = 0 → s = 0) → (0 < k → s = dist.getD (k - 1) 0 >>> shift) →
      (∀ j, 1 ≤ j → j ≤ s → EntryMid dist N shift j (table.getD j 0)) →
      (buildTableLoop shift ds k s table).1.length = (buildTableLoop shift ds k s table).2 + 1 ∧
      (buildTableLoop shift ds k s table).2 = dist.getD (N - 1) 0 >>> shift ∧
      ∀ j, 1 ≤ j → j ≤ (buildTableLoop shift ds k s table).2 →
        EntryMid dist N shift j ((buildTableLoop shift ds k s table).1.getD j 0) := by
  have hlen := hv.1
  have hN2 := hv.2.1
  have hN := hv.2.2.1
  intro ds
  induction ds with
  | nil =>
    intro k s table hds hk hl h0 h1 hE
    have hkN : k = N := by
      have := congrArg List.length hds
      simp at this
      omega
    refine ⟨hl, ?_, hE⟩
    show s = _
    rw [h1 (by omega), hkN]
  | cons d ds ih =>
    intro k s table hds hk hl h0 h1 hE
    have hkN : k < N := by
      have := congrArg List.length hds
      simp at this
      omega
    have hdrop : dist.drop k = dist[k] :: dist.drop (k + 1) :=
      List.drop_eq_getElem_cons (by omega)
    rw [hdrop] at hds
    have hd : d = dist.getD k 0 := by
      rw [getD_eq_getElem (by omega)]
      exact (List.cons.inj hds).1
    have hds' : ds = dist.drop (k + 1) := (List.cons.inj hds).2
    have hsw : s ≤ d >>> shift := by
      by_cases hk0 : k = 0
      · rw [h0 hk0]; exact Nat.zero_le _
      · rw [h1 (by omega), hd]
        exact shr_mono _ (hv.le (by omega) hkN)
    unfold buildTableLoop
    simp only
    rw [Nat.max_eq_right hsw]
    apply ih (k + 1) (d >>> shift) _ hds' (by omega)
    · simp [hl]; omega
    · intro h; omega
    · intro _
      rw [hd]
      rfl
    · intro j hj1 hj2
      by_cases hjs : j ≤ s
      · rw [getD_append_left (by omega)]
        exact hE j hj1 hjs
      · rw [getD_append_replicate (by omega) (by omega)]
        have hk0 : 0 < k := by
          by_contra hcon
          have hk0 : k = 0 := by omega
          have : d = 0 := by rw [hd, hk0]; exact hv.2.2.2.1
          rw [this] at hj2
          simp at hj2
          omega
        have hsub : sub32 k 1 = k - 1 := sub32_of_le hk0 (by omega)
        rw [hsub]
        refine ⟨by omega, ?_, ?_⟩
        · rw [← h1 hk0]; omega
        · have : k - 1 + 1 = k := by omega
          rw [this, ← hd]
          exact hj2

theorem buildTable_ok {dist : List Nat} {N shift tb : Nat} (hv : validDistribution dist N)
    (hshift : shift = 15 - tb) (htb : tb ≤ 9) :
    TableOK dist N shift (2 ^ tb + 4) (buildTable dist N (2 ^ tb + 4) shift) := by
  have hlen := hv.1
  have hN2 := hv.2.1
  have hN := hv.2.2.1
  have hd0 : dist.getD 0 0 = 0 := hv.2.2.2.1
  obtain ⟨h1, h2, h3⟩ := buildTableLoop_spec shift hv dist 0 0 [0] rfl (by omega) rfl
    (fun _ => rfl) (fun h => by omega) (fun j hj1 hj2 => by omega)
  have hlast : dist.getD (N - 1) 0 < 2 ^ 15 := hv.2.2.2.2.2
  have hs : (buildTableLoop shift dist 0 0 [0]).2 < 2 ^ tb := by
    rw [h2, hshift, Nat.shiftRight_eq_div_pow]
    have e : (2 : Nat) ^ 15 = 2 ^ tb * 2 ^ (15 - tb) := by
      rw [← pow_add]
      congr 1
      omega
    rw [Nat.div_lt_iff_lt_mul (by positivity), ← e]
    exact hlast
  have hsub : sub32 N 1 = N - 1 := sub32_of_le (by omega) (by omega)
  unfold buildTable finishTable
  rw [hsub]
  generalize buildTableLoop shift dist 0 0 [0] = r at h1 h2 h3 hs
  generalize 2 ^ tb = P at hs
  obtain ⟨tbl, s⟩ := r
  simp only at h1 h2 h3 hs
  show (tbl.set 0 0 ++ List.replicate (P + 4 + 1 - s) (N - 1)).length = P + 4 + 2 ∧
    ∀ j, j < (tbl.set 0 0 ++ List.replicate (P + 4 + 1 - s) (N - 1)).length →
      TableEntryOK dist N shift j
        ((tbl.set 0 0 ++ List.replicate (P + 4 + 1 - s) (N - 1)).getD j 0)
  have hl1 : (tbl.set 0 0).length = s + 1 := by rw [List.length_set]; exact h1
  have hlen2 : (tbl.set 0 0 ++ List.replicate (P + 4 + 1 - s) (N - 1)).length = P + 4 + 2 := by
    rw [List.length_append, List.length_replicate, hl1]
    omega
  refine ⟨hlen2, ?_⟩
  intro j hj
  rw [hlen2] at hj
  by_cases hjs : j ≤ s
  · rw [getD_append_left (by omega)]
    by_cases hj0 : j = 0
    · subst hj0
      have e : (tbl.set 0 0).getD 0 0 = 0 := by
        rw [List.getD_eq_getElem?_getD, List.getElem?_set]
        simp only [if_true]
        rw [if_pos (by omega)]
        rfl
      rw [e]
      refine ⟨by omega, fun x _ => ?_, fun _ x hx => absurd hx (Nat.not_lt_zero _)⟩
      rw [hd0]
      exact Nat.zero_le _
    · have e : (tbl.set 0 0).getD j 0 = tbl.getD j 0 := by
        rw [List.getD_eq_getElem?_getD, List.getD_eq_getElem?_getD, List.getElem?_set]
        rw [if_neg (by omega)]
      rw [e]
      exact (h3 j (by omega) hjs).ok
  · rw [getD_append_replicate (by omega) (by omega)]
    refine ⟨by omega, fun x hx => ?_, fun h => by omega⟩
    apply Nat.le_of_lt
    apply lt_of_shr_lt (k := shift)
    rw [← h2]
    omega

theorem slot_bound {tb dv : Nat} (htb : tb ≤ 9) (h : dv < 2 ^ 15 + 64) :
    dv >>> (15 - tb) ≤ 2 ^ tb := by
  interval_cases tb <;> simp only [Nat.shiftRight_eq_div_pow] <;> omega

theorem symLow_eq (dist : List Nat) (length s : Nat) :
    symLow dist length s = dist.getD s 0 * (length >>> DM__LengthShift) := rfl

theorem isTarget_unique {dist : List Nat} {N q v s s' : Nat} (hv : validDistribution dist N)
    (h : IsTarget dist N q v s) (h' : IsTarget dist N q v s') : s = s' := by
  have a := (h.gt_iff hv h'.1)
  have b := (h'.gt_iff hv h.1)
  have c1 := h.2.1
  have c2 := h'.2.1
  by_contra hne
  rcases Nat.lt_or_gt_of_ne hne with hlt | hlt
  · have := a.mpr hlt; omega
  · have := b.mpr hlt; omega

theorem decodeSearch_spec {dist : List Nat} {N s : Nat} {tbl : Option (List Nat)}
    {d : ArithmeticCodec} (shift : Nat) (hv : validDistribution dist N) (hd : DecTable dist N tbl shift)
    (h1 : 2 ^ 24 ≤ d.length) (h2 : d.length < 2 ^ 32)
    (hval : tbl ≠ none → d.value < d.length)
    (ht : IsTarget dist N (d.length >>> DM__LengthShift) d.value s) :
    decodeSearch dist tbl N (N - 1) shift d =
      .ok (s, symLow dist d.length s, symHigh dist N d.length s) := by
  have hlen := hv.1
  have hN2 := hv.2.1
  have hN := hv.2.2.1
  have hq : d.length >>> DM__LengthShift = d.length / 2 ^ 15 := by
    simp [DM__LengthShift, Nat.shiftRight_eq_div_pow]
  have hs := ht.1
  have hx : u32 (dist.getD s 0 * (d.length >>> DM__LengthShift)) = symLow dist d.length s :=
    u32_of_lt (symLow_lt hv hs h2)
  unfold decodeSearch
  cases tbl with
  | none =>
    simp only
    have e : N >>> 1 = N / 2 := by simp [Nat.shiftRight_eq_div_pow]
    rw [e, bisectLoop_spec d.length hv (by rw [hq]; omega) ht N (N / 2) 0 N 0 d.length
      (by omega) (by omega) (le_refl _) (Nat.zero_le _) hs (by omega)
      (by rw [hv.2.2.2.1]; simp) (by rw [if_pos rfl])]
    unfold symLow symHigh
    by_cases hl : s = N - 1
    · rw [if_pos hl, if_pos (by omega)]
    · rw [if_neg hl, if_neg (by omega)]
  | some table =>
    obtain ⟨tb, htb, hsh, hlenT, hT⟩ := hd
    replace hval := hval (by simp)
    simp only
    have hq0 : 0 < d.length >>> DM__LengthShift := by rw [hq]; omega
    rw [if_neg (by omega)]
    simp only [ok_bind, pure_bind]
    have hdv : d.value / (d.length >>> DM__LengthShift) < 2 ^ 15 + 64 := by
      rw [Nat.div_lt_iff_lt_mul hq0, hq]
      omega
    have hslot := slot_bound htb hdv
    rw [← hsh] at hslot
    generalize hP : 2 ^ tb = P at hslot hlenT
    generalize hdvq : d.value / (d.length >>> DM__LengthShift) = dv at hslot hdv
    generalize htt : dv >>> shift = t at hslot
    have e0 := hT t (by omega)
    have e1 := hT (t + 1) (by omega)
    rw [rd_eq_ok (by omega), rd_eq_ok (by omega)]
    simp only [ok_bind]
    generalize table.getD t 0 = s0 at e0
    generalize table.getD (t + 1) 0 = s1 at e1
    obtain ⟨a1, a2, _⟩ := e0
    obtain ⟨b1, _, b3⟩ := e1
    have hs0 : s0 ≤ s := by
      have h := a2 dv (by omega)
      by_contra hcon
      have hlt := (ht.gt_iff hv a1).mpr (by omega)
      rw [← hdvq, Nat.le_div_iff_mul_le hq0] at h
      omega
    have hs1 : s ≤ s1 := by
      by_contra hcon
      have h := b3 (by omega) dv (by omega)
      rw [← hdvq, Nat.div_lt_iff_lt_mul hq0] at h
      have := (ht.gt_iff hv (show s1 + 1 < N by omega)).mp h
      omega
    rw [u32_of_lt (by omega)]
    have hsearch := tableSearchLoop_spec hv hq0 ht (s1 + 1) s0 (s1 + 1) hs0 (by omega) (by omega)
      (by omega)
    rw [hdvq] at hsearch
    rw [hsearch]
    simp only [ok_bind]
    rw [rd_eq_ok (by omega)]
    simp only [ok_bind, hx]
    unfold symHigh
    by_cases hl : s = N - 1
    · rw [if_pos hl]
      simp only [ne_eq, hl, not_true_eq_false, if_false]
      rfl
    · rw [if_neg hl]
      simp only [ne_eq, hl, not_false_eq_true, if_true]
      rw [rd_eq_ok (by omega)]
      simp only [ok_bind]
      have hb := sym_bounds hv hs h1 h2
      unfold symHigh at hb
      rw [if_neg hl] at hb
      rw [u32_of_lt (by omega)]
      rfl

/-- One encode call keeps the encoder state well formed, leaves a length of at
least `AC__MinLength`, and writes at most two bytes. -/
theorem encodeInterval_ok {dist : List Nat} {N s : Nat} {c : ArithmeticCodec}
    (hv : validDistribution dist N) (hs : s < N) (hc : EncPre c) (hl : 2 ^ 24 ≤ c.length) :
    ∃ c1, encodeInterval dist (N - 1) s c = .ok c1 ∧ EncPre c1 ∧ 2 ^ 24 ≤ c1.length ∧
      c.acPointer ≤ c1.acPointer ∧ c1.acPointer ≤ c.acPointer + 2 ∧ c1.mode = c.mode ∧
      c1.bufferSize = c.bufferSize := by
  obtain ⟨cm, hcm, hp, _, hlenm, hmode, hbs, heq⟩ := encodeInterval_spec hv hs hc hl
  have hb := sym_bounds hv hs hl hc.2.2.1
  refine ⟨_, heq, ?_⟩
  by_cases hm : cm.length < AC__MinLength
  · rw [if_pos hm]
    have hm' : cm.length < 2 ^ 24 := hm
    have e1 := encShift_length hm'
    unfold encRenorm
    by_cases h16 : cm.length < 2 ^ 16
    · rw [if_pos h16]
      have hc1 := encPre_encShift hcm hm'
      have e2 : (encShift (encShift cm)).length = 256 * (encShift cm).length :=
        encShift_length (by omega)
      refine ⟨encPre_encShift hc1 (by omega), by omega, ?_, ?_, hmode, hbs⟩
      · show c.acPointer ≤ cm.acPointer + 1 + 1
        omega
      · show cm.acPointer + 1 + 1 ≤ c.acPointer + 2
        omega
    · rw [if_neg h16]
      refine ⟨encPre_encShift hcm hm', by omega, ?_, ?_, hmode, hbs⟩
      · show c.acPointer ≤ cm.acPointer + 1
        omega
      · show cm.acPointer + 1 ≤ c.acPointer + 2
        omega
  · rw [if_neg hm]
    have hm' : ¬ cm.length < 2 ^ 24 := hm
    exact ⟨hcm, by omega, by omega, by omega, hmode, hbs⟩

/-- One decode call undoes one encode call: if the decoder state corresponds
to the encoder state before the symbol was encoded and the number in the
buffer lies in the interval the encoder reached, the decoder returns that
symbol and corresponds to the encoder state after it. -/
theorem decodeInterval_spec {dist : List Nat} {N s : Nat} {tbl : Option (List Nat)}
    {c d c1 : ArithmeticCodec} (shift : Nat) (hv : validDistribution dist N) (hd : DecTable dist N tbl shift)
    (hs : s < N) (hc : EncPre c) (hl : 2 ^ 24 ≤ c.length) (hsim : Sim c d)
    (henc : encodeInterval dist (N - 1) s c = .ok c1) (hin : Inside c1 d.codeBuffer) :
    ∃ d1, decodeInterval dist tbl N (N - 1) shift d = .ok (s, d1) ∧ Sim c1 d1 ∧
      d1.codeBuffer = d.codeBuffer ∧ d1.mode = d.mode ∧ d1.bufferSize = d.bufferSize ∧
      Inside c d.codeBuffer := by
  obtain ⟨cm, hcm, hp, hlow, hlenm, _, _, heq⟩ := encodeInterval_spec hv hs hc hl
  obtain ⟨hb1, hb2⟩ := sym_bounds hv hs hl hc.2.2.1
  rw [heq] at henc
  have hc1 : c1 = if cm.length < AC__MinLength then encRenorm cm else cm :=
    (Except.ok.inj henc).symm
  have hinm : Inside cm d.codeBuffer := by
    by_cases hm : cm.length < AC__MinLength
    · rw [hc1, if_pos hm] at hin
      exact inside_of_encRenorm hcm hm hin
    · rw [hc1, if_neg hm] at hin
      exact hin
  obtain ⟨s1, s2, s3⟩ := hsim
  obtain ⟨i1, i2⟩ := hinm
  rw [hp, hlow] at i1 i2
  rw [hlenm] at i2
  have hv1 : symLow dist c.length s ≤ d.value := by omega
  have hv2 : d.value < symHigh dist N c.length s := by omega
  have ht : IsTarget dist N (d.length >>> DM__LengthShift) d.value s := by
    rw [s1]
    refine ⟨hs, hv1, fun h => ?_⟩
    unfold symHigh at hv2
    rw [if_neg (by omega)] at hv2
    exact hv2
  have hsearch := decodeSearch_spec shift hv hd (by omega) (by rw [s1]; exact hc.2.2.1)
    (fun _ => by omega) ht
  rw [s1] at hsearch
  have hin0 : Inside c d.codeBuffer := ⟨by omega, by omega⟩
  unfold decodeInterval
  rw [hsearch]
  simp only [ok_bind]
  have hlen32 := hc.2.2.1
  rw [sub32_of_le hv1 (by omega), sub32_of_le (by omega) (by omega)]
  have hsimm : Sim cm
      { d with
        value := d.value - symLow dist c.length s
        length := symHigh dist N c.length s - symLow dist c.length s } := by
    refine ⟨hlenm.symm, by rw [hp]; exact s2, ?_⟩
    show d.value - symLow dist c.length s + low cm = streamVal d.codeBuffer (cm.acPointer + 4)
    rw [hp, hlow]
    omega
  by_cases hm : cm.length < AC__MinLength
  · have hm' : symHigh dist N c.length s - symLow dist c.length s < AC__MinLength := by
      rw [← hlenm]; exact hm
    rw [if_pos hm', renormDecryptionInterval_eq (by show 2 ^ 8 ≤ _ - _; omega) hm']
    simp only [ok_bind, pure, Except.pure]
    rw [hc1, if_pos hm] at hin ⊢
    obtain ⟨r1, r2⟩ := sim_renorm hsimm hcm hm hin
    exact ⟨_, rfl, r1, r2, by unfold decRenorm decShift; split <;> rfl,
      by unfold decRenorm decShift; split <;> rfl, hin0⟩
  · have hm' : ¬ symHigh dist N c.length s - symLow dist c.length s < AC__MinLength := by
      rw [← hlenm]; exact hm
    rw [if_neg hm']
    simp only [ok_bind, pure, Except.pure]
    rw [hc1, if_neg hm]
    exact ⟨_, rfl, hsimm, rfl, rfl, rfl, hin0⟩

theorem stopEncoder_core (c : ArithmeticCodec) (hm : c.mode = 1)
    (hp : c.acPointer ≤ c.codeBuffer.length) (hb : c.base < 2 ^ 32)
    (hok : 2 ^ 32 ≤ c.base + stopOffset c →
      streamVal c.codeBuffer c.acPointer + 1 < 256 ^ c.acPointer) :
    ∃ c3, c3.mode = 0 ∧ c3.bufferSize = c.bufferSize ∧
      c3.acPointer = c.acPointer + stopBytes c ∧
      low c3 = 256 ^ stopBytes c * (low c + stopOffset c) ∧ c3.base < 2 ^ 32 ∧
      c3.acPointer ≤ c3.codeBuffer.length ∧
      stopEncoder c =
        if u32 c3.acPointer > c3.bufferSize then AC_Error ("code buffer overflow")
        else .ok (u32 c3.acPointer, c3) := by
  unfold stopOffset at hok
  unfold stopOffset stopBytes
  by_cases hA : c.length > 2 * AC__MinLength
  · rw [if_pos hA] at hok
    simp only [if_pos hA]
    obtain ⟨cm, h1, h2, h3, h4, h5, h6, h7, h8, h9⟩ :=
      carry_core { c with mode := 0 } AC__MinLength (AC__MinLength >>> 1) hp hb
        (by simp [AC__MinLength]) hok
    dsimp only at h8 h9
    replace h1 : cm.acPointer = c.acPointer := h1
    replace h4 : low cm = low c + AC__MinLength := h4
    replace h6 : cm.mode = 0 := h6
    replace h7 : cm.bufferSize = c.bufferSize := h7
    have hlen : cm.length = 2 ^ 23 := by rw [h5]; simp [AC__MinLength]
    have hren : renormEncryptionInterval cm = .ok (encShift cm) := by
      rw [renormEncryptionInterval_eq (by omega) (by omega)]
      unfold encRenorm
      rw [if_neg (by omega)]
    refine ⟨encShift cm, h6, h7, ?_, ?_, u32_lt _, length_storeByte h2, ?_⟩
    · show cm.acPointer + 1 = _
      rw [h1]
    · rw [low_encShift h2 h3, h4]
      omega
    · unfold stopEncoder
      simp only [hm, ne_eq, not_true_eq_false, if_false, ok_bind, pure_bind, if_pos hA]
      by_cases hcarry : c.base > u32 (c.base + AC__MinLength)
      · rw [if_pos hcarry, h8 hcarry]
        simp only [ok_bind, hren]
        split <;> rfl
      · rw [if_neg hcarry, ← h9 hcarry]
        simp only [ok_bind, hren]
        split <;> rfl
  · rw [if_neg hA] at hok
    simp only [if_neg hA]
    obtain ⟨cm, h1, h2, h3, h4, h5, h6, h7, h8, h9⟩ :=
      carry_core { c with mode := 0 } (AC__MinLength >>> 1) (AC__MinLength >>> 9) hp hb
        (by simp [AC__MinLength]) hok
    dsimp only at h8 h9
    replace h1 : cm.acPointer = c.acPointer := h1
    replace h4 : low cm = low c + AC__MinLength >>> 1 := h4
    replace h6 : cm.mode = 0 := h6
    replace h7 : cm.bufferSize = c.bufferSize := h7
    have hlen : cm.length = 2 ^ 15 := by rw [h5]; simp [AC__MinLength]
    have hren : renormEncryptionInterval cm = .ok (encShift (encShift cm)) := by
      rw [renormEncryptionInterval_eq (by omega) (by omega)]
      unfold encRenorm
      rw [if_pos (by omega)]
    refine ⟨encShift (encShift cm), h6, h7, ?_, ?_, u32_lt _,
      length_storeByte (length_storeByte h2), ?_⟩
    · show cm.acPointer + 1 + 1 = _
      rw [h1]
    · rw [low_encShift (length_storeByte h2) (u32_lt _), low_encShift h2 h3, h4]
      generalize low c + AC__MinLength >>> 1 = z
      omega
    · unfold stopEncoder
      simp only [hm, ne_eq, not_true_eq_false, if_false, ok_bind, pure_bind, if_neg hA]
      by_cases hcarry : c.base > u32 (c.base + AC__MinLength >>> 1)
      · rw [if_pos hcarry, h8 hcarry]
        simp only [ok_bind, hren]
        split <;> rfl
      · rw [if_neg hcarry, ← h9 hcarry]
        simp only [ok_bind, hren]
        split <;> rfl

theorem byteAt_take_append {buf rest : List Nat} {k i : Nat} (hk : k ≤ buf.length) (hi : i < k) :
    byteAt (buf.take k ++ rest) i = byteAt buf i := by
  unfold byteAt
  rw [List.getD_eq_getElem?_getD, List.getD_eq_getElem?_getD,
    List.getElem?_append_left (by simp; omega), List.getElem?_take_of_lt hi]

theorem streamVal_add_two (S : List Nat) (n : Nat) :
    ∃ r, r < 2 ^ 16 ∧ streamVal S (n + 2) = streamVal S n * 2 ^ 16 + r := by
  refine ⟨byteAt S n * 256 + byteAt S (n + 1), ?_, ?_⟩
  · have := byteAt_lt S n
    have := byteAt_lt S (n + 1)
    omega
  · show streamVal S (n + 1 + 1) = _
    rw [streamVal_succ S (n + 1), streamVal_succ S n]
    omega

theorem streamVal_add_three (S : List Nat) (n : Nat) :
    ∃ r, r < 2 ^ 24 ∧ streamVal S (n + 3) = streamVal S n * 2 ^ 24 + r := by
  obtain ⟨r2, hr2, e2⟩ := streamVal_add_two S n
  refine ⟨r2 * 256 + byteAt S (n + 2), ?_, ?_⟩
  · have := byteAt_lt S (n + 2)
    omega
  · show streamVal S (n + 2 + 1) = _
    rw [streamVal_succ S (n + 2), e2]
    omega

/-- Whatever follows the bytes written by `stopEncoder`, the number in the
buffer lies in the interval the encoder had reached. -/
theorem inside_stop {c c3 : ArithmeticCodec} {S : List Nat} (hl : 2 ^ 24 ≤ c.length)
    (hlow : low c3 = 256 ^ stopBytes c * (low c + stopOffset c)) (hb3 : c3.base < 2 ^ 32)
    (hp3 : c3.acPointer = c.acPointer + stopBytes c)
    (hS : ∀ i, i < c3.acPointer → byteAt S i = byteAt c3.codeBuffer i) : Inside c S := by
  have hV : streamVal S c3.acPointer = streamVal c3.codeBuffer c3.acPointer :=
    streamVal_congr hS
  have hlow3 : streamVal c3.codeBuffer c3.acPointer * 2 ^ 32 + c3.base =
      256 ^ stopBytes c * (low c + stopOffset c) := hlow
  rw [← hV, hp3] at hlow3
  unfold stopBytes stopOffset at hlow3
  unfold Inside
  by_cases hA : c.length > 2 * AC__MinLength
  · rw [if_pos hA, if_pos hA] at hlow3
    obtain ⟨r, hr, e⟩ := streamVal_add_three S (c.acPointer + 1)
    have e4 : c.acPointer + 4 = c.acPointer + 1 + 3 := by omega
    rw [e4, e]
    simp only [AC__MinLength] at hlow3 hA
    omega
  · rw [if_neg hA, if_neg hA] at hlow3
    obtain ⟨r, hr, e⟩ := streamVal_add_two S (c.acPointer + 2)
    have e4 : c.acPointer + 4 = c.acPointer + 2 + 2 := by omega
    rw [e4, e]
    simp only [AC__MinLength] at hlow3 hA
    norm_num at hlow3
    omega

theorem inside_of_encode {dist : List Nat} {N s : Nat} {c c1 : ArithmeticCodec} {S : List Nat}
    (hv : validDistribution dist N) (hs : s < N) (hc : EncPre c) (hl : 2 ^ 24 ≤ c.length)
    (henc : encodeInterval dist (N - 1) s c = .ok c1) (hin : Inside c1 S) : Inside c S := by
  obtain ⟨cm, hcm, hp, hlow, hlenm, _, _, heq⟩ := encodeInterval_spec hv hs hc hl
  obtain ⟨hb1, hb2⟩ := sym_bounds hv hs hl hc.2.2.1
  rw [heq] at henc
  have hc1 : c1 = if cm.length < AC__MinLength then encRenorm cm else cm :=
    (Except.ok.inj henc).symm
  have hinm : Inside cm S := by
    by_cases hm : cm.length < AC__MinLength
    · rw [hc1, if_pos hm] at hin
      exact inside_of_encRenorm hcm hm hin
    · rw [hc1, if_neg hm] at hin
      exact hin
  obtain ⟨i1, i2⟩ := hinm
  rw [hp, hlow] at i1 i2
  rw [hlenm] at i2
  exact ⟨by omega, by omega⟩

theorem tableBitsLoop_le {N : Nat} (hN : N ≤ 2048) :
    ∀ fuel tb, tb ≤ 9 → tableBitsLoop N fuel tb ≤ 9 := by
  intro fuel
  induction fuel with
  | zero => intro tb h; exact h
  | succ fuel ih =>
    intro tb h
    unfold tableBitsLoop
    split
    · rename_i hgt
      apply ih
      by_contra hcon
      have h9 : tb = 9 := by omega
      subst h9
      simp [u32] at hgt
      omega
    · exact h

/-- What `setDistribution` builds from a valid cumulative table. -/
theorem setDistribution_spec {N : Nat} {cum : Nat → Nat} {model : StaticDataModel}
    (h : StaticDataModel.new.setDistribution N cum true = .ok model) :
    model.dataSymbols = N ∧ model.lastSymbol = N - 1 ∧
      model.distribution = (List.range N).map (fun k => u32 (cum k)) ∧
      (validDistribution model.distribution N →
        DecTable model.distribution N model.decoderTable model.tableShift) := by
  unfold StaticDataModel.setDistribution at h
  by_cases hN : N < 2 ∨ N > 1 <<< 11
  · rw [if_pos hN] at h
    cases h
  · have hN0 : StaticDataModel.new.dataSymbols ≠ N := by
      show 0 ≠ N
      omega
    have hN2 : N ≤ 2048 := by
      have : (1 : Nat) <<< 11 = 2048 := by decide
      omega
    rw [if_neg hN] at h
    simp only [if_pos hN0, Bool.true_eq_false, if_false] at h
    by_cases h16 : N > 16
    · simp only [if_pos h16] at h
      have htb := tableBitsLoop_le hN2 32 3 (by omega)
      generalize tableBitsLoop N 32 3 = tb at h htb
      have hsz : (1 <<< tb) + 4 ≠ 0 := Nat.succ_ne_zero _
      simp only [hsz, if_false] at h
      have hm := (Except.ok.inj h).symm
      subst hm
      refine ⟨rfl, rfl, rfl, fun hv => ?_⟩
      refine ⟨tb, htb, rfl, ?_⟩
      have e : (1 <<< tb) + 4 = 2 ^ tb + 4 := by rw [Nat.one_shiftLeft]
      simp only [e]
      exact buildTable_ok hv rfl htb
    · simp only [if_neg h16, if_true] at h
      have hm := (Except.ok.inj h).symm
      subst hm
      exact ⟨rfl, rfl, rfl, fun _ => trivial⟩

theorem encodeAll_ok {model : StaticDataModel} {N : Nat}
    (hv : validDistribution model.distribution N) (hlast : model.lastSymbol = N - 1) :
    ∀ (syms : List Nat), (∀ s ∈ syms, s < N) → ∀ c, EncPre c → 2 ^ 24 ≤ c.length →
      ∃ c2, encodeAll model syms c = .ok c2 ∧ EncPre c2 ∧ 2 ^ 24 ≤ c2.length ∧
        c2.acPointer ≤ c.acPointer + 2 * syms.length ∧ c2.mode = c.mode ∧
        c2.bufferSize = c.bufferSize := by
  intro syms
  induction syms with
  | nil => intro _ c hc hl; exact ⟨c, rfl, hc, hl, by simp, rfl, rfl⟩
  | cons s ss ih =>
    intro hs c hc hl
    obtain ⟨c1, h1, h2, h3, _, h5, h6, h7⟩ :=
      encodeInterval_ok hv (hs s (List.mem_cons_self _ _)) hc hl
    obtain ⟨c2, g1, g2, g3, g4, g5, g6⟩ :=
      ih (fun x hx => hs x (List.mem_cons_of_mem _ hx)) c1 h2 h3
    refine ⟨c2, ?_, g2, g3, ?_, by rw [g5, h6], by rw [g6, h7]⟩
    · unfold encodeAll encode
      rw [hlast, h1, ok_bind]
      exact g1
    · simp only [List.length_cons]
      omega

theorem inside_of_encodeAll {model : StaticDataModel} {N : Nat} {S : List Nat}
    (hv : validDistribution model.distribution N) (hlast : model.lastSymbol = N - 1) :
    ∀ (syms : List Nat), (∀ s ∈ syms, s < N) → ∀ c c2, EncPre c → 2 ^ 24 ≤ c.length →
      encodeAll model syms c = .ok c2 → Inside c2 S → Inside c S := by
  intro syms
  induction syms with
  | nil =>
    intro _ c c2 _ _ h hin
    have : c = c2 := Except.ok.inj h
    rw [this]; exact hin
  | cons s ss ih =>
    intro hs c c2 hc hl h hin
    have hs0 := hs s (List.mem_cons_self _ _)
    obtain ⟨c1, h1, h2, h3, _⟩ := encodeInterval_ok hv hs0 hc hl
    unfold encodeAll encode at h
    rw [hlast, h1, ok_bind] at h
    exact inside_of_encode hv hs0 hc hl h1
      (ih (fun x hx => hs x (List.mem_cons_of_mem _ hx)) c1 c2 h2 h3 h hin)

theorem decodeAll_encodeAll {model : StaticDataModel} {N : Nat}
    (hv : validDistribution model.distribution N) (hlast : model.lastSymbol = N - 1)
    (hN : model.dataSymbols = N)
    (hd : DecTable model.distribution N model.decoderTable model.tableShift) :
    ∀ (syms : List Nat), (∀ s ∈ syms, s < N) → ∀ c d c2, EncPre c → 2 ^ 24 ≤ c.length →
      Sim c d → encodeAll model syms c = .ok c2 → Inside c2 d.codeBuffer →
      ∃ d2, decodeAll model syms.length d = .ok (syms, d2) ∧ Sim c2 d2 ∧
        d2.mode = d.mode := by
  intro syms
  induction syms with
  | nil =>
    intro _ c d c2 _ _ hsim h _
    have : c = c2 := Except.ok.inj h
    rw [← this]
    exact ⟨d, rfl, hsim, rfl⟩
  | cons s ss ih =>
    intro hs c d c2 hc hl hsim h hin
    have hs0 := hs s (List.mem_cons_self _ _)
    have hss := fun x hx => hs x (List.mem_cons_of_mem s hx)
    obtain ⟨c1, h1, h2, h3, _⟩ := encodeInterval_ok hv hs0 hc hl
    unfold encodeAll encode at h
    rw [hlast, h1, ok_bind] at h
    have hin1 : Inside c1 d.codeBuffer := inside_of_encodeAll hv hlast ss hss c1 c2 h2 h3 h hin
    obtain ⟨d1, e1, e2, e3, e4, _, _⟩ :=
      decodeInterval_spec model.tableShift hv hd hs0 hc hl hsim h1 hin1
    obtain ⟨d2, f1, f2, f3⟩ := ih hss c1 d1 c2 h2 h3 e2 h (by rw [e3]; exact hin)
    refine ⟨d2, ?_, f2, by rw [f3, e4]⟩
    simp only [List.length_cons]
    unfold decodeAll decode
    rw [hN, hlast, e1]
    simp only [ok_bind, f1, pure, Except.pure]

theorem or_bytes (b0 : Nat) {b1 b2 b3 : Nat} (h1 : b1 < 256) (h2 : b2 < 256)
    (h3 : b3 < 256) :
    (b0 <<< 24) ||| (b1 <<< 16) ||| (b2 <<< 8) ||| b3 =
      ((b0 * 256 + b1) * 256 + b2) * 256 + b3 := by
  have e0 : b0 <<< 24 = 2 ^ 24 * b0 := by rw [Nat.shiftLeft_eq]; omega
  have e1 : (2 : Nat) ^ 24 * b0 ||| b1 <<< 16 = 2 ^ 16 * (b0 * 256 + b1) := by
    rw [← Nat.mul_add_lt_is_or (by rw [Nat.shiftLeft_eq]; omega), Nat.shiftLeft_eq]
    omega
  have e2 : (2 : Nat) ^ 16 * (b0 * 256 + b1) ||| b2 <<< 8 =
      2 ^ 8 * ((b0 * 256 + b1) * 256 + b2) := by
    rw [← Nat.mul_add_lt_is_or (by rw [Nat.shiftLeft_eq]; omega), Nat.shiftLeft_eq]
    omega
  rw [e0, e1, e2, ← Nat.mul_add_lt_is_or (by omega)]
  omega

theorem streamVal_four (S : List Nat) :
    streamVal S 4 = ((byteAt S 0 * 256 + byteAt S 1) * 256 + byteAt S 2) * 256 + byteAt S 3 := by
  simp only [streamVal]
  omega

theorem startEncoder_spec {c : ArithmeticCodec} (hm : c.mode = 0) (hb : c.bufferSize ≠ 0) :
    startEncoder c =
      .ok { c with mode := 1, base := 0, length := AC__MaxLength, acPointer := 0 } := by
  unfold startEncoder
  rw [if_neg (by rw [hm]; simp), if_neg hb]

theorem startDecoder_spec {c : ArithmeticCodec} (hm : c.mode = 0) (hb : c.bufferSize ≠ 0) :
    startDecoder c =
      .ok { c with mode := 2, length := AC__MaxLength, acPointer := 3,
                   value := streamVal c.codeBuffer 4 } := by
  unfold startDecoder
  rw [if_neg (by rw [hm]; simp), if_neg hb, streamVal_four]
  have := or_bytes (byteAt c.codeBuffer 0) (byteAt_lt c.codeBuffer 1)
    (byteAt_lt c.codeBuffer 2) (byteAt_lt c.codeBuffer 3)
  unfold byteAt at this ⊢
  rw [this]

theorem encPre_start (c : ArithmeticCodec) :
    EncPre { c with mode := 1, base := 0, length := AC__MaxLength, acPointer := 0 } := by
  refine ⟨Nat.zero_le _, by norm_num, by simp [AC__MaxLength], ?_⟩
  simp [low, streamVal, AC__MaxLength]

/-- The flush of `stopEncoder` on a state reached by encoding. -/
theorem stopEncoder_ok {c : ArithmeticCodec} (hc : EncPre c) (hl : 2 ^ 24 ≤ c.length)
    (hm : c.mode = 1) (hbs : c.acPointer + 2 ≤ c.bufferSize) (h32 : c.bufferSize < 2 ^ 32) :
    ∃ c3, stopEncoder c = .ok (c.acPointer + stopBytes c, c3) ∧ c3.mode = 0 ∧
      c3.acPointer = c.acPointer + stopBytes c ∧ c3.acPointer ≤ c3.codeBuffer.length ∧
      ∀ S, (∀ i, i < c3.acPointer → byteAt S i = byteAt c3.codeBuffer i) → Inside c S := by
  obtain ⟨hp, hb, hlen, hin⟩ := hc
  have hoff : stopOffset c < c.length := by
    unfold stopOffset
    split <;> simp only [AC__MinLength] at * <;> omega
  have hsb : stopBytes c ≤ 2 := by
    unfold stopBytes
    split <;> omega
  obtain ⟨c3, h1, h2, h3, h4, h5, h6, h7⟩ := stopEncoder_core c hm hp hb (by
    intro hw
    unfold low at hin
    omega)
  refine ⟨c3, ?_, h1, h3, h6, fun S hS => inside_stop hl h4 h5 h3 hS⟩
  rw [h7, u32_of_lt (by omega), if_neg (by omega), h3]

/-- **C1** Static-model round trip. For every static model built by
`setDistribution` whose cumulative table satisfies the model invariant
(`2 <= N <= 2048`, `distribution[0] = 0`, strictly increasing,
`distribution[N-1] < 2^15`) and every list of symbols all `< N`: running
`startEncoder`, `encode` on each symbol in order and `stopEncoder` on a coder
whose buffer is large enough returns a number `k` of code bytes, and
`startDecoder` on any buffer that begins with those `k` bytes, whatever bytes
`rest` follow, then `decode` called once per symbol with the same model,
returns exactly the original list. -/
theorem static_round_trip (N : Nat) (cum : Nat → Nat) (model : StaticDataModel)
    (syms rest : List Nat) (c dc : ArithmeticCodec)
    (hset : StaticDataModel.new.setDistribution N cum true = .ok model)
    (hv : validDistribution model.distribution N)
    (hs : ∀ s ∈ syms, s < N)
    (hc : c.mode = 0) (hbuf : 2 * syms.length + 2 ≤ c.bufferSize) (hb32 : c.bufferSize < 2 ^ 32)
    (hdc : dc.mode = 0) (hdbuf : dc.bufferSize ≠ 0) :
    ∃ k c3, encodeSequence model syms c = .ok (k, c3) ∧
      ∃ d, decodeSequence model syms.length
        { dc with codeBuffer := c3.codeBuffer.take k ++ rest } = .ok (syms, d) := by
  obtain ⟨hN, hlast, _, hd⟩ := setDistribution_spec hset
  have hd := hd hv
  have hstart := startEncoder_spec (c := c) hc (by omega)
  have hpre := encPre_start c
  generalize hc1 : ({ c with mode := 1, base := 0, length := AC__MaxLength, acPointer := 0 } :
    ArithmeticCodec) = c1 at hstart hpre
  have hc1len : c1.length = AC__MaxLength := by rw [← hc1]
  have hc1p : c1.acPointer = 0 := by rw [← hc1]
  have hc1m : c1.mode = 1 := by rw [← hc1]
  have hc1b : c1.bufferSize = c.bufferSize := by rw [← hc1]
  have hc1base : c1.base = 0 := by rw [← hc1]
  have hl1 : 2 ^ 24 ≤ c1.length := by rw [hc1len]; simp [AC__MaxLength]
  obtain ⟨c2, e1, e2, e3, e4, e5, e6⟩ := encodeAll_ok hv hlast syms hs c1 hpre hl1
  obtain ⟨c3, f1, f2, f3, f4, f5⟩ := stopEncoder_ok e2 e3 (by rw [e5, hc1m])
    (by rw [e6, hc1b]; omega) (by rw [e6, hc1b]; exact hb32)
  refine ⟨c2.acPointer + stopBytes c2, c3, ?_, ?_⟩
  · unfold encodeSequence
    rw [hstart, ok_bind, e1, ok_bind, f1]
  · rw [← f3]
    generalize hS : c3.codeBuffer.take c3.acPointer ++ rest = S
    have hinS : Inside c2 S := f5 S (fun i hi => by rw [← hS]; exact byteAt_take_append f4 hi)
    have hsd := startDecoder_spec (c := { dc with codeBuffer := S }) hdc hdbuf
    have hsim : Sim c1
        { dc with
          codeBuffer := S
          mode := 2
          length := AC__MaxLength
          acPointer := 3
          value := streamVal S 4 } := by
      refine ⟨hc1len.symm, by rw [hc1p], ?_⟩
      show streamVal S 4 + low c1 = streamVal S (c1.acPointer + 4)
      unfold low
      rw [hc1p, hc1base]
      simp [streamVal]
    obtain ⟨d2, g1, _, _⟩ := decodeAll_encodeAll hv hlast hN hd syms hs c1 _ c2 hpre hl1 hsim e1 hinS
    refine ⟨d2, ?_⟩
    unfold decodeSequence
    rw [hsd, ok_bind]
    exact g1

/-- Witness of `static_round_trip`: `N = 3`, distribution `[0, 16384, 26214]`,
sequence `[0,1,2,0,1,2]`, followed in the decoder's buffer by three bytes. -/
theorem static_round_trip_witness :
    (StaticDataModel.new.setDistribution 3 (fun k => [0, 16384, 26214].getD k 0) true =
        .ok threeSymbolModel) ∧
      validDistribution threeSymbolModel.distribution 3 ∧
      ∃ k c3, encodeSequence threeSymbolModel [0, 1, 2, 0, 1, 2] idleCoder = .ok (k, c3) ∧
        ∃ d, decodeSequence threeSymbolModel [0, 1, 2, 0, 1, 2].length
          { idleCoder with codeBuffer := c3.codeBuffer.take k ++ [9, 8, 7] } =
            .ok ([0, 1, 2, 0, 1, 2], d) :=
  ⟨by decide, by decide,
    static_round_trip 3 (fun k => [0, 16384, 26214].getD k 0) threeSymbolModel
      [0, 1, 2, 0, 1, 2] [9, 8, 7] idleCoder idleCoder (by decide) (by decide) (by decide)
      rfl (by decide) (by decide) rfl (by decide)⟩

/-! ## The cumulative distribution computed by `update` -/

theorem cumulative_length (scale : Nat) : ∀ (cs : List Nat) (acc : Nat),
    (cumulative scale cs acc).length = cs.length := by
  intro cs
  induction cs with
  | nil => intro acc; rfl
  | cons c cs ih => intro acc; simp [cumulative, ih]

theorem cumulative_aux {scale total : Nat} (hs1 : 2 ^ 16 ≤ scale) (hs2 : scale * total ≤ 2 ^ 31) :
    ∀ (cs : List Nat) (acc : Nat), acc + cs.sum ≤ total → (∀ c ∈ cs, 1 ≤ c) →
      (cumulative scale cs acc).Pairwise (· < ·) ∧
      ∀ x ∈ cumulative scale cs acc, (scale * acc) >>> 16 ≤ x ∧ x < 2 ^ 15 := by
  intro cs
  induction cs with
  | nil => intro acc _ _; simp [cumulative]
  | cons c cs ih =>
    intro acc hsum hpos
    simp only [List.sum_cons] at hsum
    have hc : 1 ≤ c := hpos c (List.mem_cons_self _ _)
    have hacc : acc + c ≤ total := by omega
    have h1 : scale * (acc + c) ≤ scale * total := Nat.mul_le_mul_left _ hacc
    have h2 : scale * (acc + c) = scale * acc + scale * c := Nat.mul_add _ _ _
    have h3 : scale * 1 ≤ scale * c := Nat.mul_le_mul_left _ hc
    have hu : u32 (scale * acc) = scale * acc := u32_of_lt (by omega)
    have hu2 : u32 (acc + c) = acc + c := by
      apply u32_of_lt
      have : 2 ^ 16 * total ≤ scale * total := Nat.mul_le_mul_right _ hs1
      omega
    obtain ⟨ih1, ih2⟩ := ih (acc + c) (by omega) (fun x hx => hpos x (List.mem_cons_of_mem _ hx))
    have hhead : (scale * acc) >>> 16 + 1 ≤ (scale * (acc + c)) >>> 16 := by
      simp only [Nat.shiftRight_eq_div_pow]
      omega
    have hhead2 : (scale * acc) >>> 16 < 2 ^ 15 := by
      simp only [Nat.shiftRight_eq_div_pow]
      omega
    unfold cumulative
    rw [hu, hu2]
    have e : 31 - DM__LengthShift = 16 := by decide
    rw [e]
    refine ⟨?_, ?_⟩
    · rw [List.pairwise_cons]
      refine ⟨fun x hx => ?_, ih1⟩
      have := (ih2 x hx).1
      omega
    · intro x hx
      rcases List.mem_cons.mp hx with hx | hx
      · rw [hx]; exact ⟨le_refl _, hhead2⟩
      · have := ih2 x hx
        exact ⟨by omega, this.2⟩

/-- The table `update` computes from counts that are all at least 1 and sum
to `totalCount <= 2^15` is a valid cumulative distribution. -/
theorem cumulative_valid {counts : List Nat} {N total : Nat} (hlen : counts.length = N)
    (hN2 : 2 ≤ N) (hN : N ≤ 2048) (hpos : ∀ c ∈ counts, 1 ≤ c) (hsum : counts.sum = total)
    (ht : total ≤ 2 ^ 15) :
    validDistribution (cumulative (0x80000000 / total) counts 0) N := by
  have ht0 : 0 < total := by
    cases counts with
    | nil => simp at hlen; omega
    | cons c cs =>
      have := hpos c (List.mem_cons_self _ _)
      simp only [List.sum_cons] at hsum
      omega
  have hs1 : 2 ^ 16 ≤ 0x80000000 / total := by
    rw [Nat.le_div_iff_mul_le ht0]
    omega
  have hs2 : 0x80000000 / total * total ≤ 2 ^ 31 := Nat.div_mul_le_self _ _
  obtain ⟨h1, h2⟩ := cumulative_aux hs1 hs2 counts 0 (by omega) hpos
  have hl := cumulative_length (0x80000000 / total) counts 0
  refine ⟨by rw [hl, hlen], hN2, hN, ?_, h1, ?_⟩
  · cases counts with
    | nil => simp at hlen; omega
    | cons c cs => simp [cumulative, u32]
  · have hmem : (cumulative (0x80000000 / total) counts 0).getD (N - 1) 0 ∈
        cumulative (0x80000000 / total) counts 0 := by
      rw [getD_eq_getElem (by omega)]
      exact List.getElem_mem _
    exact (h2 _ hmem).2

theorem mem_le_sum : ∀ (cs : List Nat) (c : Nat), c ∈ cs → c ≤ cs.sum := by
  intro cs
  induction cs with
  | nil => intro c h; cases h
  | cons a cs ih =>
    intro c h
    simp only [List.sum_cons]
    rcases List.mem_cons.mp h with h | h
    · omega
    · have := ih c h; omega

theorem halved_spec : ∀ (cs : List Nat), (∀ c ∈ cs, 1 ≤ c) → (∀ c ∈ cs, c + 1 < 2 ^ 32) →
    (cs.map (fun c => u32 (c + 1) >>> 1)).sum * 2 ≤ cs.sum + cs.length ∧
    cs.length ≤ (cs.map (fun c => u32 (c + 1) >>> 1)).sum ∧
    (∀ c ∈ cs.map (fun c => u32 (c + 1) >>> 1), 1 ≤ c) ∧
    cs.map (fun c => u32 (c + 1) >>> 1) = cs.map (fun c => (c + 1) / 2) := by
  intro cs
  induction cs with
  | nil => intro _ _; simp
  | cons a cs ih =>
    intro h1 h2
    obtain ⟨i1, i2, i3, i4⟩ := ih (fun c hc => h1 c (List.mem_cons_of_mem _ hc))
      (fun c hc => h2 c (List.mem_cons_of_mem _ hc))
    have ha1 := h1 a (List.mem_cons_self _ _)
    have ha2 := h2 a (List.mem_cons_self _ _)
    have e : u32 (a + 1) >>> 1 = (a + 1) / 2 := by
      rw [u32_of_lt ha2]
      simp [Nat.shiftRight_eq_div_pow]
    simp only [List.map_cons, List.sum_cons, List.length_cons, e]
    refine ⟨by omega, by omega, ?_, by rw [i4]⟩
    intro c hc
    rcases List.mem_cons.mp hc with hc | hc
    · omega
    · exact i3 c hc

theorem one_shiftLeft_eq (n : Nat) : 1 <<< n = 2 ^ n := Nat.one_shiftLeft n

/-- What `update` does on a model whose counts add up to
`totalCount + updateCycle`. -/
theorem update_spec {N : Nat} {m : AdaptiveDataModel} (flag : Bool) (hN2 : 2 ≤ N)
    (hN : N ≤ 2048) (hds : m.dataSymbols = N) (hlast : m.lastSymbol = N - 1)
    (hlen : m.symbolCount.length = N) (hpos : ∀ c ∈ m.symbolCount, 1 ≤ c)
    (hsum : m.symbolCount.sum = m.totalCount + m.updateCycle) (hc1 : 1 ≤ m.updateCycle)
    (hc2 : m.updateCycle ≤ (N + 6) * 8) (htot : m.totalCount ≤ 2 ^ 15)
    (hshape : TableShape N m) :
    ∃ m', AdaptiveDataModel.update flag m = .ok m' ∧ AdaptInv N m' ∧
      m'.symbolsUntilUpdate = m'.updateCycle ∧
      m'.updateCycle = min (5 * m.updateCycle / 4) ((N + 6) * 8) ∧
      m'.symbolCount.sum = m'.totalCount ∧
      (flag = false → DecSync N m') ∧
      (flag = true → m'.decoderTable = m.decoderTable) ∧
      (m.totalCount + m.updateCycle > 2 ^ 15 →
        m'.symbolCount = m.symbolCount.map (fun c => (c + 1) / 2) ∧
        m'.totalCount * 2 ≤ m.totalCount + m.updateCycle + N) ∧
      (¬ m.totalCount + m.updateCycle > 2 ^ 15 →
        m'.symbolCount = m.symbolCount ∧ m'.totalCount = m.totalCount + m.updateCycle) := by
  have hmax : DM__MaxCount = 2 ^ 15 := by decide
  have hu0 : u32 (m.totalCount + m.updateCycle) = m.totalCount + m.updateCycle :=
    u32_of_lt (by omega)
  have hle32 : ∀ c ∈ m.symbolCount, c + 1 < 2 ^ 32 := fun c hc => by
    have := mem_le_sum _ c hc
    omega
  obtain ⟨g1, g2, g3, g4⟩ := halved_spec m.symbolCount hpos hle32
  rw [hlen] at g1 g2
  have hsumN : N ≤ m.symbolCount.sum := by
    have := (halved_spec m.symbolCount hpos hle32).2.1
    have := (halved_spec m.symbolCount hpos hle32).1
    omega
  have hcyc : u32 (5 * m.updateCycle) >>> 2 = 5 * m.updateCycle / 4 := by
    rw [u32_of_lt (by omega)]
    simp [Nat.shiftRight_eq_div_pow]
  have hmaxc : u32 ((m.dataSymbols + 6) <<< 3) = (N + 6) * 8 := by
    rw [hds, Nat.shiftLeft_eq, u32_of_lt (by omega)]
  -- the new counts and their total
  generalize hcs : (if u32 (m.totalCount + m.updateCycle) > DM__MaxCount then
      m.symbolCount.map (fun c => u32 (c + 1) >>> 1) else m.symbolCount) = cs
  generalize htc : (if u32 (m.totalCount + m.updateCycle) > DM__MaxCount then
      u32 (m.symbolCount.map (fun c => u32 (c + 1) >>> 1)).sum
      else u32 (m.totalCount + m.updateCycle)) = tc
  have hfacts : cs.length = N ∧ (∀ c ∈ cs, 1 ≤ c) ∧ cs.sum = tc ∧ N ≤ tc ∧ tc ≤ 2 ^ 15 ∧
      (m.totalCount + m.updateCycle > 2 ^ 15 →
        cs = m.symbolCount.map (fun c => (c + 1) / 2) ∧
        tc * 2 ≤ m.totalCount + m.updateCycle + N) ∧
      (¬ m.totalCount + m.updateCycle > 2 ^ 15 →
        cs = m.symbolCount ∧ tc = m.totalCount + m.updateCycle) := by
    rw [hu0, hmax] at hcs htc
    by_cases hh : m.totalCount + m.updateCycle > 2 ^ 15
    · rw [if_pos hh] at hcs htc
      rw [u32_of_lt (by omega)] at htc
      subst hcs htc
      refine ⟨by simp [hlen], g3, rfl, g2, by omega, fun _ => ⟨g4, by omega⟩,
        fun h => absurd hh h⟩
    · rw [if_neg hh] at hcs htc
      subst hcs htc
      exact ⟨hlen, hpos, hsum, by omega, by omega, fun h => absurd h hh, fun _ => ⟨rfl, rfl⟩⟩
  obtain ⟨f1, f2, f3, f4, f5, f6, f7⟩ := hfacts
  have hvalid := cumulative_valid f1 hN2 hN f2 f3 f5
  have hcycle : (if u32 (5 * m.updateCycle) >>> 2 > u32 ((m.dataSymbols + 6) <<< 3) then
      u32 ((m.dataSymbols + 6) <<< 3) else u32 (5 * m.updateCycle) >>> 2) =
      min (5 * m.updateCycle / 4) ((N + 6) * 8) := by
    rw [hcyc, hmaxc]
    split <;> omega
  unfold AdaptiveDataModel.update
  simp only [hcs, htc, hcycle]
  rw [if_neg (by omega)]
  refine ⟨_, rfl, ?_, rfl, rfl, f3, ?_, ?_, f6, f7⟩
  · refine ⟨hN2, hN, hds, hlast, f1, f2, ?_, ?_, le_refl _, ?_, f4, f5, hvalid, ?_⟩
    · show cs.sum = tc + (min (5 * m.updateCycle / 4) ((N + 6) * 8) -
        min (5 * m.updateCycle / 4) ((N + 6) * 8))
      omega
    · show 1 ≤ min (5 * m.updateCycle / 4) ((N + 6) * 8)
      omega
    · show min (5 * m.updateCycle / 4) ((N + 6) * 8) ≤ (N + 6) * 8
      omega
    · rcases hshape with ⟨a1, a2, a3⟩ | ⟨a1, tb, a2, a3, a4, a5⟩
      · left
        refine ⟨a1, a2, ?_⟩
        show (if flag = true ∨ m.tableSize = 0 then m.decoderTable else _) = none
        rw [if_pos (Or.inr a2)]
        exact a3
      · right
        refine ⟨a1, tb, a2, a3, a4, ?_⟩
        show (if flag = true ∨ m.tableSize = 0 then m.decoderTable else _).isSome = true
        split
        · exact a5
        · rfl
  · intro hflag
    show DecTable (cumulative (0x80000000 / tc) cs 0) N
      (if flag = true ∨ m.tableSize = 0 then m.decoderTable else _) m.tableShift
    rcases hshape with ⟨a1, a2, a3⟩ | ⟨a1, tb, a2, a3, a4, a5⟩
    · rw [if_pos (Or.inr a2), a3]
      trivial
    · rw [if_neg (by rw [hflag, a3]; simp)]
      refine ⟨tb, a2, a4, ?_⟩
      rw [hds, a3, a4]
      exact buildTable_ok hvalid rfl a2
  · intro hflag
    show (if flag = true ∨ m.tableSize = 0 then m.decoderTable else _) = m.decoderTable
    rw [if_pos (Or.inl hflag)]

theorem sum_set_succ : ∀ (l : List Nat) (s : Nat), s < l.length →
    (l.set s (l.getD s 0 + 1)).sum = l.sum + 1 := by
  intro l
  induction l with
  | nil => intro s h; simp at h
  | cons a l ih =>
    intro s h
    cases s with
    | zero => simp [List.set]; omega
    | succ s =>
      simp only [List.length_cons] at h
      have := ih s (by omega)
      simp only [List.set_cons_succ, List.sum_cons, List.getD_cons_succ]
      omega

theorem sum_replicate_one (n : Nat) : (List.replicate n 1).sum = n := by
  induction n with
  | zero => rfl
  | succ n ih => simp [List.replicate_succ, ih]; omega

/-- What `reset` does on a model that has an alphabet. -/
theorem reset_spec {N : Nat} {m : AdaptiveDataModel} (hN2 : 2 ≤ N) (hN : N ≤ 2048)
    (hds : m.dataSymbols = N) (hlast : m.lastSymbol = N - 1) (hshape : TableShape N m) :
    ∃ m', AdaptiveDataModel.reset m = .ok m' ∧ AdaptInv N m' ∧ DecSync N m' ∧
      m'.symbolsUntilUpdate = (N + 6) / 2 ∧ m'.updateCycle = (N + 6) / 2 ∧
      m'.symbolCount = List.replicate N 1 ∧ m'.totalCount = N := by
  obtain ⟨m2, h1, h2, _, _, h5, h6, _, _, h9⟩ := update_spec (N := N)
    (m := { m with totalCount := 0, updateCycle := m.dataSymbols,
                   symbolCount := List.replicate m.dataSymbols 1 })
    false hN2 hN hds hlast (by simp [hds])
    (fun c hc => by rw [List.eq_of_mem_replicate hc])
    (by show (List.replicate m.dataSymbols 1).sum = 0 + m.dataSymbols
        rw [sum_replicate_one]; omega)
    (by show 1 ≤ m.dataSymbols; omega) (by show m.dataSymbols ≤ _; omega)
    (by show 0 ≤ 2 ^ 15; omega) hshape
  obtain ⟨h9a, h9b⟩ := h9 (by show ¬ 0 + m.dataSymbols > 2 ^ 15; omega)
  replace h9a : m2.symbolCount = List.replicate N 1 := by rw [h9a, hds]
  replace h9b : m2.totalCount = N := by rw [h9b]; show 0 + m.dataSymbols = N; omega
  have e : (m2.dataSymbols + 6) >>> 1 = (N + 6) / 2 := by
    rw [h2.dataSymbols_eq]; simp [Nat.shiftRight_eq_div_pow]
  unfold AdaptiveDataModel.reset
  rw [if_neg (by omega), h1]
  simp only [e]
  refine ⟨_, rfl, ?_, h6 rfl, rfl, rfl, h9a, h9b⟩
  refine ⟨hN2, hN, h2.dataSymbols_eq, h2.lastSymbol_eq, h2.count_length, h2.count_pos, ?_, ?_,
    le_refl _, ?_, h2.total_ge, h2.total_le, h2.dist_valid, h2.shape⟩
  · show m2.symbolCount.sum = m2.totalCount + ((N + 6) / 2 - (N + 6) / 2)
    omega
  · show 1 ≤ (N + 6) / 2
    omega
  · show (N + 6) / 2 ≤ (N + 6) * 8
    omega

/-- What `setAlphabet` does on a new model. -/
theorem setAlphabet_spec {N : Nat} {m : AdaptiveDataModel}
    (h : AdaptiveDataModel.new.setAlphabet N = .ok m) :
    AdaptInv N m ∧ DecSync N m ∧ m.symbolsUntilUpdate = (N + 6) / 2 ∧
      m.updateCycle = (N + 6) / 2 ∧ m.symbolCount = List.replicate N 1 ∧ m.totalCount = N := by
  unfold AdaptiveDataModel.setAlphabet at h
  by_cases hN : N < 2 ∨ N > 1 <<< 11
  · rw [if_pos hN] at h
    cases h
  · have hN0 : AdaptiveDataModel.new.dataSymbols ≠ N := by
      show 0 ≠ N
      omega
    have hN2 : N ≤ 2048 := by
      have : (1 : Nat) <<< 11 = 2048 := by decide
      omega
    rw [if_neg hN, if_pos hN0] at h
    have key : ∀ m1 : AdaptiveDataModel, m1.dataSymbols = N → m1.lastSymbol = N - 1 →
        TableShape N m1 → AdaptiveDataModel.reset m1 = .ok m →
        AdaptInv N m ∧ DecSync N m ∧ m.symbolsUntilUpdate = (N + 6) / 2 ∧
          m.updateCycle = (N + 6) / 2 ∧ m.symbolCount = List.replicate N 1 ∧
          m.totalCount = N := by
      intro m1 a1 a2 a3 a4
      obtain ⟨m', b1, b2⟩ := reset_spec (by omega) hN2 a1 a2 a3
      rw [b1] at a4
      have : m' = m := Except.ok.inj a4
      rw [← this]
      exact b2
    by_cases h16 : N > 16
    · rw [if_pos h16] at h
      refine key _ rfl rfl ?_ h
      right
      refine ⟨h16, tableBitsLoop N 32 3, tableBitsLoop_le hN2 32 3 (by omega), ?_, rfl, rfl⟩
      show (1 <<< tableBitsLoop N 32 3) + 4 = _
      rw [Nat.one_shiftLeft]
    · rw [if_neg h16] at h
      refine key _ rfl rfl ?_ h
      left
      exact ⟨by omega, rfl, rfl⟩

/-- What the count statements at the end of `encode` and `decode` do to a
model that satisfies the invariant. -/
theorem count_spec {N s : Nat} {m : AdaptiveDataModel} (flag : Bool) (hinv : AdaptInv N m)
    (hs : s < N) :
    ∃ m', AdaptiveDataModel.count s flag m = .ok m' ∧ AdaptInv N m' ∧
      (flag = false → DecSync N m → DecSync N m') ∧
      (m.symbolsUntilUpdate ≠ 1 →
        m' = { m with
          symbolCount := m.symbolCount.set s (m.symbolCount.getD s 0 + 1)
          symbolsUntilUpdate := m.symbolsUntilUpdate - 1 }) ∧
      (m.symbolsUntilUpdate = 1 →
        AdaptiveDataModel.update flag
          { m with
            symbolCount := m.symbolCount.set s (m.symbolCount.getD s 0 + 1)
            symbolsUntilUpdate := 0 } = .ok m' ∧
        m'.symbolsUntilUpdate = m'.updateCycle ∧
        m'.updateCycle = min (5 * m.updateCycle / 4) ((N + 6) * 8)) := by
  have hslen : s < m.symbolCount.length := by rw [hinv.count_length]; exact hs
  have hn := mem_le_sum m.symbolCount (m.symbolCount.getD s 0) (by
    rw [getD_eq_getElem hslen]; exact List.getElem_mem _)
  have hsum := hinv.count_sum
  have h1 := hinv.until_pos
  have h2 := hinv.until_le
  have h3 := hinv.cycle_le
  have h4 := hinv.total_le
  have hNle := hinv.N_le
  have hu : u32 (m.symbolCount.getD s 0 + 1) = m.symbolCount.getD s 0 + 1 :=
    u32_of_lt (by omega)
  have hsu : sub32 m.symbolsUntilUpdate 1 = m.symbolsUntilUpdate - 1 :=
    sub32_of_le h1 (by omega)
  have hpos' : ∀ c ∈ m.symbolCount.set s (m.symbolCount.getD s 0 + 1), 1 ≤ c := by
    intro c hc
    rcases List.mem_or_eq_of_mem_set hc with hc | hc
    · exact hinv.count_pos c hc
    · omega
  have hsum' := sum_set_succ m.symbolCount s hslen
  unfold AdaptiveDataModel.count
  rw [rd_eq_ok hslen]
  simp only [hu, hsu]
  by_cases hone : m.symbolsUntilUpdate = 1
  · rw [if_pos (by omega)]
    have e0 : m.symbolsUntilUpdate - 1 = 0 := by omega
    rw [e0]
    obtain ⟨m', g1, g2, g3, g4, _, g6, _⟩ := update_spec (N := N)
      (m := { m with
        symbolCount := m.symbolCount.set s (m.symbolCount.getD s 0 + 1)
        symbolsUntilUpdate := 0 })
      flag hinv.N_ge hinv.N_le hinv.dataSymbols_eq hinv.lastSymbol_eq
      (by simp [hinv.count_length]) hpos'
      (by show (m.symbolCount.set s (m.symbolCount.getD s 0 + 1)).sum =
            m.totalCount + m.updateCycle
          omega)
      (by show 1 ≤ m.updateCycle; omega) h3 h4 hinv.shape
    exact ⟨m', g1, g2, fun hf _ => g6 hf, fun h => absurd hone h, fun _ => ⟨g1, g3, g4⟩⟩
  · rw [if_neg (by omega)]
    refine ⟨_, rfl, ?_, fun _ hd => hd, fun _ => rfl, fun h => absurd h hone⟩
    refine ⟨hinv.N_ge, hinv.N_le, hinv.dataSymbols_eq, hinv.lastSymbol_eq,
      by simp [hinv.count_length], hpos', ?_, ?_, ?_, h3, hinv.total_ge, h4, hinv.dist_valid,
      hinv.shape⟩
    · show (m.symbolCount.set s (m.symbolCount.getD s 0 + 1)).sum =
        m.totalCount + (m.updateCycle - (m.symbolsUntilUpdate - 1))
      omega
    · show 1 ≤ m.symbolsUntilUpdate - 1
      omega
    · show m.symbolsUntilUpdate - 1 ≤ m.updateCycle
      omega

theorem setAlphabet_ok {N : Nat} (hN2 : 2 ≤ N) (hN : N ≤ 2048) :
    ∃ m, AdaptiveDataModel.new.setAlphabet N = .ok m := by
  have hNn : ¬ (N < 2 ∨ N > 1 <<< 11) := by
    have : (1 : Nat) <<< 11 = 2048 := by decide
    omega
  have hN0 : AdaptiveDataModel.new.dataSymbols ≠ N := by
    show 0 ≠ N
    omega
  unfold AdaptiveDataModel.setAlphabet
  rw [if_neg hNn, if_pos hN0]
  by_cases h16 : N > 16
  · rw [if_pos h16]
    obtain ⟨m', b1, _⟩ := reset_spec (N := N) (m := { AdaptiveDataModel.new with
        dataSymbols := N
        lastSymbol := N - 1
        tableSize := (1 <<< tableBitsLoop N 32 3) + 4
        tableShift := DM__LengthShift - tableBitsLoop N 32 3
        decoderTable := some [] }) hN2 hN rfl rfl (by
      right
      refine ⟨h16, tableBitsLoop N 32 3, tableBitsLoop_le hN 32 3 (by omega), ?_, rfl, rfl⟩
      show (1 <<< tableBitsLoop N 32 3) + 4 = _
      rw [Nat.one_shiftLeft])
    exact ⟨m', b1⟩
  · rw [if_neg h16]
    obtain ⟨m', b1, _⟩ := reset_spec (N := N) (m := { AdaptiveDataModel.new with
        dataSymbols := N
        lastSymbol := N - 1
        tableSize := 0
        tableShift := 0
        decoderTable := none }) hN2 hN rfl rfl (by
      left
      exact ⟨by omega, rfl, rfl⟩)
    exact ⟨m', b1⟩

theorem update_fields {flag : Bool} {m m' : AdaptiveDataModel}
    (h : AdaptiveDataModel.update flag m = .ok m') :
    m'.symbolCount = (if u32 (m.totalCount + m.updateCycle) > DM__MaxCount then
        m.symbolCount.map (fun c => u32 (c + 1) >>> 1) else m.symbolCount) ∧
      m'.totalCount = (if u32 (m.totalCount + m.updateCycle) > DM__MaxCount then
        u32 (m.symbolCount.map (fun c => u32 (c + 1) >>> 1)).sum
        else u32 (m.totalCount + m.updateCycle)) ∧
      m'.distribution = cumulative (0x80000000 / m'.totalCount) m'.symbolCount 0 ∧
      m'.updateCycle = (if u32 (5 * m.updateCycle) >>> 2 > u32 ((m.dataSymbols + 6) <<< 3) then
        u32 ((m.dataSymbols + 6) <<< 3) else u32 (5 * m.updateCycle) >>> 2) ∧
      m'.symbolsUntilUpdate = m'.updateCycle := by
  unfold AdaptiveDataModel.update at h
  by_cases hC : u32 (m.totalCount + m.updateCycle) > DM__MaxCount
  · simp only [if_pos hC] at h ⊢
    split at h
    · cases h
    · have e := (Except.ok.inj h).symm
      subst e
      exact ⟨rfl, rfl, rfl, rfl, rfl⟩
  · simp only [if_neg hC] at h ⊢
    split at h
    · cases h
    · have e := (Except.ok.inj h).symm
      subst e
      exact ⟨rfl, rfl, rfl, rfl, rfl⟩

/-- `update` computes the lockstep state from the counts, the total, the cycle
and the number of symbols alone. -/
theorem update_same {f1 f2 : Bool} {x y x' y' : AdaptiveDataModel}
    (h1 : AdaptiveDataModel.update f1 x = .ok x') (h2 : AdaptiveDataModel.update f2 y = .ok y')
    (e1 : x.symbolCount = y.symbolCount) (e2 : x.totalCount = y.totalCount)
    (e3 : x.updateCycle = y.updateCycle) (e4 : x.dataSymbols = y.dataSymbols) :
    SameState x' y' := by
  obtain ⟨a1, a2, a3, a4, a5⟩ := update_fields h1
  obtain ⟨b1, b2, b3, b4, b5⟩ := update_fields h2
  rw [e1, e2, e3] at a1 a2
  rw [e3, e4] at a4
  have c1 : x'.symbolCount = y'.symbolCount := by rw [a1, b1]
  have c2 : x'.totalCount = y'.totalCount := by rw [a2, b2]
  have c4 : x'.updateCycle = y'.updateCycle := by rw [a4, b4]
  exact ⟨by rw [a3, b3, c1, c2], c1, c2, c4, by rw [a5, b5, c4]⟩

/-- Encoder and decoder update their models in lockstep. -/
theorem count_same {N s : Nat} {a b a' b' : AdaptiveDataModel} (ha : AdaptInv N a)
    (hb : AdaptInv N b) (hsame : SameState a b) (hs : s < N)
    (h1 : AdaptiveDataModel.count s true a = .ok a')
    (h2 : AdaptiveDataModel.count s false b = .ok b') : SameState a' b' := by
  obtain ⟨e1, e2, e3, e4, e5⟩ := hsame
  obtain ⟨a2, p1, _, _, p4, p5⟩ := count_spec true ha hs
  obtain ⟨b2, q1, _, _, q4, q5⟩ := count_spec false hb hs
  rw [h1] at p1
  rw [h2] at q1
  have ea : a' = a2 := Except.ok.inj p1
  have eb : b' = b2 := Except.ok.inj q1
  subst ea eb
  by_cases hone : a.symbolsUntilUpdate = 1
  · have hone' : b.symbolsUntilUpdate = 1 := by rw [← e5]; exact hone
    refine update_same (p5 hone).1 (q5 hone').1 ?_ e3 e4 ?_
    · show a.symbolCount.set s (a.symbolCount.getD s 0 + 1) =
        b.symbolCount.set s (b.symbolCount.getD s 0 + 1)
      rw [e2]
    · show a.dataSymbols = b.dataSymbols
      rw [ha.dataSymbols_eq, hb.dataSymbols_eq]
  · have hone' : b.symbolsUntilUpdate ≠ 1 := by rw [← e5]; exact hone
    rw [p4 hone, q4 hone']
    refine ⟨e1, ?_, e3, e4, ?_⟩
    · show a.symbolCount.set s (a.symbolCount.getD s 0 + 1) =
        b.symbolCount.set s (b.symbolCount.getD s 0 + 1)
      rw [e2]
    · show a.symbolsUntilUpdate - 1 = b.symbolsUntilUpdate - 1
      rw [e5]

theorem encodeAdaptive_ok {N s : Nat} {m : AdaptiveDataModel} {c : ArithmeticCodec}
    (hm : AdaptInv N m) (hs : s < N) (hc : EncPre c) (hl : 2 ^ 24 ≤ c.length) :
    ∃ c1 m1, encodeAdaptive s m c = .ok (c1, m1) ∧
      encodeInterval m.distribution (N - 1) s c = .ok c1 ∧
      AdaptiveDataModel.count s true m = .ok m1 ∧ AdaptInv N m1 ∧ EncPre c1 ∧
      2 ^ 24 ≤ c1.length ∧ c1.acPointer ≤ c.acPointer + 2 ∧ c1.mode = c.mode ∧
      c1.bufferSize = c.bufferSize := by
  obtain ⟨c1, h1, h2, h3, _, h5, h6, h7⟩ := encodeInterval_ok hm.dist_valid hs hc hl
  obtain ⟨m1, g1, g2, _⟩ := count_spec true hm hs
  refine ⟨c1, m1, ?_, h1, g1, g2, h2, h3, h5, h6, h7⟩
  unfold encodeAdaptive
  rw [hm.lastSymbol_eq, h1, ok_bind, g1, ok_bind]
  rfl

theorem encodeAdaptiveAll_ok {N : Nat} :
    ∀ (syms : List Nat), (∀ s ∈ syms, s < N) → ∀ (m : AdaptiveDataModel) (c : ArithmeticCodec),
      AdaptInv N m → EncPre c → 2 ^ 24 ≤ c.length →
      ∃ c2 m2, encodeAdaptiveAll syms m c = .ok (c2, m2) ∧ AdaptInv N m2 ∧ EncPre c2 ∧
        2 ^ 24 ≤ c2.length ∧ c2.acPointer ≤ c.acPointer + 2 * syms.length ∧
        c2.mode = c.mode ∧ c2.bufferSize = c.bufferSize := by
  intro syms
  induction syms with
  | nil => intro _ m c hm hc hl; exact ⟨c, m, rfl, hm, hc, hl, by simp, rfl, rfl⟩
  | cons s ss ih =>
    intro hs m c hm hc hl
    obtain ⟨c1, m1, h1, _, _, h4, h5, h6, h7, h8, h9⟩ :=
      encodeAdaptive_ok hm (hs s (List.mem_cons_self _ _)) hc hl
    obtain ⟨c2, m2, g1, g2, g3, g4, g5, g6, g7⟩ :=
      ih (fun x hx => hs x (List.mem_cons_of_mem _ hx)) m1 c1 h4 h5 h6
    refine ⟨c2, m2, ?_, g2, g3, g4, ?_, by rw [g6, h8], by rw [g7, h9]⟩
    · unfold encodeAdaptiveAll
      rw [h1, ok_bind]
      exact g1
    · simp only [List.length_cons]
      omega

theorem encodeAdaptiveAll_cons (s : Nat) (ss : List Nat) (m : AdaptiveDataModel)
    (c : ArithmeticCodec) :
    encodeAdaptiveAll (s :: ss) m c =
      (encodeAdaptive s m c >>= fun r => encodeAdaptiveAll ss r.2 r.1) := rfl

theorem encodeAdaptiveAll_append : ∀ (xs ys : List Nat) (m : AdaptiveDataModel)
    (c : ArithmeticCodec),
    encodeAdaptiveAll (xs ++ ys) m c =
      (encodeAdaptiveAll xs m c >>= fun r => encodeAdaptiveAll ys r.2 r.1) := by
  intro xs
  induction xs with
  | nil => intro ys m c; rfl
  | cons x xs ih =>
    intro ys m c
    show encodeAdaptiveAll (x :: (xs ++ ys)) m c = _
    rw [encodeAdaptiveAll_cons, encodeAdaptiveAll_cons]
    cases h : encodeAdaptive x m c with
    | error e => rfl
    | ok r =>
      simp only [ok_bind]
      exact ih ys r.2 r.1

theorem inside_of_encodeAdaptiveAll {N : Nat} {S : List Nat} :
    ∀ (syms : List Nat), (∀ s ∈ syms, s < N) → ∀ (m : AdaptiveDataModel)
      (c c2 : ArithmeticCodec) (m2 : AdaptiveDataModel),
      AdaptInv N m → EncPre c → 2 ^ 24 ≤ c.length →
      encodeAdaptiveAll syms m c = .ok (c2, m2) → Inside c2 S → Inside c S := by
  intro syms
  induction syms with
  | nil =>
    intro _ m c c2 m2 _ _ _ h hin
    have e : (c, m) = (c2, m2) := Except.ok.inj h
    have : c = c2 := congrArg Prod.fst e
    rw [this]; exact hin
  | cons s ss ih =>
    intro hs m c c2 m2 hm hc hl h hin
    have hs0 := hs s (List.mem_cons_self _ _)
    obtain ⟨c1, m1, h1, h2, _, h4, h5, h6, _⟩ := encodeAdaptive_ok hm hs0 hc hl
    unfold encodeAdaptiveAll at h
    rw [h1, ok_bind] at h
    exact inside_of_encode hm.dist_valid hs0 hc hl h2
      (ih (fun x hx => hs x (List.mem_cons_of_mem _ hx)) m1 c1 c2 m2 h4 h5 h6 h hin)

/-- The decoder with an adaptive model follows the encoder symbol by symbol,
and the two models stay in lockstep. -/
theorem decodeAdaptiveAll_encodeAdaptiveAll {N : Nat} :
    ∀ (syms : List Nat), (∀ s ∈ syms, s < N) → ∀ (me md : AdaptiveDataModel)
      (c d c2 : ArithmeticCodec) (me2 : AdaptiveDataModel),
      AdaptInv N me → AdaptInv N md → DecSync N md → SameState me md → EncPre c →
      2 ^ 24 ≤ c.length → Sim c d → encodeAdaptiveAll syms me c = .ok (c2, me2) →
      Inside c2 d.codeBuffer →
      ∃ d2 md2, decodeAdaptiveAll syms.length md d = .ok (syms, d2, md2) ∧ Sim c2 d2 ∧
        SameState me2 md2 := by
  intro syms
  induction syms with
  | nil =>
    intro _ me md c d c2 me2 _ _ _ hsame _ _ hsim h _
    have e : (c, me) = (c2, me2) := Except.ok.inj h
    have e1 : c = c2 := congrArg Prod.fst e
    have e2 : me = me2 := congrArg Prod.snd e
    rw [← e1, ← e2]
    exact ⟨d, md, rfl, hsim, hsame⟩
  | cons s ss ih =>
    intro hs me md c d c2 me2 hme hmd hsync hsame hc hl hsim h hin
    have hs0 := hs s (List.mem_cons_self _ _)
    have hss := fun x hx => hs x (List.mem_cons_of_mem s hx)
    obtain ⟨c1, me1, h1, h2, h3, h4, h5, h6, _⟩ := encodeAdaptive_ok hme hs0 hc hl
    unfold encodeAdaptiveAll at h
    rw [h1, ok_bind] at h
    have hin1 : Inside c1 d.codeBuffer :=
      inside_of_encodeAdaptiveAll ss hss me1 c1 c2 me2 h4 h5 h6 h hin
    have hdv : validDistribution md.distribution N := hmd.dist_valid
    rw [hsame.1] at h2
    obtain ⟨d1, e1, e2, e3, _, _, _⟩ :=
      decodeInterval_spec md.tableShift hdv hsync hs0 hc hl hsim h2 hin1
    obtain ⟨md1, k1, k2, k3, _⟩ := count_spec false hmd hs0
    have hsame1 : SameState me1 md1 := count_same hme hmd hsame hs0 h3 k1
    obtain ⟨d2, md2, f1, f2, f3⟩ := ih hss me1 md1 c1 d1 c2 me2 h4 k2 (k3 rfl hsync) hsame1
      h5 h6 e2 h (by rw [e3]; exact hin)
    refine ⟨d2, md2, ?_, f2, f3⟩
    simp only [List.length_cons]
    unfold decodeAdaptiveAll decodeAdaptive
    rw [hmd.dataSymbols_eq, hmd.lastSymbol_eq, e1]
    simp only [ok_bind, k1, f1, pure, Except.pure]

theorem sameState_refl (m : AdaptiveDataModel) : SameState m m := ⟨rfl, rfl, rfl, rfl, rfl⟩

theorem adaptive_prefix {N : Nat} {xs ys : List Nat} {m0 me : AdaptiveDataModel}
    {c1 d0 c2 : ArithmeticCodec} (hx : ∀ s ∈ xs, s < N) (hy : ∀ s ∈ ys, s < N)
    (hm : AdaptInv N m0) (hsync : DecSync N m0) (hc : EncPre c1) (hl : 2 ^ 24 ≤ c1.length)
    (hsim : Sim c1 d0) (henc : encodeAdaptiveAll (xs ++ ys) m0 c1 = .ok (c2, me))
    (hin : Inside c2 d0.codeBuffer) :
    ∃ ci mei di mdi, encodeAdaptiveAll xs m0 c1 = .ok (ci, mei) ∧
      ci.acPointer ≤ c1.acPointer + 2 * xs.length ∧ EncPre ci ∧ 2 ^ 24 ≤ ci.length ∧
      ci.mode = c1.mode ∧ ci.bufferSize = c1.bufferSize ∧
      decodeAdaptiveAll xs.length m0 d0 = .ok (xs, di, mdi) ∧ SameState mei mdi := by
  obtain ⟨ci, mei, h1, h2, h3, h4, h5, h6, h7⟩ := encodeAdaptiveAll_ok xs hx m0 c1 hm hc hl
  rw [encodeAdaptiveAll_append, h1, ok_bind] at henc
  have hini : Inside ci d0.codeBuffer :=
    inside_of_encodeAdaptiveAll ys hy mei ci c2 me h2 h3 h4 henc hin
  obtain ⟨di, mdi, g1, _, g3⟩ := decodeAdaptiveAll_encodeAdaptiveAll xs hx m0 m0 c1 d0 ci mei
    hm hm hsync (sameState_refl m0) hc hl hsim h1 hini
  exact ⟨ci, mei, di, mdi, h1, h5, h3, h4, h6, h7, g1, g3⟩

/-- **C2** Adaptive-model round trip with lockstep state. For every `N` in
`[2, 2048]` and every list of symbols all `< N`, with the encoder and the
decoder each starting from the adaptive model produced by `setAlphabet(N)`:
the encoder session (`startEncoder`, `encode` each symbol, `stopEncoder`, on
a coder whose buffer is large enough) returns `k` code bytes, the decoder
session on a buffer that begins with those bytes returns exactly the original
list, and for every `i` the model of the encoder after the `i`-th symbol and
the model of the decoder after the `i`-th symbol have equal distribution,
symbolCount, totalCount, updateCycle and symbolsUntilUpdate. -/
theorem adaptive_round_trip (N : Nat) (syms rest : List Nat) (c dc : ArithmeticCodec)
    (hN2 : 2 ≤ N) (hN : N ≤ 2048) (hs : ∀ s ∈ syms, s < N)
    (hc : c.mode = 0) (hbuf : 2 * syms.length + 2 ≤ c.bufferSize) (hb32 : c.bufferSize < 2 ^ 32)
    (hdc : dc.mode = 0) (hdbuf : dc.bufferSize ≠ 0) :
    ∃ m0 k c3 me, AdaptiveDataModel.new.setAlphabet N = .ok m0 ∧
      encodeAdaptiveSequence m0 syms c = .ok (k, c3, me) ∧
      (∃ d md, decodeAdaptiveSequence m0 syms.length
          { dc with codeBuffer := c3.codeBuffer.take k ++ rest } = .ok (syms, d, md)) ∧
      ∀ i, i ≤ syms.length →
        ∃ ki ci mei di mdi,
          encodeAdaptiveSequence m0 (syms.take i) c = .ok (ki, ci, mei) ∧
          decodeAdaptiveSequence m0 i
            { dc with codeBuffer := c3.codeBuffer.take k ++ rest } =
              .ok (syms.take i, di, mdi) ∧
          SameState mei mdi := by
  obtain ⟨m0, hm0⟩ := setAlphabet_ok hN2 hN
  obtain ⟨hinv, hsync, _⟩ := setAlphabet_spec hm0
  have hstart := startEncoder_spec (c := c) hc (by omega)
  have hpre := encPre_start c
  generalize hc1 : ({ c with mode := 1, base := 0, length := AC__MaxLength, acPointer := 0 } :
    ArithmeticCodec) = c1 at hstart hpre
  have hc1len : c1.length = AC__MaxLength := by rw [← hc1]
  have hc1p : c1.acPointer = 0 := by rw [← hc1]
  have hc1m : c1.mode = 1 := by rw [← hc1]
  have hc1b : c1.bufferSize = c.bufferSize := by rw [← hc1]
  have hc1base : c1.base = 0 := by rw [← hc1]
  have hl1 : 2 ^ 24 ≤ c1.length := by rw [hc1len]; simp [AC__MaxLength]
  obtain ⟨c2, me, e1, _, e2, e3, e4, e5, e6⟩ := encodeAdaptiveAll_ok syms hs m0 c1 hinv hpre hl1
  obtain ⟨c3, f1, f2, f3, f4, f5⟩ := stopEncoder_ok e2 e3 (by rw [e5, hc1m])
    (by rw [e6, hc1b]; omega) (by rw [e6, hc1b]; exact hb32)
  refine ⟨m0, c2.acPointer + stopBytes c2, c3, me, hm0, ?_, ?_⟩
  · unfold encodeAdaptiveSequence
    rw [hstart, ok_bind, e1, ok_bind, f1]
    rfl
  rw [← f3]
  generalize hS : c3.codeBuffer.take c3.acPointer ++ rest = S
  have hinS : Inside c2 S := f5 S (fun i hi => by rw [← hS]; exact byteAt_take_append f4 hi)
  have hsd := startDecoder_spec (c := { dc with codeBuffer := S }) hdc hdbuf
  have hsim : Sim c1
      { dc with
        codeBuffer := S
        mode := 2
        length := AC__MaxLength
        acPointer := 3
        value := streamVal S 4 } := by
    refine ⟨hc1len.symm, by rw [hc1p], ?_⟩
    show streamVal S 4 + low c1 = streamVal S (c1.acPointer + 4)
    unfold low
    rw [hc1p, hc1base]
    simp [streamVal]
  have key : ∀ i, i ≤ syms.length →
      ∃ ki ci mei di mdi,
        encodeAdaptiveSequence m0 (syms.take i) c = .ok (ki, ci, mei) ∧
        decodeAdaptiveSequence m0 i { dc with codeBuffer := S } =
          .ok (syms.take i, di, mdi) ∧
        SameState mei mdi := by
    intro i hi
    have hsplit : syms.take i ++ syms.drop i = syms := List.take_append_drop i syms
    have e1' := e1
    rw [← hsplit] at e1'
    obtain ⟨ci, mei, di, mdi, a1, a2, a3, a4, a5, a6, a7, a8⟩ := adaptive_prefix
      (fun s h => hs s (List.mem_of_mem_take h)) (fun s h => hs s (List.mem_of_mem_drop h))
      hinv hsync hpre hl1 hsim e1' hinS
    have hlen : (syms.take i).length = i := by rw [List.length_take]; omega
    rw [hlen] at a2 a7
    obtain ⟨c3i, b1, _⟩ := stopEncoder_ok a3 a4 (by rw [a5, hc1m])
      (by rw [a6, hc1b]; omega) (by rw [a6, hc1b]; exact hb32)
    refine ⟨ci.acPointer + stopBytes ci, c3i, mei, di, mdi, ?_, ?_, a8⟩
    · unfold encodeAdaptiveSequence
      rw [hstart, ok_bind, a1, ok_bind, b1]
      rfl
    · unfold decodeAdaptiveSequence
      rw [hsd, ok_bind]
      exact a7
  refine ⟨?_, key⟩
  obtain ⟨_, _, _, di, mdi, _, a2, _⟩ := key syms.length (le_refl _)
  rw [List.take_length] at a2
  exact ⟨di, mdi, a2⟩

/-- Witness of `adaptive_round_trip`: three symbols, the sequence
`[0,1,2,0,1,2]`. -/
theorem adaptive_round_trip_witness :
    ∃ m0 k c3 me, AdaptiveDataModel.new.setAlphabet 3 = .ok m0 ∧
      encodeAdaptiveSequence m0 [0, 1, 2, 0, 1, 2] idleCoder = .ok (k, c3, me) ∧
      (∃ d md, decodeAdaptiveSequence m0 [0, 1, 2, 0, 1, 2].length
          { idleCoder with codeBuffer := c3.codeBuffer.take k ++ [9, 8, 7] } =
            .ok ([0, 1, 2, 0, 1, 2], d, md)) ∧
      ∀ i, i ≤ [0, 1, 2, 0, 1, 2].length →
        ∃ ki ci mei di mdi,
          encodeAdaptiveSequence m0 ([0, 1, 2, 0, 1, 2].take i) idleCoder =
            .ok (ki, ci, mei) ∧
          decodeAdaptiveSequence m0 i
            { idleCoder with codeBuffer := c3.codeBuffer.take k ++ [9, 8, 7] } =
              .ok ([0, 1, 2, 0, 1, 2].take i, di, mdi) ∧
          SameState mei mdi :=
  adaptive_round_trip 3 [0, 1, 2, 0, 1, 2] [9, 8, 7] idleCoder idleCoder (by decide)
    (by decide) (by decide) rfl (by decide) (by decide) rfl (by decide)

theorem carry_lands : ∀ (p : Nat) (buf : List Nat), (∃ i, i < p ∧ byteAt buf i ≠ 255) →
    streamVal buf p + 1 < 256 ^ p := by
  intro p
  induction p with
  | zero => intro buf ⟨i, hi, _⟩; omega
  | succ p ih =>
    intro buf ⟨i, hi, hne⟩
    rw [streamVal_succ, pow_succ]
    have hb := byteAt_lt buf p
    have hsv := streamVal_lt buf p
    by_cases hip : i = p
    · subst hip
      omega
    · have := ih buf ⟨i, by omega, hne⟩
      omega

theorem exists_target {dist : List Nat} {N : Nat} (hv : validDistribution dist N) (q v : Nat) :
    ∃ s, IsTarget dist N q v s := by
  have hN2 := hv.2.1
  have h0 : dist.getD 0 0 * q ≤ v := by rw [hv.2.2.2.1]; simp
  refine ⟨Nat.findGreatest (fun k => dist.getD k 0 * q ≤ v) (N - 1), ?_, ?_, ?_⟩
  · have := Nat.findGreatest_le (P := fun k => dist.getD k 0 * q ≤ v) (N - 1)
    omega
  · exact Nat.findGreatest_spec (P := fun k => dist.getD k 0 * q ≤ v) (Nat.zero_le _) h0
  · intro h
    have := Nat.findGreatest_is_greatest (P := fun k => dist.getD k 0 * q ≤ v)
      (Nat.lt_add_one (Nat.findGreatest (fun k => dist.getD k 0 * q ≤ v) (N - 1))) (by omega)
    omega

theorem encodeAdaptive_count {s : Nat} {m m' : AdaptiveDataModel} {c c' : ArithmeticCodec}
    (h : encodeAdaptive s m c = .ok (c', m')) : AdaptiveDataModel.count s true m = .ok m' := by
  unfold encodeAdaptive at h
  cases h1 : encodeInterval m.distribution m.lastSymbol s c with
  | error e => rw [h1] at h; cases h
  | ok c1 =>
    rw [h1, ok_bind] at h
    cases h2 : AdaptiveDataModel.count s true m with
    | error e => rw [h2] at h; cases h
    | ok m1 =>
      rw [h2, ok_bind] at h
      have e : (c1, m1) = (c', m') := Except.ok.inj h
      rw [(Prod.mk.inj e).2]

theorem decodeAdaptive_count {s : Nat} {m m' : AdaptiveDataModel} {c c' : ArithmeticCodec}
    (h : decodeAdaptive m c = .ok (s, c', m')) : AdaptiveDataModel.count s false m = .ok m' := by
  unfold decodeAdaptive at h
  cases h1 : decodeInterval m.distribution m.decoderTable m.dataSymbols m.lastSymbol
      m.tableShift c with
  | error e => rw [h1] at h; cases h
  | ok sc =>
    rw [h1, ok_bind] at h
    cases h2 : AdaptiveDataModel.count sc.1 false m with
    | error e => rw [h2] at h; cases h
    | ok m1 =>
      rw [h2, ok_bind] at h
      have e : (sc.1, sc.2, m1) = (s, c', m') := Except.ok.inj h
      have e1 : sc.1 = s := (Prod.mk.inj e).1
      have e2 : m1 = m' := (Prod.mk.inj (Prod.mk.inj e).2).2
      rw [← e1, ← e2]
      exact h2

theorem count_ok_lt {s : Nat} {flag : Bool} {m m' : AdaptiveDataModel}
    (h : AdaptiveDataModel.count s flag m = .ok m') : s < m.symbolCount.length := by
  unfold AdaptiveDataModel.count at h
  cases h1 : rd m.symbolCount s with
  | error e => rw [h1] at h; cases h
  | ok n => exact (rd_ok_lt h1).1

/-- Every reachable state satisfies the invariant of adaptive models. -/
theorem reachable_inv {N : Nat} {m : AdaptiveDataModel} (h : Reachable N m) : AdaptInv N m := by
  induction h with
  | setAlphabet h => exact (setAlphabet_spec h).1
  | reset _ h ih =>
    obtain ⟨m2, h1, h2, _⟩ := reset_spec ih.N_ge ih.N_le ih.dataSymbols_eq ih.lastSymbol_eq
      ih.shape
    rw [h1] at h
    rw [← Except.ok.inj h]
    exact h2
  | encode _ hs h ih =>
    obtain ⟨m2, h1, h2, _⟩ := count_spec true ih hs
    rw [encodeAdaptive_count h] at h1
    rw [Except.ok.inj h1]
    exact h2
  | decode _ h ih =>
    have hc := decodeAdaptive_count h
    have hs := count_ok_lt hc
    rw [ih.count_length] at hs
    obtain ⟨m2, h1, h2, _⟩ := count_spec false ih hs
    rw [hc] at h1
    rw [Except.ok.inj h1]
    exact h2

/-- **C4** Distribution monotonicity of the adaptive model. In every model
state reachable from `setAlphabet(N)` by any sequence of `reset`, `encode` and
`decode` calls with symbols `< N`: `2 <= N <= 2048`, the distribution has `N`
entries, `distribution[0] = 0`, `distribution[k] < distribution[k+1]` for
every `k < N-1`, and `distribution[N-1] < 32768`; so every symbol has a
non-empty coding interval. -/
theorem adaptive_distribution_monotone (N : Nat) (m : AdaptiveDataModel)
    (h : Reachable N m) :
    2 ≤ N ∧ N ≤ 2048 ∧ m.distribution.length = N ∧ m.distribution.getD 0 0 = 0 ∧
      (∀ k, k + 1 < N → m.distribution.getD k 0 < m.distribution.getD (k + 1) 0) ∧
      m.distribution.getD (N - 1) 0 < 32768 := by
  have hv := (reachable_inv h).dist_valid
  exact ⟨hv.2.1, hv.2.2.1, hv.1, hv.2.2.2.1, fun k hk => hv.lt (Nat.lt_add_one k) hk,
    hv.2.2.2.2.2⟩

/-- Witness of `adaptive_distribution_monotone`: the model that
`setAlphabet(3)` leaves. -/
theorem adaptive_distribution_monotone_witness :
    Reachable 3 threeAdaptiveModel ∧
    (2 ≤ 3 ∧ 3 ≤ 2048 ∧ threeAdaptiveModel.distribution.length = 3 ∧
      threeAdaptiveModel.distribution.getD 0 0 = 0 ∧
      (∀ k, k + 1 < 3 →
        threeAdaptiveModel.distribution.getD k 0 < threeAdaptiveModel.distribution.getD (k + 1) 0) ∧
      threeAdaptiveModel.distribution.getD (3 - 1) 0 < 32768) :=
  ⟨Reachable.setAlphabet (by decide),
    adaptive_distribution_monotone 3 threeAdaptiveModel (Reachable.setAlphabet (by decide))⟩

theorem countTrace_spec {N : Nat} (flag : Bool) :
    ∀ (syms : List Nat) (m : AdaptiveDataModel), AdaptInv N m → (∀ s ∈ syms, s < N) →
      syms.length = m.symbolsUntilUpdate →
      ∃ m', AdaptiveDataModel.countTrace flag syms m =
          .ok (List.replicate (m.symbolsUntilUpdate - 1) false ++ [true], m') ∧
        AdaptInv N m' ∧
        m'.symbolsUntilUpdate = min (5 * m.updateCycle / 4) ((N + 6) * 8) ∧
        m'.updateCycle = m'.symbolsUntilUpdate := by
  intro syms
  induction syms with
  | nil =>
    intro m hm _ hlen
    have := hm.until_pos
    simp at hlen
    omega
  | cons s ss ih =>
    intro m hm hs hlen
    have h32 : m.symbolsUntilUpdate < 2 ^ 32 := by
      have := hm.until_le
      have := hm.cycle_le
      have := hm.N_le
      omega
    have hpos := hm.until_pos
    obtain ⟨m1, h1, h2, _, h4, h5⟩ := count_spec flag hm (hs s (List.mem_cons_self _ _))
    unfold AdaptiveDataModel.countTrace
    rw [h1]
    simp only
    by_cases hone : m.symbolsUntilUpdate = 1
    · have hss : ss = [] := by
        simp only [List.length_cons] at hlen
        exact List.length_eq_zero.mp (by omega)
      obtain ⟨_, g2, g3⟩ := h5 hone
      subst hss
      have hdue : m.updateDue = true := by
        unfold AdaptiveDataModel.updateDue
        rw [hone]
        decide
      simp only [AdaptiveDataModel.countTrace, hdue, hone]
      exact ⟨m1, rfl, h2, by rw [g2, g3], g2.symm⟩
    · have hm1 := h4 hone
      have hsu : m1.symbolsUntilUpdate = m.symbolsUntilUpdate - 1 := by rw [hm1]
      have hcy : m1.updateCycle = m.updateCycle := by rw [hm1]
      simp only [List.length_cons] at hlen
      obtain ⟨m', k1, k2, k3, k4⟩ := ih m1 h2 (fun x hx => hs x (List.mem_cons_of_mem _ hx))
        (by omega)
      have hdue : m.updateDue = false := by
        unfold AdaptiveDataModel.updateDue
        rw [sub32_of_le hpos h32]
        simp
        omega
      rw [k1]
      simp only [hdue]
      refine ⟨m', ?_, k2, by rw [k3, hcy], k4⟩
      have e : m.symbolsUntilUpdate - 1 = (m1.symbolsUntilUpdate - 1) + 1 := by omega
      rw [e, List.replicate_succ]
      rfl

/-- **C5** Adaptive update schedule. After `setAlphabet(N)` and after `reset`
the model has `symbolsUntilUpdate = updateCycle = (N + 6) / 2`. From every
reachable state, when `symbolsUntilUpdate` symbols are coded with the model
(by `encode` or by `decode`), `update` runs when the last of them is coded
and for none before it; and that update, which ran with cycle
`c = updateCycle`, leaves `symbolsUntilUpdate = updateCycle =
min((5*c)/4, (N + 6) << 3)`, so the next update runs after exactly that many
further symbols. -/
theorem update_schedule (N : Nat) (m : AdaptiveDataModel) (flag : Bool) (syms : List Nat)
    (h : Reachable N m) (hs : ∀ s ∈ syms, s < N) (hlen : syms.length = m.symbolsUntilUpdate) :
    (∀ m0, AdaptiveDataModel.new.setAlphabet N = .ok m0 →
      m0.symbolsUntilUpdate = (N + 6) / 2 ∧ m0.updateCycle = (N + 6) / 2) ∧
    (∃ m1, m.reset = .ok m1 ∧ m1.symbolsUntilUpdate = (N + 6) / 2 ∧
      m1.updateCycle = (N + 6) / 2) ∧
    ∃ m', AdaptiveDataModel.countTrace flag syms m =
        .ok (List.replicate (m.symbolsUntilUpdate - 1) false ++ [true], m') ∧
      m'.symbolsUntilUpdate = min (5 * m.updateCycle / 4) ((N + 6) <<< 3) ∧
      m'.updateCycle = min (5 * m.updateCycle / 4) ((N + 6) <<< 3) := by
  have hinv := reachable_inv h
  refine ⟨fun m0 h0 => ?_, ?_, ?_⟩
  · have := setAlphabet_spec h0
    exact ⟨this.2.2.1, this.2.2.2.1⟩
  · obtain ⟨m1, h1, _, _, h4, h5, _⟩ := reset_spec hinv.N_ge hinv.N_le hinv.dataSymbols_eq
      hinv.lastSymbol_eq hinv.shape
    exact ⟨m1, h1, h4, h5⟩
  · obtain ⟨m', h1, _, h3, h4⟩ := countTrace_spec flag syms m hinv hs hlen
    have e : (N + 6) <<< 3 = (N + 6) * 8 := by rw [Nat.shiftLeft_eq]
    rw [e]
    exact ⟨m', h1, h3, by rw [h4, h3]⟩

/-- Witness of `update_schedule`: after `setAlphabet(3)` the update runs with
the fourth symbol and leaves a cycle of five symbols. -/
theorem update_schedule_witness :
    Reachable 3 threeAdaptiveModel ∧
    ∃ m', AdaptiveDataModel.countTrace true [0, 1, 2, 0] threeAdaptiveModel =
        .ok (List.replicate (threeAdaptiveModel.symbolsUntilUpdate - 1) false ++ [true], m') ∧
      m'.symbolsUntilUpdate = min (5 * threeAdaptiveModel.updateCycle / 4) ((3 + 6) <<< 3) ∧
      m'.updateCycle = min (5 * threeAdaptiveModel.updateCycle / 4) ((3 + 6) <<< 3) :=
  ⟨Reachable.setAlphabet (by decide),
    (update_schedule 3 threeAdaptiveModel true [0, 1, 2, 0] (Reachable.setAlphabet (by decide))
      (by decide) (by decide)).2.2⟩

/-- **C7** Count bounds. In every state of an adaptive model reachable from
`setAlphabet(N)` by `reset`, `encode` and `decode` calls, `2 ≤ N ≤ 2048`,
every `symbolCount[k]` with `k < N` is at least 1, and
`N ≤ totalCount ≤ DM__MaxCount = 32768`; the next `reset` and the count
statements of the next `encode` or `decode` of any symbol below `N` return a
model, so that the division `0x80000000 / totalCount` of an `update` they run
does not divide by zero. -/
theorem count_bounds (N : Nat) (m : AdaptiveDataModel) (h : Reachable N m) :
    2 ≤ N ∧ N ≤ 2048 ∧ m.symbolCount.length = N ∧
    (∀ k, k < N → 1 ≤ m.symbolCount.getD k 0) ∧
    N ≤ m.totalCount ∧ m.totalCount ≤ DM__MaxCount ∧ DM__MaxCount = 32768 ∧
    (∃ m', m.reset = .ok m') ∧
    ∀ s flag, s < N → ∃ m', AdaptiveDataModel.count s flag m = .ok m' := by
  have hinv := reachable_inv h
  refine ⟨hinv.N_ge, hinv.N_le, hinv.count_length, fun k hk => ?_, hinv.total_ge,
    hinv.total_le, by decide, ?_, fun s flag hs => ?_⟩
  · have hk' : k < m.symbolCount.length := by rw [hinv.count_length]; exact hk
    rw [getD_eq_getElem hk']
    exact hinv.count_pos _ (List.getElem_mem _)
  · obtain ⟨m1, h1, _⟩ := reset_spec hinv.N_ge hinv.N_le hinv.dataSymbols_eq
      hinv.lastSymbol_eq hinv.shape
    exact ⟨m1, h1⟩
  · obtain ⟨m1, h1, _⟩ := count_spec flag hinv hs
    exact ⟨m1, h1⟩

/-- Witness of `count_bounds`: the model that `setAlphabet(3)` leaves. -/
theorem count_bounds_witness :
    Reachable 3 threeAdaptiveModel ∧
    (∀ k, k < 3 → 1 ≤ threeAdaptiveModel.symbolCount.getD k 0) ∧
    3 ≤ threeAdaptiveModel.totalCount ∧ threeAdaptiveModel.totalCount ≤ DM__MaxCount :=
  ⟨Reachable.setAlphabet (by decide),
    (count_bounds 3 threeAdaptiveModel (Reachable.setAlphabet (by decide))).2.2.2.1,
    (count_bounds 3 threeAdaptiveModel (Reachable.setAlphabet (by decide))).2.2.2.2.1,
    (count_bounds 3 threeAdaptiveModel (Reachable.setAlphabet (by decide))).2.2.2.2.2.1⟩

/-- Counterexample to **C8** as the specification states it: after
`setAlphabet(2)` and one `encode` of symbol 0 the counts are `[2, 1]` with sum
3, while `totalCount` is still 2. -/
theorem total_count_sum_counterexample :
    AdaptiveDataModel.new.setAlphabet 2 = .ok twoAdaptiveModel ∧
    (∃ c', encodeAdaptive 0 twoAdaptiveModel startedCoder = .ok (c', onceCodedModel)) ∧
    Reachable 2 onceCodedModel ∧
    onceCodedModel.totalCount = 2 ∧ onceCodedModel.symbolCount.sum = 3 ∧
    onceCodedModel.totalCount ≠ onceCodedModel.symbolCount.sum := by
  have h0 : AdaptiveDataModel.new.setAlphabet 2 = .ok twoAdaptiveModel := by decide
  have h1 : encodeAdaptive 0 twoAdaptiveModel startedCoder =
      .ok ({ startedCoder with length := 2147467264 }, onceCodedModel) := by decide
  exact ⟨h0, ⟨_, h1⟩, Reachable.encode (Reachable.setAlphabet h0) (by decide) h1,
    by decide, by decide, by decide⟩

/-- **C8** (amended) In every state of an adaptive model reachable from
`setAlphabet(N)` by `reset`, `encode` and `decode` calls, `totalCount` is at
most the sum of the `symbolCount[k]`, the sum is less than
`totalCount + updateCycle`, and the two are equal exactly when no symbol was
counted since the last update, that is when
`symbolsUntilUpdate = updateCycle`. -/
theorem total_count_le_sum (N : Nat) (m : AdaptiveDataModel) (h : Reachable N m) :
    m.totalCount ≤ m.symbolCount.sum ∧
    m.symbolCount.sum < m.totalCount + m.updateCycle ∧
    (m.totalCount = m.symbolCount.sum ↔ m.symbolsUntilUpdate = m.updateCycle) := by
  have hinv := reachable_inv h
  have h1 := hinv.count_sum
  have h2 := hinv.until_pos
  have h3 := hinv.until_le
  refine ⟨by omega, by omega, by omega⟩

/-- Witness of `total_count_le_sum`: the model that `setAlphabet(3)` leaves. -/
theorem total_count_le_sum_witness :
    Reachable 3 threeAdaptiveModel ∧
    threeAdaptiveModel.totalCount ≤ threeAdaptiveModel.symbolCount.sum :=
  ⟨Reachable.setAlphabet (by decide),
    (total_count_le_sum 3 threeAdaptiveModel (Reachable.setAlphabet (by decide))).1⟩

theorem holds_elim {α : Type} {x : Except Fault α} {p : α → Bool} (h : holds x p = true) :
    ∃ a, x = .ok a ∧ p a = true := by
  cases x with
  | error e => simp [holds] at h
  | ok a => exact ⟨a, rfl, h⟩

theorem countAll_append (flag : Bool) : ∀ (l1 l2 : List Nat) (m m1 : AdaptiveDataModel),
    AdaptiveDataModel.countAll flag l1 m = .ok m1 →
    AdaptiveDataModel.countAll flag (l1 ++ l2) m = AdaptiveDataModel.countAll flag l2 m1 := by
  intro l1
  induction l1 with
  | nil =>
    intro l2 m m1 h
    simp only [AdaptiveDataModel.countAll] at h
    rw [Except.ok.inj h]
    rfl
  | cons s ss ih =>
    intro l2 m m1 h
    simp only [List.cons_append, AdaptiveDataModel.countAll] at h ⊢
    cases hc : AdaptiveDataModel.count s flag m with
    | error e => rw [hc] at h; cases h
    | ok m2 =>
      rw [hc] at h
      simp only at h ⊢
      exact ih l2 m2 m1 h

theorem reachable_count {N s : Nat} {m m' : AdaptiveDataModel} (h : Reachable N m) (hs : s < N)
    (hc : AdaptiveDataModel.count s true m = .ok m') : Reachable N m' := by
  have hinv := reachable_inv h
  obtain ⟨c1, m1, h1, _, h3, _⟩ := encodeAdaptive_ok (c := startedCoder) hinv hs
    (encPre_start startedCoder) (by decide)
  rw [hc] at h3
  rw [← Except.ok.inj h3] at h1
  exact Reachable.encode h hs h1

theorem reachable_countAll {N : Nat} : ∀ (syms : List Nat) (m m' : AdaptiveDataModel),
    Reachable N m → (∀ s ∈ syms, s < N) →
    AdaptiveDataModel.countAll true syms m = .ok m' → Reachable N m' := by
  intro syms
  induction syms with
  | nil =>
    intro m m' h _ hc
    simp only [AdaptiveDataModel.countAll] at hc
    rw [← Except.ok.inj hc]
    exact h
  | cons s ss ih =>
    intro m m' h hs hc
    simp only [AdaptiveDataModel.countAll] at hc
    cases h1 : AdaptiveDataModel.count s true m with
    | error e => rw [h1] at hc; cases hc
    | ok m1 =>
      rw [h1] at hc
      exact ih m1 m' (reachable_count h (hs s (List.mem_cons_self _ _)) h1)
        (fun x hx => hs x (List.mem_cons_of_mem _ hx)) hc

theorem set_getD_self : ∀ (l : List Nat) (s : Nat), l.set s (l.getD s 0) = l := by
  intro l
  induction l with
  | nil => intro s; rfl
  | cons a l ih =>
    intro s
    cases s with
    | zero => rfl
    | succ s =>
      simp only [List.set_cons_succ, List.getD_cons_succ]
      rw [ih s]

theorem bump_zero (s : Nat) (m : AdaptiveDataModel) : AdaptiveDataModel.bump s 0 m = m := by
  unfold AdaptiveDataModel.bump
  simp only [Nat.add_zero, Nat.sub_zero, set_getD_self]

theorem bump_bump (s a b : Nat) (m : AdaptiveDataModel) (hs : s < m.symbolCount.length) :
    AdaptiveDataModel.bump s b (AdaptiveDataModel.bump s a m) =
      AdaptiveDataModel.bump s (a + b) m := by
  unfold AdaptiveDataModel.bump
  have e1 : (m.symbolCount.set s (m.symbolCount.getD s 0 + a)).getD s 0 =
      m.symbolCount.getD s 0 + a := by
    rw [getD_eq_getElem (by rw [List.length_set]; exact hs)]
    simp
  simp only [e1, List.set_set, Nat.add_assoc, Nat.sub_sub]

/-- Counting fewer occurrences of a symbol than `symbolsUntilUpdate` runs no
update. -/
theorem countAll_small {N s : Nat} (flag : Bool) (hs : s < N) :
    ∀ (n : Nat) (m : AdaptiveDataModel), AdaptInv N m → n < m.symbolsUntilUpdate →
      AdaptiveDataModel.countAll flag (List.replicate n s) m =
        .ok (AdaptiveDataModel.bump s n m) ∧ AdaptInv N (AdaptiveDataModel.bump s n m) := by
  intro n
  induction n with
  | zero =>
    intro m hm _
    rw [bump_zero]
    exact ⟨rfl, hm⟩
  | succ n ih =>
    intro m hm hn
    obtain ⟨m1, h1, h2, _, h4, _⟩ := count_spec flag hm hs
    have hm1 : m1 = AdaptiveDataModel.bump s 1 m := h4 (by omega)
    have hsu : m1.symbolsUntilUpdate = m.symbolsUntilUpdate - 1 := by rw [hm1]; rfl
    obtain ⟨g1, g2⟩ := ih m1 h2 (by omega)
    have hb : AdaptiveDataModel.bump s n m1 = AdaptiveDataModel.bump s (n + 1) m := by
      rw [hm1, bump_bump s 1 n m (by rw [hm.count_length]; exact hs), Nat.add_comm]
    rw [hb] at g1 g2
    refine ⟨?_, g2⟩
    simp only [List.replicate_succ, AdaptiveDataModel.countAll]
    rw [h1]
    exact g1

/-- Counting `symbolsUntilUpdate` occurrences of a symbol is one `update` on
the model with all of them counted. -/
theorem countAll_cycle {N s : Nat} (flag : Bool) (hs : s < N) (m : AdaptiveDataModel)
    (hm : AdaptInv N m) :
    ∃ m', AdaptiveDataModel.countAll flag (List.replicate m.symbolsUntilUpdate s) m =
        .ok m' ∧
      AdaptiveDataModel.update flag (AdaptiveDataModel.bump s m.symbolsUntilUpdate m) = .ok m' ∧
      AdaptInv N m' := by
  have hpos := hm.until_pos
  obtain ⟨g1, g2⟩ := countAll_small flag hs (m.symbolsUntilUpdate - 1) m hm (by omega)
  obtain ⟨m', h1, h2, _, _, h5⟩ := count_spec flag g2 hs
  have hone : (AdaptiveDataModel.bump s (m.symbolsUntilUpdate - 1) m).symbolsUntilUpdate = 1 := by
    show m.symbolsUntilUpdate - (m.symbolsUntilUpdate - 1) = 1
    omega
  obtain ⟨h6, _⟩ := h5 hone
  have hb : AdaptiveDataModel.bump s 1 (AdaptiveDataModel.bump s (m.symbolsUntilUpdate - 1) m) =
      AdaptiveDataModel.bump s m.symbolsUntilUpdate m := by
    rw [bump_bump s _ 1 m (by rw [hm.count_length]; exact hs)]
    congr 1
    omega
  have hmid : ({ AdaptiveDataModel.bump s (m.symbolsUntilUpdate - 1) m with
      symbolCount := (AdaptiveDataModel.bump s (m.symbolsUntilUpdate - 1) m).symbolCount.set s
        ((AdaptiveDataModel.bump s (m.symbolsUntilUpdate - 1) m).symbolCount.getD s 0 + 1)
      symbolsUntilUpdate := 0 } : AdaptiveDataModel) =
      AdaptiveDataModel.bump s m.symbolsUntilUpdate m := by
    rw [← hb]
    unfold AdaptiveDataModel.bump
    simp only [hone]
    congr 1
    show 0 = m.symbolsUntilUpdate - (m.symbolsUntilUpdate - 1) - 1
    omega
  rw [hmid] at h6
  refine ⟨m', ?_, h6, h2⟩
  have e : m.symbolsUntilUpdate = (m.symbolsUntilUpdate - 1) + 1 := by omega
  have e2 : List.replicate m.symbolsUntilUpdate s =
      List.replicate (m.symbolsUntilUpdate - 1) s ++ [s] := by
    conv_lhs => rw [e]
    rw [List.replicate_succ']
  rw [e2, countAll_append flag _ _ m _ g1]
  simp only [AdaptiveDataModel.countAll]
  rw [h1]

/-- Counting `n` occurrences of one symbol agrees with `countBlocks`. -/
theorem countAll_replicate {N s : Nat} (flag : Bool) (hs : s < N) :
    ∀ (fuel n : Nat) (m : AdaptiveDataModel), AdaptInv N m → n ≤ fuel →
      AdaptiveDataModel.countAll flag (List.replicate n s) m =
        AdaptiveDataModel.countBlocks s flag fuel n m := by
  intro fuel
  induction fuel with
  | zero =>
    intro n m _ hn
    have : n = 0 := by omega
    subst this
    rfl
  | succ fuel ih =>
    intro n m hm hn
    unfold AdaptiveDataModel.countBlocks
    by_cases h0 : n = 0
    · subst h0
      rfl
    · rw [if_neg h0]
      by_cases hlt : n < m.symbolsUntilUpdate
      · rw [if_pos hlt]
        exact (countAll_small flag hs n m hm hlt).1
      · rw [if_neg hlt]
        obtain ⟨m', h1, h2, h3⟩ := countAll_cycle flag hs m hm
        have hpos := hm.until_pos
        have e : List.replicate n s = List.replicate m.symbolsUntilUpdate s ++
            List.replicate (n - m.symbolsUntilUpdate) s := by
          rw [List.append_replicate_replicate]
          congr 1
          omega
        rw [e, countAll_append flag _ _ m m' h1, h2]
        exact ih (n - m.symbolsUntilUpdate) m' h3 (by omega)

/-- Counterexample to **C6**: a model fresh from `setAlphabet(256)` codes
symbol 0 34034 times; it then has `symbolsUntilUpdate = 1`,
`totalCount = 32195` and `updateCycle = 2096`. Coding symbol 0 once more runs
`update` with `totalCount + updateCycle = 34291 > 32768`, which halves the
counts and leaves `totalCount = 17273`, more than `16384 + 256 = 16640`. -/
theorem halving_bound_counterexample :
    ∃ m0 m m', AdaptiveDataModel.new.setAlphabet 256 = .ok m0 ∧
      AdaptiveDataModel.countAll true (List.replicate 34034 0) m0 = .ok m ∧
      Reachable 256 m ∧
      m.symbolsUntilUpdate = 1 ∧ m.totalCount = 32195 ∧ m.updateCycle = 2096 ∧
      m.totalCount + m.updateCycle > DM__MaxCount ∧
      AdaptiveDataModel.count 0 true m = .ok m' ∧
      m'.totalCount = 17273 ∧ ¬ m'.totalCount ≤ DM__MaxCount / 2 + 256 := by
  have key : holds (AdaptiveDataModel.new.setAlphabet 256) (fun m0 =>
      holds (AdaptiveDataModel.countBlocks 0 true 34034 34034 m0) (fun m =>
        decide (m.symbolsUntilUpdate = 1) && decide (m.totalCount = 32195) &&
        decide (m.updateCycle = 2096) &&
        holds (AdaptiveDataModel.count 0 true m) (fun m' =>
          decide (m'.totalCount = 17273)))) = true := by decide!
  obtain ⟨m0, h0, k0⟩ := holds_elim key
  obtain ⟨m, h1, k1⟩ := holds_elim k0
  simp only [Bool.and_eq_true, decide_eq_true_eq] at k1
  obtain ⟨⟨⟨a1, a2⟩, a3⟩, k2⟩ := k1
  obtain ⟨m', h2, k3⟩ := holds_elim k2
  simp only [decide_eq_true_eq] at k3
  have hr0 : Reachable 256 m0 := Reachable.setAlphabet h0
  have hc : AdaptiveDataModel.countAll true (List.replicate 34034 0) m0 = .ok m := by
    rw [countAll_replicate (N := 256) true (by decide) 34034 34034 m0 (reachable_inv hr0)
      (Nat.le_refl _)]
    exact h1
  refine ⟨m0, m, m', h0, hc, ?_, a1, a2, a3, ?_, h2, k3, ?_⟩
  · exact reachable_countAll _ m0 m hr0
      (fun s hs => by rw [List.eq_of_mem_replicate hs]; decide) hc
  · rw [a2, a3]
    decide
  · rw [k3]
    decide

/-- **C6** (amended) Count-halving bound. From every state of an adaptive
model reachable from `setAlphabet(N)` by `reset`, `encode` and `decode`
calls, when the count statements of `encode` or `decode` run `update`
(`symbolsUntilUpdate = 1`) with `totalCount + updateCycle > DM__MaxCount`,
they return a model in which every count is its old value halved upwards
and at least 1, and whose `totalCount` is at most
`(totalCount + updateCycle + N) / 2` of the state before, hence at most
`DM__MaxCount / 2 + (updateCycle + N) / 2` and at most
`DM__MaxCount / 2 + 4 * N + N / 2 + 24`. -/
theorem halving_bound (N s : Nat) (flag : Bool) (m : AdaptiveDataModel)
    (h : Reachable N m) (hs : s < N) (hone : m.symbolsUntilUpdate = 1)
    (hbig : m.totalCount + m.updateCycle > DM__MaxCount) :
    ∃ m', AdaptiveDataModel.count s flag m = .ok m' ∧
      m'.symbolCount = (m.symbolCount.set s (m.symbolCount.getD s 0 + 1)).map
        (fun c => (c + 1) / 2) ∧
      (∀ k, k < N → 1 ≤ m'.symbolCount.getD k 0) ∧
      m'.totalCount = m'.symbolCount.sum ∧
      m'.totalCount ≤ (m.totalCount + m.updateCycle + N) / 2 ∧
      m'.totalCount ≤ DM__MaxCount / 2 + (m.updateCycle + N) / 2 ∧
      m'.totalCount ≤ DM__MaxCount / 2 + 4 * N + N / 2 + 24 := by
  have hinv := reachable_inv h
  have hmax : DM__MaxCount = 2 ^ 15 := by decide
  obtain ⟨m', h1, h2, _, _, h5⟩ := count_spec flag hinv hs
  obtain ⟨h6, _⟩ := h5 hone
  have hslen : s < m.symbolCount.length := by rw [hinv.count_length]; exact hs
  have hsum := hinv.count_sum
  have hcl := hinv.cycle_le
  have htl := hinv.total_le
  have hul := hinv.until_le
  obtain ⟨m2, g1, _, _, _, g5, _, _, g8, _⟩ := update_spec (N := N)
    (m := { m with
      symbolCount := m.symbolCount.set s (m.symbolCount.getD s 0 + 1)
      symbolsUntilUpdate := 0 })
    flag hinv.N_ge hinv.N_le hinv.dataSymbols_eq hinv.lastSymbol_eq
    (by show (m.symbolCount.set s _).length = N; rw [List.length_set]; exact hinv.count_length)
    (fun c hc => by
      have hc' : c ∈ m.symbolCount.set s (m.symbolCount.getD s 0 + 1) := hc
      rcases List.mem_or_eq_of_mem_set hc' with hc1 | hc1
      · exact hinv.count_pos c hc1
      · omega)
    (by show (m.symbolCount.set s _).sum = m.totalCount + m.updateCycle
        rw [sum_set_succ _ _ hslen]; omega)
    (by show 1 ≤ m.updateCycle; omega) hcl htl hinv.shape
  rw [h6] at g1
  have hm2 : m' = m2 := Except.ok.inj g1
  subst hm2
  obtain ⟨g8a, g8b⟩ := g8 (by rw [← hmax]; exact hbig)
  have g8b' : m'.totalCount * 2 ≤ m.totalCount + m.updateCycle + N := g8b
  refine ⟨m', h1, g8a, fun k hk => ?_, g5.symm, by omega, by omega, by omega⟩
  have hk' : k < m'.symbolCount.length := by rw [h2.count_length]; exact hk
  rw [getD_eq_getElem hk']
  exact h2.count_pos _ (List.getElem_mem _)

/-- Witness of `halving_bound`: the state of a model fresh from
`setAlphabet(256)` after symbol 0 was coded 34034 times. -/
theorem halving_bound_witness :
    ∃ m0 m, AdaptiveDataModel.new.setAlphabet 256 = .ok m0 ∧
      AdaptiveDataModel.countAll true (List.replicate 34034 0) m0 = .ok m ∧
      Reachable 256 m ∧ m.symbolsUntilUpdate = 1 ∧
      m.totalCount + m.updateCycle > DM__MaxCount ∧
      ∃ m', AdaptiveDataModel.count 0 true m = .ok m' ∧
        m'.totalCount ≤ DM__MaxCount / 2 + 4 * 256 + 256 / 2 + 24 := by
  have key : holds (AdaptiveDataModel.new.setAlphabet 256) (fun m0 =>
      holds (AdaptiveDataModel.countBlocks 0 true 34034 34034 m0) (fun m =>
        decide (m.symbolsUntilUpdate = 1) &&
        decide (m.totalCount + m.updateCycle > DM__MaxCount))) = true := by decide!
  obtain ⟨m0, h0, k0⟩ := holds_elim key
  obtain ⟨m, h1, k1⟩ := holds_elim k0
  simp only [Bool.and_eq_true, decide_eq_true_eq] at k1
  have hr0 : Reachable 256 m0 := Reachable.setAlphabet h0
  have hc : AdaptiveDataModel.countAll true (List.replicate 34034 0) m0 = .ok m := by
    rw [countAll_replicate (N := 256) true (by decide) 34034 34034 m0 (reachable_inv hr0)
      (Nat.le_refl _)]
    exact h1
  have hr : Reachable 256 m := reachable_countAll _ m0 m hr0
    (fun s hs => by rw [List.eq_of_mem_replicate hs]; decide) hc
  obtain ⟨m', g1, _, _, _, _, _, g7⟩ := halving_bound 256 0 true m hr (by decide) k1.1 k1.2
  exact ⟨m0, m, h0, hc, hr, k1.1, k1.2, m', g1, g7⟩

/-- Counterexample to **C9**: a coder with a buffer of 16 bytes encodes 16
symbols with the uniform model over 256 symbols, which emits 16 bytes and
leaves `length = 0xFFFF8000`; `stopEncoder` then fails with
`code buffer overflow` and returns no byte count. And on a state with no byte
emitted and `base = 0xFFFFFFFF` the carry of `stopEncoder` walks before the
start of the buffer. -/
theorem stopEncoder_flush_counterexample :
    ((uniformByteModel >>= fun m => startEncoder smallCoder >>= fun c =>
        encodeAll m (List.replicate 16 65) c).map
          (fun c => (c.mode, c.acPointer, c.length, c.bufferSize)) =
      .ok (1, 16, 0xFFFF8000, 16)) ∧
    ((uniformByteModel >>= fun m => startEncoder smallCoder >>= fun c =>
        encodeAll m (List.replicate 16 65) c >>= stopEncoder) =
      AC_Error ("code buffer overflow")) ∧
    fullBaseCoder.mode = 1 ∧ AC__MinLength ≤ fullBaseCoder.length ∧
    stopEncoder fullBaseCoder = .error Fault.outOfBounds := by
  refine ⟨?_, ?_, ?_, ?_, ?_⟩
  · decide!
  · decide!
  · decide
  · decide
  · decide

/-- **C9** (amended) The flush of `stopEncoder`. For every coder in encoder
mode with `j = acPointer` bytes emitted, all inside the buffer array, and
`base < 2^32`, such that an emitted byte other than `0xFF` exists when
`base + offset` wraps past `2^32`: `stopEncoder` emits one more byte when
`length > 2 * AC__MinLength` and two more bytes otherwise, the `j + 1`
respectively `j + 2` bytes being the top bytes of the number
`bytes * 2^32 + base + offset` (the carry applied to the earlier bytes);
if that byte count is at most `bufferSize` it returns the count and leaves
the mode 0, and if the count is larger it fails with
`code buffer overflow`. -/
theorem stopEncoder_flush (c : ArithmeticCodec) (hm : c.mode = 1)
    (hp : c.acPointer ≤ c.codeBuffer.length) (hb : c.base < 2 ^ 32)
    (hcarry : 2 ^ 32 ≤ c.base + stopOffset c →
      ∃ i, i < c.acPointer ∧ byteAt c.codeBuffer i ≠ 255)
    (h32 : c.acPointer + stopBytes c < 2 ^ 32) :
    stopBytes c = (if c.length > 2 * AC__MinLength then 1 else 2) ∧
    stopOffset c = (if c.length > 2 * AC__MinLength then AC__MinLength
      else AC__MinLength >>> 1) ∧
    ∃ c3, c3.mode = 0 ∧ c3.acPointer = c.acPointer + stopBytes c ∧
      c3.acPointer ≤ c3.codeBuffer.length ∧
      streamVal c3.codeBuffer c3.acPointer =
        256 ^ stopBytes c * (streamVal c.codeBuffer c.acPointer * 2 ^ 32 + c.base + stopOffset c)
          / 2 ^ 32 ∧
      (c.acPointer + stopBytes c ≤ c.bufferSize →
        stopEncoder c = .ok (c.acPointer + stopBytes c, c3)) ∧
      (c.bufferSize < c.acPointer + stopBytes c →
        stopEncoder c = AC_Error ("code buffer overflow")) := by
  refine ⟨rfl, rfl, ?_⟩
  obtain ⟨c3, h1, h2, h3, h4, h5, h6, h7⟩ := stopEncoder_core c hm hp hb
    (fun h => carry_lands _ _ (hcarry h))
  have hu : u32 c3.acPointer = c.acPointer + stopBytes c := by
    rw [h3]
    exact u32_of_lt h32
  rw [hu, h2] at h7
  refine ⟨c3, h1, h3, h6, ?_, fun hle => ?_, fun hgt => ?_⟩
  · have hl : low c3 = streamVal c3.codeBuffer c3.acPointer * 2 ^ 32 + c3.base := rfl
    have hl2 : low c = streamVal c.codeBuffer c.acPointer * 2 ^ 32 + c.base := rfl
    rw [← hl2, ← h4, hl]
    rw [Nat.add_comm, Nat.add_mul_div_right _ _ (by norm_num : 0 < 2 ^ 32),
      Nat.div_eq_of_lt h5, Nat.zero_add]
  · rw [h7, if_neg (by omega)]
  · rw [h7, if_pos (by omega)]

/-- Witness of `stopEncoder_flush`: with the byte `0x12` emitted,
`base = 0xFFFFFFFF` and `length = AC__MinLength`, the offset wraps `base`, the
carry makes the byte `0x13`, two more bytes are emitted and `stopEncoder`
returns 3. -/
theorem stopEncoder_flush_witness :
    stopBytes carryCoder = 2 ∧
    ∃ c3, c3.mode = 0 ∧ c3.acPointer = 3 ∧
      stopEncoder carryCoder = .ok (3, c3) := by
  obtain ⟨_, _, c3, h1, h2, _, _, h5, _⟩ := stopEncoder_flush carryCoder (by decide)
    (by decide) (by decide) (fun _ => ⟨0, by decide, by decide⟩) (by decide)
  exact ⟨by decide, c3, h1, h2, h5 (by decide)⟩

/-- **C10** Oversized block. `readFromFile` rejects every block whose header
declares more code bytes than `bufferSize` with `code buffer overflow`. But
`readFromInputBuffer` has no such test: for a coder with `bufferSize = 16`,
whose array has 32 bytes, and the block `oversizedBlock` that declares 17
code bytes, it copies the 17 bytes into the code buffer, starts the decoder
(mode 2) and returns the offset 18, where `readFromFile` fails. -/
theorem oversized_block_divergence :
    (∀ (encodedFile rest : List Nat) (codeBytes : Nat) (c : ArithmeticCodec),
      fileHeaderLoop 6 encodedFile 0 0 = .ok (codeBytes, rest) → codeBytes > c.bufferSize →
      readFromFile encodedFile c = AC_Error ("code buffer overflow")) ∧
    smallCoder.bufferSize = 16 ∧ smallCoder.mode = 0 ∧
    bufferHeaderLoop 6 oversizedBlock 0 0 0 = .ok (17, 1) ∧
    fileHeaderLoop 6 oversizedBlock 0 0 = .ok (17, List.replicate 17 7) ∧
    readFromFile oversizedBlock smallCoder = AC_Error ("code buffer overflow") ∧
    readFromInputBuffer oversizedBlock 0 32 smallCoder =
      .ok (18, { smallCoder with
        codeBuffer := List.replicate 17 7
        mode := 2
        length := AC__MaxLength
        acPointer := 3
        value := 0x07070707 }) := by
  refine ⟨fun encodedFile rest codeBytes c h hgt => ?_, by decide, by decide, by decide,
    by decide, by decide, by decide⟩
  unfold readFromFile
  rw [h]
  simp only
  rw [if_pos hgt]

theorem getElem?_append_cons (pre : List Nat) (b : Nat) (rest : List Nat) :
    (pre ++ b :: rest)[pre.length]? = some b := by
  rw [List.getElem?_append_right (Nat.le_refl _)]
  simp

theorem propagateCarryLoop_run : ∀ (k : Nat) (pre : List Nat) (b : Nat) (tail : List Nat),
    b % 256 ≠ 0xFF →
    propagateCarryLoop (pre.length + 1 + k) (pre ++ b :: List.replicate k 255 ++ tail) =
      .ok (pre ++ ((b + 1) % 256) :: List.replicate k 0 ++ tail) := by
  intro k
  induction k with
  | zero =>
    intro pre b tail hb
    simp only [List.replicate_zero, Nat.add_zero]
    unfold propagateCarryLoop
    have h1 : (pre ++ b :: [] ++ tail)[pre.length]? = some b := by
      rw [List.append_assoc]
      exact getElem?_append_cons pre b _
    rw [h1]
    simp only
    rw [if_neg hb]
    simp
  | succ k ih =>
    intro pre b tail hb
    have e1 : pre ++ b :: List.replicate (k + 1) 255 ++ tail =
        (pre ++ b :: List.replicate k 255) ++ 255 :: tail := by
      rw [List.replicate_succ']
      simp
    have hlen : (pre ++ b :: List.replicate k 255).length = pre.length + 1 + k := by
      simp
      omega
    have e2 : pre.length + 1 + (k + 1) = (pre.length + 1 + k) + 1 := by omega
    rw [e1, e2]
    unfold propagateCarryLoop
    have h1 : ((pre ++ b :: List.replicate k 255) ++ 255 :: tail)[pre.length + 1 + k]? =
        some 255 := by
      rw [← hlen, List.getElem?_append_right (Nat.le_refl _)]
      simp
    rw [h1]
    simp only
    rw [if_pos (by decide)]
    have h2 : ((pre ++ b :: List.replicate k 255) ++ 255 :: tail).set (pre.length + 1 + k) 0 =
        pre ++ b :: List.replicate k 255 ++ 0 :: tail := by
      rw [← hlen, List.set_append_right _ _ (Nat.le_refl _)]
      simp
    rw [h2, ih pre b (0 :: tail) hb]
    congr 1
    rw [List.replicate_succ']
    simp

theorem exists_trailing_run : ∀ (l : List Nat), (∃ b ∈ l, b ≠ 255) →
    ∃ pre b k, l = pre ++ b :: List.replicate k 255 ∧ b ≠ 255 := by
  intro l
  induction l with
  | nil => intro ⟨b, hb, _⟩; cases hb
  | cons a l ih =>
    intro h
    by_cases hl : ∃ b ∈ l, b ≠ 255
    · obtain ⟨pre, b, k, h1, h2⟩ := ih hl
      exact ⟨a :: pre, b, k, by rw [h1]; rfl, h2⟩
    · have hall : ∀ b ∈ l, b = 255 := fun b hb => by
        by_contra hne
        exact hl ⟨b, hb, hne⟩
      have ha : a ≠ 255 := by
        obtain ⟨b, hb, hne⟩ := h
        rcases List.mem_cons.mp hb with hba | hbl
        · rw [← hba]; exact hne
        · exact absurd (hall b hbl) hne
      exact ⟨[], a, l.length, by rw [List.nil_append, ← List.eq_replicate_of_mem hall], ha⟩

/-- **C19** Carry propagation adds one to the emitted bytes. For every
encoder state whose emitted bytes (the first `acPointer` bytes of the code
buffer) contain a byte other than `0xFF`: the emitted bytes are `pre`, then a
byte `b ≠ 0xFF`, then a run of `k` bytes `0xFF`; `propagateCarry` returns the
state in which the run is `k` bytes `0x00`, the byte before it is `b + 1`,
the bytes `pre` and the bytes from `acPointer` on are unchanged, and nothing
else changes; the number of bytes is the same and the big-endian value of
the emitted bytes is larger by exactly 1. -/
theorem propagateCarry_adds_one (c : ArithmeticCodec)
    (hp : c.acPointer ≤ c.codeBuffer.length)
    (hbytes : ∀ b ∈ c.codeBuffer.take c.acPointer, b < 256)
    (hne : ∃ b ∈ c.codeBuffer.take c.acPointer, b ≠ 255) :
    ∃ pre b k, c.codeBuffer.take c.acPointer = pre ++ b :: List.replicate k 255 ∧ b < 255 ∧
      propagateCarry c = .ok { c with
        codeBuffer := pre ++ (b + 1) :: List.replicate k 0 ++ c.codeBuffer.drop c.acPointer } ∧
      (pre ++ (b + 1) :: List.replicate k 0 ++ c.codeBuffer.drop c.acPointer).length =
        c.codeBuffer.length ∧
      streamVal (pre ++ (b + 1) :: List.replicate k 0 ++ c.codeBuffer.drop c.acPointer)
        c.acPointer = streamVal c.codeBuffer c.acPointer + 1 := by
  obtain ⟨pre, b, k, h1, h2⟩ := exists_trailing_run _ hne
  have hb256 : b < 256 := hbytes b (by rw [h1]; simp)
  have hb : b < 255 := by omega
  have hbuf : c.codeBuffer = pre ++ b :: List.replicate k 255 ++ c.codeBuffer.drop c.acPointer := by
    rw [← h1, List.take_append_drop]
  have hplen : c.acPointer = pre.length + 1 + k := by
    have := congrArg List.length h1
    rw [List.length_take, Nat.min_eq_left hp] at this
    rw [this]
    simp
    omega
  have hrun := propagateCarryLoop_run k pre b (c.codeBuffer.drop c.acPointer) (by omega)
  rw [← hbuf, ← hplen, Nat.mod_eq_of_lt (by omega : b + 1 < 256)] at hrun
  have hi : ∃ i, i < c.acPointer ∧ byteAt c.codeBuffer i ≠ 255 := by
    refine ⟨pre.length, by omega, ?_⟩
    have hg : c.codeBuffer[pre.length]? = some b := by
      rw [hbuf, List.append_assoc]
      exact getElem?_append_cons pre b _
    unfold byteAt
    rw [List.getD_eq_getElem?_getD, hg]
    show b % 256 ≠ 255
    omega
  obtain ⟨buf', g1, g2, g3, _⟩ := propagateCarryLoop_spec c.acPointer c.codeBuffer hp
    (carry_lands _ _ hi)
  rw [hrun] at g1
  have e := Except.ok.inj g1
  refine ⟨pre, b, k, h1, hb, ?_, by rw [e]; exact g2, by rw [e]; exact g3⟩
  unfold propagateCarry
  rw [hrun]

/-- Witness of `propagateCarry_adds_one`: the emitted bytes
`0x12 0x34 0xFF 0xFF` become `0x12 0x35 0x00 0x00`. -/
theorem propagateCarry_adds_one_witness :
    propagateCarry carryRunCoder =
      .ok { carryRunCoder with codeBuffer := [0x12, 0x35, 0x00, 0x00, 0x77] } ∧
    ∃ pre b k, carryRunCoder.codeBuffer.take carryRunCoder.acPointer =
        pre ++ b :: List.replicate k 255 ∧ b < 255 ∧
      propagateCarry carryRunCoder = .ok { carryRunCoder with
        codeBuffer := pre ++ (b + 1) :: List.replicate k 0 ++
          carryRunCoder.codeBuffer.drop carryRunCoder.acPointer } :=
  ⟨by decide, by
    obtain ⟨pre, b, k, h1, h2, h3, _⟩ := propagateCarry_adds_one carryRunCoder (by decide)
      (by decide) (by decide)
    exact ⟨pre, b, k, h1, h2, h3⟩⟩

theorem update_error {flag : Bool} {m : AdaptiveDataModel} (h : updatedTotal m = 0) :
    AdaptiveDataModel.update flag m = .error Fault.divByZero := by
  unfold updatedTotal at h
  unfold AdaptiveDataModel.update
  simp only
  rw [if_pos h]

theorem update_ok (flag : Bool) {m : AdaptiveDataModel} (h : updatedTotal m ≠ 0) :
    ∃ m', AdaptiveDataModel.update flag m = .ok m' ∧
      m'.decoderTable = (if flag = true ∨ m.tableSize = 0 then m.decoderTable
        else some (buildTable m'.distribution m.dataSymbols m.tableSize m.tableShift)) ∧
      m'.dataSymbols = m.dataSymbols ∧ m'.lastSymbol = m.lastSymbol ∧
      m'.tableSize = m.tableSize ∧ m'.tableShift = m.tableShift := by
  unfold updatedTotal at h
  unfold AdaptiveDataModel.update
  simp only
  rw [if_neg h]
  exact ⟨_, rfl, rfl, rfl, rfl, rfl, rfl⟩

theorem setAlphabet_any {N : Nat} (model : AdaptiveDataModel) (hN2 : 2 ≤ N) (hN : N ≤ 2048)
    (hsame : model.dataSymbols = N → model.lastSymbol = N - 1 ∧ TableShape N model) :
    ∃ m, model.setAlphabet N = .ok m ∧ AdaptInv N m := by
  have hNn : ¬ (N < 2 ∨ N > 1 <<< 11) := by
    have : (1 : Nat) <<< 11 = 2048 := by decide
    omega
  unfold AdaptiveDataModel.setAlphabet
  rw [if_neg hNn]
  by_cases hN0 : model.dataSymbols ≠ N
  · rw [if_pos hN0]
    by_cases h16 : N > 16
    · rw [if_pos h16]
      obtain ⟨m', b1, b2, _⟩ := reset_spec (N := N) (m := { model with
          dataSymbols := N
          lastSymbol := N - 1
          tableSize := (1 <<< tableBitsLoop N 32 3) + 4
          tableShift := DM__LengthShift - tableBitsLoop N 32 3
          decoderTable := some [] }) hN2 hN rfl rfl (by
        right
        refine ⟨h16, tableBitsLoop N 32 3, tableBitsLoop_le hN 32 3 (by omega), ?_, rfl, rfl⟩
        show (1 <<< tableBitsLoop N 32 3) + 4 = _
        rw [Nat.one_shiftLeft])
      exact ⟨m', b1, b2⟩
    · rw [if_neg h16]
      obtain ⟨m', b1, b2, _⟩ := reset_spec (N := N) (m := { model with
          dataSymbols := N
          lastSymbol := N - 1
          tableSize := 0
          tableShift := 0
          decoderTable := none }) hN2 hN rfl rfl (by
        left
        exact ⟨by omega, rfl, rfl⟩)
      exact ⟨m', b1, b2⟩
  · rw [if_neg hN0]
    have hds : model.dataSymbols = N := by
      by_contra h
      exact hN0 h
    obtain ⟨h1, h2⟩ := hsame hds
    obtain ⟨m', b1, b2, _⟩ := reset_spec hN2 hN hds h1 h2
    exact ⟨m', b1, b2⟩

/-- **C12** Alphabet size validation. `setAlphabet(N)`, on a new adaptive
model or on any model in a state reachable from an earlier `setAlphabet`,
fails with `invalid number of data symbols` if `N < 2` or `N > 2048`, and
otherwise returns a model with `dataSymbols = N` and `lastSymbol = N - 1`
(so it fails if and only if `N < 2` or `N > 2048`); `setDistribution(N,
probs)` fails with the same message whenever `N < 2` or `N > 2048`, on any
model and whatever the probabilities are. -/
theorem alphabet_size_validation (N : Nat) (model : AdaptiveDataModel)
    (smodel : StaticDataModel) (cum : Nat → Nat) (valid : Bool)
    (hmodel : model = AdaptiveDataModel.new ∨ ∃ K, Reachable K model) :
    ((N < 2 ∨ N > 2048) →
      model.setAlphabet N = .error (Fault.acError "invalid number of data symbols")) ∧
    (¬ (N < 2 ∨ N > 2048) →
      ∃ m, model.setAlphabet N = .ok m ∧ m.dataSymbols = N ∧ m.lastSymbol = N - 1) ∧
    ((∃ e, model.setAlphabet N = .error e) ↔ (N < 2 ∨ N > 2048)) ∧
    ((N < 2 ∨ N > 2048) →
      smodel.setDistribution N cum valid =
        .error (Fault.acError "invalid number of data symbols")) := by
  have h11 : (1 : Nat) <<< 11 = 2048 := by decide
  have hbad : (N < 2 ∨ N > 2048) →
      model.setAlphabet N = .error (Fault.acError "invalid number of data symbols") := by
    intro h
    unfold AdaptiveDataModel.setAlphabet
    rw [if_pos (by rw [h11]; exact h)]
    rfl
  have hgood : ¬ (N < 2 ∨ N > 2048) →
      ∃ m, model.setAlphabet N = .ok m ∧ m.dataSymbols = N ∧ m.lastSymbol = N - 1 := by
    intro h
    have hsame : model.dataSymbols = N → model.lastSymbol = N - 1 ∧ TableShape N model := by
      intro hds
      rcases hmodel with hnew | ⟨K, hK⟩
      · rw [hnew] at hds
        have : (0 : Nat) = N := hds
        omega
      · have hinv := reachable_inv hK
        have hKN : K = N := by rw [← hinv.dataSymbols_eq, hds]
        subst hKN
        exact ⟨hinv.lastSymbol_eq, hinv.shape⟩
    obtain ⟨m, g1, g2⟩ := setAlphabet_any model (by omega) (by omega) hsame
    exact ⟨m, g1, g2.dataSymbols_eq, g2.lastSymbol_eq⟩
  refine ⟨hbad, hgood, ⟨fun ⟨e, he⟩ => ?_, fun h => ⟨_, hbad h⟩⟩, fun h => ?_⟩
  · by_contra hn
    obtain ⟨m, g1, _⟩ := hgood hn
    rw [g1] at he
    cases he
  · unfold StaticDataModel.setDistribution
    rw [if_pos (by rw [h11]; exact h)]
    rfl

/-- Witness of `alphabet_size_validation`: `setAlphabet(2049)` fails,
`setAlphabet(3)` on a new model returns a model over three symbols. -/
theorem alphabet_size_validation_witness :
    AdaptiveDataModel.new.setAlphabet 2049 =
      .error (Fault.acError "invalid number of data symbols") ∧
    AdaptiveDataModel.new.setAlphabet 1 =
      .error (Fault.acError "invalid number of data symbols") ∧
    ∃ m, AdaptiveDataModel.new.setAlphabet 3 = .ok m ∧ m.dataSymbols = 3 ∧
      m.lastSymbol = 3 - 1 :=
  ⟨(alphabet_size_validation 2049 AdaptiveDataModel.new StaticDataModel.new (fun _ => 0) true
      (Or.inl rfl)).1 (by decide),
    (alphabet_size_validation 1 AdaptiveDataModel.new StaticDataModel.new (fun _ => 0) true
      (Or.inl rfl)).1 (by decide),
    (alphabet_size_validation 3 AdaptiveDataModel.new StaticDataModel.new (fun _ => 0) true
      (Or.inl rfl)).2.1 (by decide)⟩

theorem bind_eq_ok {α β : Type} {x : Except Fault α} {f : α → Except Fault β} {b : β}
    (h : x >>= f = .ok b) : ∃ a, x = .ok a ∧ f a = .ok b := by
  cases x with
  | error e => cases h
  | ok a => exact ⟨a, rfl, h⟩

theorem renormEncLoop_mode : ∀ (fuel : Nat) (c c' : ArithmeticCodec),
    renormEncLoop fuel c = .ok c' → c'.mode = c.mode := by
  intro fuel
  induction fuel with
  | zero => intro c c' h; cases h
  | succ fuel ih =>
    intro c c' h
    unfold renormEncLoop at h
    simp only at h
    split at h
    · have := ih _ _ h
      exact this
    · rw [← Except.ok.inj h]

theorem renormDecLoop_mode : ∀ (fuel : Nat) (c c' : ArithmeticCodec),
    renormDecLoop fuel c = .ok c' → c'.mode = c.mode := by
  intro fuel
  induction fuel with
  | zero => intro c c' h; cases h
  | succ fuel ih =>
    intro c c' h
    unfold renormDecLoop at h
    simp only at h
    split at h
    · have := ih _ _ h
      exact this
    · rw [← Except.ok.inj h]

theorem propagateCarry_mode {c c' : ArithmeticCodec} (h : propagateCarry c = .ok c') :
    c'.mode = c.mode := by
  unfold propagateCarry at h
  split at h
  · rw [← Except.ok.inj h]
  · cases h

theorem encodeInterval_mode {dist : List Nat} {l s : Nat} {c c' : ArithmeticCodec}
    (h : encodeInterval dist l s c = .ok c') : c'.mode = c.mode := by
  have fin : ∀ c2 : ArithmeticCodec, c2.mode = c.mode →
      (if c2.length < AC__MinLength then renormEncryptionInterval c2 else pure c2) = .ok c' →
      c'.mode = c.mode := by
    intro c2 h1 h2
    split at h2
    · rw [renormEncLoop_mode _ _ _ h2, h1]
    · rw [← Except.ok.inj h2, h1]
  unfold encodeInterval at h
  cases hd : rd dist s with
  | error e => rw [hd] at h; cases h
  | ok d =>
    rw [hd, ok_bind] at h
    by_cases hl : s = l
    · simp only [if_pos hl, pure_bind] at h
      split at h
      · obtain ⟨c2, h4, h5⟩ := bind_eq_ok h
        have e := propagateCarry_mode h4
        exact fin c2 e h5
      · split at h
        · have := renormEncLoop_mode _ _ _ h
          exact this
        · rw [← Except.ok.inj h]
    · simp only [if_neg hl] at h
      cases hd1 : rd dist (s + 1) with
      | error e => rw [hd1] at h; cases h
      | ok d1 =>
        rw [hd1, ok_bind] at h
        simp only [pure_bind] at h
        split at h
        · obtain ⟨c2, h4, h5⟩ := bind_eq_ok h
          have e := propagateCarry_mode h4
          exact fin c2 e h5
        · split at h
          · have := renormEncLoop_mode _ _ _ h
            exact this
          · rw [← Except.ok.inj h]

theorem decodeInterval_mode {dist : List Nat} {tbl : Option (List Nat)} {N l shift s : Nat}
    {c c' : ArithmeticCodec} (h : decodeInterval dist tbl N l shift c = .ok (s, c')) :
    c'.mode = c.mode := by
  unfold decodeInterval at h
  cases hs : decodeSearch dist tbl N l shift c with
  | error e => rw [hs] at h; cases h
  | ok sxy =>
    rw [hs, ok_bind] at h
    simp only at h
    split at h
    · cases h5 : renormDecryptionInterval
        { c with value := sub32 c.value sxy.2.1, length := sub32 sxy.2.2 sxy.2.1 } with
      | error e => rw [h5] at h; cases h
      | ok c2 =>
        rw [h5, ok_bind] at h
        have e := Except.ok.inj h
        rw [← (Prod.mk.inj e).2, renormDecLoop_mode _ _ _ h5]
    · rw [pure_bind] at h
      have e := Except.ok.inj h
      rw [← (Prod.mk.inj e).2]

theorem stopEncoder_error {c : ArithmeticCodec} (hm : c.mode ≠ 1) :
    stopEncoder c = .error (Fault.acError "invalid to stop encoder") := by
  unfold stopEncoder
  simp only [ne_eq, hm, not_false_eq_true, if_true]
  rfl

theorem stopEncoder_mode {c c' : ArithmeticCodec} {n : Nat}
    (h : stopEncoder c = .ok (n, c')) : c.mode = 1 ∧ c'.mode = 0 := by
  by_cases hm : c.mode = 1
  · refine ⟨hm, ?_⟩
    unfold stopEncoder at h
    simp only [hm, ne_eq, not_true_eq_false, if_false, pure_bind] at h
    have hc1 : (if c.length > 2 * AC__MinLength then
          ({ c with mode := 0, base := u32 (c.base + AC__MinLength),
                    length := AC__MinLength >>> 1 } : ArithmeticCodec)
        else
          { c with mode := 0, base := u32 (c.base + (AC__MinLength >>> 1)),
                   length := AC__MinLength >>> 9 }).mode = 0 := by
      split <;> rfl
    generalize (if c.length > 2 * AC__MinLength then
          ({ c with mode := 0, base := u32 (c.base + AC__MinLength),
                    length := AC__MinLength >>> 1 } : ArithmeticCodec)
        else
          { c with mode := 0, base := u32 (c.base + (AC__MinLength >>> 1)),
                   length := AC__MinLength >>> 9 }) = c1 at h hc1
    have fin : ∀ c3 : ArithmeticCodec, c3.mode = 0 →
        (if u32 c3.acPointer > c3.bufferSize then
          ((AC_Error "code buffer overflow" : Except Fault PUnit) >>= fun _ =>
            pure (u32 c3.acPointer, c3))
        else pure (u32 c3.acPointer, c3)) = Except.ok (n, c') → c'.mode = 0 := by
      intro c3 h3 h4
      split at h4
      · cases h4
      · have e := Except.ok.inj h4
        rw [← (Prod.mk.inj e).2]
        exact h3
    split at h
    · obtain ⟨c2, h2, h3⟩ := bind_eq_ok h
      obtain ⟨c3, h4, h5⟩ := bind_eq_ok h3
      have e2 := propagateCarry_mode h2
      have e3 := renormEncLoop_mode _ _ _ h4
      exact fin c3 (by rw [e3, e2, hc1]) h5
    · obtain ⟨c3, h4, h5⟩ := bind_eq_ok h
      have e3 := renormEncLoop_mode _ _ _ h4
      exact fin c3 (by rw [e3, hc1]) h5
  · rw [stopEncoder_error hm] at h
    cases h

theorem startEncoder_mode {c c' : ArithmeticCodec} (h : startEncoder c = .ok c') :
    c.mode = 0 ∧ c'.mode = 1 := by
  unfold startEncoder at h
  split at h
  · cases h
  · split at h
    · cases h
    · rename_i h0 _
      rw [← Except.ok.inj h]
      exact ⟨by simpa using h0, rfl⟩

theorem startDecoder_mode {c c' : ArithmeticCodec} (h : startDecoder c = .ok c') :
    c.mode = 0 ∧ c'.mode = 2 := by
  unfold startDecoder at h
  split at h
  · cases h
  · split at h
    · cases h
    · rename_i h0 _
      rw [← Except.ok.inj h]
      exact ⟨by simpa using h0, rfl⟩

theorem stopDecoder_mode {c c' : ArithmeticCodec} (h : stopDecoder c = .ok c') :
    c.mode = 2 ∧ c'.mode = 0 := by
  unfold stopDecoder at h
  split at h
  · cases h
  · rename_i h0
    rw [← Except.ok.inj h]
    exact ⟨by simpa using h0, rfl⟩

theorem setBuffer_mode {n : Nat} {b : Option (List Nat)} {c c' : ArithmeticCodec}
    (h : setBuffer n b c = .ok c') : c.mode = 0 ∧ c'.mode = 0 := by
  unfold setBuffer at h
  split at h
  · cases h
  · split at h
    · cases h
    · rename_i h0
      have hm : c.mode = 0 := by simpa using h0
      split at h
      · rw [← Except.ok.inj h]
        exact ⟨hm, hm⟩
      · split at h
        · rw [← Except.ok.inj h]
          exact ⟨hm, hm⟩
        · rw [← Except.ok.inj h]
          exact ⟨hm, hm⟩

theorem readFromFile_mode {f rest : List Nat} {c c' : ArithmeticCodec}
    (h : readFromFile f c = .ok (c', rest)) : c.mode = 0 ∧ c'.mode = 2 := by
  unfold readFromFile at h
  split at h
  · cases h
  · split at h
    · cases h
    · split at h
      · cases h
      · split at h
        · cases h
        · rename_i d hd
          have e := Except.ok.inj h
          rw [← (Prod.mk.inj e).1]
          have g := startDecoder_mode hd
          exact g

theorem readFromInputBuffer_mode {b : List Nat} {o k r : Nat} {c c' : ArithmeticCodec}
    (h : readFromInputBuffer b o k c = .ok (r, c')) : c.mode = 0 ∧ c'.mode = 2 := by
  unfold readFromInputBuffer at h
  split at h
  · cases h
  · split at h
    · cases h
    · split at h
      · cases h
      · rename_i d hd
        have e := Except.ok.inj h
        rw [← (Prod.mk.inj e).2]
        have g := startDecoder_mode hd
        exact g

theorem writeToFile_mode {f f' : List Nat} {r : Nat} {c c' : ArithmeticCodec}
    (h : writeToFile f c = .ok (r, f', c')) : c.mode = 1 ∧ c'.mode = 0 := by
  unfold writeToFile at h
  split at h
  · cases h
  · rename_i n c3 hs
    split at h
    · cases h
    · split at h
      · cases h
      · have e := Except.ok.inj h
        rw [← (Prod.mk.inj (Prod.mk.inj e).2).2]
        exact stopEncoder_mode hs

theorem writeToOutputBuffer_mode {b b' : List Nat} {o r : Nat} {c c' : ArithmeticCodec}
    (h : writeToOutputBuffer b o c = .ok (r, b', c')) : c.mode = 1 ∧ c'.mode = 0 := by
  unfold writeToOutputBuffer at h
  split at h
  · cases h
  · rename_i n c3 hs
    split at h
    · cases h
    · split at h
      · cases h
      · have e := Except.ok.inj h
        rw [← (Prod.mk.inj (Prod.mk.inj e).2).2]
        exact stopEncoder_mode hs

theorem map_eq_ok {α β : Type} {x : Except Fault α} {f : α → β} {b : β}
    (h : x.map f = .ok b) : ∃ a, x = .ok a ∧ f a = b := by
  cases x with
  | error e => cases h
  | ok a => exact ⟨a, rfl, Except.ok.inj h⟩

/-- The mode after a call that returns: unchanged, or started from idle, or
stopped by a stopping call. -/
theorem run_mode {k : Call} {c c' : ArithmeticCodec} (h : k.run c = .ok c') :
    (c'.mode = c.mode ∧ (c.mode = 0 ∨ k.isStop = false)) ∨
      (c.mode = 0 ∧ (c'.mode = 1 ∨ c'.mode = 2)) ∨
      (c'.mode = 0 ∧ k.isStop = true ∧ (c.mode = 1 ∨ c.mode = 2)) := by
  cases k with
  | setBuffer n b =>
    obtain ⟨h1, h2⟩ := setBuffer_mode h
    exact Or.inl ⟨by rw [h1, h2], Or.inl h1⟩
  | startEncoder =>
    obtain ⟨h1, h2⟩ := startEncoder_mode h
    exact Or.inr (Or.inl ⟨h1, Or.inl h2⟩)
  | startDecoder =>
    obtain ⟨h1, h2⟩ := startDecoder_mode h
    exact Or.inr (Or.inl ⟨h1, Or.inr h2⟩)
  | readFromFile f =>
    obtain ⟨a, h1, h2⟩ := map_eq_ok h
    obtain ⟨g1, g2⟩ := @readFromFile_mode f a.2 c a.1 h1
    rw [← h2]
    exact Or.inr (Or.inl ⟨g1, Or.inr g2⟩)
  | readFromInputBuffer b o n =>
    obtain ⟨a, h1, h2⟩ := map_eq_ok h
    obtain ⟨g1, g2⟩ := @readFromInputBuffer_mode b o n a.1 c a.2 h1
    rw [← h2]
    exact Or.inr (Or.inl ⟨g1, Or.inr g2⟩)
  | stopEncoder =>
    obtain ⟨a, h1, h2⟩ := map_eq_ok h
    obtain ⟨g1, g2⟩ := @stopEncoder_mode c a.2 a.1 h1
    rw [← h2]
    exact Or.inr (Or.inr ⟨g2, rfl, Or.inl g1⟩)
  | writeToFile f =>
    obtain ⟨a, h1, h2⟩ := map_eq_ok h
    obtain ⟨g1, g2⟩ := @writeToFile_mode f a.2.1 a.1 c a.2.2 h1
    rw [← h2]
    exact Or.inr (Or.inr ⟨g2, rfl, Or.inl g1⟩)
  | writeToOutputBuffer b o =>
    obtain ⟨a, h1, h2⟩ := map_eq_ok h
    obtain ⟨g1, g2⟩ := @writeToOutputBuffer_mode b a.2.1 o a.1 c a.2.2 h1
    rw [← h2]
    exact Or.inr (Or.inr ⟨g2, rfl, Or.inl g1⟩)
  | stopDecoder =>
    obtain ⟨g1, g2⟩ := stopDecoder_mode h
    exact Or.inr (Or.inr ⟨g2, rfl, Or.inr g1⟩)
  | encode s m =>
    exact Or.inl ⟨encodeInterval_mode h, Or.inr rfl⟩
  | encodeAdaptive s m =>
    obtain ⟨a, h1, h2⟩ := map_eq_ok h
    rw [← h2]
    unfold ArithmeticCodec.encodeAdaptive at h1
    obtain ⟨c1, g1, g2⟩ := bind_eq_ok h1
    obtain ⟨m1, g3, g4⟩ := bind_eq_ok g2
    have e := Except.ok.inj g4
    rw [← e]
    exact Or.inl ⟨encodeInterval_mode g1, Or.inr rfl⟩
  | decode m =>
    obtain ⟨a, h1, h2⟩ := map_eq_ok h
    rw [← h2]
    exact Or.inl ⟨@decodeInterval_mode _ _ _ _ _ a.1 c a.2 h1, Or.inr rfl⟩
  | decodeAdaptive m =>
    obtain ⟨a, h1, h2⟩ := map_eq_ok h
    rw [← h2]
    unfold ArithmeticCodec.decodeAdaptive at h1
    obtain ⟨sc, g1, g2⟩ := bind_eq_ok h1
    obtain ⟨m1, g3, g4⟩ := bind_eq_ok g2
    have e := Except.ok.inj g4
    rw [← e]
    exact Or.inl ⟨@decodeInterval_mode _ _ _ _ _ sc.1 c sc.2 g1, Or.inr rfl⟩

theorem runCalls_stop : ∀ (calls : List Call) (c c' : ArithmeticCodec),
    runCalls calls c = .ok c' → (c.mode = 1 ∨ c.mode = 2) →
    c'.mode = c.mode ∨
      ∃ pre k post cp ci, calls = pre ++ k :: post ∧ k.isStop = true ∧
        runCalls pre c = .ok cp ∧ k.run cp = .ok ci ∧ ci.mode = 0 := by
  intro calls
  induction calls with
  | nil =>
    intro c c' h _
    left
    rw [← Except.ok.inj h]
  | cons k ks ih =>
    intro c c' h hm
    unfold runCalls at h
    cases h1 : k.run c with
    | error e => rw [h1] at h; cases h
    | ok c1 =>
      rw [h1] at h
      simp only at h
      rcases run_mode h1 with ⟨g1, _⟩ | ⟨g1, _⟩ | ⟨g1, g2, _⟩
      · rcases ih c1 c' h (by rw [g1]; exact hm) with g3 | ⟨pre, k2, post, cp, ci, a1, a2, a3, a4, a5⟩
        · left
          rw [g3, g1]
        · right
          refine ⟨k :: pre, k2, post, cp, ci, by rw [a1]; rfl, a2, ?_, a4, a5⟩
          unfold runCalls
          rw [h1]
          exact a3
      · omega
      · right
        exact ⟨[], k, ks, c, c1, rfl, g2, rfl, h1, g1⟩

/-- **C13** The mode state machine of the coder. `startEncoder` and
`startDecoder` fail whenever the mode is not 0 (idle), and fail with no buffer
set; from mode 0 with a buffer they return the state with mode 1 (encoding),
`base = 0`, `length = 0xFFFFFFFF` and the pointer at the start of the buffer,
respectively with mode 2 (decoding), `length = 0xFFFFFFFF`, `value` the first
four bytes of the buffer read big-endian, and the pointer at index 3.
`stopEncoder` fails unless the mode is 1 and `stopDecoder` fails unless the
mode is 2; every stop that returns leaves mode 0. Hence in every sequence of
calls of the public methods of the coder that all return and that leads from
mode 1 to mode 2 or from mode 2 to mode 1, one of the calls is a stop
(`stopEncoder`, `writeToFile`, `writeToOutputBuffer` or `stopDecoder`) that
returns with mode 0. -/
theorem mode_state_machine :
    (∀ c : ArithmeticCodec, c.mode ≠ 0 →
      startEncoder c = .error (Fault.acError "cannot start encoder") ∧
      startDecoder c = .error (Fault.acError "cannot start decoder")) ∧
    (∀ c : ArithmeticCodec, c.mode = 0 → c.bufferSize = 0 →
      startEncoder c = .error (Fault.acError "no code buffer set") ∧
      startDecoder c = .error (Fault.acError "no code buffer set")) ∧
    (∀ c : ArithmeticCodec, c.mode = 0 → c.bufferSize ≠ 0 →
      startEncoder c = .ok { c with mode := 1, base := 0, length := 0xFFFFFFFF, acPointer := 0 } ∧
      startDecoder c = .ok { c with
        mode := 2
        length := 0xFFFFFFFF
        acPointer := 3
        value := ((byteAt c.codeBuffer 0 * 256 + byteAt c.codeBuffer 1) * 256 +
          byteAt c.codeBuffer 2) * 256 + byteAt c.codeBuffer 3 }) ∧
    (∀ c : ArithmeticCodec, c.mode ≠ 1 →
      stopEncoder c = .error (Fault.acError "invalid to stop encoder")) ∧
    (∀ (c c' : ArithmeticCodec) (n : Nat), stopEncoder c = .ok (n, c') → c'.mode = 0) ∧
    (∀ c : ArithmeticCodec, c.mode ≠ 2 →
      stopDecoder c = .error (Fault.acError "invalid to stop decoder")) ∧
    (∀ c : ArithmeticCodec, c.mode = 2 → stopDecoder c = .ok { c with mode := 0 }) ∧
    (∀ (calls : List Call) (c c' : ArithmeticCodec), runCalls calls c = .ok c' →
      (c.mode = 1 ∧ c'.mode = 2) ∨ (c.mode = 2 ∧ c'.mode = 1) →
      ∃ pre k post cp ci, calls = pre ++ k :: post ∧ k.isStop = true ∧
        runCalls pre c = .ok cp ∧ k.run cp = .ok ci ∧ ci.mode = 0) := by
  refine ⟨fun c hm => ⟨?_, ?_⟩, fun c hm hb => ⟨?_, ?_⟩, fun c hm hb => ⟨?_, ?_⟩,
    fun c hm => stopEncoder_error hm, fun c c' n h => (stopEncoder_mode h).2,
    fun c hm => ?_, fun c hm => ?_, fun calls c c' h hm => ?_⟩
  · unfold startEncoder
    rw [if_pos hm]
    rfl
  · unfold startDecoder
    rw [if_pos hm]
    rfl
  · unfold startEncoder
    rw [if_neg (by rw [hm]; simp), if_pos hb]
    rfl
  · unfold startDecoder
    rw [if_neg (by rw [hm]; simp), if_pos hb]
    rfl
  · exact startEncoder_spec hm hb
  · rw [startDecoder_spec hm hb]
    have e : streamVal c.codeBuffer 4 = ((byteAt c.codeBuffer 0 * 256 + byteAt c.codeBuffer 1) * 256 +
        byteAt c.codeBuffer 2) * 256 + byteAt c.codeBuffer 3 := by
      simp only [streamVal, Nat.zero_mul, Nat.zero_add]
    rw [e]
    rfl
  · unfold stopDecoder
    rw [if_pos hm]
    rfl
  · unfold stopDecoder
    rw [if_neg (by rw [hm]; simp)]
  · rcases hm with ⟨h1, h2⟩ | ⟨h1, h2⟩
    · rcases runCalls_stop calls c c' h (Or.inl h1) with g | g
      · omega
      · exact g
    · rcases runCalls_stop calls c c' h (Or.inr h1) with g | g
      · omega
      · exact g

/-- The two table entries that the decoder reads bracket the symbol. -/
theorem table_brackets {dist table : List Nat} {N tb q v s : Nat}
    (hv : validDistribution dist N) (htb : tb ≤ 9)
    (hT : TableOK dist N (15 - tb) (2 ^ tb + 4) table) (hq0 : 0 < q)
    (hdv : v / q < 2 ^ 15 + 64) (ht : IsTarget dist N q v s) :
    (v / q) >>> (15 - tb) + 1 < table.length ∧
      table.getD ((v / q) >>> (15 - tb)) 0 ≤ s ∧
      s ≤ table.getD ((v / q) >>> (15 - tb) + 1) 0 ∧
      table.getD ((v / q) >>> (15 - tb) + 1) 0 < N := by
  obtain ⟨hlenT, hT⟩ := hT
  have hslot := slot_bound htb hdv
  have hs := ht.1
  generalize hP : 2 ^ tb = P at hslot hlenT
  generalize hdvq : v / q = dv at hslot hdv
  generalize htt : dv >>> (15 - tb) = t at hslot
  have e0 := hT t (by omega)
  have e1 := hT (t + 1) (by omega)
  generalize table.getD t 0 = s0 at e0
  generalize table.getD (t + 1) 0 = s1 at e1
  obtain ⟨a1, a2, _⟩ := e0
  obtain ⟨b1, _, b3⟩ := e1
  refine ⟨by omega, ?_, ?_, b1⟩
  · have h := a2 dv (by omega)
    by_contra hcon
    have hlt := (ht.gt_iff hv a1).mpr (by omega)
    rw [← hdvq, Nat.le_div_iff_mul_le hq0] at h
    omega
  · by_contra hcon
    have h := b3 (by omega) dv (by omega)
    rw [← hdvq, Nat.div_lt_iff_lt_mul hq0] at h
    have := (ht.gt_iff hv (show s1 + 1 < N by omega)).mp h
    omega

theorem setDistribution_table {N : Nat} {cum : Nat → Nat} {model : StaticDataModel}
    (h : StaticDataModel.new.setDistribution N cum true = .ok model) (h16 : 16 < N) :
    ∃ tb, tb ≤ 9 ∧ model.tableShift = 15 - tb ∧
      model.decoderTable = some (buildTable model.distribution N (2 ^ tb + 4) (15 - tb)) := by
  unfold StaticDataModel.setDistribution at h
  by_cases hN : N < 2 ∨ N > 1 <<< 11
  · rw [if_pos hN] at h
    cases h
  · have hN0 : StaticDataModel.new.dataSymbols ≠ N := by
      show 0 ≠ N
      omega
    have hN2 : N ≤ 2048 := by
      have : (1 : Nat) <<< 11 = 2048 := by decide
      omega
    rw [if_neg hN] at h
    simp only [if_pos hN0, Bool.true_eq_false, if_false] at h
    simp only [if_pos h16] at h
    have htb := tableBitsLoop_le hN2 32 3 (by omega)
    generalize tableBitsLoop N 32 3 = tb at h htb
    have hsz : (1 <<< tb) + 4 ≠ 0 := Nat.succ_ne_zero _
    simp only [hsz, if_false] at h
    have hm := (Except.ok.inj h).symm
    subst hm
    refine ⟨tb, htb, rfl, ?_⟩
    have e : (1 <<< tb) + 4 = 2 ^ tb + 4 := by rw [Nat.one_shiftLeft]
    simp only [e]
    rfl

/-- **C18** The symbol search of the decoder. For every distribution over
`N` symbols that is strictly increasing with `distribution[0] = 0` and
`distribution[N-1] < 2^15`, every `length` with
`AC__MinLength ≤ length ≤ AC__MaxLength` and every `value < length`, with
`q = length >> 15`: there is exactly one `s < N` with
`distribution[s] * q ≤ value` and (`s = N - 1` or
`value < distribution[s+1] * q`); the bisection search (no table) returns
this `s` with `x = distribution[s] * q` and `y = distribution[s+1] * q`
(`y = length` for the last symbol); and for the table built from the
distribution with `tableSize = 2^tableBits + 4` and
`tableShift = 15 - tableBits` (`tableBits ≤ 9`), the indices `t` and `t + 1`
(`t = (value / q) >> tableShift`) are inside the table,
`decoderTable[t] ≤ s ≤ decoderTable[t+1]`, and the search with the table
returns the same `s`, `x` and `y`. This is the table of a static model that
`setDistribution` returns and of an adaptive model that `update(false)`
returns, when `N > 16`. -/
theorem decoder_search_agrees (dist : List Nat) (N : Nat) (d : ArithmeticCodec)
    (hv : validDistribution dist N) (h1 : AC__MinLength ≤ d.length)
    (h2 : d.length ≤ AC__MaxLength) (hval : d.value < d.length) :
    ∃ s, (s < N ∧ dist.getD s 0 * (d.length >>> 15) ≤ d.value ∧
        (s = N - 1 ∨ d.value < dist.getD (s + 1) 0 * (d.length >>> 15))) ∧
      (∀ s', s' < N → dist.getD s' 0 * (d.length >>> 15) ≤ d.value →
        (s' = N - 1 ∨ d.value < dist.getD (s' + 1) 0 * (d.length >>> 15)) → s' = s) ∧
      decodeSearch dist none N (N - 1) 0 d =
        .ok (s, dist.getD s 0 * (d.length >>> 15),
          if s = N - 1 then d.length else dist.getD (s + 1) 0 * (d.length >>> 15)) ∧
      (∀ tb, tb ≤ 9 →
        (d.value / (d.length >>> 15)) >>> (15 - tb) + 1 <
          (buildTable dist N (2 ^ tb + 4) (15 - tb)).length ∧
        (buildTable dist N (2 ^ tb + 4) (15 - tb)).getD
          ((d.value / (d.length >>> 15)) >>> (15 - tb)) 0 ≤ s ∧
        s ≤ (buildTable dist N (2 ^ tb + 4) (15 - tb)).getD
          ((d.value / (d.length >>> 15)) >>> (15 - tb) + 1) 0 ∧
        decodeSearch dist (some (buildTable dist N (2 ^ tb + 4) (15 - tb))) N (N - 1)
            (15 - tb) d =
          decodeSearch dist none N (N - 1) 0 d) ∧
      (∀ cum model, StaticDataModel.new.setDistribution N cum true = .ok model →
        model.distribution = dist → 16 < N →
        ∃ tb, tb ≤ 9 ∧ model.tableShift = 15 - tb ∧
          model.decoderTable = some (buildTable dist N (2 ^ tb + 4) (15 - tb))) ∧
      (∀ m m', m.dataSymbols = N → TableShape N m →
        AdaptiveDataModel.update false m = .ok m' → m'.distribution = dist → 16 < N →
        ∃ tb, tb ≤ 9 ∧ m'.tableShift = 15 - tb ∧
          m'.decoderTable = some (buildTable dist N (2 ^ tb + 4) (15 - tb))) := by
  have hlen1 : 2 ^ 24 ≤ d.length := h1
  have hlen2 : d.length < 2 ^ 32 := by
    have : AC__MaxLength = 2 ^ 32 - 1 := by decide
    omega
  have hq : d.length >>> 15 = d.length / 2 ^ 15 := by
    simp [Nat.shiftRight_eq_div_pow]
  have hq0 : 0 < d.length >>> 15 := by rw [hq]; omega
  obtain ⟨s, ht⟩ := exists_target hv (d.length >>> 15) d.value
  have hs := ht.1
  have hN2 := hv.2.1
  have hnone := @decodeSearch_spec dist N s none d 0 hv trivial hlen1 hlen2
    (fun h => absurd rfl h) ht
  have hnone2 : decodeSearch dist none N (N - 1) 0 d =
      .ok (s, dist.getD s 0 * (d.length >>> 15),
        if s = N - 1 then d.length else dist.getD (s + 1) 0 * (d.length >>> 15)) := hnone
  refine ⟨s, ⟨hs, ht.2.1, ?_⟩, fun s' a1 a2 a3 => ?_, hnone2, fun tb htb => ?_,
    fun cum model hset hdist h16 => ?_, fun m m' hds hshape hup hdist h16 => ?_⟩
  · by_cases hl : s = N - 1
    · exact Or.inl hl
    · exact Or.inr (ht.2.2 (by omega))
  · refine isTarget_unique hv ⟨a1, a2, fun hlt => ?_⟩ ht
    rcases a3 with a3 | a3
    · omega
    · exact a3
  · have hT := @buildTable_ok dist N (15 - tb) tb hv rfl htb
    have hdv : d.value / (d.length >>> 15) < 2 ^ 15 + 64 := by
      rw [Nat.div_lt_iff_lt_mul hq0, hq]
      omega
    obtain ⟨b1, b2, b3, _⟩ := table_brackets hv htb hT hq0 hdv ht
    refine ⟨b1, b2, b3, ?_⟩
    rw [hnone]
    exact decodeSearch_spec (15 - tb) hv ⟨tb, htb, rfl, hT⟩ hlen1 hlen2 (fun _ => hval) ht
  · obtain ⟨tb, g1, g2, g3⟩ := setDistribution_table hset h16
    rw [hdist] at g3
    exact ⟨tb, g1, g2, g3⟩
  · rcases hshape with ⟨g1, _⟩ | ⟨_, tb, g2, g3, g4, _⟩
    · omega
    · have h0 : updatedTotal m ≠ 0 := by
        intro h0
        rw [update_error h0] at hup
        cases hup
      obtain ⟨m2, e1, e2, _, _, _, e6⟩ := update_ok false h0
      rw [hup] at e1
      have e := Except.ok.inj e1
      subst e
      refine ⟨tb, g2, by rw [e6, g4], ?_⟩
      rw [e2, if_neg (by rw [g3]; simp), hdist, hds, g3, g4]

/-- Witness of `decoder_search_agrees`: the model over 20 symbols with
`distribution[k] = 1600 * k`, `length = 0x01000000` and `value = 0x00FFFFFF`;
the search returns the last symbol, with and without the table. -/
theorem decoder_search_agrees_witness :
    holds twentySymbolModel (fun model =>
      decide (model.tableShift = 15 - 3) &&
      decide (model.decoderTable =
        some (buildTable model.distribution 20 (2 ^ 3 + 4) (15 - 3))) &&
      decide (decodeSearch model.distribution model.decoderTable 20 19 model.tableShift
        topValueCoder = .ok (19, 30400 * 512, 0x01000000)) &&
      decide (decodeSearch model.distribution none 20 19 0 topValueCoder =
        .ok (19, 30400 * 512, 0x01000000))) = true ∧
    ∃ s, decodeSearch ((List.range 20).map (fun k => 1600 * k)) none 20 (20 - 1) 0
        topValueCoder =
      .ok (s, ((List.range 20).map (fun k => 1600 * k)).getD s 0 * (topValueCoder.length >>> 15),
        if s = 20 - 1 then topValueCoder.length
        else ((List.range 20).map (fun k => 1600 * k)).getD (s + 1) 0 *
          (topValueCoder.length >>> 15)) := by
  refine ⟨by decide, ?_⟩
  obtain ⟨s, _, _, h, _⟩ := decoder_search_agrees ((List.range 20).map (fun k => 1600 * k)) 20
    topValueCoder (by decide) (by decide) (by decide) (by decide)
  exact ⟨s, h⟩

theorem byte_bits : ∀ d, d < 128 →
    (d + 128) &&& 0x80 ≠ 0 ∧ (d + 128) &&& 0x7F = d ∧ d &&& 0x80 = 0 ∧ d &&& 0x7F = d ∧
      d ||| 0x80 = d + 128 := by decide

theorem and_7F (n : Nat) : n &&& 0x7F = n % 128 := Nat.and_pow_two_sub_one_eq_mod n 7

theorem shr_7 (n : Nat) : n >>> 7 = n / 128 := by
  rw [Nat.shiftRight_eq_div_pow]

theorem varint_length_pos (k n : Nat) (hk : 0 < k) : 0 < (varint k n).length := by
  cases k with
  | zero => omega
  | succ k =>
    unfold varint
    split <;> simp

theorem varint_length_le : ∀ (k n : Nat), (varint k n).length ≤ k := by
  intro k
  induction k with
  | zero => intro n; simp [varint]
  | succ k ih =>
    intro n
    unfold varint
    split
    · simp
    · have := ih (n / 128)
      simp only [List.length_cons]
      omega

theorem pos_of_div_pos {k n : Nat} (h1 : n < 128 ^ (k + 1)) (h2 : ¬ n / 128 = 0) :
    0 < k ∧ n / 128 < 128 ^ k := by
  have h3 : n / 128 < 128 ^ k := by
    rw [Nat.div_lt_iff_lt_mul (by norm_num)]
    rw [pow_succ] at h1
    exact h1
  refine ⟨?_, h3⟩
  by_contra hk
  have : k = 0 := by omega
  subst this
  simp at h3
  exact h2 h3

theorem bufferHeaderWriteLoop_spec : ∀ (k fuel : Nat) (pre old post : List Nat)
    (offset hb nb : Nat), nb < 128 ^ k → 0 < k → k ≤ fuel → offset + hb = pre.length →
    old.length = (varint k nb).length →
    bufferHeaderWriteLoop fuel (pre ++ old ++ post) offset hb nb =
      .ok (pre ++ varint k nb ++ post, hb + (varint k nb).length) := by
  intro k
  induction k with
  | zero => intro fuel pre old post offset hb nb _ hk; omega
  | succ k ih =>
    intro fuel pre old post offset hb nb hnb _ hfuel hoff hold
    obtain ⟨fuel', rfl⟩ : ∃ f, fuel = f + 1 := ⟨fuel - 1, by omega⟩
    have hpos := varint_length_pos (k + 1) nb (by omega)
    obtain ⟨o, old', rfl⟩ : ∃ o old', old = o :: old' := by
      cases old with
      | nil => simp at hold; omega
      | cons o old' => exact ⟨o, old', rfl⟩
    unfold bufferHeaderWriteLoop
    rw [if_neg (by simp; omega), hoff, shr_7, and_7F]
    have hset : ∀ v, (pre ++ o :: old' ++ post).set pre.length v = pre ++ [v] ++ old' ++ post := by
      intro v
      simp
    by_cases h0 : nb / 128 = 0
    · rw [if_neg (by omega), hset]
      have hv : varint (k + 1) nb = [nb % 128] := by
        conv_lhs => unfold varint
        rw [if_pos h0]
      rw [hv] at hold ⊢
      have : old' = [] := by
        simp at hold
        exact hold
      subst this
      simp
    · obtain ⟨hk, hlt⟩ := pos_of_div_pos hnb h0
      rw [if_pos (by omega), hset, (byte_bits (nb % 128) (Nat.mod_lt _ (by norm_num))).2.2.2.2]
      have hv : varint (k + 1) nb = (nb % 128 + 128) :: varint k (nb / 128) := by
        conv_lhs => unfold varint
        rw [if_neg h0]
      rw [hv] at hold ⊢
      rw [ih fuel' (pre ++ [nb % 128 + 128]) old' post offset (hb + 1) (nb / 128) hlt hk
        (by omega) (by simp; omega) (by simpa using hold)]
      simp only [List.length_cons, List.append_assoc, List.singleton_append, List.cons_append]
      congr 2
      omega

theorem fileHeaderWriteLoop_spec : ∀ (k fuel : Nat) (file : List Nat) (hb nb : Nat),
    nb < 128 ^ k → 0 < k → k ≤ fuel →
    fileHeaderWriteLoop fuel file hb nb =
      .ok (file ++ varint k nb, hb + (varint k nb).length) := by
  intro k
  induction k with
  | zero => intro fuel file hb nb _ hk; omega
  | succ k ih =>
    intro fuel file hb nb hnb _ hfuel
    obtain ⟨fuel', rfl⟩ : ∃ f, fuel = f + 1 := ⟨fuel - 1, by omega⟩
    unfold fileHeaderWriteLoop
    rw [shr_7, and_7F]
    by_cases h0 : nb / 128 = 0
    · rw [if_neg (by omega)]
      unfold varint
      rw [if_pos h0]
      simp
    · obtain ⟨hk, hlt⟩ := pos_of_div_pos hnb h0
      rw [if_pos (by omega), (byte_bits (nb % 128) (Nat.mod_lt _ (by norm_num))).2.2.2.2]
      have hv : varint (k + 1) nb = (nb % 128 + 128) :: varint k (nb / 128) := by
        conv_lhs => unfold varint
        rw [if_neg h0]
      rw [hv, ih fuel' _ (hb + 1) (nb / 128) hlt hk (by omega)]
      simp only [List.length_cons, List.append_assoc, List.singleton_append]
      congr 2
      omega

theorem or_shifted {acc d shift : Nat} (hacc : acc < 2 ^ shift) (hd : d < 128)
    (hs : shift ≤ 21) : acc ||| u32 (d <<< shift) = acc + d * 2 ^ shift := by
  have hP : 2 ^ shift ≤ 2 ^ 21 := Nat.pow_le_pow_right (by norm_num) hs
  have hlt : d * 2 ^ shift < 2 ^ 32 := by
    calc d * 2 ^ shift ≤ 127 * 2 ^ 21 := Nat.mul_le_mul (by omega) hP
      _ < 2 ^ 32 := by norm_num
  rw [Nat.shiftLeft_eq, u32_of_lt hlt, Nat.lor_comm, Nat.mul_comm,
    ← Nat.mul_add_lt_is_or hacc, Nat.add_comm]

theorem bufferHeaderLoop_spec : ∀ (k fuel : Nat) (pre post : List Nat)
    (offset shift acc nb : Nat), nb < 128 ^ k → 0 < k → k ≤ fuel → offset = pre.length →
    acc < 2 ^ shift → shift + 7 * k ≤ 28 →
    bufferHeaderLoop fuel (pre ++ varint k nb ++ post) offset shift acc =
      .ok (acc + nb * 2 ^ shift, offset + (varint k nb).length) := by
  intro k
  induction k with
  | zero => intro fuel pre post offset shift acc nb _ hk; omega
  | succ k ih =>
    intro fuel pre post offset shift acc nb hnb _ hfuel hoff hacc hshift
    obtain ⟨fuel', rfl⟩ : ∃ f, fuel = f + 1 := ⟨fuel - 1, by omega⟩
    have hd : nb % 128 < 128 := Nat.mod_lt _ (by norm_num)
    obtain ⟨b1, b2, b3, b4, _⟩ := byte_bits (nb % 128) hd
    unfold bufferHeaderLoop
    by_cases h0 : nb / 128 = 0
    · have hv : varint (k + 1) nb = [nb % 128] := by
        conv_lhs => unfold varint
        rw [if_pos h0]
      have hget : (pre ++ varint (k + 1) nb ++ post)[offset]? = some (nb % 128) := by
        rw [hv, hoff, List.append_assoc]
        exact getElem?_append_cons pre _ _
      rw [hget]
      simp only
      rw [if_neg (by omega), if_neg (by rw [b3]; simp), b4, or_shifted hacc hd (by omega), hv]
      have : nb % 128 = nb := by omega
      rw [this]
      rfl
    · obtain ⟨hk, hlt⟩ := pos_of_div_pos hnb h0
      have hv : varint (k + 1) nb = (nb % 128 + 128) :: varint k (nb / 128) := by
        conv_lhs => unfold varint
        rw [if_neg h0]
      have hget : (pre ++ varint (k + 1) nb ++ post)[offset]? = some (nb % 128 + 128) := by
        rw [hv, hoff, List.append_assoc]
        exact getElem?_append_cons pre _ _
      rw [hget]
      simp only
      rw [if_neg (by omega), if_pos b1, b2, or_shifted hacc hd (by omega), hv]
      have e : pre ++ (nb % 128 + 128) :: varint k (nb / 128) ++ post =
          (pre ++ [nb % 128 + 128]) ++ varint k (nb / 128) ++ post := by simp
      have hP : 0 < 2 ^ shift := Nat.two_pow_pos shift
      rw [e, ih fuel' (pre ++ [nb % 128 + 128]) post (offset + 1) (shift + 7)
        (acc + nb % 128 * 2 ^ shift) (nb / 128) hlt hk (by omega) (by simp; omega)
        (by rw [pow_add]; nlinarith) (by omega)]
      simp only [List.length_cons]
      have e2 : acc + nb % 128 * 2 ^ shift + nb / 128 * 2 ^ (shift + 7) = acc + nb * 2 ^ shift := by
        have h128 := Nat.div_add_mod nb 128
        rw [pow_add]
        nlinarith
      rw [e2]
      congr 2
      omega

theorem varint_getD : ∀ (k n i : Nat), n < 128 ^ k → i < (varint k n).length →
    (varint k n).getD i 0 =
      n / 128 ^ i % 128 + (if i + 1 < (varint k n).length then 128 else 0) := by
  intro k
  induction k with
  | zero => intro n i _ hi; simp [varint] at hi
  | succ k ih =>
    intro n i hn hi
    by_cases h0 : n / 128 = 0
    · have hv : varint (k + 1) n = [n % 128] := by
        conv_lhs => unfold varint
        rw [if_pos h0]
      rw [hv] at hi ⊢
      have : i = 0 := by simpa using hi
      subst this
      simp
    · obtain ⟨hk, hlt⟩ := pos_of_div_pos hn h0
      have hv : varint (k + 1) n = (n % 128 + 128) :: varint k (n / 128) := by
        conv_lhs => unfold varint
        rw [if_neg h0]
      have hpos := varint_length_pos k (n / 128) hk
      rw [hv] at hi ⊢
      cases i with
      | zero =>
        simp only [List.getD_cons_zero, pow_zero, Nat.div_one, List.length_cons]
        rw [if_pos (by omega)]
      | succ j =>
        simp only [List.length_cons] at hi ⊢
        rw [List.getD_cons_succ, ih (n / 128) j hlt (by omega), Nat.div_div_eq_div_mul,
          pow_succ, Nat.mul_comm]
        by_cases hj : j + 1 < (varint k (n / 128)).length
        · rw [if_pos hj, if_pos (by omega)]
        · rw [if_neg hj, if_neg (by omega)]

theorem varint_lt : ∀ (k n : Nat), n < 128 ^ k → 0 < k → n < 128 ^ (varint k n).length := by
  intro k
  induction k with
  | zero => intro n _ hk; omega
  | succ k ih =>
    intro n hn _
    by_cases h0 : n / 128 = 0
    · have hv : varint (k + 1) n = [n % 128] := by
        conv_lhs => unfold varint
        rw [if_pos h0]
      rw [hv]
      simp only [List.length_singleton, pow_one]
      omega
    · obtain ⟨hk, hlt⟩ := pos_of_div_pos hn h0
      have hv : varint (k + 1) n = (n % 128 + 128) :: varint k (n / 128) := by
        conv_lhs => unfold varint
        rw [if_neg h0]
      rw [hv]
      simp only [List.length_cons, pow_succ]
      have := ih (n / 128) hlt hk
      rw [Nat.div_lt_iff_lt_mul (by norm_num)] at this
      exact this

theorem split_at_slot (buffer : List Nat) (offset len : Nat) (h : offset + len ≤ buffer.length) :
    buffer = buffer.take offset ++ (buffer.drop offset).take len ++ buffer.drop (offset + len) ∧
      (buffer.take offset).length = offset ∧ ((buffer.drop offset).take len).length = len := by
  refine ⟨?_, ?_, ?_⟩
  · rw [List.append_assoc, ← List.drop_drop, List.take_append_drop, List.take_append_drop]
  · rw [List.length_take]
    omega
  · rw [List.length_take, List.length_drop]
    omega

/-- **C11** Block framing round trip. When `stopEncoder` returns the code
length `n` with `1 ≤ n ≤ 2^24`, the header that `writeToOutputBuffer` and
`writeToFile` write is the base-128 little-endian encoding of `n` in at most
4 bytes: byte `i` is the `i`-th base-128 digit of `n`, plus `0x80` if
another byte follows; the output buffer holds the header at `offset` and the
`n` code bytes after it, and `writeToOutputBuffer` returns the offset behind
them. Parsing that buffer at the same offset with `readFromInputBuffer`, by
an idle coder with a buffer whose array has room for `n` bytes, reads the
code length `n` from the header, copies the `n` code bytes to the start of
the code buffer, starts the decoder and returns the offset that
`writeToOutputBuffer` returned. -/
theorem block_framing_round_trip (c c3 d : ArithmeticCodec) (buffer file : List Nat)
    (offset n capacity : Nat)
    (hstop : stopEncoder c = .ok (n, c3)) (hn1 : 1 ≤ n) (hn2 : n ≤ 2 ^ 24)
    (hcode : n ≤ c3.codeBuffer.length)
    (hroom : offset + (varint 4 n).length + n ≤ buffer.length) (hlen : buffer.length < 2 ^ 32)
    (hd : d.mode = 0) (hdb : d.bufferSize ≠ 0) (hcap : n ≤ capacity) :
    1 ≤ (varint 4 n).length ∧ (varint 4 n).length ≤ 4 ∧ n < 128 ^ (varint 4 n).length ∧
    (∀ i, i < (varint 4 n).length → (varint 4 n).getD i 0 =
      n / 128 ^ i % 128 + (if i + 1 < (varint 4 n).length then 128 else 0)) ∧
    writeToFile file c =
      .ok ((varint 4 n).length + n, file ++ varint 4 n ++ c3.codeBuffer.take n, c3) ∧
    writeToOutputBuffer buffer offset c =
      .ok (offset + (varint 4 n).length + n,
        buffer.take offset ++ varint 4 n ++ c3.codeBuffer.take n ++
          buffer.drop (offset + (varint 4 n).length + n), c3) ∧
    bufferHeaderLoop 6 (buffer.take offset ++ varint 4 n ++ c3.codeBuffer.take n ++
        buffer.drop (offset + (varint 4 n).length + n)) offset 0 0 =
      .ok (n, offset + (varint 4 n).length) ∧
    readFromInputBuffer (buffer.take offset ++ varint 4 n ++ c3.codeBuffer.take n ++
        buffer.drop (offset + (varint 4 n).length + n)) offset capacity d =
      .ok (offset + (varint 4 n).length + n,
        { d with
          mode := 2
          length := AC__MaxLength
          acPointer := 3
          codeBuffer := c3.codeBuffer.take n ++ d.codeBuffer.drop n
          value := streamVal (c3.codeBuffer.take n ++ d.codeBuffer.drop n) 4 }) := by
  have hn : n < 128 ^ 4 := by
    have : (128 : Nat) ^ 4 = 2 ^ 28 := by norm_num
    omega
  have hpos := varint_length_pos 4 n (by norm_num)
  have hle := varint_length_le 4 n
  generalize hH : varint 4 n = header at hpos hle hroom
  have hHlen : header.length = (varint 4 n).length := by rw [hH]
  obtain ⟨hsplit, hpre, hold⟩ := split_at_slot buffer offset header.length (by omega)
  have hcodelen : (c3.codeBuffer.take n).length = n := by
    rw [List.length_take]
    omega
  have hwrite : bufferHeaderWriteLoop 6 buffer offset 0 n =
      .ok (buffer.take offset ++ header ++ buffer.drop (offset + header.length),
        0 + header.length) := by
    have := bufferHeaderWriteLoop_spec 4 6 (buffer.take offset)
      ((buffer.drop offset).take header.length) (buffer.drop (offset + header.length))
      offset 0 n hn (by norm_num) (by norm_num) (by rw [hpre]; rfl) (by rw [hold, hHlen])
    rw [← hsplit, hH] at this
    exact this
  have hread : bufferHeaderLoop 6 (buffer.take offset ++ header ++ c3.codeBuffer.take n ++
      buffer.drop (offset + header.length + n)) offset 0 0 = .ok (n, offset + header.length) := by
    have := bufferHeaderLoop_spec 4 6 (buffer.take offset)
      (c3.codeBuffer.take n ++ buffer.drop (offset + header.length + n)) offset 0 0 n hn
      (by norm_num) (by norm_num) hpre.symm (by norm_num) (by norm_num)
    rw [hH] at this
    simp only [List.append_assoc] at this ⊢
    rw [this]
    simp
  refine ⟨hpos, hle, ?_, ?_, ?_, ?_, hread, ?_⟩
  · rw [← hH]
    exact varint_lt 4 n hn (by norm_num)
  · intro i hi
    rw [← hH] at hi ⊢
    exact varint_getD 4 n i hn hi
  · unfold writeToFile
    rw [hstop]
    simp only
    rw [fileHeaderWriteLoop_spec 4 6 file 0 n hn (by norm_num) (by norm_num), hH]
    simp only
    rw [if_neg (by omega), u32_of_lt (by omega)]
    congr 2
    omega
  · unfold writeToOutputBuffer
    rw [hstop]
    simp only
    rw [hwrite]
    simp only
    have hl1 : (buffer.take offset ++ header ++ buffer.drop (offset + header.length)).length =
        buffer.length := by
      simp only [List.length_append, List.length_take, List.length_drop]
      omega
    rw [if_neg (by rw [hl1]; omega), u32_of_lt (by omega)]
    have ht : (buffer.take offset ++ header ++ buffer.drop (offset + header.length)).take
        (offset + (0 + header.length)) = buffer.take offset ++ header := by
      rw [List.take_append_of_le_length (by simp only [List.length_append, hpre]; omega)]
      rw [List.take_of_length_le (by simp only [List.length_append, hpre]; omega)]
    have hdr : (buffer.take offset ++ header ++ buffer.drop (offset + header.length)).drop
        (offset + (0 + header.length) + n) = buffer.drop (offset + header.length + n) := by
      have e : offset + (0 + header.length) + n = (buffer.take offset ++ header).length + n := by
        simp only [List.length_append, hpre]
        omega
      rw [e, List.drop_append, List.drop_drop]
    rw [ht, hdr]
    congr 2
    omega
  · unfold readFromInputBuffer
    rw [hread]
    simp only
    have hl2 : (buffer.take offset ++ header ++ c3.codeBuffer.take n ++
        buffer.drop (offset + header.length + n)).length = buffer.length := by
      simp only [List.length_append, hpre, hcodelen, List.length_drop]
      omega
    rw [if_neg (by rw [hl2]; omega)]
    have hcopy : ((buffer.take offset ++ header ++ c3.codeBuffer.take n ++
        buffer.drop (offset + header.length + n)).drop (offset + header.length)).take n =
        c3.codeBuffer.take n := by
      have e : offset + header.length = (buffer.take offset ++ header).length := by
        simp only [List.length_append, hpre]
      rw [List.append_assoc (buffer.take offset ++ header), e, List.drop_left,
        List.take_append_of_le_length (by omega), List.take_of_length_le (by omega)]
    have hsd := @startDecoder_spec
      { d with codeBuffer := c3.codeBuffer.take n ++ d.codeBuffer.drop n } hd hdb
    rw [hcopy, hsd, u32_of_lt (by omega)]

/-- Witness of `block_framing_round_trip`: the coder `carryCoder`, whose
`stopEncoder` returns 3 code bytes, an output buffer of 8 bytes and offset
2. -/
theorem block_framing_round_trip_witness :
    writeToOutputBuffer [9, 9, 9, 9, 9, 9, 9, 9] 2 carryCoder =
      .ok (6, [9, 9, 3, 19, 0, 127, 9, 9],
        { carryCoder with
          codeBuffer := [19, 0, 127], acPointer := 3, base := 4294901760,
          length := 2147483648, mode := 0 }) ∧
    (readFromInputBuffer [9, 9, 3, 19, 0, 127, 9, 9] 2 32 smallCoder).map
        (fun r => (r.1, r.2.codeBuffer, r.2.mode)) = .ok (6, [19, 0, 127], 2) ∧
    bufferHeaderLoop 6 ([9, 9, 9, 9, 9, 9, 9, 9].take 2 ++ varint 4 3 ++
        [19, 0, 127].take 3 ++ [9, 9, 9, 9, 9, 9, 9, 9].drop (2 + (varint 4 3).length + 3))
        2 0 0 = .ok (3, 2 + (varint 4 3).length) :=
  ⟨by decide, by decide,
    (block_framing_round_trip carryCoder
      { carryCoder with
        codeBuffer := [19, 0, 127], acPointer := 3, base := 4294901760,
        length := 2147483648, mode := 0 }
      smallCoder [9, 9, 9, 9, 9, 9, 9, 9] [] 2 3 32 (by decide) (by decide) (by decide)
      (by decide) (by decide) (by decide) (by decide) (by decide) (by decide)).2.2.2.2.2.2.1⟩

/-- Counterexample to **C15**: for the empty data file `encodeFile` writes 14
bytes, the 12-byte header and one block of two bytes (the header byte `0x01`
and one code byte), not the header alone; and `decodeFile` on the 12-byte
header alone fails reading a block. -/
theorem empty_input_counterexample :
    (Main.encodeFile []).map (fun r => r.1.length) = .ok 14 ∧
    (Main.encodeFile []).map (fun r => r.1.drop 12) = .ok [1, 1] ∧
    (Main.encodeFile []).map (fun r => r.2.length) = .ok 1 ∧
    Main.decodeFile (Main.saveNumber Main.FILE_ID ++ [0, 0, 0, 0] ++ [0, 0, 0, 0]) =
      .error (Fault.acError "cannot read code from file") := by
  refine ⟨?_, ?_, ?_, ?_⟩ <;> decide

/-- **C15** (amended) Empty input. For a data file of 0 bytes `encodeFile`
writes the 12-byte header, with the file identifier, the CRC field 0 and the
byte-count field 0, followed by exactly one block: the header byte `0x01` and
one code byte; `decodeFile` on that output reads this one block, decodes no
byte and returns the empty data file. -/
theorem empty_input :
    Main.encodeFile [] =
      .ok ([0x39, 0x3B, 0xBC, 0xA8] ++ [0, 0, 0, 0] ++ [0, 0, 0, 0] ++ [1, 1], [[]]) ∧
    Main.saveNumber Main.FILE_ID = [0x39, 0x3B, 0xBC, 0xA8] ∧
    Main.decodeFile ([0x39, 0x3B, 0xBC, 0xA8] ++ [0, 0, 0, 0] ++ [0, 0, 0, 0] ++ [1, 1]) =
      .ok ([], [[]]) := by
  refine ⟨?_, ?_, ?_⟩ <;> decide

/-- Counting a symbol in a model whose counts sum to less than `DM__MaxCount`
halves no count. -/
theorem count_no_halving {s t : Nat} {m : AdaptiveDataModel} (flag : Bool)
    (hinv : AdaptInv 256 m) (hs : s < 256) (hsum : m.symbolCount.sum ≤ 256 + t)
    (ht : 256 + t + 1 ≤ 2 ^ 15) :
    ∃ m', AdaptiveDataModel.count s flag m = .ok m' ∧ AdaptInv 256 m' ∧
      m'.symbolCount.sum ≤ 256 + (t + 1) ∧ m.halvingDue = false := by
  obtain ⟨m', h1, h2, _, h4, h5⟩ := count_spec flag hinv hs
  have hslen : s < m.symbolCount.length := by rw [hinv.count_length]; exact hs
  have hcs := hinv.count_sum
  have hcl := hinv.cycle_le
  have hul := hinv.until_le
  have hup := hinv.until_pos
  have htl := hinv.total_le
  have h32 : m.symbolsUntilUpdate < 2 ^ 32 := by omega
  refine ⟨m', h1, h2, ?_, ?_⟩
  · by_cases hone : m.symbolsUntilUpdate = 1
    · obtain ⟨h6, _⟩ := h5 hone
      obtain ⟨m2, g1, _, _, _, _, _, _, _, g9⟩ := update_spec (N := 256)
        (m := { m with
          symbolCount := m.symbolCount.set s (m.symbolCount.getD s 0 + 1)
          symbolsUntilUpdate := 0 })
        flag hinv.N_ge hinv.N_le hinv.dataSymbols_eq hinv.lastSymbol_eq
        (by show (m.symbolCount.set s _).length = 256
            rw [List.length_set]; exact hinv.count_length)
        (fun c hc => by
          have hc' : c ∈ m.symbolCount.set s (m.symbolCount.getD s 0 + 1) := hc
          rcases List.mem_or_eq_of_mem_set hc' with hc1 | hc1
          · exact hinv.count_pos c hc1
          · omega)
        (by show (m.symbolCount.set s _).sum = m.totalCount + m.updateCycle
            rw [sum_set_succ _ _ hslen]; omega)
        (by show 1 ≤ m.updateCycle; omega) hcl htl hinv.shape
      rw [h6] at g1
      have hm2 : m' = m2 := Except.ok.inj g1
      subst hm2
      obtain ⟨g9a, _⟩ := g9 (by
        show ¬ m.totalCount + m.updateCycle > 2 ^ 15
        omega)
      rw [g9a]
      show (m.symbolCount.set s _).sum ≤ _
      rw [sum_set_succ _ _ hslen]
      omega
    · rw [h4 hone]
      show (m.symbolCount.set s _).sum ≤ _
      rw [sum_set_succ _ _ hslen]
      omega
  · unfold AdaptiveDataModel.halvingDue
    by_cases hone : m.symbolsUntilUpdate = 1
    · have : ¬ u32 (m.totalCount + m.updateCycle) > DM__MaxCount := by
        rw [u32_of_lt (by omega)]
        show ¬ m.totalCount + m.updateCycle > 2 ^ 15
        omega
      simp [this]
    · have : m.updateDue = false := by
        unfold AdaptiveDataModel.updateDue
        rw [sub32_of_le hup h32]
        simp
        omega
      simp [this]

theorem modelsInv_mono {models : List AdaptiveDataModel} {t t' : Nat} (h : ModelsInv models t)
    (ht : t ≤ t') : ModelsInv models t' :=
  ⟨h.1, fun m hm => ⟨(h.2 m hm).1, by have := (h.2 m hm).2; omega⟩⟩

theorem and_numModels_lt (b : Nat) : b &&& (Main.numModels - 1) < 16 := by
  have : b &&& (Main.numModels - 1) ≤ 15 := Nat.and_le_right
  omega

/-- Coding a block of fewer than `DM__MaxCount - 256` bytes from models whose
counts are small returns, and halves no count. -/
theorem encodeSymbols_run : ∀ (data : List Nat) (models : List AdaptiveDataModel)
    (context : Nat) (encoder : ArithmeticCodec) (trace : List (Nat × Bool)) (t : Nat),
    ModelsInv models t → context < 16 → (∀ b ∈ data, b < 256) → EncPre encoder →
    2 ^ 24 ≤ encoder.length → 256 + t + data.length ≤ 2 ^ 15 →
    ∃ encoder' models' context' tr,
      Main.encodeSymbols data models context encoder trace =
        .ok (encoder', models', context', trace ++ tr) ∧
      tr.length = data.length ∧ (∀ x ∈ tr, x.2 = false) ∧
      ModelsInv models' (t + data.length) ∧ context' < 16 ∧ EncPre encoder' ∧
      2 ^ 24 ≤ encoder'.length ∧ encoder'.acPointer ≤ encoder.acPointer + 2 * data.length ∧
      encoder'.mode = encoder.mode ∧ encoder'.bufferSize = encoder.bufferSize := by
  intro data
  induction data with
  | nil =>
    intro models context encoder trace t hm hc _ he hl _
    exact ⟨encoder, models, context, [], (by simp [Main.encodeSymbols]), rfl,
      (fun x hx => by cases hx), hm, hc, he, hl, (by omega), rfl, rfl⟩
  | cons b data ih =>
    intro models context encoder trace t hm hc hb he hl ht
    simp only [List.length_cons] at ht
    have hclen : context < models.length := by rw [hm.1]; exact hc
    have hget : models[context]? = some models[context] := List.getElem?_eq_getElem hclen
    have hmem : models[context] ∈ models := List.getElem_mem _
    obtain ⟨hinv, hsum⟩ := hm.2 _ hmem
    have hb256 := hb b (List.mem_cons_self _ _)
    obtain ⟨c1, m1, h1, _, h3, _, h5, h6, h7, h8, h9⟩ := encodeAdaptive_ok hinv hb256 he hl
    obtain ⟨m1', g1, g2, g3, g4⟩ := count_no_halving true hinv hb256 hsum (by omega)
    rw [h3] at g1
    have e := Except.ok.inj g1
    subst e
    have hm1 : ModelsInv (models.set context m1) (t + 1) := by
      refine ⟨by rw [List.length_set]; exact hm.1, fun m hmm => ?_⟩
      rcases List.mem_or_eq_of_mem_set hmm with hx | hx
      · have := hm.2 m hx
        exact ⟨this.1, by omega⟩
      · rw [hx]
        exact ⟨g2, g3⟩
    obtain ⟨e', ms', c', tr, k1, k2, k3, k4, k5, k6, k7, k8, k9, k10⟩ :=
      ih (models.set context m1) (b &&& (Main.numModels - 1)) c1
        (trace ++ [(context, models[context].halvingDue)]) (t + 1) hm1 (and_numModels_lt b)
        (fun x hx => hb x (List.mem_cons_of_mem _ hx)) h5 h6 (by omega)
    refine ⟨e', ms', c', (context, models[context].halvingDue) :: tr, ?_, by simp [k2], ?_,
      ?_, k5, k6, k7, ?_, by rw [k9, h8], by rw [k10, h9]⟩
    · unfold Main.encodeSymbols
      rw [hget]
      simp only
      rw [h1]
      simp only
      rw [k1, List.append_assoc]
      rfl
    · intro x hx
      rcases List.mem_cons.mp hx with hx1 | hx1
      · rw [hx1]
        simp only
        exact g4
      · exact k3 x hx1
    · have e : t + (b :: data).length = t + 1 + data.length := by
        simp only [List.length_cons]
        omega
      rw [e]
      exact k4
    · simp only [List.length_cons]
      omega

theorem setModels_spec : ∀ (n : Nat), ∃ ms, Main.setModels n = .ok ms ∧ ms.length = n ∧
    ∀ m ∈ ms, AdaptiveDataModel.new.setAlphabet 256 = .ok m := by
  intro n
  induction n with
  | zero => exact ⟨[], rfl, rfl, fun m hm => by cases hm⟩
  | succ n ih =>
    obtain ⟨ms, h1, h2, h3⟩ := ih
    obtain ⟨m, hm⟩ := setAlphabet_ok (N := 256) (by norm_num) (by norm_num)
    refine ⟨m :: ms, ?_, by simp [h2], fun x hx => ?_⟩
    · simp only [Main.setModels, hm, h1]
    · rcases List.mem_cons.mp hx with hx1 | hx1
      · rw [hx1]; exact hm
      · exact h3 x hx1

theorem setModels_inv : ∃ ms, Main.setModels Main.numModels = .ok ms ∧ ModelsInv ms 0 ∧
    ∀ m ∈ ms, AdaptiveDataModel.new.setAlphabet 256 = .ok m := by
  obtain ⟨ms, h1, h2, h3⟩ := setModels_spec Main.numModels
  refine ⟨ms, h1, ⟨h2, fun m hm => ?_⟩, h3⟩
  obtain ⟨g1, _, _, _, g5, _⟩ := setAlphabet_spec (h3 m hm)
  refine ⟨g1, ?_⟩
  rw [g5, sum_replicate_one]

theorem newEncoder_spec :
    ArithmeticCodec.newWith Main.bufferSize none =
      .ok { ArithmeticCodec.new with bufferSize := 65536 } ∧
    startEncoder { ArithmeticCodec.new with bufferSize := 65536 } =
      .ok { ArithmeticCodec.new with
        bufferSize := 65536, mode := 1, base := 0, length := AC__MaxLength, acPointer := 0 } ∧
    startDecoder { ArithmeticCodec.new with bufferSize := 65536 } =
      .ok { ArithmeticCodec.new with
        bufferSize := 65536, mode := 2, length := AC__MaxLength, acPointer := 3 } := by
  refine ⟨by decide, by decide, by decide⟩

theorem rampInput_length : rampInput.length = 25600 := by
  unfold rampInput
  rw [List.length_flatten, List.map_replicate, List.sum_replicate, List.length_range]
  rfl

theorem rampInput_lt : ∀ b ∈ rampInput, b < 256 := by
  intro b hb
  unfold rampInput at hb
  rw [List.mem_flatten] at hb
  obtain ⟨l, hl, hbl⟩ := hb
  rw [List.eq_of_mem_replicate hl] at hbl
  exact List.mem_range.mp hbl

/-- A block of at most 32512 bytes coded with `encodeFile`'s configuration
returns, `stopEncoder` returns its byte count, and no call halves the
counts. -/
theorem block_no_halving (data : List Nat) (hb : ∀ b ∈ data, b < 256)
    (hlen : data.length ≤ 32512) :
    ∃ models encoder0 encoder r n c3,
      Main.setModels Main.numModels = .ok models ∧
      ArithmeticCodec.newWith Main.bufferSize none = .ok encoder0 ∧
      startEncoder encoder0 = .ok encoder ∧
      Main.encodeSymbols data models 0 encoder [] = .ok r ∧
      stopEncoder r.1 = .ok (n, c3) ∧
      r.2.2.2.length = data.length ∧ ∀ x ∈ r.2.2.2, x.2 = false := by
  obtain ⟨ms, h1, h2, _⟩ := setModels_inv
  obtain ⟨n1, n2, _⟩ := newEncoder_spec
  have hpre := encPre_start { ArithmeticCodec.new with bufferSize := 65536 }
  obtain ⟨e', ms', c', tr, k1, k2, k3, _, _, k6, k7, k8, k9, k10⟩ :=
    encodeSymbols_run data ms 0 _ [] 0 h2 (by norm_num) hb hpre (by decide) (by omega)
  obtain ⟨c3, g1, _⟩ := stopEncoder_ok k6 k7 (by rw [k9]) (by
    rw [k10]
    have : e'.acPointer ≤ 0 + 2 * data.length := k8
    show e'.acPointer + 2 ≤ 65536
    omega) (by rw [k10]; decide)
  exact ⟨ms, _, _, _, _, c3, h1, n1, n2, k1, g1, by simpa using k2, by simpa using k3⟩

/-- Counterexample to **C17**: the input of 25600 bytes `0, 1, ..., 255`
repeated 100 times, coded as one block with `encodeFile`'s configuration
(sixteen models fresh from `setAlphabet(256)`, the model chosen by the previous
byte `& 0x0F`, starting with model 0): every `encode` call returns,
`stopEncoder` returns, and none of the 25600 calls makes `update` take the
branch that halves the counts. -/
theorem ramp_halving_counterexample :
    ∃ models encoder0 encoder r n c3,
      Main.setModels Main.numModels = .ok models ∧
      ArithmeticCodec.newWith Main.bufferSize none = .ok encoder0 ∧
      startEncoder encoder0 = .ok encoder ∧
      Main.encodeSymbols rampInput models 0 encoder [] = .ok r ∧
      stopEncoder r.1 = .ok (n, c3) ∧
      r.2.2.2.length = 25600 ∧ (∀ x ∈ r.2.2.2, x.2 = false) ∧
      ¬ ∃ x ∈ r.2.2.2, x.2 = true := by
  obtain ⟨ms, e0, e, r, n, c3, h1, h2, h3, h4, h5, h6, h7⟩ :=
    block_no_halving rampInput rampInput_lt (by rw [rampInput_length]; norm_num)
  refine ⟨ms, e0, e, r, n, c3, h1, h2, h3, h4, h5, by rw [h6, rampInput_length], h7, ?_⟩
  rintro ⟨x, hx, hx2⟩
  rw [h7 x hx] at hx2
  cases hx2

/-- **C17** (amended) No halving on short inputs. For every block of at most
32512 bytes, coded with `encodeFile`'s configuration (sixteen models fresh
from `setAlphabet(256)`, the model chosen by the previous byte `& 0x0F`,
starting with model 0): every `encode` call returns and none of them makes
`update` take the count-halving branch, because in every model
`totalCount + updateCycle` is at most 256 plus the number of bytes coded so
far, which stays at most `DM__MaxCount = 32768`. The input of 25600 bytes
`0, 1, ..., 255` repeated 100 times is such a block. -/
theorem short_block_no_halving (data : List Nat) (hb : ∀ b ∈ data, b < 256)
    (hlen : data.length ≤ 32512) :
    ∃ models encoder0 encoder r,
      Main.setModels Main.numModels = .ok models ∧
      ArithmeticCodec.newWith Main.bufferSize none = .ok encoder0 ∧
      startEncoder encoder0 = .ok encoder ∧
      Main.encodeSymbols data models 0 encoder [] = .ok r ∧
      r.2.2.2.length = data.length ∧ (∀ x ∈ r.2.2.2, x.2 = false) ∧
      ∀ m ∈ r.2.1, m.symbolCount.sum ≤ 256 + data.length ∧
        m.totalCount + m.updateCycle ≤ 256 + data.length + m.symbolsUntilUpdate := by
  obtain ⟨ms, h1, h2, _⟩ := setModels_inv
  obtain ⟨n1, n2, _⟩ := newEncoder_spec
  have hpre := encPre_start { ArithmeticCodec.new with bufferSize := 65536 }
  obtain ⟨e', ms', c', tr, k1, k2, k3, k4, _⟩ :=
    encodeSymbols_run data ms 0 _ [] 0 h2 (by norm_num) hb hpre (by decide) (by omega)
  refine ⟨ms, _, _, _, h1, n1, n2, k1, by simpa using k2, by simpa using k3, fun m hm => ?_⟩
  obtain ⟨g1, g2⟩ := k4.2 m hm
  have hcs := g1.count_sum
  have hul := g1.until_le
  rw [Nat.zero_add] at g2
  exact ⟨g2, by omega⟩

/-- Witness of `short_block_no_halving`: the input of 25600 bytes
`0, 1, ..., 255` repeated 100 times. -/
theorem short_block_no_halving_witness :
    rampInput.length = 25600 ∧
    ∃ models encoder0 encoder r,
      Main.setModels Main.numModels = .ok models ∧
      ArithmeticCodec.newWith Main.bufferSize none = .ok encoder0 ∧
      startEncoder encoder0 = .ok encoder ∧
      Main.encodeSymbols rampInput models 0 encoder [] = .ok r ∧
      r.2.2.2.length = rampInput.length ∧ (∀ x ∈ r.2.2.2, x.2 = false) := by
  obtain ⟨ms, e0, e, r, h1, h2, h3, h4, h5, h6, _⟩ :=
    short_block_no_halving rampInput rampInput_lt (by rw [rampInput_length]; norm_num)
  exact ⟨rampInput_length, ms, e0, e, r, h1, h2, h3, h4, h5, h6⟩

theorem encodeAdaptive_of {s : Nat} {m m1 : AdaptiveDataModel} {c c1 : ArithmeticCodec}
    (h1 : encodeInterval m.distribution m.lastSymbol s c = .ok c1)
    (h2 : AdaptiveDataModel.count s true m = .ok m1) :
    encodeAdaptive s m c = .ok (c1, m1) := by
  unfold encodeAdaptive
  rw [h1, ok_bind, h2, ok_bind]
  rfl

theorem encodeRepeat_succ {dist : List Nat} {l s n : Nat} {c c' : ArithmeticCodec}
    (h : encodeRepeat dist l s (n + 1) c = .ok c') :
    ∃ c1, encodeInterval dist l s c = .ok c1 ∧ encodeRepeat dist l s n c1 = .ok c' := by
  unfold encodeRepeat at h
  cases h1 : encodeInterval dist l s c with
  | error e => rw [h1] at h; cases h
  | ok c1 =>
    rw [h1] at h
    exact ⟨c1, rfl, h⟩

theorem encodeRepeat_snoc {dist : List Nat} {l s : Nat} : ∀ (n : Nat) (c c' : ArithmeticCodec),
    encodeRepeat dist l s (n + 1) c = .ok c' →
    ∃ c1, encodeRepeat dist l s n c = .ok c1 ∧ encodeInterval dist l s c1 = .ok c' := by
  intro n
  induction n with
  | zero =>
    intro c c' h
    obtain ⟨c1, h1, h2⟩ := encodeRepeat_succ h
    have e : c1 = c' := Except.ok.inj h2
    rw [e] at h1
    exact ⟨c, rfl, h1⟩
  | succ n ih =>
    intro c c' h
    obtain ⟨c1, h1, h2⟩ := encodeRepeat_succ h
    obtain ⟨c2, h3, h4⟩ := ih c1 c' h2
    refine ⟨c2, ?_, h4⟩
    unfold encodeRepeat
    rw [h1]
    exact h3

theorem count_small {N s : Nat} {m : AdaptiveDataModel} (flag : Bool) (hm : AdaptInv N m)
    (hs : s < N) (hne : m.symbolsUntilUpdate ≠ 1) :
    AdaptiveDataModel.count s flag m = .ok (AdaptiveDataModel.bump s 1 m) := by
  obtain ⟨m1, h1, _, _, h4, _⟩ := count_spec flag hm hs
  rw [h1, h4 hne]
  rfl

theorem count_last {N s : Nat} {m : AdaptiveDataModel} (flag : Bool) (hm : AdaptInv N m)
    (hs : s < N) :
    AdaptiveDataModel.count s flag (AdaptiveDataModel.bump s (m.symbolsUntilUpdate - 1) m) =
      AdaptiveDataModel.update flag (AdaptiveDataModel.bump s m.symbolsUntilUpdate m) := by
  have hpos := hm.until_pos
  obtain ⟨g1, _⟩ := countAll_small flag hs (m.symbolsUntilUpdate - 1) m hm (by omega)
  obtain ⟨m', h1, h2, _⟩ := countAll_cycle flag hs m hm
  have e2 : List.replicate m.symbolsUntilUpdate s =
      List.replicate (m.symbolsUntilUpdate - 1) s ++ [s] := by
    have e : m.symbolsUntilUpdate = (m.symbolsUntilUpdate - 1) + 1 := by omega
    conv_lhs => rw [e]
    rw [List.replicate_succ']
  rw [e2, countAll_append flag _ _ m _ g1] at h1
  simp only [AdaptiveDataModel.countAll] at h1
  rw [h2]
  cases h3 : AdaptiveDataModel.count s flag
      (AdaptiveDataModel.bump s (m.symbolsUntilUpdate - 1) m) with
  | error e => rw [h3] at h1; cases h1
  | ok m2 =>
    rw [h3] at h1
    exact h1

theorem encodeAdaptiveAll_small {N s : Nat} (hs : s < N) :
    ∀ (n : Nat) (m : AdaptiveDataModel) (c c' : ArithmeticCodec), AdaptInv N m →
      n < m.symbolsUntilUpdate →
      encodeRepeat m.distribution m.lastSymbol s n c = .ok c' →
      encodeAdaptiveAll (List.replicate n s) m c = .ok (c', AdaptiveDataModel.bump s n m) := by
  intro n
  induction n with
  | zero =>
    intro m c c' _ _ h
    rw [bump_zero]
    have e : c = c' := Except.ok.inj h
    rw [e]
    rfl
  | succ n ih =>
    intro m c c' hm hn h
    obtain ⟨c1, h1, h2⟩ := encodeRepeat_succ h
    have hcnt := count_small true hm hs (by omega)
    have hinv1 := (countAll_small true hs 1 m hm (by omega)).2
    have hb : AdaptiveDataModel.bump s n (AdaptiveDataModel.bump s 1 m) =
        AdaptiveDataModel.bump s (n + 1) m := by
      rw [bump_bump s 1 n m (by rw [hm.count_length]; exact hs), Nat.add_comm]
    have := ih (AdaptiveDataModel.bump s 1 m) c1 c' hinv1
      (by show m.symbolsUntilUpdate - 1 > n; omega) h2
    rw [hb] at this
    rw [List.replicate_succ, encodeAdaptiveAll_cons, encodeAdaptive_of h1 hcnt, ok_bind]
    exact this

theorem encodeAdaptiveAll_cycle {N s : Nat} (hs : s < N) (m m' : AdaptiveDataModel)
    (c c' : ArithmeticCodec) (hm : AdaptInv N m)
    (h1 : encodeRepeat m.distribution m.lastSymbol s m.symbolsUntilUpdate c = .ok c')
    (h2 : AdaptiveDataModel.update true (AdaptiveDataModel.bump s m.symbolsUntilUpdate m) =
      .ok m') :
    encodeAdaptiveAll (List.replicate m.symbolsUntilUpdate s) m c = .ok (c', m') := by
  have hpos := hm.until_pos
  have e : m.symbolsUntilUpdate = (m.symbolsUntilUpdate - 1) + 1 := by omega
  have e2 : List.replicate m.symbolsUntilUpdate s =
      List.replicate (m.symbolsUntilUpdate - 1) s ++ [s] := by
    conv_lhs => rw [e]
    rw [List.replicate_succ']
  rw [e] at h1
  obtain ⟨c1, g1, g2⟩ := encodeRepeat_snoc _ c c' h1
  have hsmall := encodeAdaptiveAll_small hs (m.symbolsUntilUpdate - 1) m c c1 hm (by omega) g1
  have hcnt := count_last true hm hs
  rw [h2] at hcnt
  rw [e2, encodeAdaptiveAll_append, hsmall, ok_bind, encodeAdaptiveAll_cons]
  have g2' : encodeInterval (AdaptiveDataModel.bump s (m.symbolsUntilUpdate - 1) m).distribution
      (AdaptiveDataModel.bump s (m.symbolsUntilUpdate - 1) m).lastSymbol s c1 = .ok c' := g2
  rw [encodeAdaptive_of g2' hcnt, ok_bind]
  rfl

/-- Encoding `n` occurrences of one symbol agrees with `encodeCycles`. -/
theorem encodeAdaptiveAll_replicate {N s : Nat} (hs : s < N) :
    ∀ (fuel n : Nat) (m m' : AdaptiveDataModel) (c c' : ArithmeticCodec), AdaptInv N m →
      n ≤ fuel → encodeCycles s fuel n m c = .ok (c', m') →
      encodeAdaptiveAll (List.replicate n s) m c = .ok (c', m') := by
  intro fuel
  induction fuel with
  | zero =>
    intro n m m' c c' _ hn h
    have : n = 0 := by omega
    subst this
    exact h
  | succ fuel ih =>
    intro n m m' c c' hm hn h
    unfold encodeCycles at h
    by_cases h0 : n = 0
    · subst h0
      rw [if_pos rfl] at h
      exact h
    · rw [if_neg h0] at h
      by_cases hlt : n < m.symbolsUntilUpdate
      · rw [if_pos hlt] at h
        cases h1 : encodeRepeat m.distribution m.lastSymbol s n c with
        | error e => rw [h1] at h; cases h
        | ok c1 =>
          rw [h1] at h
          rw [encodeAdaptiveAll_small hs n m c c1 hm hlt h1]
          exact h
      · rw [if_neg hlt] at h
        cases h1 : encodeRepeat m.distribution m.lastSymbol s m.symbolsUntilUpdate c with
        | error e => rw [h1] at h; cases h
        | ok c1 =>
          rw [h1] at h
          simp only at h
          cases h2 : AdaptiveDataModel.update true
              (AdaptiveDataModel.bump s m.symbolsUntilUpdate m) with
          | error e => rw [h2] at h; cases h
          | ok m1 =>
            rw [h2] at h
            simp only at h
            have hpos := hm.until_pos
            obtain ⟨m2, _, g2, g3⟩ := countAll_cycle true hs m hm
            rw [h2] at g2
            have em : m1 = m2 := Except.ok.inj g2
            rw [← em] at g3
            have hrec := ih (n - m.symbolsUntilUpdate) m1 m' c1 c' g3 (by omega) h
            have e : List.replicate n s = List.replicate m.symbolsUntilUpdate s ++
                List.replicate (n - m.symbolsUntilUpdate) s := by
              rw [List.append_replicate_replicate]
              congr 1
              omega
            rw [e, encodeAdaptiveAll_append, encodeAdaptiveAll_cycle hs m m1 c c1 hm h1 h2,
              ok_bind]
            exact hrec

theorem set_getElem_same {α : Type} : ∀ (l : List α) (i : Nat) (h : i < l.length),
    l.set i (l.get ⟨i, h⟩) = l := by
  intro l
  induction l with
  | nil => intro i h; cases h
  | cons a l ih =>
    intro i h
    cases i with
    | zero => rfl
    | succ i =>
      simp only [List.set_cons_succ, List.get_cons_succ]
      rw [ih i (by simpa using h)]

theorem encodeSymbols_append : ∀ (xs ys : List Nat) (models : List AdaptiveDataModel)
    (context : Nat) (c : ArithmeticCodec) (trace : List (Nat × Bool))
    (r : ArithmeticCodec × List AdaptiveDataModel × Nat × List (Nat × Bool)),
    Main.encodeSymbols xs models context c trace = .ok r →
    Main.encodeSymbols (xs ++ ys) models context c trace =
      Main.encodeSymbols ys r.2.1 r.2.2.1 r.1 r.2.2.2 := by
  intro xs
  induction xs with
  | nil =>
    intro ys models context c trace r h
    simp only [Main.encodeSymbols] at h
    rw [← Except.ok.inj h]
    rfl
  | cons x xs ih =>
    intro ys models context c trace r h
    simp only [List.cons_append]
    unfold Main.encodeSymbols at h
    conv_lhs => unfold Main.encodeSymbols
    cases h1 : models[context]? with
    | none => rw [h1] at h; cases h
    | some model =>
      rw [h1] at h
      simp only at h ⊢
      cases h2 : encodeAdaptive x model c with
      | error e => rw [h2] at h; cases h
      | ok cm =>
        rw [h2] at h
        simp only at h ⊢
        exact ih ys _ _ _ _ r h

/-- A block all of whose bytes select the model that codes them is coded by
that one model. -/
theorem encodeSymbols_const : ∀ (data : List Nat) (models : List AdaptiveDataModel)
    (ctx : Nat) (c : ArithmeticCodec) (trace : List (Nat × Bool)) (m m' : AdaptiveDataModel)
    (c' : ArithmeticCodec), (∀ b ∈ data, b &&& (Main.numModels - 1) = ctx) →
    models[ctx]? = some m → encodeAdaptiveAll data m c = .ok (c', m') →
    ∃ tr, Main.encodeSymbols data models ctx c trace =
        .ok (c', models.set ctx m', ctx, trace ++ tr) ∧
      tr.map (fun x => x.1) = List.replicate data.length ctx := by
  intro data
  induction data with
  | nil =>
    intro models ctx c trace m m' c' _ hget h
    have e := Except.ok.inj h
    obtain ⟨hlt, hm⟩ := List.getElem?_eq_some_iff.mp hget
    refine ⟨[], ?_, rfl⟩
    unfold Main.encodeSymbols
    have hset : models.set ctx models[ctx] = models := set_getElem_same models ctx hlt
    rw [← (Prod.mk.inj e).1, ← (Prod.mk.inj e).2, ← hm, hset, List.append_nil]
  | cons b data ih =>
    intro models ctx c trace m m' c' hb hget h
    rw [encodeAdaptiveAll_cons] at h
    obtain ⟨r, h1, h2⟩ := bind_eq_ok h
    obtain ⟨hlt, _⟩ := List.getElem?_eq_some_iff.mp hget
    have hctx := hb b (List.mem_cons_self _ _)
    have hget1 : (models.set ctx r.2)[ctx]? = some r.2 := by
      rw [List.getElem?_set_self hlt]
    obtain ⟨tr, g1, g2⟩ := ih (models.set ctx r.2) ctx r.1
      (trace ++ [(ctx, m.halvingDue)]) r.2 m' c'
      (fun x hx => hb x (List.mem_cons_of_mem _ hx)) hget1 h2
    refine ⟨(ctx, m.halvingDue) :: tr, ?_, ?_⟩
    · unfold Main.encodeSymbols
      rw [hget]
      simp only
      rw [h1]
      simp only
      rw [hctx, g1, List.set_set, List.append_assoc]
      rfl
    · simp only [List.map_cons, List.length_cons, List.replicate_succ, g2]

theorem byteModel_spec : AdaptiveDataModel.new.setAlphabet 256 = .ok byteModel := by
  obtain ⟨m, hm⟩ := setAlphabet_ok (N := 256) (by norm_num) (by norm_num)
  unfold byteModel
  rw [hm]

theorem zeros_cycles :
    holds (encodeCycles 0 10000 10000 byteModel
      { ArithmeticCodec.new with
        bufferSize := 65536, mode := 1, base := 0, length := AC__MaxLength, acPointer := 0 })
      (fun r => holds (stopEncoder r.1) (fun k => decide (k.1 = 334))) = true := by
  decide!

/-- The block of 10000 bytes `0x00` coded with `encodeFile`'s configuration:
`stopEncoder` returns 334. -/
theorem zeros_run :
    ∃ models encoder0 encoder r c3,
      Main.setModels Main.numModels = .ok models ∧
      ArithmeticCodec.newWith Main.bufferSize none = .ok encoder0 ∧
      startEncoder encoder0 = .ok encoder ∧
      Main.encodeSymbols (List.replicate 10000 0) models 0 encoder [] = .ok r ∧
      r.2.2.2.map (fun x => x.1) = List.replicate 10000 0 ∧
      stopEncoder r.1 = .ok (334, c3) := by
  obtain ⟨ms, h1, h2, h3⟩ := setModels_inv
  obtain ⟨n1, n2, _⟩ := newEncoder_spec
  obtain ⟨r0, k1, k2⟩ := holds_elim zeros_cycles
  obtain ⟨k, k3, k4⟩ := holds_elim k2
  simp only [decide_eq_true_eq] at k4
  have hinv := (setAlphabet_spec byteModel_spec).1
  have hall := encodeAdaptiveAll_replicate (N := 256) (s := 0) (by norm_num) 10000 10000
    byteModel r0.2 _ r0.1 hinv (Nat.le_refl _) k1
  have hlen : 0 < ms.length := by rw [h2.1]; norm_num
  have hget : ms[0]? = some byteModel := by
    rw [List.getElem?_eq_getElem hlen]
    have := h3 _ (List.getElem_mem hlen)
    rw [byteModel_spec] at this
    rw [Except.ok.inj this]
  obtain ⟨tr, g1, g2⟩ := encodeSymbols_const (List.replicate 10000 0) ms 0 _ [] byteModel r0.2
    r0.1 (fun b hb => by rw [List.eq_of_mem_replicate hb]; decide) hget hall
  refine ⟨ms, _, _, _, k.2, h1, n1, n2, g1, ?_, ?_⟩
  · rw [List.nil_append, g2, List.length_replicate]
  · rw [k3, ← k4]

/-- Counterexample to **C16**: for the block of 10000 bytes `0x00`, coded with
`encodeFile`'s configuration (sixteen models fresh from `setAlphabet(256)`,
context starting at 0, one block), `stopEncoder` returns the code-byte count
334, which is not less than 100: the first 131 bytes are coded with the
uniform distribution, 8 bits each, before the first `update`. -/
theorem zero_block_size_counterexample :
    ∃ models encoder0 encoder r c3,
      Main.setModels Main.numModels = .ok models ∧
      ArithmeticCodec.newWith Main.bufferSize none = .ok encoder0 ∧
      startEncoder encoder0 = .ok encoder ∧
      Main.encodeSymbols (List.replicate 10000 0) models 0 encoder [] = .ok r ∧
      stopEncoder r.1 = .ok (334, c3) ∧ ¬ 334 < 100 := by
  obtain ⟨ms, e0, e, r, c3, h1, h2, h3, h4, _, h6⟩ := zeros_run
  exact ⟨ms, e0, e, r, c3, h1, h2, h3, h4, h6, by decide⟩

/-- **C16** (amended) Constant input. For the block of 10000 bytes `0x00`,
coded with `encodeFile`'s configuration (sixteen models fresh from
`setAlphabet(256)`, context starting at 0, one block), every byte is coded
with model 0 and `stopEncoder` returns the code-byte count 334, less than
3.4 percent of the input. -/
theorem zero_block_size :
    ∃ models encoder0 encoder r c3,
      Main.setModels Main.numModels = .ok models ∧
      ArithmeticCodec.newWith Main.bufferSize none = .ok encoder0 ∧
      startEncoder encoder0 = .ok encoder ∧
      Main.encodeSymbols (List.replicate 10000 0) models 0 encoder [] = .ok r ∧
      r.2.2.2.map (fun x => x.1) = List.replicate 10000 0 ∧
      stopEncoder r.1 = .ok (334, c3) ∧ 334 * 1000 < 34 * 10000 := by
  obtain ⟨ms, e0, e, r, c3, h1, h2, h3, h4, h5, h6⟩ := zeros_run
  exact ⟨ms, e0, e, r, c3, h1, h2, h3, h4, h5, h6, by decide⟩

theorem pot_encShift {c : ArithmeticCodec} {e : Nat} (h : Pot c e) (hl : c.length < 2 ^ 24) :
    Pot (encShift c) e := by
  unfold Pot at *
  rw [encShift_length hl]
  show 256 ^ (c.acPointer + 1) * 2 ^ 24 ≤ 256 * c.length * 2 ^ e
  calc 256 ^ (c.acPointer + 1) * 2 ^ 24 = 256 * (256 ^ c.acPointer * 2 ^ 24) := by ring
    _ ≤ 256 * (c.length * 2 ^ e) := Nat.mul_le_mul_left _ h
    _ = 256 * c.length * 2 ^ e := by ring

/-- One `encode` call whose interval shrinks by at most the factor `2^k` costs
at most `k` bits. -/
theorem pot_step {dist : List Nat} {N s e k : Nat} {c : ArithmeticCodec}
    (hv : validDistribution dist N) (hs : s < N) (hc : EncPre c) (hl : 2 ^ 24 ≤ c.length)
    (hp : Pot c e)
    (hk : c.length ≤ (symHigh dist N c.length s - symLow dist c.length s) * 2 ^ k) :
    ∃ c1, encodeInterval dist (N - 1) s c = .ok c1 ∧ EncPre c1 ∧ 2 ^ 24 ≤ c1.length ∧
      Pot c1 (e + k) ∧ c1.mode = c.mode ∧ c1.bufferSize = c.bufferSize := by
  obtain ⟨cm, _, hcp, _, hclen, _, _, heq⟩ := encodeInterval_spec hv hs hc hl
  obtain ⟨c1, h1, h2, h3, _, _, h6, h7⟩ := encodeInterval_ok hv hs hc hl
  refine ⟨c1, h1, h2, h3, ?_, h6, h7⟩
  rw [h1] at heq
  have e1 : c1 = if cm.length < AC__MinLength then encRenorm cm else cm := Except.ok.inj heq
  have hpm : Pot cm (e + k) := by
    unfold Pot at hp ⊢
    rw [hcp, hclen, pow_add]
    calc 256 ^ c.acPointer * 2 ^ 24 ≤ c.length * 2 ^ e := hp
      _ ≤ (symHigh dist N c.length s - symLow dist c.length s) * 2 ^ k * 2 ^ e :=
        Nat.mul_le_mul_right _ hk
      _ = (symHigh dist N c.length s - symLow dist c.length s) * (2 ^ e * 2 ^ k) := by ring
  rw [e1]
  by_cases hm : cm.length < AC__MinLength
  · rw [if_pos hm]
    have hm' : cm.length < 2 ^ 24 := hm
    unfold encRenorm
    by_cases h16 : cm.length < 2 ^ 16
    · rw [if_pos h16]
      exact pot_encShift (pot_encShift hpm hm') (by rw [encShift_length hm']; omega)
    · rw [if_neg h16]
      exact pot_encShift hpm hm'
  · rw [if_neg hm]
    exact hpm

/-- The number of bytes emitted, from the potential. -/
theorem pot_bound {c : ArithmeticCodec} {e : Nat} (h : Pot c e) (hlen : c.length < 2 ^ 32) :
    8 * c.acPointer < e + 8 := by
  unfold Pot at h
  have h1 : c.length * 2 ^ e < 2 ^ 32 * 2 ^ e :=
    Nat.mul_lt_mul_of_pos_right hlen (Nat.two_pow_pos e)
  have h2 : (256 : Nat) ^ c.acPointer = 2 ^ (8 * c.acPointer) := by
    rw [show (256 : Nat) = 2 ^ 8 by norm_num, ← pow_mul]
  rw [h2, ← pow_add] at h
  rw [← pow_add] at h1
  have h3 : 2 ^ (8 * c.acPointer + 24) < 2 ^ (32 + e) := Nat.lt_of_le_of_lt h h1
  have := (Nat.pow_lt_pow_iff_right (by norm_num : 1 < 2)).mp h3
  omega

theorem cumulative_second (scale c c2 : Nat) (cs : List Nat) :
    (cumulative scale (c :: c2 :: cs) 0).getD 1 0 = u32 (scale * u32 (0 + c)) >>> 16 := rfl

/-- After an update of a model that has coded symbol 0 only, at least four
times, `distribution[1]` is at least 257. -/
theorem second_entry_bound {T c : Nat} (hT : T = c + 255) (hc : 4 ≤ c) (hle : T ≤ 2 ^ 15) :
    257 ≤ u32 (0x80000000 / T * u32 (0 + c)) >>> 16 := by
  have hT0 : 0 < T := by omega
  have h1 : 0x80000000 / T * T ≤ 0x80000000 := Nat.div_mul_le_self _ _
  have h2 : 0x80000000 < 0x80000000 / T * T + T := Nat.lt_div_mul_add hT0
  have h3 : 0x80000000 / T ≤ 0x80000000 / 259 := Nat.div_le_div_left (by omega) (by norm_num)
  have h4 : 0x80000000 / T * T = 0x80000000 / T * c + 0x80000000 / T * 255 := by
    rw [hT, Nat.mul_add]
  generalize 0x80000000 / T = S at h1 h2 h3 h4 ⊢
  generalize hP1 : S * c = P1 at h4 ⊢
  generalize S * T = P2 at h1 h2 h4
  have hu1 : u32 (0 + c) = c := by rw [Nat.zero_add]; exact u32_of_lt (by omega)
  rw [hu1, hP1, u32_of_lt (by omega)]
  have h5 : (0x80000000 : Nat) / 259 = 8291442 := by norm_num
  rw [h5] at h3
  omega

theorem sum_head_ones (k n : Nat) : (k :: List.replicate n 1).sum = k + n := by
  rw [List.sum_cons, List.sum_replicate]
  simp

theorem zeroRun_budget_le {m : AdaptiveDataModel} (hW : ZeroRun m) : zeroBudget m ≤ 262 := by
  obtain ⟨hinv, _, _, hfirst, _⟩ := hW
  unfold zeroBudget
  by_cases h : m.distribution.getD 1 0 < 257
  · rw [if_pos h]
    have := hfirst h
    have := hinv.until_pos
    omega
  · rw [if_neg h]

/-- Coding symbol 0 once more keeps the model in the family `ZeroRun`; before
the first update the budget grows by the two bits that the symbol costs above
seven. -/
theorem zeroRun_count {m : AdaptiveDataModel} (hW : ZeroRun m) :
    ∃ m1, AdaptiveDataModel.count 0 true m = .ok m1 ∧ ZeroRun m1 ∧
      zeroBudget m + (if m.distribution.getD 1 0 < 257 then 2 else 0) ≤ zeroBudget m1 := by
  have hb := zeroRun_budget_le hW
  unfold zeroBudget at hb ⊢
  unfold ZeroRun at hW ⊢
  obtain ⟨hinv, hshape, hd, hfirst, hlater⟩ := hW
  obtain ⟨m1, h1, h2, _, h4, h5⟩ := count_spec true hinv (by norm_num : 0 < 256)
  refine ⟨m1, h1, ?_⟩
  obtain ⟨k, hk⟩ : ∃ k, k = m.symbolCount.getD 0 0 := ⟨_, rfl⟩
  rw [← hk] at hshape hfirst hlater hb ⊢
  have hk1 : 1 ≤ k := hinv.count_pos k (by rw [hshape]; exact List.mem_cons_self _ _)
  have hsum := hinv.count_sum
  rw [hshape, sum_head_ones] at hsum
  have hul := hinv.until_le
  have hup := hinv.until_pos
  have hcl := hinv.cycle_le
  have htl := hinv.total_le
  by_cases hone : m.symbolsUntilUpdate = 1
  · obtain ⟨h6, h7, _⟩ := h5 hone
    obtain ⟨f1, _, f3, _, _⟩ := update_fields h6
    simp only at f1 f3
    have hu : u32 (m.totalCount + m.updateCycle) = m.totalCount + m.updateCycle :=
      u32_of_lt (by omega)
    have hmax : DM__MaxCount = 2 ^ 15 := by decide
    rw [hu, hmax, ← hk, hshape] at f1
    have hset : (k :: List.replicate 255 1).set 0 (k + 1) = (k + 1) :: List.replicate 255 1 := rfl
    rw [hset] at f1
    have hk4 : 4 ≤ k := by
      by_cases hd1 : m.distribution.getD 1 0 < 257
      · have := hfirst hd1
        omega
      · exact hlater (by omega)
    obtain ⟨c, hc, hc4⟩ : ∃ c, m1.symbolCount = c :: List.replicate 255 1 ∧ 4 ≤ c := by
      by_cases hC : m.totalCount + m.updateCycle > 2 ^ 15
      · rw [if_pos hC, List.map_cons, List.map_replicate] at f1
        refine ⟨u32 (k + 1 + 1) >>> 1, f1, ?_⟩
        rw [u32_of_lt (by omega), Nat.shiftRight_eq_div_pow]
        omega
      · rw [if_neg hC] at f1
        exact ⟨k + 1, f1, by omega⟩
    have hsum1 := h2.count_sum
    rw [h7, hc, sum_head_ones, Nat.sub_self, Nat.add_zero] at hsum1
    have hd1 : 257 ≤ m1.distribution.getD 1 0 := by
      rw [f3, hc, show List.replicate 255 1 = 1 :: List.replicate 254 1 from rfl,
        cumulative_second]
      exact second_entry_bound hsum1.symm hc4 h2.total_le
    have hget : m1.symbolCount.getD 0 0 = c := by rw [hc]; rfl
    refine ⟨⟨h2, ?_, by omega, fun h => absurd h (by omega), fun _ => ?_⟩, ?_⟩
    · rw [hget]; exact hc
    · rw [hget]; exact hc4
    · rw [if_neg (by omega : ¬ m1.distribution.getD 1 0 < 257)]
      by_cases hd0 : m.distribution.getD 1 0 < 257
      · have := hfirst hd0
        simp only [if_pos hd0]
        omega
      · simp only [if_neg hd0]
        omega
  · have e := h4 hone
    have hc : m1.symbolCount = (k + 1) :: List.replicate 255 1 := by
      rw [e]
      show m.symbolCount.set 0 (m.symbolCount.getD 0 0 + 1) = _
      rw [← hk, hshape]
      rfl
    have hdist : m1.distribution = m.distribution := by rw [e]
    have hcyc : m1.updateCycle = m.updateCycle := by rw [e]
    have hsu : m1.symbolsUntilUpdate = m.symbolsUntilUpdate - 1 := by rw [e]
    have hget : m1.symbolCount.getD 0 0 = k + 1 := by rw [hc]; rfl
    rw [hdist, hget]
    refine ⟨⟨h2, hc, hd, fun h => ?_, fun h => ?_⟩, ?_⟩
    · have := hfirst h
      rw [hcyc, hsu]
      omega
    · have := hlater h
      omega
    · by_cases hd0 : m.distribution.getD 1 0 < 257
      · simp only [if_pos hd0]
        omega
      · simp only [if_neg hd0]
        omega

/-- The interval of symbol 0 for a model of the family `ZeroRun`: at least
`length / 2^9`, and at least `length / 2^7` after the first update. -/
theorem zero_interval {m : AdaptiveDataModel} {L : Nat} (hW : ZeroRun m) (hl : 2 ^ 24 ≤ L) :
    L ≤ (symHigh m.distribution 256 L 0 - symLow m.distribution L 0) *
      2 ^ (if m.distribution.getD 1 0 < 257 then 9 else 7) := by
  obtain ⟨hinv, _, hd, _, _⟩ := hW
  have h0 : m.distribution.getD 0 0 = 0 := hinv.dist_valid.2.2.2.1
  unfold symHigh symLow
  rw [if_neg (by norm_num : ¬ (0 : Nat) = 256 - 1), h0, Nat.zero_mul, Nat.sub_zero]
  have hs : L >>> DM__LengthShift = L / 32768 := by
    show L >>> 15 = _
    rw [Nat.shiftRight_eq_div_pow]
  rw [hs, Nat.zero_add]
  by_cases h : m.distribution.getD 1 0 < 257
  · rw [if_pos h]
    have : 128 * (L / 32768) ≤ m.distribution.getD 1 0 * (L / 32768) :=
      Nat.mul_le_mul_right _ hd
    omega
  · rw [if_neg h]
    have : 257 * (L / 32768) ≤ m.distribution.getD 1 0 * (L / 32768) :=
      Nat.mul_le_mul_right _ (by omega)
    omega

/-- A run of `n` symbols 0 costs at most `7 * n + 262` bits. -/
theorem zeroRun_encode : ∀ (n : Nat) (m : AdaptiveDataModel) (c : ArithmeticCodec) (e i : Nat),
    ZeroRun m → EncPre c → 2 ^ 24 ≤ c.length → Pot c e → e ≤ 7 * i + zeroBudget m →
    ∃ c2 m2, encodeAdaptiveAll (List.replicate n 0) m c = .ok (c2, m2) ∧ ZeroRun m2 ∧
      EncPre c2 ∧ 2 ^ 24 ≤ c2.length ∧ (∃ e2, Pot c2 e2 ∧ e2 ≤ 7 * (i + n) + zeroBudget m2) ∧
      c2.mode = c.mode ∧ c2.bufferSize = c.bufferSize := by
  intro n
  induction n with
  | zero =>
    intro m c e i hW hc hl hp he
    exact ⟨c, m, rfl, hW, hc, hl, ⟨e, hp, he⟩, rfl, rfl⟩
  | succ n ih =>
    intro m c e i hW hc hl hp he
    obtain ⟨m1, g1, g2, g3⟩ := zeroRun_count hW
    obtain ⟨c1, h1, h2, h3, h4, h5, h6⟩ :=
      pot_step hW.1.dist_valid (by norm_num : 0 < 256) hc hl hp (zero_interval hW hl)
    have hlast : m.lastSymbol = 256 - 1 := hW.1.lastSymbol_eq
    rw [← hlast] at h1
    have henc := encodeAdaptive_of h1 g1
    have he1 : e + (if m.distribution.getD 1 0 < 257 then 9 else 7) ≤
        7 * (i + 1) + zeroBudget m1 := by
      by_cases h : m.distribution.getD 1 0 < 257
      · simp only [if_pos h] at g3 ⊢
        omega
      · simp only [if_neg h] at g3 ⊢
        omega
    obtain ⟨c2, m2, k1, k2, k3, k4, ⟨e2, k5, k6⟩, k7, k8⟩ := ih m1 c1 _ (i + 1) g2 h2 h3 h4 he1
    refine ⟨c2, m2, ?_, k2, k3, k4, ⟨e2, k5, by omega⟩, by rw [k7, h5], by rw [k8, h6]⟩
    rw [List.replicate_succ, encodeAdaptiveAll_cons, henc, ok_bind]
    exact k1

/-- The models that the byte loop of `encodeFile` uses: the context on entry
for the first byte, and `data[j-1] & 0x0F` for byte `j > 0`; the context on
exit is that of the last byte. -/
theorem encodeSymbols_contexts : ∀ (data : List Nat) (models : List AdaptiveDataModel)
    (context : Nat) (c : ArithmeticCodec) (trace : List (Nat × Bool))
    (r : ArithmeticCodec × List AdaptiveDataModel × Nat × List (Nat × Bool)),
    Main.encodeSymbols data models context c trace = .ok r →
    ∃ tr, r.2.2.2 = trace ++ tr ∧ tr.length = data.length ∧
      (∀ j, j < data.length →
        (tr.getD j (0, false)).1 = if j = 0 then context else data.getD (j - 1) 0 &&& 15) ∧
      r.2.2.1 = if data.length = 0 then context else data.getD (data.length - 1) 0 &&& 15 := by
  intro data
  induction data with
  | nil =>
    intro models context c trace r h
    simp only [Main.encodeSymbols] at h
    rw [← Except.ok.inj h]
    exact ⟨[], (List.append_nil _).symm, rfl, fun j hj => absurd hj (Nat.not_lt_zero _), rfl⟩
  | cons b data ih =>
    intro models context c trace r h
    unfold Main.encodeSymbols at h
    cases h1 : models[context]? with
    | none => rw [h1] at h; cases h
    | some model =>
      rw [h1] at h
      simp only at h
      cases h2 : encodeAdaptive b model c with
      | error e => rw [h2] at h; cases h
      | ok cm =>
        rw [h2] at h
        simp only at h
        obtain ⟨tr, k1, k2, k3, k4⟩ := ih _ _ _ _ r h
        refine ⟨(context, model.halvingDue) :: tr, ?_, ?_, ?_, ?_⟩
        · rw [k1, List.append_assoc]
          rfl
        · rw [List.length_cons, List.length_cons, k2]
        · intro j hj
          cases j with
          | zero => rfl
          | succ j =>
            rw [List.getD_cons_succ, k3 j (by simpa using hj)]
            cases j with
            | zero => rfl
            | succ j => rfl
        · rw [k4]
          cases data with
          | nil => rfl
          | cons x xs => rfl

/-- The models that the byte loop of `decodeFile` uses, in terms of the bytes
that it decodes. -/
theorem decodeSymbols_contexts : ∀ (n : Nat) (models : List AdaptiveDataModel)
    (context : Nat) (c : ArithmeticCodec) (data : List Nat) (trace : List (Nat × Bool))
    (r : List Nat × ArithmeticCodec × List AdaptiveDataModel × Nat × List (Nat × Bool)),
    Main.decodeSymbols n models context c data trace = .ok r →
    ∃ d tr, r.1 = data ++ d ∧ r.2.2.2.2 = trace ++ tr ∧ d.length = n ∧ tr.length = n ∧
      (∀ j, j < n →
        (tr.getD j (0, false)).1 = if j = 0 then context else d.getD (j - 1) 0 &&& 15) ∧
      r.2.2.2.1 = if n = 0 then context else d.getD (n - 1) 0 &&& 15 := by
  intro n
  induction n with
  | zero =>
    intro models context c data trace r h
    simp only [Main.decodeSymbols] at h
    rw [← Except.ok.inj h]
    exact ⟨[], [], (List.append_nil _).symm, (List.append_nil _).symm, rfl, rfl,
      fun j hj => absurd hj (Nat.not_lt_zero _), rfl⟩
  | succ n ih =>
    intro models context c data trace r h
    unfold Main.decodeSymbols at h
    cases h1 : models[context]? with
    | none => rw [h1] at h; cases h
    | some model =>
      rw [h1] at h
      simp only at h
      cases h2 : decodeAdaptive model c with
      | error e => rw [h2] at h; cases h
      | ok sm =>
        rw [h2] at h
        simp only at h
        obtain ⟨d, tr, k0, k1, kd, k2, k3, k4⟩ := ih _ _ _ _ _ r h
        refine ⟨sm.1 % 256 :: d, (context, model.halvingDue) :: tr, ?_, ?_, ?_, ?_, ?_, ?_⟩
        · rw [k0, List.append_assoc]
          rfl
        · rw [k1, List.append_assoc]
          rfl
        · rw [List.length_cons, kd]
        · rw [List.length_cons, k2]
        · intro j hj
          cases j with
          | zero => rfl
          | succ j =>
            rw [List.getD_cons_succ, k3 j (by omega)]
            cases j with
            | zero => rfl
            | succ j => rfl
        · rw [k4]
          cases n with
          | zero => rfl
          | succ n => rfl

theorem block_length_step (bytes k : Nat) :
    min 65536 (bytes - 65536 - 65536 * k) = min 65536 (bytes - 65536 * (k + 1)) := by
  rw [Nat.mul_add, Nat.mul_one]
  omega

/-- The models that the block loop of `encodeFile` uses: the blocks are the
successive runs of 65536 bytes of the data, and the context is carried from
the last byte of a block to the first byte of the next. -/
theorem encodeBlocks_contexts : ∀ (fuel : Nat) (dataFile : List Nat) (bytes : Nat)
    (models : List AdaptiveDataModel) (context : Nat) (encoder : ArithmeticCodec)
    (encodedFile : List Nat) (traces : List (List (Nat × Bool)))
    (r : List Nat × List (List (Nat × Bool))), bytes < 2 ^ 32 →
    Main.encodeBlocks fuel dataFile bytes models context encoder encodedFile traces = .ok r →
    ∃ new, r.2 = traces ++ new ∧ new.length = (bytes - 1) / 65536 + 1 ∧
      (∀ k, k < new.length → (new.getD k []).length = min 65536 (bytes - 65536 * k)) ∧
      ∀ k j, k < new.length → j < (new.getD k []).length →
        ((new.getD k []).getD j (0, false)).1 =
          if 65536 * k + j = 0 then context else dataFile.getD (65536 * k + j - 1) 0 &&& 15 := by
  intro fuel
  induction fuel with
  | zero =>
    intro dataFile bytes models context encoder encodedFile traces r _ h
    rw [Main.encodeBlocks] at h
    cases h
  | succ fuel ih =>
    intro dataFile bytes models context encoder encodedFile traces r hb h
    unfold Main.encodeBlocks at h
    simp only at h
    generalize hnb : (if bytes < Main.bufferSize then bytes else Main.bufferSize) = nb at h
    have hnb' : nb = min bytes 65536 := by
      rw [← hnb]
      show (if bytes < 65536 then bytes else 65536) = _
      split <;> omega
    by_cases hlen : dataFile.length < nb
    · rw [if_pos hlen] at h
      cases h
    · rw [if_neg hlen] at h
      cases h1 : startEncoder encoder with
      | error e => rw [h1] at h; cases h
      | ok encoder1 =>
        rw [h1] at h
        simp only at h
        cases h2 : Main.encodeSymbols (dataFile.take nb) models context encoder1 [] with
        | error e => rw [h2] at h; cases h
        | ok r2 =>
          rw [h2] at h
          simp only at h
          obtain ⟨tr, k1, k2, k3, k4⟩ := encodeSymbols_contexts _ _ _ _ _ _ h2
          rw [List.nil_append] at k1
          have htake : (dataFile.take nb).length = nb := by
            rw [List.length_take]
            omega
          rw [htake] at k2 k3 k4
          have hget : ∀ j, j < nb → (dataFile.take nb).getD j 0 = dataFile.getD j 0 := by
            intro j hj
            rw [List.getD_eq_getElem?_getD, List.getD_eq_getElem?_getD,
              List.getElem?_take_of_lt hj]
          cases h3 : writeToFile encodedFile r2.1 with
          | error e => rw [h3] at h; cases h
          | ok r3 =>
            rw [h3] at h
            simp only at h
            have hfirst : ∀ j, j < tr.length → (tr.getD j (0, false)).1 =
                if 65536 * 0 + j = 0 then context else
                  dataFile.getD (65536 * 0 + j - 1) 0 &&& 15 := by
              intro j hj
              rw [k3 j (by omega), Nat.mul_zero, Nat.zero_add]
              by_cases hj0 : j = 0
              · rw [if_pos hj0, if_pos hj0]
              · rw [if_neg hj0, if_neg hj0, hget (j - 1) (by omega)]
            by_cases hs : sub32 bytes nb ≠ 0
            · rw [if_pos hs] at h
              have hsub : sub32 bytes nb = bytes - nb := sub32_of_le (by omega) hb
              rw [hsub] at hs
              have hnb2 : nb = 65536 := by omega
              subst hnb2
              obtain ⟨new, g1, g2, g3, g4⟩ := ih _ _ _ _ _ _ _ r (by rw [hsub]; omega) h
              rw [hsub] at g2 g3
              refine ⟨r2.2.2.2 :: new, ?_, ?_, ?_, ?_⟩
              · rw [g1, List.append_assoc]
                rfl
              · rw [List.length_cons, g2]
                omega
              · intro k hk
                cases k with
                | zero =>
                  rw [List.getD_cons_zero, k1, k2]
                  omega
                | succ k =>
                  rw [List.getD_cons_succ, g3 k (by simpa using hk)]
                  exact block_length_step bytes k
              · intro k j hk hj
                cases k with
                | zero =>
                  rw [List.getD_cons_zero] at hj ⊢
                  rw [k1] at hj ⊢
                  exact hfirst j hj
                | succ k =>
                  rw [List.getD_cons_succ] at hj ⊢
                  have e0 : 65536 * (k + 1) = 65536 * k + 65536 := by
                    rw [Nat.mul_add, Nat.mul_one]
                  rw [g4 k j (by simpa using hk) hj, k4, e0]
                  by_cases h0 : 65536 * k + j = 0
                  · rw [if_pos h0, if_neg (by omega), if_neg (by omega),
                      hget _ (by omega)]
                    have e : 65536 * k + 65536 + j - 1 = 65536 - 1 := by omega
                    rw [e]
                  · rw [if_neg h0, if_neg (by omega), List.getD_eq_getElem?_getD,
                      List.getD_eq_getElem?_getD, List.getElem?_drop]
                    have e : 65536 + (65536 * k + j - 1) = 65536 * k + 65536 + j - 1 := by omega
                    rw [e]
            · rw [if_neg hs] at h
              have hsub : sub32 bytes nb = bytes - nb := sub32_of_le (by omega) hb
              rw [hsub] at hs
              have e := Except.ok.inj h
              refine ⟨[r2.2.2.2], ?_, ?_, ?_, ?_⟩
              · rw [← e]
              · rw [List.length_singleton]
                omega
              · intro k hk
                have hk0 : k = 0 := by simpa using hk
                rw [hk0, List.getD_cons_zero, k1, k2]
                omega
              · intro k j hk hj
                have hk0 : k = 0 := by simpa using hk
                rw [hk0, List.getD_cons_zero] at hj ⊢
                rw [k1] at hj ⊢
                exact hfirst j hj

/-- The models that the block loop of `decodeFile` uses, in terms of the bytes
that it decodes. -/
theorem decodeBlocks_contexts : ∀ (fuel : Nat) (encodedFile : List Nat) (bytes : Nat)
    (models : List AdaptiveDataModel) (context : Nat) (decoder : ArithmeticCodec)
    (dataFile : List Nat) (newCRC : Nat) (traces : List (List (Nat × Bool)))
    (r : List Nat × Nat × List (List (Nat × Bool))), bytes < 2 ^ 32 →
    Main.decodeBlocks fuel encodedFile bytes models context decoder dataFile newCRC traces =
      .ok r →
    ∃ d new, r.1 = dataFile ++ d ∧ d.length = bytes ∧ r.2.2 = traces ++ new ∧
      new.length = (bytes - 1) / 65536 + 1 ∧
      (∀ k, k < new.length → (new.getD k []).length = min 65536 (bytes - 65536 * k)) ∧
      ∀ k j, k < new.length → j < (new.getD k []).length →
        ((new.getD k []).getD j (0, false)).1 =
          if 65536 * k + j = 0 then context else d.getD (65536 * k + j - 1) 0 &&& 15 := by
  intro fuel
  induction fuel with
  | zero =>
    intro encodedFile bytes models context decoder dataFile newCRC traces r _ h
    rw [Main.decodeBlocks] at h
    cases h
  | succ fuel ih =>
    intro encodedFile bytes models context decoder dataFile newCRC traces r hb h
    unfold Main.decodeBlocks at h
    cases h1 : readFromFile encodedFile decoder with
    | error e => rw [h1] at h; cases h
    | ok r1 =>
      rw [h1] at h
      simp only at h
      generalize hnb : (if bytes < Main.bufferSize then bytes else Main.bufferSize) = nb at h
      have hnb' : nb = min bytes 65536 := by
        rw [← hnb]
        show (if bytes < 65536 then bytes else 65536) = _
        split <;> omega
      cases h2 : Main.decodeSymbols nb models context r1.1 [] [] with
      | error e => rw [h2] at h; cases h
      | ok r2 =>
        rw [h2] at h
        simp only at h
        obtain ⟨d1, tr, k0, k1, kd, k2, k3, k4⟩ := decodeSymbols_contexts _ _ _ _ _ _ _ h2
        rw [List.nil_append] at k0 k1
        cases h3 : stopDecoder r2.2.1 with
        | error e => rw [h3] at h; cases h
        | ok r3 =>
          rw [h3] at h
          simp only at h
          have hsub : sub32 bytes nb = bytes - nb := sub32_of_le (by omega) hb
          by_cases hs : sub32 bytes nb ≠ 0
          · rw [if_pos hs] at h
            rw [hsub] at hs
            have hnb2 : nb = 65536 := by omega
            subst hnb2
            obtain ⟨d2, new, g0, gd, g1, g2, g3, g4⟩ :=
              ih _ _ _ _ _ _ _ _ r (by rw [hsub]; omega) h
            rw [hsub] at gd g2 g3
            refine ⟨d1 ++ d2, r2.2.2.2.2 :: new, ?_, ?_, ?_, ?_, ?_, ?_⟩
            · rw [g0, k0, List.append_assoc]
            · rw [List.length_append, kd, gd]
              omega
            · rw [g1, List.append_assoc]
              rfl
            · rw [List.length_cons, g2]
              omega
            · intro k hk
              cases k with
              | zero =>
                rw [List.getD_cons_zero, k1, k2]
                omega
              | succ k =>
                rw [List.getD_cons_succ, g3 k (by simpa using hk)]
                exact block_length_step bytes k
            · intro k j hk hj
              cases k with
              | zero =>
                rw [List.getD_cons_zero] at hj ⊢
                rw [k1] at hj ⊢
                rw [k3 j (by omega), Nat.mul_zero, Nat.zero_add]
                by_cases hj0 : j = 0
                · rw [if_pos hj0, if_pos hj0]
                · rw [if_neg hj0, if_neg hj0, List.getD_append _ _ _ _ (by omega)]
              | succ k =>
                rw [List.getD_cons_succ] at hj ⊢
                have e0 : 65536 * (k + 1) = 65536 * k + 65536 := by
                  rw [Nat.mul_add, Nat.mul_one]
                rw [g4 k j (by simpa using hk) hj, k4, e0]
                by_cases h0 : 65536 * k + j = 0
                · have e : 65536 * k + 65536 + j - 1 = 65536 - 1 := by omega
                  rw [if_pos h0, if_neg (by omega), if_neg (by omega), e,
                    List.getD_append _ _ _ _ (by omega)]
                · have e : 65536 * k + 65536 + j - 1 - d1.length = 65536 * k + j - 1 := by
                    omega
                  rw [if_neg h0, if_neg (by omega), List.getD_append_right _ _ _ _ (by omega), e]
          · rw [if_neg hs] at h
            rw [hsub] at hs
            have e := Except.ok.inj h
            refine ⟨d1, [r2.2.2.2.2], ?_, ?_, ?_, ?_, ?_, ?_⟩
            · rw [← e, k0]
            · rw [kd]
              omega
            · rw [← e]
            · rw [List.length_singleton]
              omega
            · intro k hk
              have hk0 : k = 0 := by simpa using hk
              rw [hk0, List.getD_cons_zero, k1, k2]
              omega
            · intro k j hk hj
              have hk0 : k = 0 := by simpa using hk
              rw [hk0, List.getD_cons_zero] at hj ⊢
              rw [k1] at hj ⊢
              rw [k3 j (by omega), Nat.mul_zero, Nat.zero_add]

/-- The byte count that the first loop of `encodeFile` computes. -/
theorem crcLoop_bytes : ∀ (fuel : Nat) (dataFile : List Nat) (bytes crc : Nat) (r : Nat × Nat),
    Main.crcLoop fuel dataFile bytes crc = .ok r → r.1 = u32 (bytes + dataFile.length) := by
  intro fuel
  induction fuel with
  | zero =>
    intro dataFile bytes crc r h
    rw [Main.crcLoop] at h
    cases h
  | succ fuel ih =>
    intro dataFile bytes crc r h
    unfold Main.crcLoop at h
    simp only at h
    have hl : (dataFile.take Main.bufferSize).length = min 65536 dataFile.length :=
      List.length_take _ _
    rw [hl] at h
    by_cases hnb : min 65536 dataFile.length = Main.bufferSize
    · rw [if_pos hnb] at h
      have hb : Main.bufferSize = 65536 := rfl
      rw [hb] at hnb h
      rw [ih _ _ _ r h, List.length_drop]
      unfold u32
      omega
    · rw [if_neg hnb] at h
      have hb : Main.bufferSize = 65536 := rfl
      rw [hb] at hnb
      rw [← Except.ok.inj h]
      show u32 _ = u32 _
      have : min 65536 dataFile.length = dataFile.length := by omega
      rw [this]

theorem first_byte_iff (k j a b : Nat) :
    (if 65536 * k + j = 0 then a else b) = if k = 0 ∧ j = 0 then a else b := by
  by_cases h : k = 0 ∧ j = 0
  · rw [if_pos h, if_pos (by omega)]
  · rw [if_neg h, if_neg (by omega)]

/-- **C14** Block contexting, as the code does it: `context` is declared before
the block loop of `encodeFile` and of `decodeFile` and is never reset. For every
data file on which `encodeFile` returns, with `traces[k][j]` the record of the
`j`-th `encode` call of block `k`: the model used for the first byte of the
first block is model 0, and the model used for every other byte of the file,
the first byte of the second and of every later block included, is model
`b[i-1] & 0x0F` where `b[i-1]` is the byte before it in the file (for the first
byte of block `k >= 1` that is byte `65536*k - 1`, the last byte of the block
before). For a data file of fewer than `2^32` bytes the blocks are the
successive runs of 65536 bytes of the file, the last one shorter or empty. The
same holds in `decodeFile` for every encoded file on which it returns, in terms
of the bytes that it decodes. -/
theorem block_contexting (dataFile encodedFile : List Nat)
    (traces : List (List (Nat × Bool))) (encodedFile2 data : List Nat)
    (traces2 : List (List (Nat × Bool)))
    (h : Main.encodeFile dataFile = .ok (encodedFile, traces))
    (h2 : Main.decodeFile encodedFile2 = .ok (data, traces2)) :
    (∀ k j, k < traces.length → j < (traces.getD k []).length →
      ((traces.getD k []).getD j (0, false)).1 =
        if k = 0 ∧ j = 0 then 0 else dataFile.getD (65536 * k + j - 1) 0 &&& 0x0F) ∧
    (dataFile.length < 2 ^ 32 →
      traces.length = (dataFile.length - 1) / 65536 + 1 ∧
      ∀ k, k < traces.length →
        (traces.getD k []).length = min 65536 (dataFile.length - 65536 * k)) ∧
    (∀ k j, k < traces2.length → j < (traces2.getD k []).length →
      ((traces2.getD k []).getD j (0, false)).1 =
        if k = 0 ∧ j = 0 then 0 else data.getD (65536 * k + j - 1) 0 &&& 0x0F) ∧
    traces2.length = (data.length - 1) / 65536 + 1 ∧
    ∀ k, k < traces2.length →
      (traces2.getD k []).length = min 65536 (data.length - 65536 * k) := by
  have henc : (∀ k j, k < traces.length → j < (traces.getD k []).length →
      ((traces.getD k []).getD j (0, false)).1 =
        if k = 0 ∧ j = 0 then 0 else dataFile.getD (65536 * k + j - 1) 0 &&& 0x0F) ∧
      (dataFile.length < 2 ^ 32 →
        traces.length = (dataFile.length - 1) / 65536 + 1 ∧
        ∀ k, k < traces.length →
          (traces.getD k []).length = min 65536 (dataFile.length - 65536 * k)) := by
    unfold Main.encodeFile at h
    cases h1 : Main.crcLoop (dataFile.length / Main.bufferSize + 1) dataFile 0 0 with
    | error e => rw [h1] at h; cases h
    | ok r1 =>
      rw [h1] at h
      simp only at h
      cases h3 : Main.setModels Main.numModels with
      | error e => rw [h3] at h; cases h
      | ok dataModel =>
        rw [h3] at h
        simp only at h
        cases h4 : ArithmeticCodec.newWith Main.bufferSize none with
        | error e => rw [h4] at h; cases h
        | ok encoder =>
          rw [h4] at h
          simp only at h
          have hb := crcLoop_bytes _ _ _ _ _ h1
          rw [Nat.zero_add] at hb
          obtain ⟨new, g1, g2, g3, g4⟩ :=
            encodeBlocks_contexts _ _ _ _ _ _ _ _ _ (by rw [hb]; exact u32_lt _) h
          have e : traces = new := by
            rw [← List.nil_append new]
            exact g1
          rw [e]
          refine ⟨fun k j hk hj => ?_, fun hlen => ?_⟩
          · rw [g4 k j hk hj]
            exact first_byte_iff k j _ _
          · rw [hb, u32_of_lt hlen] at g2 g3
            exact ⟨g2, g3⟩
  have hdec : (∀ k j, k < traces2.length → j < (traces2.getD k []).length →
      ((traces2.getD k []).getD j (0, false)).1 =
        if k = 0 ∧ j = 0 then 0 else data.getD (65536 * k + j - 1) 0 &&& 0x0F) ∧
      traces2.length = (data.length - 1) / 65536 + 1 ∧
      ∀ k, k < traces2.length →
        (traces2.getD k []).length = min 65536 (data.length - 65536 * k) := by
    unfold Main.decodeFile at h2
    by_cases hl : encodedFile2.length < 12
    · rw [if_pos hl] at h2
      cases h2
    · rw [if_neg hl] at h2
      simp only at h2
      by_cases hid : Main.recoverSavedNumber (encodedFile2.take 4) ≠ Main.FILE_ID
      · rw [if_pos hid] at h2
        cases h2
      · rw [if_neg hid] at h2
        cases h3 : Main.setModels Main.numModels with
        | error e => rw [h3] at h2; cases h2
        | ok dataModel =>
          rw [h3] at h2
          simp only at h2
          cases h4 : ArithmeticCodec.newWith Main.bufferSize none with
          | error e => rw [h4] at h2; cases h2
          | ok decoder =>
            rw [h4] at h2
            simp only at h2
            cases h5 : Main.decodeBlocks
                (Main.recoverSavedNumber ((encodedFile2.drop 8).take 4) / Main.bufferSize + 1)
                (encodedFile2.drop 12) (Main.recoverSavedNumber ((encodedFile2.drop 8).take 4))
                dataModel 0 decoder [] 0 [] with
            | error e => rw [h5] at h2; cases h2
            | ok r5 =>
              rw [h5] at h2
              simp only at h2
              by_cases hcrc : Main.recoverSavedNumber ((encodedFile2.drop 4).take 4) ≠ r5.2.1
              · rw [if_pos hcrc] at h2
                cases h2
              · rw [if_neg hcrc] at h2
                have e := Except.ok.inj h2
                obtain ⟨d, new, g0, gd, g1, g2, g3, g4⟩ :=
                  decodeBlocks_contexts _ _ _ _ _ _ _ _ _ _ (u32_lt _) h5
                have e1 : data = d := by
                  rw [← List.nil_append d, ← g0]
                  exact (congrArg Prod.fst e).symm
                have e2 : traces2 = new := by
                  rw [← List.nil_append new, ← g1]
                  exact (congrArg Prod.snd e).symm
                rw [e1, e2, gd]
                refine ⟨fun k j hk hj => ?_, g2, g3⟩
                rw [g4 k j hk hj]
                exact first_byte_iff k j _ _
  exact ⟨henc.1, henc.2, hdec.1, hdec.2.1, hdec.2.2⟩

theorem block_contexting_witness :
    Main.encodeFile [1, 2, 3, 250, 17] =
      .ok ([57, 59, 188, 168, 2, 143, 10, 5, 5, 0, 0, 0, 6, 1, 2, 3, 121, 15, 3],
        [[(0, false), (1, false), (2, false), (3, false), (10, false)]]) ∧
    Main.decodeFile [57, 59, 188, 168, 2, 143, 10, 5, 5, 0, 0, 0, 6, 1, 2, 3, 121, 15, 3] =
      .ok ([1, 2, 3, 250, 17],
        [[(0, false), (1, false), (2, false), (3, false), (10, false)]]) ∧
    [1, 2, 3, 250, 17].getD (65536 * 0 + 4 - 1) 0 &&& 0x0F = 10 ∧
    (([[(0, false), (1, false), (2, false), (3, false), ((10 : Nat), false)]].getD 0 []).getD 4
        (0, false)).1 =
      if 0 = 0 ∧ 4 = 0 then 0 else [1, 2, 3, 250, 17].getD (65536 * 0 + 4 - 1) 0 &&& 0x0F :=
  ⟨by decide!, by decide!, by decide,
    (block_contexting [1, 2, 3, 250, 17]
      [57, 59, 188, 168, 2, 143, 10, 5, 5, 0, 0, 0, 6, 1, 2, 3, 121, 15, 3]
      [[(0, false), (1, false), (2, false), (3, false), (10, false)]]
      [57, 59, 188, 168, 2, 143, 10, 5, 5, 0, 0, 0, 6, 1, 2, 3, 121, 15, 3]
      [1, 2, 3, 250, 17]
      [[(0, false), (1, false), (2, false), (3, false), (10, false)]]
      (by decide!) (by decide!)).1 0 4 (by decide) (by decide)⟩

theorem zeros_tail_length (n : Nat) : (List.replicate n 0 ++ [1, 0]).length = n + 2 := by
  rw [List.length_append, List.length_replicate]
  rfl

theorem zeros_tail_take (n : Nat) :
    (List.replicate n (0 : Nat) ++ [1, 0]).take (n + 1) = List.replicate n 0 ++ [1] := by
  induction n with
  | zero => rfl
  | succ n ih => rw [List.replicate_succ, List.cons_append, List.take_succ_cons, ih]; rfl

theorem zeros_tail_drop (n : Nat) :
    (List.replicate n (0 : Nat) ++ [1, 0]).drop (n + 1) = [0] := by
  induction n with
  | zero => rfl
  | succ n ih => rw [List.replicate_succ, List.cons_append, List.drop_succ_cons, ih]

/-- The first loop of `encodeFile` ends. -/
theorem crcLoop_ok : ∀ (fuel : Nat) (dataFile : List Nat) (bytes crc : Nat),
    dataFile.length / 65536 < fuel → ∃ r, Main.crcLoop fuel dataFile bytes crc = .ok r := by
  intro fuel
  induction fuel with
  | zero => intro dataFile bytes crc h; omega
  | succ fuel ih =>
    intro dataFile bytes crc h
    unfold Main.crcLoop
    simp only
    have hl : (dataFile.take Main.bufferSize).length = min 65536 dataFile.length :=
      List.length_take _ _
    rw [hl]
    have hb : Main.bufferSize = 65536 := rfl
    by_cases hnb : min 65536 dataFile.length = Main.bufferSize
    · rw [if_pos hnb]
      rw [hb] at hnb
      exact ih _ _ _ (by rw [hb, List.length_drop]; omega)
    · rw [if_neg hnb]
      exact ⟨_, rfl⟩

theorem zeroRun_byteModel : ZeroRun byteModel := by
  obtain ⟨hinv, _, hsu, hcyc, hcount, _⟩ := setAlphabet_spec byteModel_spec
  have hd : byteModel.distribution.getD 1 0 = 128 := by decide
  refine ⟨hinv, ?_, ?_, fun _ => ⟨hcyc, ?_⟩, fun h => ?_⟩
  · rw [hcount]
    rfl
  · rw [hd]
  · rw [hcount, hsu]
    rfl
  · rw [hd] at h
    omega

/-- One `encode` call of the byte loop of `encodeFile`. -/
theorem encodeSymbols_one {ctx : Nat} {models : List AdaptiveDataModel}
    {m : AdaptiveDataModel} {c : ArithmeticCodec} (b : Nat) (trace : List (Nat × Bool))
    (hm : models[ctx]? = some m) (hinv : AdaptInv 256 m) (hb : b < 256) (hc : EncPre c)
    (hl : 2 ^ 24 ≤ c.length) :
    ∃ c1 m1, Main.encodeSymbols [b] models ctx c trace =
        .ok (c1, models.set ctx m1, b &&& (Main.numModels - 1),
          trace ++ [(ctx, m.halvingDue)]) ∧
      AdaptInv 256 m1 ∧ EncPre c1 ∧ 2 ^ 24 ≤ c1.length ∧ c1.acPointer ≤ c.acPointer + 2 ∧
      c1.mode = c.mode ∧ c1.bufferSize = c.bufferSize := by
  obtain ⟨c1, m1, h1, _, _, h4, h5, h6, h7, h8, h9⟩ := encodeAdaptive_ok hinv hb hc hl
  refine ⟨c1, m1, ?_, h4, h5, h6, h7, h8, h9⟩
  unfold Main.encodeSymbols
  rw [hm]
  simp only
  rw [h1]
  simp only
  unfold Main.encodeSymbols
  rfl

/-- The method `writeToFile` returns when two bytes of the buffer are left. -/
theorem writeToFile_ok {c : ArithmeticCodec} (file : List Nat) (hc : EncPre c)
    (hl : 2 ^ 24 ≤ c.length) (hm : c.mode = 1) (hbs : c.acPointer + 2 ≤ c.bufferSize)
    (h32 : c.bufferSize ≤ 65536) :
    ∃ n file2 c3, writeToFile file c = .ok (n, file2, c3) ∧ c3.mode = 0 ∧
      c3.bufferSize = c.bufferSize := by
  obtain ⟨hp, hb, hlen, hin⟩ := hc
  have hoff : stopOffset c < c.length := by
    unfold stopOffset
    split <;> simp only [AC__MinLength] at * <;> omega
  have hsb : stopBytes c ≤ 2 := by
    unfold stopBytes
    split <;> omega
  obtain ⟨c3, h1, h2, h3, _, _, h6, h7⟩ := stopEncoder_core c hm hp hb (by
    intro hw
    unfold low at hin
    omega)
  rw [u32_of_lt (by omega), if_neg (by omega), h3] at h7
  have h128 : (128 : Nat) ^ 4 = 268435456 := by norm_num
  have hv := fileHeaderWriteLoop_spec 4 6 file 0 (c.acPointer + stopBytes c) (by omega)
    (by norm_num) (by norm_num)
  have hw : writeToFile file c =
      .ok (u32 (c.acPointer + stopBytes c + (0 + (varint 4 (c.acPointer + stopBytes c)).length)),
        file ++ varint 4 (c.acPointer + stopBytes c) ++
          c3.codeBuffer.take (c.acPointer + stopBytes c), c3) := by
    unfold writeToFile
    rw [h7]
    simp only
    rw [hv]
    simp only
    rw [if_neg (by omega)]
  exact ⟨_, _, c3, hw, h1, h2⟩

/-- One round of the block loop of `encodeFile`. -/
theorem encodeBlocks_step {fuel bytes context context2 nb n : Nat} {dataFile file file2 : List Nat}
    {models models2 : List AdaptiveDataModel} {encoder e1 e2 e3 : ArithmeticCodec}
    {traces : List (List (Nat × Bool))} {tr : List (Nat × Bool)}
    (hnb : nb = if bytes < Main.bufferSize then bytes else Main.bufferSize)
    (hlen : nb ≤ dataFile.length) (h1 : startEncoder encoder = .ok e1)
    (h2 : Main.encodeSymbols (dataFile.take nb) models context e1 [] =
      .ok (e2, models2, context2, tr))
    (h3 : writeToFile file e2 = .ok (n, file2, e3)) :
    Main.encodeBlocks (fuel + 1) dataFile bytes models context encoder file traces =
      if sub32 bytes nb ≠ 0 then
        Main.encodeBlocks fuel (dataFile.drop nb) (sub32 bytes nb) models2 context2 e3 file2
          (traces ++ [tr])
      else .ok (file2, traces ++ [tr]) := by
  conv_lhs => unfold Main.encodeBlocks
  simp only
  rw [← hnb, if_neg (by omega), h1]
  simp only
  rw [h2]
  simp only
  rw [h3]

/-- The function `encodeFile` after its first loop and the set-up of the
models and of the coder. -/
theorem encodeFile_eq (dataFile : List Nat) (r : Nat × Nat) (ms : List AdaptiveDataModel)
    (encoder : ArithmeticCodec)
    (hcrc : Main.crcLoop (dataFile.length / Main.bufferSize + 1) dataFile 0 0 = .ok r)
    (h1 : Main.setModels Main.numModels = .ok ms)
    (n1 : ArithmeticCodec.newWith Main.bufferSize none = .ok encoder) :
    Main.encodeFile dataFile =
      Main.encodeBlocks (r.1 / Main.bufferSize + 1) dataFile r.1 ms 0 encoder
        (Main.saveNumber Main.FILE_ID ++ Main.saveNumber r.2 ++ Main.saveNumber r.1) [] := by
  unfold Main.encodeFile
  rw [hcrc]
  simp only
  rw [h1]
  simp only
  rw [n1]

/-- The run of `encodeFile` on `twoBlockInput`: it returns, the first block
has 65536 bytes, and the only byte of the second block is coded with model
1. -/
theorem two_block_run :
    ∃ file tr1 hd, Main.encodeFile twoBlockInput = .ok (file, [tr1, [(1, hd)]]) ∧
      tr1.length = 65536 := by
  have hlen : twoBlockInput.length = 65537 := zeros_tail_length 65535
  have htake : twoBlockInput.take 65536 = List.replicate 65535 0 ++ [1] :=
    zeros_tail_take 65535
  have hdrop : twoBlockInput.drop 65536 = [0] := zeros_tail_drop 65535
  obtain ⟨r, hcrc⟩ := crcLoop_ok (twoBlockInput.length / Main.bufferSize + 1) twoBlockInput 0 0
    (by rw [hlen]; decide)
  have hb := crcLoop_bytes _ _ _ _ _ hcrc
  rw [hlen] at hb
  have hb2 : r.1 = 65537 := hb.trans (by decide)
  obtain ⟨ms, h1, h2, h3⟩ := setModels_inv
  obtain ⟨n1, n2, _⟩ := newEncoder_spec
  have hlen16 : ms.length = 16 := h2.1
  have hget : ∀ i (hi : i < ms.length), ms[i]? = some byteModel := by
    intro i hi
    rw [List.getElem?_eq_getElem hi]
    have := h3 _ (List.getElem_mem hi)
    rw [byteModel_spec] at this
    rw [Except.ok.inj this]
  have hW := zeroRun_byteModel
  -- the first block: 65535 bytes 0x00 coded with model 0
  have hpre := encPre_start { ArithmeticCodec.new with bufferSize := 65536 }
  obtain ⟨c2, m2, k1, k2, k3, k4, ⟨e2, k5, k6⟩, k7, k8⟩ :=
    zeroRun_encode 65535 byteModel _ 0 0 hW hpre (by decide) (by unfold Pot; decide)
      (Nat.zero_le _)
  have hbud := zeroRun_budget_le k2
  have hp2 := pot_bound k5 k3.2.2.1
  obtain ⟨tr, g1, g2⟩ := encodeSymbols_const (List.replicate 65535 0) ms 0 _ [] byteModel m2
    c2 (fun b hb => by rw [List.eq_of_mem_replicate hb]; decide)
    (hget 0 (by rw [hlen16]; norm_num)) k1
  have g3 := encodeSymbols_append (List.replicate 65535 0) [1] ms 0 _ [] _ g1
  simp only at g3
  have htr : tr.length = 65535 := by
    have := congrArg List.length g2
    rw [List.length_map, List.length_replicate, List.length_replicate] at this
    exact this
  -- the last byte of the first block, 0x01, coded with model 0
  have hset0 : (ms.set 0 m2)[0]? = some m2 :=
    List.getElem?_set_self (by rw [hlen16]; norm_num)
  obtain ⟨c3, m3, j1, _, j3, j4, j5, j6, j7⟩ :=
    encodeSymbols_one 1 ([] ++ tr) hset0 k2.1 (by norm_num) k3 k4
  rw [j1, ← htake] at g3
  obtain ⟨n, file2, c4, w1, w2, w3⟩ :=
    writeToFile_ok (Main.saveNumber Main.FILE_ID ++ Main.saveNumber r.2 ++
      Main.saveNumber 65537) j3 j4 (by rw [j6, k7]) (by rw [j7, k8]; show _ ≤ 65536; omega)
      (by rw [j7, k8])
  have hbuf4 : c4.bufferSize = 65536 := by rw [w3, j7, k8]
  -- the second block: the byte 0x00 coded with model 1
  have hstart := @startEncoder_spec c4 w2 (by rw [hbuf4]; norm_num)
  have hget1 : ((ms.set 0 m2).set 0 m3)[1]? = some byteModel := by
    rw [List.getElem?_set_ne (by norm_num), List.getElem?_set_ne (by norm_num)]
    exact hget 1 (by rw [hlen16]; norm_num)
  obtain ⟨c5, m5, i1, _, i3, i4, i5, i6, i7⟩ :=
    encodeSymbols_one 0 [] hget1 hW.1 (by norm_num) (encPre_start c4)
      (by show 2 ^ 24 ≤ AC__MaxLength; decide)
  have hp5 : c5.acPointer ≤ 0 + 2 := i5
  have hb5 : c5.bufferSize = 65536 := by
    rw [i7]
    exact hbuf4
  obtain ⟨n', file3, c6, v1, _, _⟩ :=
    writeToFile_ok file2 i3 i4 (by rw [i6]) (by rw [hb5]; omega) (by rw [hb5])
  have hs1 : sub32 65537 65536 = 1 := by decide
  have hs2 : sub32 1 1 = 0 := by decide
  have hctx : 1 &&& (Main.numModels - 1) = 1 := by decide
  rw [hctx] at g3
  have step1 := @encodeBlocks_step 1 65537 0 1 65536 n twoBlockInput _ file2 ms _
    _ _ c3 c4 [] _ (by decide) (by rw [hlen]; norm_num) n2 g3 w1
  rw [hs1, if_pos (by decide), hdrop] at step1
  have step2 := @encodeBlocks_step 0 1 1 (0 &&& (Main.numModels - 1)) 1 n' [0] file2 file3
    _ _ c4 _ c5 c6 ([] ++ [[] ++ tr ++ [(0, m2.halvingDue)]]) _ (by decide) (by decide)
    hstart i1 v1
  rw [hs2, if_neg (by decide)] at step2
  refine ⟨file3, [] ++ tr ++ [(0, m2.halvingDue)], byteModel.halvingDue, ?_, ?_⟩
  · rw [encodeFile_eq _ _ _ _ hcrc h1 n1, hb2]
    have hf : 65537 / Main.bufferSize + 1 = 1 + 1 := by decide
    rw [hf, step1, step2]
    rfl
  · rw [List.nil_append, List.length_append, htr]
    rfl

/-- Counterexample to **C14**: the data file of 65537 bytes that consists of
65535 bytes `0x00` followed by `0x01, 0x00`. `encodeFile` returns; the first
block holds 65536 bytes and ends with the byte `0x01`, and the first (and only)
byte of the second block is coded with model `0x01 & 0x0F = 1`, not with
model 0. -/
theorem block_contexting_counterexample :
    twoBlockInput.length = 65537 ∧
    ∃ file tr1 tr2, Main.encodeFile twoBlockInput = .ok (file, [tr1, tr2]) ∧
      tr1.length = 65536 ∧ tr2.length = 1 ∧ (tr2.getD 0 (0, false)).1 = 1 ∧
      ¬ (tr2.getD 0 (0, false)).1 = 0 := by
  obtain ⟨file, tr1, hd, h1, h2⟩ := two_block_run
  exact ⟨zeros_tail_length 65535, file, tr1, [(1, hd)], h1, h2, rfl, rfl, Nat.one_ne_zero⟩

/-- **C24** Exact count bookkeeping. In every adaptive-model state reachable
from `setAlphabet(N)` by `reset`, `encode` and `decode` calls:
`1 <= symbolsUntilUpdate <= updateCycle`, and the sum of `symbolCount[k]` over
`k < N` equals `totalCount + (updateCycle - symbolsUntilUpdate)`. The sum equals
`totalCount` right after `setAlphabet` and right after `reset`, where the
`update` call inside `reset` computes `0 + dataSymbols`, the sum of the counts
just set to 1. Whenever a coded symbol `s < N` makes `update` run
(`--symbolsUntilUpdate == 0`), `encode` and `decode` return, the value
`totalCount + updateCycle` that `update` computes in 32 bits is the exact sum
of the counts at that moment (the count of `s` already incremented), an update
that does not halve leaves the counts unchanged and stores that sum in
`totalCount`, and after every update, halving or not, the sum of the counts
equals `totalCount`. -/
theorem count_bookkeeping (N : Nat) (m : AdaptiveDataModel) (h : Reachable N m) :
    1 ≤ m.symbolsUntilUpdate ∧ m.symbolsUntilUpdate ≤ m.updateCycle ∧
    m.symbolCount.sum = m.totalCount + (m.updateCycle - m.symbolsUntilUpdate) ∧
    (∀ m0, AdaptiveDataModel.new.setAlphabet N = .ok m0 →
      m0.symbolCount.sum = m0.totalCount) ∧
    (∃ m1 m2, m.reset = .ok m1 ∧ m1.symbolCount.sum = m1.totalCount ∧
      AdaptiveDataModel.update false
        { m with totalCount := 0, updateCycle := m.dataSymbols,
                 symbolCount := List.replicate m.dataSymbols 1 } = .ok m2 ∧
      u32 (0 + m.dataSymbols) = (List.replicate m.dataSymbols 1).sum ∧
      m1.symbolCount = m2.symbolCount ∧ m1.totalCount = m2.totalCount) ∧
    ∀ s flag, s < N → m.updateDue = true →
      ∃ mid m', mid = { m with
          symbolCount := m.symbolCount.set s (u32 (m.symbolCount.getD s 0 + 1))
          symbolsUntilUpdate := sub32 m.symbolsUntilUpdate 1 } ∧
        AdaptiveDataModel.count s flag m = .ok m' ∧
        AdaptiveDataModel.update flag mid = .ok m' ∧
        mid.symbolCount.sum = m.symbolCount.sum + 1 ∧
        u32 (mid.totalCount + mid.updateCycle) = mid.symbolCount.sum ∧
        (¬ u32 (mid.totalCount + mid.updateCycle) > DM__MaxCount →
          m'.symbolCount = mid.symbolCount ∧ m'.totalCount = mid.symbolCount.sum) ∧
        m'.symbolCount.sum = m'.totalCount := by
  have hinv := reachable_inv h
  refine ⟨hinv.until_pos, hinv.until_le, hinv.count_sum, ?_, ?_, ?_⟩
  · intro m0 h0
    obtain ⟨_, _, _, _, g5, g6⟩ := setAlphabet_spec h0
    rw [g5, g6, sum_replicate_one]
  · have hN2 := hinv.N_ge
    have hN := hinv.N_le
    have hds := hinv.dataSymbols_eq
    obtain ⟨m2, h1, h2, _, _, h5, _, _, _, h9⟩ := update_spec (N := N)
      (m := { m with totalCount := 0, updateCycle := m.dataSymbols,
                     symbolCount := List.replicate m.dataSymbols 1 })
      false hN2 hN hds hinv.lastSymbol_eq (by simp [hds])
      (fun c hc => by rw [List.eq_of_mem_replicate hc])
      (by show (List.replicate m.dataSymbols 1).sum = 0 + m.dataSymbols
          rw [sum_replicate_one]; omega)
      (by show 1 ≤ m.dataSymbols; omega) (by show m.dataSymbols ≤ _; omega)
      (by show 0 ≤ 2 ^ 15; omega) hinv.shape
    obtain ⟨m1, g1, _, _, _, _, g6, g7⟩ := reset_spec hN2 hN hds hinv.lastSymbol_eq hinv.shape
    obtain ⟨h9a, h9b⟩ := h9 (by show ¬ 0 + m.dataSymbols > 2 ^ 15; omega)
    refine ⟨m1, m2, g1, by rw [g6, g7, sum_replicate_one], h1, ?_, ?_, ?_⟩
    · rw [sum_replicate_one, Nat.zero_add]
      exact u32_of_lt (by omega)
    · rw [g6, h9a, hds]
    · rw [g7, h9b]
      show N = 0 + m.dataSymbols
      omega
  · intro s flag hs hdue
    have hslen : s < m.symbolCount.length := by rw [hinv.count_length]; exact hs
    have hn := mem_le_sum m.symbolCount (m.symbolCount.getD s 0) (by
      rw [getD_eq_getElem hslen]; exact List.getElem_mem _)
    have hsum := hinv.count_sum
    have h1 := hinv.until_pos
    have h2 := hinv.until_le
    have h3 := hinv.cycle_le
    have h4 := hinv.total_le
    have hNle := hinv.N_le
    have hu : u32 (m.symbolCount.getD s 0 + 1) = m.symbolCount.getD s 0 + 1 :=
      u32_of_lt (by omega)
    have hsu : sub32 m.symbolsUntilUpdate 1 = m.symbolsUntilUpdate - 1 :=
      sub32_of_le h1 (by omega)
    have hone : m.symbolsUntilUpdate = 1 := by
      unfold AdaptiveDataModel.updateDue at hdue
      rw [hsu] at hdue
      have := of_decide_eq_true hdue
      omega
    have hsum' := sum_set_succ m.symbolCount s hslen
    obtain ⟨m', k1, k2, _, _, k5⟩ := count_spec flag hinv hs
    obtain ⟨k6, k7, _⟩ := k5 hone
    have htot : u32 (m.totalCount + m.updateCycle) = m.totalCount + m.updateCycle :=
      u32_of_lt (by omega)
    have hmid : ({ m with
          symbolCount := m.symbolCount.set s (u32 (m.symbolCount.getD s 0 + 1))
          symbolsUntilUpdate := sub32 m.symbolsUntilUpdate 1 } : AdaptiveDataModel) =
        { m with
          symbolCount := m.symbolCount.set s (m.symbolCount.getD s 0 + 1)
          symbolsUntilUpdate := 0 } := by
      rw [hu, hsu, hone]
    have hfin : m'.symbolCount.sum = m'.totalCount := by
      have := k2.count_sum
      rw [k7] at this
      omega
    refine ⟨_, m', rfl, k1, by rw [hmid]; exact k6, ?_, ?_, ?_, hfin⟩
    · show (m.symbolCount.set s (u32 (m.symbolCount.getD s 0 + 1))).sum = _
      rw [hu]
      exact hsum'
    · show u32 (m.totalCount + m.updateCycle) =
        (m.symbolCount.set s (u32 (m.symbolCount.getD s 0 + 1))).sum
      rw [hu, htot, hsum']
      omega
    · intro hno
      obtain ⟨f1, f2, _⟩ := update_fields k6
      simp only at f1 f2
      have hno' : ¬ u32 (m.totalCount + m.updateCycle) > DM__MaxCount := hno
      rw [if_neg hno'] at f1 f2
      refine ⟨?_, ?_⟩
      · show m'.symbolCount = m.symbolCount.set s (u32 (m.symbolCount.getD s 0 + 1))
        rw [hu]
        exact f1
      · show m'.totalCount = (m.symbolCount.set s (u32 (m.symbolCount.getD s 0 + 1))).sum
        rw [f2, hu, htot, hsum']
        omega

/-- Witness of `count_bookkeeping`: the model over two symbols after
`setAlphabet(2)` and one coded symbol. -/
theorem count_bookkeeping_witness :
    Reachable 2 onceCodedModel ∧
    onceCodedModel.symbolCount.sum =
      onceCodedModel.totalCount +
        (onceCodedModel.updateCycle - onceCodedModel.symbolsUntilUpdate) :=
  ⟨@reachable_count 2 0 twoAdaptiveModel onceCodedModel (Reachable.setAlphabet (by decide))
      (by decide) (by decide),
    (count_bookkeeping 2 onceCodedModel
      (@reachable_count 2 0 twoAdaptiveModel onceCodedModel (Reachable.setAlphabet (by decide))
      (by decide) (by decide))).2.2.1⟩

theorem shifted_length_lt {length : Nat} (h : length < 2 ^ 32) :
    length >>> DM__LengthShift < 2 ^ 17 := by
  show length >>> 15 < 2 ^ 17
  rw [Nat.shiftRight_eq_div_pow]
  omega

theorem product_lt {d len : Nat} (hd : d < 2 ^ 15) (hl : len < 2 ^ 17) : d * len < 2 ^ 32 := by
  calc d * len < 2 ^ 15 * 2 ^ 17 := Nat.mul_lt_mul'' hd hl
    _ = 2 ^ 32 := by norm_num

theorem rd_mem {a : List Nat} {i v : Nat} (h : rd a i = .ok v) : v ∈ a := by
  obtain ⟨h1, h2⟩ := rd_ok_lt h
  rw [← h2, getD_eq_getElem h1]
  exact List.getElem_mem _

theorem bisectLoop_exact {dist : List Nat} {len value : Nat} (hd : ∀ d ∈ dist, d < 2 ^ 15)
    (hl : len < 2 ^ 17) : ∀ (fuel m s n x y : Nat),
    bisectLoop dist len value fuel m s n x y = bisectLoopExact dist len value fuel m s n x y := by
  intro fuel
  induction fuel with
  | zero => intro m s n x y; rfl
  | succ fuel ih =>
    intro m s n x y
    unfold bisectLoop bisectLoopExact
    cases h : rd dist m with
    | error e => rfl
    | ok d =>
      have hu : u32 (len * d) = len * d :=
        u32_of_lt (by rw [Nat.mul_comm]; exact product_lt (hd d (rd_mem h)) hl)
      simp only [bind, Except.bind, hu, ih]

theorem decodeSearch_exact {dist : List Nat} (table : Option (List Nat))
    (N last shift : Nat) {c : ArithmeticCodec} (hd : ∀ d ∈ dist, d < 2 ^ 15)
    (hlen : c.length < 2 ^ 32) :
    decodeSearch dist table N last shift c = decodeSearchExact dist table N last shift c := by
  have hl := shifted_length_lt hlen
  unfold decodeSearch decodeSearchExact
  cases table with
  | none =>
    simp only
    exact bisectLoop_exact hd hl _ _ _ _ _ _
  | some table =>
    simp only
    by_cases h0 : c.length >>> DM__LengthShift = 0
    · simp only [h0, if_true]
      rfl
    · simp only [if_neg h0]
      cases h1 : rd table ((c.value / (c.length >>> DM__LengthShift)) >>> shift) with
      | error e => rfl
      | ok s0 =>
        cases h2 : rd table ((c.value / (c.length >>> DM__LengthShift)) >>> shift + 1) with
        | error e => simp only [bind, Except.bind, pure, Except.pure, h2]
        | ok n0 =>
          cases h3 : tableSearchLoop dist (c.value / (c.length >>> DM__LengthShift))
              (u32 (n0 + 1)) s0 (u32 (n0 + 1)) with
          | error e => simp only [bind, Except.bind, pure, Except.pure, h2, h3]
          | ok s =>
            cases h4 : rd dist s with
            | error e => simp only [bind, Except.bind, pure, Except.pure, h2, h3, h4]
            | ok d =>
              have hu : u32 (d * (c.length >>> DM__LengthShift)) =
                  d * (c.length >>> DM__LengthShift) :=
                u32_of_lt (product_lt (hd d (rd_mem h4)) hl)
              by_cases hs : s ≠ last
              · cases h5 : rd dist (s + 1) with
                | error e =>
                  simp only [bind, Except.bind, pure, Except.pure, h2, h3, h4, h5, if_pos hs]
                | ok d1 =>
                  have hu1 : u32 (d1 * (c.length >>> DM__LengthShift)) =
                      d1 * (c.length >>> DM__LengthShift) :=
                    u32_of_lt (product_lt (hd d1 (rd_mem h5)) hl)
                  simp only [bind, Except.bind, pure, Except.pure, h2, h3, h4, h5, if_pos hs,
                    hu, hu1]
              · simp only [bind, Except.bind, pure, Except.pure, h2, h3, h4, if_neg hs, hu]

theorem product_le_length {d length : Nat} (hd : d < 2 ^ 15) :
    d * (length >>> DM__LengthShift) ≤ length := by
  have hs : length >>> DM__LengthShift = length / 32768 := by
    show length >>> 15 = _
    rw [Nat.shiftRight_eq_div_pow]
  rw [hs]
  have h1 : d * (length / 32768) ≤ 32768 * (length / 32768) :=
    Nat.mul_le_mul_right _ (by omega)
  have h2 : 32768 * (length / 32768) ≤ length := Nat.mul_div_le _ _
  omega

theorem encodeInterval_exact {dist : List Nat} {N s : Nat} {c : ArithmeticCodec}
    (hv : validDistribution dist N) (hs : s < N) (hlen : c.length < 2 ^ 32) :
    encodeInterval dist (N - 1) s c = encodeIntervalExact dist (N - 1) s c := by
  have hl := shifted_length_lt hlen
  have hN : dist.length = N := hv.1
  have hd := hv.bound hs
  have hu : u32 (dist.getD s 0 * (c.length >>> DM__LengthShift)) =
      dist.getD s 0 * (c.length >>> DM__LengthShift) := u32_of_lt (product_lt hd hl)
  unfold encodeInterval encodeIntervalExact
  rw [rd_eq_ok (by rw [hN]; exact hs)]
  by_cases hlast : s = N - 1
  · have hsub : sub32 c.length (dist.getD s 0 * (c.length >>> DM__LengthShift)) =
        c.length - dist.getD s 0 * (c.length >>> DM__LengthShift) :=
      sub32_of_le (product_le_length hd) hlen
    simp only [bind, Except.bind, pure, Except.pure, if_pos hlast, hu, hsub]
  · have hs1 : s + 1 < N := by omega
    have hd1 := hv.bound hs1
    have hu1 : u32 (dist.getD (s + 1) 0 * (c.length >>> DM__LengthShift)) =
        dist.getD (s + 1) 0 * (c.length >>> DM__LengthShift) := u32_of_lt (product_lt hd1 hl)
    have hle : dist.getD s 0 * (c.length >>> DM__LengthShift) ≤
        dist.getD (s + 1) 0 * (c.length >>> DM__LengthShift) :=
      Nat.mul_le_mul_right _ (hv.le (Nat.le_succ s) hs1)
    have hsub : sub32 (dist.getD (s + 1) 0 * (c.length >>> DM__LengthShift))
        (dist.getD s 0 * (c.length >>> DM__LengthShift)) =
        dist.getD (s + 1) 0 * (c.length >>> DM__LengthShift) -
          dist.getD s 0 * (c.length >>> DM__LengthShift) :=
      sub32_of_le hle (product_lt hd1 hl)
    rw [rd_eq_ok (by rw [hN]; exact hs1)]
    simp only [bind, Except.bind, pure, Except.pure, if_neg hlast, hu, hu1, hsub]

/-- **C21** No 32-bit overflow in the coder's products. For every coder state
with a 32-bit `length`: `length >> 15 < 2^17`, and for every `d < 2^15` the
product `d * (length >> 15)` is below `2^32`, so its 32-bit result is the exact
product. Every entry of a valid model is below `2^15`; hence `encode` computes
what its body computes with exact products and an exact difference
(`encodeIntervalExact`), and for a symbol `s < N-1` and `length >= 0x01000000`
the subtraction `distribution[s+1]*(length >> 15) - distribution[s]*(length >> 15)`
does not underflow: the first product is the larger one, by at least `2^9`.
The symbol search of `decode`, with or without a decoder table and whatever
`value` is, computes what it computes with exact products
(`decodeSearchExact`) for every distribution whose entries are below `2^15`. -/
theorem products_exact (c : ArithmeticCodec) (hlen : c.length < 2 ^ 32) :
    c.length >>> DM__LengthShift < 2 ^ 17 ∧
    (∀ d, d < 2 ^ 15 → d * (c.length >>> DM__LengthShift) < 2 ^ 32 ∧
      u32 (d * (c.length >>> DM__LengthShift)) = d * (c.length >>> DM__LengthShift)) ∧
    (∀ dist N s, validDistribution dist N → s < N →
      dist.getD s 0 < 2 ^ 15 ∧
      encodeInterval dist (N - 1) s c = encodeIntervalExact dist (N - 1) s c ∧
      (s < N - 1 → 2 ^ 24 ≤ c.length →
        dist.getD (s + 1) 0 < 2 ^ 15 ∧
        dist.getD s 0 * (c.length >>> DM__LengthShift) + 2 ^ 9 ≤
          dist.getD (s + 1) 0 * (c.length >>> DM__LengthShift) ∧
        sub32 (u32 (dist.getD (s + 1) 0 * (c.length >>> DM__LengthShift)))
            (u32 (dist.getD s 0 * (c.length >>> DM__LengthShift))) =
          dist.getD (s + 1) 0 * (c.length >>> DM__LengthShift) -
            dist.getD s 0 * (c.length >>> DM__LengthShift))) ∧
    ∀ dist table N last shift, (∀ d ∈ dist, d < 2 ^ 15) →
      decodeSearch dist table N last shift c = decodeSearchExact dist table N last shift c := by
  have hl := shifted_length_lt hlen
  refine ⟨hl, fun d hd => ⟨product_lt hd hl, u32_of_lt (product_lt hd hl)⟩, ?_,
    fun dist table N last shift hd => decodeSearch_exact table N last shift hd hlen⟩
  intro dist N s hv hs
  refine ⟨hv.bound hs, encodeInterval_exact hv hs hlen, fun hs1 h24 => ?_⟩
  have hs2 : s + 1 < N := by omega
  have hd := hv.bound hs
  have hd1 := hv.bound hs2
  have hlt := hv.lt (Nat.lt_succ_self s) hs2
  have hq : 2 ^ 9 ≤ c.length >>> DM__LengthShift := by
    show 2 ^ 9 ≤ c.length >>> 15
    rw [Nat.shiftRight_eq_div_pow]
    omega
  have hstep : dist.getD s 0 * (c.length >>> DM__LengthShift) + 2 ^ 9 ≤
      dist.getD (s + 1) 0 * (c.length >>> DM__LengthShift) := by
    calc dist.getD s 0 * (c.length >>> DM__LengthShift) + 2 ^ 9
        ≤ dist.getD s 0 * (c.length >>> DM__LengthShift) + (c.length >>> DM__LengthShift) :=
          Nat.add_le_add_left hq _
      _ = (dist.getD s 0 + 1) * (c.length >>> DM__LengthShift) := by ring
      _ ≤ dist.getD (s + 1) 0 * (c.length >>> DM__LengthShift) :=
          Nat.mul_le_mul_right _ hlt
  refine ⟨hd1, hstep, ?_⟩
  rw [u32_of_lt (product_lt hd1 hl), u32_of_lt (product_lt hd hl)]
  exact sub32_of_le (by omega) (product_lt hd1 hl)

/-- Witness of `products_exact`: the coder as `startEncoder` leaves it, with
`length = 0xFFFFFFFF`. -/
theorem products_exact_witness :
    startedCoder.length < 2 ^ 32 ∧ startedCoder.length >>> DM__LengthShift < 2 ^ 17 :=
  ⟨by decide, (products_exact startedCoder (by decide)).1⟩

theorem encodeAdaptive_interval {s : Nat} {m m' : AdaptiveDataModel} {c c' : ArithmeticCodec}
    (h : encodeAdaptive s m c = .ok (c', m')) :
    encodeInterval m.distribution m.lastSymbol s c = .ok c' := by
  unfold encodeAdaptive at h
  cases h1 : encodeInterval m.distribution m.lastSymbol s c with
  | error e => rw [h1] at h; cases h
  | ok c1 =>
    rw [h1, ok_bind] at h
    cases h2 : AdaptiveDataModel.count s true m with
    | error e => rw [h2] at h; cases h
    | ok m1 =>
      rw [h2, ok_bind] at h
      have e := Except.ok.inj h
      rw [(Prod.mk.inj e).1]

/-- Every state reachable from `startEncoder` is well formed. -/
theorem encoderReachable_pre {c : ArithmeticCodec} (h : EncoderReachable c) :
    EncPre c ∧ 2 ^ 24 ≤ c.length ∧ c.mode = 1 := by
  induction h with
  | @start c c' h =>
    unfold startEncoder at h
    by_cases hm : c.mode ≠ 0
    · rw [if_pos hm] at h
      cases h
    · rw [if_neg hm] at h
      by_cases hb : c.bufferSize = 0
      · rw [if_pos hb] at h
        cases h
      · rw [if_neg hb] at h
        rw [← Except.ok.inj h]
        exact ⟨encPre_start c, by show 2 ^ 24 ≤ AC__MaxLength; decide, rfl⟩
  | @encode c c' model N s _ hv hlast hs h ih =>
    obtain ⟨c1, h1, h2, h3, _, _, h6, _⟩ := encodeInterval_ok hv hs ih.1 ih.2.1
    unfold encode at h
    rw [hlast, h1] at h
    rw [← Except.ok.inj h]
    exact ⟨h2, h3, by rw [h6]; exact ih.2.2⟩
  | @encodeAdaptive c c' m m' N s _ hm hs h ih =>
    have hinv := reachable_inv hm
    obtain ⟨c1, h1, h2, h3, _, _, h6, _⟩ := encodeInterval_ok hinv.dist_valid hs ih.1 ih.2.1
    have h' := encodeAdaptive_interval h
    rw [hinv.lastSymbol_eq, h1] at h'
    rw [← Except.ok.inj h']
    exact ⟨h2, h3, by rw [h6]; exact ih.2.2⟩

theorem startEncoder_pointer {c c' : ArithmeticCodec} (h : startEncoder c = .ok c') :
    c'.acPointer = 0 := by
  unfold startEncoder at h
  by_cases hm : c.mode ≠ 0
  · rw [if_pos hm] at h
    cases h
  · rw [if_neg hm] at h
    by_cases hb : c.bufferSize = 0
    · rw [if_pos hb] at h
      cases h
    · rw [if_neg hb] at h
      rw [← Except.ok.inj h]

/-- One `encode` call emits at most two bytes when the carry, if there is one,
has an emitted byte other than `0xFF` to go to. -/
theorem encodeInterval_emits {dist : List Nat} {N s : Nat} {c : ArithmeticCodec}
    (hv : validDistribution dist N) (hs : s < N) (hl : 2 ^ 24 ≤ c.length)
    (hlen : c.length < 2 ^ 32) (hb : c.base < 2 ^ 32) (hp : c.acPointer ≤ c.codeBuffer.length)
    (hcarry : c.base > u32 (c.base + u32 (dist.getD s 0 * (c.length >>> DM__LengthShift))) →
      ∃ i, i < c.acPointer ∧ byteAt c.codeBuffer i ≠ 0xFF) :
    ∃ c', encodeInterval dist (N - 1) s c = .ok c' ∧ c.acPointer ≤ c'.acPointer ∧
      c'.acPointer ≤ c.acPointer + 2 ∧ 2 ^ 24 ≤ c'.length := by
  have hx : symLow dist c.length s < 2 ^ 32 := symLow_lt hv hs hlen
  have e : u32 (dist.getD s 0 * (c.length >>> DM__LengthShift)) = symLow dist c.length s :=
    u32_of_lt hx
  rw [e] at hcarry
  obtain ⟨g1, g2⟩ := sym_bounds hv hs hl hlen
  obtain ⟨cm, h1, _, _, _, h5, _, _, h8⟩ := encodeInterval_core hv hs hp hb hlen hl (by
    intro hw
    refine carry_lands _ _ (hcarry ?_)
    unfold u32
    omega)
  refine ⟨_, h8, ?_⟩
  by_cases hm : cm.length < AC__MinLength
  · rw [if_pos hm]
    have hm' : cm.length < 2 ^ 24 := hm
    have e1 := encShift_length hm'
    unfold encRenorm
    by_cases h16 : cm.length < 2 ^ 16
    · rw [if_pos h16]
      have e2 : (encShift (encShift cm)).length = 256 * (encShift cm).length :=
        encShift_length (by omega)
      refine ⟨?_, ?_, by omega⟩
      · show c.acPointer ≤ cm.acPointer + 1 + 1
        omega
      · show cm.acPointer + 1 + 1 ≤ c.acPointer + 2
        omega
    · rw [if_neg h16]
      refine ⟨?_, ?_, by omega⟩
      · show c.acPointer ≤ cm.acPointer + 1
        omega
      · show cm.acPointer + 1 ≤ c.acPointer + 2
        omega
  · rw [if_neg hm]
    have hm' : ¬ cm.length < 2 ^ 24 := hm
    exact ⟨by omega, by omega, by omega⟩

/-- The bytes that `stopEncoder` writes after `n` symbols. -/
theorem stopEncoder_bytes {c : ArithmeticCodec} {n : Nat} (hc : EncPre c)
    (hl : 2 ^ 24 ≤ c.length) (hm : c.mode = 1) (hn : c.acPointer ≤ 2 * n) :
    ∃ c3, c3.acPointer ≤ 2 * n + 2 ∧ c.acPointer < c3.acPointer ∧
      stopEncoder c =
        if u32 c3.acPointer > c3.bufferSize then AC_Error ("code buffer overflow")
        else .ok (u32 c3.acPointer, c3) := by
  obtain ⟨hp, hb, hlen, hin⟩ := hc
  have hoff : stopOffset c < c.length := by
    unfold stopOffset
    split <;> simp only [AC__MinLength] at * <;> omega
  have hsb : 1 ≤ stopBytes c ∧ stopBytes c ≤ 2 := by
    unfold stopBytes
    split <;> omega
  obtain ⟨c3, _, _, h3, _, _, _, h7⟩ := stopEncoder_core c hm hp hb (by
    intro hw
    unfold low at hin
    omega)
  exact ⟨c3, by omega, by omega, h7⟩

theorem propagateCarry_fields {c c' : ArithmeticCodec} (h : propagateCarry c = .ok c') :
    c'.acPointer = c.acPointer ∧ c'.length = c.length := by
  unfold propagateCarry at h
  split at h
  · rw [← Except.ok.inj h]
    exact ⟨rfl, rfl⟩
  · cases h

/-- The renormalization step of `encode` on a length of at least `2^9`
returns and emits at most two bytes. -/
theorem renorm_step_bound {cm : ArithmeticCodec} (h9 : 2 ^ 9 ≤ cm.length)
    (h32 : cm.length < 2 ^ 32) :
    ∃ c', (if cm.length < AC__MinLength then renormEncryptionInterval cm else pure cm) =
        Except.ok c' ∧
      cm.acPointer ≤ c'.acPointer ∧ c'.acPointer ≤ cm.acPointer + 2 ∧
      AC__MinLength ≤ c'.length := by
  by_cases hm : cm.length < AC__MinLength
  · rw [if_pos hm]
    have hm' : cm.length < 2 ^ 24 := hm
    have e1 := encShift_length hm'
    refine ⟨_, renormEncryptionInterval_eq (by omega) hm', ?_⟩
    unfold encRenorm
    by_cases h16 : cm.length < 2 ^ 16
    · rw [if_pos h16]
      have e2 : (encShift (encShift cm)).length = 256 * (encShift cm).length :=
        encShift_length (by omega)
      refine ⟨?_, ?_, ?_⟩
      · show cm.acPointer ≤ cm.acPointer + 1 + 1
        omega
      · show cm.acPointer + 1 + 1 ≤ cm.acPointer + 2
        omega
      · show 2 ^ 24 ≤ _
        omega
    · rw [if_neg h16]
      refine ⟨?_, ?_, ?_⟩
      · show cm.acPointer ≤ cm.acPointer + 1
        omega
      · show cm.acPointer + 1 ≤ cm.acPointer + 2
        omega
      · show 2 ^ 24 ≤ _
        omega
  · rw [if_neg hm]
    exact ⟨cm, rfl, Nat.le_refl _, by omega, by omega⟩

/-- The carry and renormalization steps of `encode`, when they return, have
emitted at most two bytes. -/
theorem after_carry_bound (c1 : ArithmeticCodec) (cond : Prop) [Decidable cond]
    (h9 : 2 ^ 9 ≤ c1.length) (h32 : c1.length < 2 ^ 32) (c' : ArithmeticCodec)
    (h : ((if cond then propagateCarry c1 else pure c1) >>= fun c2 =>
      if c2.length < AC__MinLength then renormEncryptionInterval c2 else pure c2) =
        Except.ok c') :
    c1.acPointer ≤ c'.acPointer ∧ c'.acPointer ≤ c1.acPointer + 2 ∧
      AC__MinLength ≤ c'.length := by
  have key : ∀ c2 : ArithmeticCodec, c2.acPointer = c1.acPointer → c2.length = c1.length →
      (if c2.length < AC__MinLength then renormEncryptionInterval c2 else pure c2) =
        Except.ok c' →
      c1.acPointer ≤ c'.acPointer ∧ c'.acPointer ≤ c1.acPointer + 2 ∧
        AC__MinLength ≤ c'.length := by
    intro c2 ha hlen hr
    obtain ⟨c3, g1, g2, g3, g4⟩ := @renorm_step_bound c2 (by omega) (by omega)
    rw [g1] at hr
    rw [← Except.ok.inj hr, ← ha]
    exact ⟨g2, g3, g4⟩
  by_cases hc : cond
  · rw [if_pos hc] at h
    cases hpc : propagateCarry c1 with
    | error e => rw [hpc] at h; cases h
    | ok c2 =>
      rw [hpc, ok_bind] at h
      obtain ⟨ha, hlen⟩ := propagateCarry_fields hpc
      exact key c2 ha hlen h
  · rw [if_neg hc] at h
    exact key c1 rfl rfl h

/-- The carry and renormalization steps of `encode` return when the walk of
`propagateCarry`, if there is a carry, ends inside the buffer. -/
theorem after_carry_returns (c1 : ArithmeticCodec) (cond : Prop) [Decidable cond]
    (h9 : 2 ^ 9 ≤ c1.length) (h32 : c1.length < 2 ^ 32)
    (hw : cond → ∃ buf, propagateCarryLoop c1.acPointer c1.codeBuffer = .ok buf) :
    ∃ c', ((if cond then propagateCarry c1 else pure c1) >>= fun c2 =>
      if c2.length < AC__MinLength then renormEncryptionInterval c2 else pure c2) =
        Except.ok c' := by
  by_cases hc : cond
  · obtain ⟨buf, hbuf⟩ := hw hc
    have hpc : propagateCarry c1 = .ok { c1 with codeBuffer := buf } := by
      unfold propagateCarry
      rw [hbuf]
    rw [if_pos hc, hpc, ok_bind]
    obtain ⟨c3, g1, _⟩ := @renorm_step_bound { c1 with codeBuffer := buf } h9 h32
    exact ⟨c3, g1⟩
  · rw [if_neg hc]
    obtain ⟨c3, g1, _⟩ := renorm_step_bound h9 h32
    exact ⟨c3, g1⟩

/-- The body of `encode` as the interval update followed by the carry and the
renormalization steps. -/
theorem encodeInterval_steps {dist : List Nat} {N s : Nat} {c : ArithmeticCodec}
    (hv : validDistribution dist N) (hs : s < N) (hl : 2 ^ 24 ≤ c.length)
    (hlen : c.length < 2 ^ 32) :
    encodeInterval dist (N - 1) s c =
      ((if c.base > u32 (c.base + symLow dist c.length s) then
          propagateCarry { c with
            base := u32 (c.base + symLow dist c.length s)
            length := symHigh dist N c.length s - symLow dist c.length s }
        else pure { c with
            base := u32 (c.base + symLow dist c.length s)
            length := symHigh dist N c.length s - symLow dist c.length s }) >>= fun c2 =>
        if c2.length < AC__MinLength then renormEncryptionInterval c2 else pure c2) := by
  obtain ⟨hb1, hb2⟩ := sym_bounds hv hs hl hlen
  have hx := symLow_lt hv hs hlen
  have hxe : u32 (dist.getD s 0 * (c.length >>> DM__LengthShift)) = symLow dist c.length s :=
    u32_of_lt hx
  unfold encodeInterval
  rw [rd_eq_ok (by rw [hv.1]; exact hs)]
  by_cases hlast : s = N - 1
  · have hy : sub32 c.length (symLow dist c.length s) =
        symHigh dist N c.length s - symLow dist c.length s := by
      rw [sub32_of_le (by omega) hlen]
      unfold symHigh
      rw [if_pos hlast]
    simp only [ok_bind, pure_bind, if_pos hlast, hxe, hy]
    by_cases hcarry : c.base > u32 (c.base + symLow dist c.length s)
    · rw [if_pos hcarry, if_pos hcarry]
    · rw [if_neg hcarry, if_neg hcarry]
      rfl
  · have hs1 : s + 1 < N := by omega
    have hh : symHigh dist N c.length s = dist.getD (s + 1) 0 * (c.length >>> DM__LengthShift) := by
      unfold symHigh
      rw [if_neg hlast]
    have hy : sub32 (u32 (dist.getD (s + 1) 0 * (c.length >>> DM__LengthShift)))
        (symLow dist c.length s) = symHigh dist N c.length s - symLow dist c.length s := by
      rw [← hh, u32_of_lt (by omega), sub32_of_le (by omega) (by omega)]
    rw [rd_eq_ok (by rw [hv.1]; exact hs1)]
    simp only [ok_bind, pure_bind, if_neg hlast, hxe, hy]
    by_cases hcarry : c.base > u32 (c.base + symLow dist c.length s)
    · rw [if_pos hcarry, if_pos hcarry]
    · rw [if_neg hcarry, if_neg hcarry]
      rfl

/-- One `encode` call on a state with `0x01000000 <= length`, when it returns,
has emitted at most two bytes. -/
theorem encodeInterval_bound {dist : List Nat} {N s : Nat} {c c' : ArithmeticCodec}
    (hv : validDistribution dist N) (hs : s < N) (hl : 2 ^ 24 ≤ c.length)
    (hlen : c.length < 2 ^ 32) (h : encodeInterval dist (N - 1) s c = .ok c') :
    c.acPointer ≤ c'.acPointer ∧ c'.acPointer ≤ c.acPointer + 2 ∧ AC__MinLength ≤ c'.length := by
  obtain ⟨hb1, hb2⟩ := sym_bounds hv hs hl hlen
  rw [encodeInterval_steps hv hs hl hlen] at h
  have := after_carry_bound _ _ (by show 2 ^ 9 ≤ symHigh dist N c.length s - symLow dist c.length s
                                    omega)
    (by show symHigh dist N c.length s - symLow dist c.length s < 2 ^ 32
        omega) c' h
  exact this

/-- One `encode` call on a state with `0x01000000 <= length` returns when the
walk of `propagateCarry`, if the base update wraps, ends inside the buffer. -/
theorem encodeInterval_returns {dist : List Nat} {N s : Nat} {c : ArithmeticCodec}
    (hv : validDistribution dist N) (hs : s < N) (hl : 2 ^ 24 ≤ c.length)
    (hlen : c.length < 2 ^ 32)
    (hw : c.base > u32 (c.base + u32 (dist.getD s 0 * (c.length >>> DM__LengthShift))) →
      ∃ buf, propagateCarryLoop c.acPointer c.codeBuffer = .ok buf) :
    ∃ c', encodeInterval dist (N - 1) s c = .ok c' := by
  obtain ⟨hb1, hb2⟩ := sym_bounds hv hs hl hlen
  have hxe : u32 (dist.getD s 0 * (c.length >>> DM__LengthShift)) = symLow dist c.length s :=
    u32_of_lt (symLow_lt hv hs hlen)
  rw [hxe] at hw
  rw [encodeInterval_steps hv hs hl hlen]
  exact after_carry_returns _ _
    (by show 2 ^ 9 ≤ symHigh dist N c.length s - symLow dist c.length s
        omega)
    (by show symHigh dist N c.length s - symLow dist c.length s < 2 ^ 32
        omega) hw

/-- **C23** Output size bound. For every valid model, every symbol `s < N` and
every encoder state with `0x01000000 <= length` (a 32-bit value), one `encode`
call emits at most 2 bytes: whenever the call returns, `acPointer` has
advanced by at most 2 and `length >= 0x01000000` again, for the shared body of
the two `encode` methods and for each of the two methods. The call returns
whenever the backward walk of `propagateCarry`, in case the base update wraps,
ends inside the buffer; that is so when an emitted byte other than `0xFF`
exists, and it is so in every state reached from `startEncoder` by `encode`
calls, where the call therefore always returns with at most 2 bytes emitted.
Consequently, after `startEncoder` and `n` `encode` calls, with a static model
or with an adaptive model, at most `2*n` bytes are written, and `stopEncoder`
writes one or two more, at most `2*n + 2` in all; it returns that number, or
fails with "code buffer overflow" when the number exceeds `bufferSize`. -/
theorem output_size_bound (dist : List Nat) (N s : Nat) (c : ArithmeticCodec)
    (hv : validDistribution dist N) (hs : s < N) (hl : AC__MinLength ≤ c.length)
    (hlen : c.length < 2 ^ 32) :
    (∀ c', encodeInterval dist (N - 1) s c = .ok c' →
      c.acPointer ≤ c'.acPointer ∧ c'.acPointer ≤ c.acPointer + 2 ∧
        AC__MinLength ≤ c'.length) ∧
    (∀ (model : StaticDataModel) c', model.distribution = dist → model.lastSymbol = N - 1 →
      encode s model c = .ok c' →
      c.acPointer ≤ c'.acPointer ∧ c'.acPointer ≤ c.acPointer + 2 ∧
        AC__MinLength ≤ c'.length) ∧
    (∀ (m : AdaptiveDataModel) c' m', m.distribution = dist → m.lastSymbol = N - 1 →
      encodeAdaptive s m c = .ok (c', m') →
      c.acPointer ≤ c'.acPointer ∧ c'.acPointer ≤ c.acPointer + 2 ∧
        AC__MinLength ≤ c'.length) ∧
    ((c.base > u32 (c.base + u32 (dist.getD s 0 * (c.length >>> DM__LengthShift))) →
        ∃ buf, propagateCarryLoop c.acPointer c.codeBuffer = .ok buf) →
      ∃ c', encodeInterval dist (N - 1) s c = .ok c') ∧
    (c.base < 2 ^ 32 → c.acPointer ≤ c.codeBuffer.length →
      (c.base > u32 (c.base + u32 (dist.getD s 0 * (c.length >>> DM__LengthShift))) →
        ∃ i, i < c.acPointer ∧ byteAt c.codeBuffer i ≠ 0xFF) →
      ∃ c', encodeInterval dist (N - 1) s c = .ok c' ∧ c.acPointer ≤ c'.acPointer ∧
        c'.acPointer ≤ c.acPointer + 2 ∧ AC__MinLength ≤ c'.length) ∧
    (EncoderReachable c →
      (∃ c', encodeInterval dist (N - 1) s c = .ok c' ∧ c.acPointer ≤ c'.acPointer ∧
        c'.acPointer ≤ c.acPointer + 2 ∧ AC__MinLength ≤ c'.length) ∧
      ∀ (m : AdaptiveDataModel), Reachable N m →
        ∃ c' m', encodeAdaptive s m c = .ok (c', m') ∧ c.acPointer ≤ c'.acPointer ∧
          c'.acPointer ≤ c.acPointer + 2 ∧ AC__MinLength ≤ c'.length) ∧
    (∀ (model : StaticDataModel) (M : Nat) (syms : List Nat) (c0 c1 : ArithmeticCodec),
      validDistribution model.distribution M → model.lastSymbol = M - 1 →
      (∀ x ∈ syms, x < M) → startEncoder c0 = .ok c1 →
      ∃ c2 c3, encodeAll model syms c1 = .ok c2 ∧ c2.acPointer ≤ 2 * syms.length ∧
        c3.acPointer ≤ 2 * syms.length + 2 ∧
        stopEncoder c2 =
          if u32 c3.acPointer > c3.bufferSize then AC_Error ("code buffer overflow")
          else .ok (u32 c3.acPointer, c3)) ∧
    (∀ (m : AdaptiveDataModel) (M : Nat) (syms : List Nat) (c0 c1 : ArithmeticCodec),
      Reachable M m → (∀ x ∈ syms, x < M) → startEncoder c0 = .ok c1 →
      ∃ c2 m2 c3, encodeAdaptiveAll syms m c1 = .ok (c2, m2) ∧
        c2.acPointer ≤ 2 * syms.length ∧ c3.acPointer ≤ 2 * syms.length + 2 ∧
        stopEncoder c2 =
          if u32 c3.acPointer > c3.bufferSize then AC_Error ("code buffer overflow")
          else .ok (u32 c3.acPointer, c3)) := by
  refine ⟨fun c' h => encodeInterval_bound hv hs hl hlen h, ?_, ?_,
    fun hw => encodeInterval_returns hv hs hl hlen hw,
    fun hb hp hcarry => encodeInterval_emits hv hs hl hlen hb hp hcarry, ?_, ?_, ?_⟩
  · intro model c' hd hlast h
    unfold encode at h
    rw [hd, hlast] at h
    exact encodeInterval_bound hv hs hl hlen h
  · intro m c' m' hd hlast h
    have h' := encodeAdaptive_interval h
    rw [hd, hlast] at h'
    exact encodeInterval_bound hv hs hl hlen h'
  · intro hr
    obtain ⟨hpre, _, _⟩ := encoderReachable_pre hr
    refine ⟨?_, fun m hm => ?_⟩
    · obtain ⟨c1, h1, _, h3, h4, h5, _⟩ := encodeInterval_ok hv hs hpre hl
      exact ⟨c1, h1, h4, h5, h3⟩
    · obtain ⟨c1, m1, h1, _, _, _, _, h6, h7, _⟩ :=
        encodeAdaptive_ok (reachable_inv hm) hs hpre hl
      have hb := encodeInterval_bound (reachable_inv hm).dist_valid hs hl hlen
        (by
          have := encodeAdaptive_interval h1
          rw [(reachable_inv hm).lastSymbol_eq] at this
          exact this)
      exact ⟨c1, m1, h1, hb⟩
  · intro model M syms c0 c1 hvm hlast hsyms hstart
    obtain ⟨k1, k2, k3⟩ := encoderReachable_pre (EncoderReachable.start hstart)
    have k4 := startEncoder_pointer hstart
    obtain ⟨c2, g1, g2, g3, g4, g5, _⟩ := encodeAll_ok hvm hlast syms hsyms c1 k1 k2
    obtain ⟨c3, j1, _, j3⟩ := stopEncoder_bytes (n := syms.length) g2 g3 (by rw [g5]; exact k3)
      (by omega)
    exact ⟨c2, c3, g1, by omega, j1, j3⟩
  · intro m M syms c0 c1 hm hsyms hstart
    obtain ⟨k1, k2, k3⟩ := encoderReachable_pre (EncoderReachable.start hstart)
    have k4 := startEncoder_pointer hstart
    obtain ⟨c2, m2, g1, _, g2, g3, g4, g5, _⟩ :=
      encodeAdaptiveAll_ok syms hsyms m c1 (reachable_inv hm) k1 k2
    obtain ⟨c3, j1, _, j3⟩ := stopEncoder_bytes (n := syms.length) g2 g3 (by rw [g5]; exact k3)
      (by omega)
    exact ⟨c2, m2, c3, g1, by omega, j1, j3⟩

/-- Witness of `output_size_bound`: the coder that `startEncoder` leaves and
symbol 1 of the model over three symbols. -/
theorem output_size_bound_witness :
    validDistribution threeSymbolModel.distribution 3 ∧
    AC__MinLength ≤ startedCoder.length ∧ startedCoder.length < 2 ^ 32 ∧
    EncoderReachable startedCoder ∧
    ∃ c', encodeInterval threeSymbolModel.distribution (3 - 1) 1 startedCoder = .ok c' ∧
      startedCoder.acPointer ≤ c'.acPointer ∧ c'.acPointer ≤ startedCoder.acPointer + 2 ∧
      AC__MinLength ≤ c'.length :=
  ⟨by decide, by decide, by decide, @EncoderReachable.start idleCoder startedCoder (by decide),
    ((output_size_bound threeSymbolModel.distribution 3 1 startedCoder (by decide) (by decide)
      (by decide) (by decide)).2.2.2.2.2.1
      (@EncoderReachable.start idleCoder startedCoder (by decide))).1⟩

end AC
